import Mathlib

/-!
# Ion text tokenizer: a shallow embedding of `tokenizer.go` and `textutils.go`

Characters are Go `int`s, modelled as `Int`; end of input is the sentinel `-1`.
Texts (Go `string`s and `strings.Builder` contents) are lists of bytes, each an
`Int` in `0..255`.  The byte source is an in-memory byte sequence (as produced by
`tokenizeBytes`), whose only error is `io.EOF`; hence `read`, `peek` and `unread`
carry no error component.  A Go method that mutates the tokenizer returns the new
tokenizer next to its result; a Go error is an `Except.error`, after which the
tokenizer is not used any more.
-/

namespace Ion

/-! ## Data model -/

/-- The token kinds of `tokenizer.go`, in declaration order. -/
inductive tokenType
  | tokenError
  | tokenEOF
  | tokenNumber
  | tokenBinary
  | tokenHex
  | tokenFloatInf
  | tokenFloatMinusInf
  | tokenTimestamp
  | tokenSymbol
  | tokenSymbolQuoted
  | tokenSymbolOperator
  | tokenString
  | tokenLongString
  | tokenDot
  | tokenComma
  | tokenColon
  | tokenDoubleColon
  | tokenOpenParen
  | tokenCloseParen
  | tokenOpenBrace
  | tokenCloseBrace
  | tokenOpenBracket
  | tokenCloseBracket
  | tokenOpenDoubleBrace
  | tokenCloseDoubleBrace
  deriving DecidableEq, Repr

/-- The value types `ReadNumber` can report (the Go enumeration `Type`, of which
only these members occur in the tokenizer). -/
inductive IonType
  | NoType
  | IntType
  | FloatType
  | DecimalType
  deriving DecidableEq, Repr

/-- The errors of the tokenizer.  `panic` stands for a Go panic.  `outOfFuel` is
not a Go error: it marks a loop of the model that used up its iteration bound,
where the Go loop would still be running. -/
inductive Error
  | unexpectedEOF
  | unexpectedChar (c : Int)
  | leadingZeroes
  | badEscape (c : Int)
  | panic
  | outOfFuel
  deriving DecidableEq, Repr

instance instDecidableEqExcept {ε α : Type} [DecidableEq ε] [DecidableEq α] :
    DecidableEq (Except ε α)
  | .ok a, .ok b => if h : a = b then isTrue (by rw [h]) else isFalse (by intro h2; cases h2; exact h rfl)
  | .error a, .error b => if h : a = b then isTrue (by rw [h]) else isFalse (by intro h2; cases h2; exact h rfl)
  | .ok _, .error _ => isFalse (by intro h; cases h)
  | .error _, .ok _ => isFalse (by intro h; cases h)

/-- The Go function `invalidChar`: the error for an unexpected character. -/
def invalidChar (c : Int) : Error :=
  if c = -1 then Error.unexpectedEOF else Error.unexpectedChar c

/-- The tokenizer state.  `inp` holds the bytes not yet taken from the underlying
reader `t.in`; `buffer` is the pushback stack with its top first (the Go slice
keeps the top last). -/
structure tokenizer where
  inp : List Nat
  buffer : List Int
  token : tokenType
  unfinished : Bool
  deriving DecidableEq, Repr

/-- The Go function `tokenizeBytes`: a fresh tokenizer over a byte sequence. -/
def tokenizeBytes (bs : List Nat) : tokenizer :=
  { inp := bs, buffer := [], token := tokenType.tokenError, unfinished := false }

/-- The Go conversion `byte(c)` of an `int`. -/
def byte (c : Int) : Int := c % 256

/-! ## Character classes (`textutils.go`) -/

/-- Is this a digit? -/
def isDigit (c : Int) : Bool := decide (48 ≤ c) && decide (c ≤ 57)

/-- Is this a valid first character for an identifier? -/
def isIdentifierStart (c : Int) : Bool :=
  if 97 ≤ c ∧ c ≤ 122 then true        -- 'a'..'z'
  else if 65 ≤ c ∧ c ≤ 90 then true    -- 'A'..'Z'
  else if c = 95 ∨ c = 36 then true    -- '_', '$'
  else false

/-- Is this a valid character for later in an identifier? -/
def isIdentifierPart (c : Int) : Bool := isIdentifierStart c || isDigit c

/-- Is this a valid hex digit? -/
def isHexDigit (c : Int) : Bool :=
  if isDigit c then true
  else if 97 ≤ c ∧ c ≤ 102 then true   -- 'a'..'f'
  else if 65 ≤ c ∧ c ≤ 70 then true    -- 'A'..'F'
  else false

/-- Is this a valid part of an operator symbol?  The characters are
`! # % & * + - . / ; < =` and `> ? @ ^` backquote `| ~`. -/
def isOperatorChar (c : Int) : Bool :=
  if c = 33 ∨ c = 35 ∨ c = 37 ∨ c = 38 ∨ c = 42 ∨ c = 43 ∨ c = 45 ∨ c = 46 ∨ c = 47
      ∨ c = 59 ∨ c = 60 ∨ c = 61 then true
  else if c = 62 ∨ c = 63 ∨ c = 64 ∨ c = 94 ∨ c = 96 ∨ c = 124 ∨ c = 126 then true
  else false

/-- Does this character mark the end of a normal (unquoted) value?  The characters
are end of input, `{ } [ ] ( ) ,`, the two quotes, and space, tab, `\n`, `\r`. -/
def isStopChar (c : Int) : Bool :=
  if c = -1 ∨ c = 123 ∨ c = 125 ∨ c = 91 ∨ c = 93 ∨ c = 40 ∨ c = 41 ∨ c = 44 ∨ c = 34
      ∨ c = 39 then true
  else if c = 32 ∨ c = 9 ∨ c = 10 ∨ c = 13 then true
  else false

/-- Is this character whitespace? -/
def isWhitespace (c : Int) : Bool :=
  if c = 32 ∨ c = 9 ∨ c = 10 ∨ c = 13 then true else false

/-- The Go function `fromHex`: the value of a hex digit. -/
def fromHex (c : Int) : Except Error Int :=
  if 48 ≤ c ∧ c ≤ 57 then .ok (c - 48)
  else if 97 ≤ c ∧ c ≤ 102 then .ok (10 + (c - 97))
  else if 65 ≤ c ∧ c ≤ 70 then .ok (10 + (c - 65))
  else .error (invalidChar c)

/-! ## Primitive character operations -/

/-- The Go method `read`: pops the pushback buffer if it is not empty, and else
takes a byte of the input, returning `-1` at its end and `\n` for `\r` and `\r\n`. -/
def tokenizer.read (t : tokenizer) : Int × tokenizer :=
  match t.buffer with
  | c :: rest => (c, { t with buffer := rest })
  | [] =>
    match t.inp with
    | [] => (-1, t)
    | c :: cs =>
      if c = 13 then
        match cs with
        | 10 :: cs2 => (10, { t with inp := cs2 })
        | _ => (10, { t with inp := cs })
      else (Int.ofNat c, { t with inp := cs })

/-- The Go method `unread`: pushes a character (or `-1`) back. -/
def tokenizer.unread (t : tokenizer) (c : Int) : tokenizer :=
  { t with buffer := c :: t.buffer }

/-- The Go method `peek`: the next character, left in place. -/
def tokenizer.peek (t : tokenizer) : Int × tokenizer :=
  match t.buffer with
  | c :: _ => (c, t)
  | [] =>
    let (c, t1) := t.read
    (c, t1.unread c)

/-- The read-ahead loop of `peekN`, with `k` iterations left: the characters read
so far, whether the end of input was met, and the tokenizer. -/
def tokenizer.peekNLoop : Nat → tokenizer → List Int → List Int × Bool × tokenizer
  | 0, t, ret => (ret, false, t)
  | k + 1, t, ret =>
    let (c, t1) := t.read
    if c = -1 then (ret, true, t1) else tokenizer.peekNLoop k t1 (ret ++ [c])

/-- The Go method `peekN`: the next `n` characters, or as many as there are before
the end of input together with the flag `true` (the Go error `io.EOF`); all of
them are pushed back. -/
def tokenizer.peekN (t : tokenizer) (n : Nat) : List Int × Bool × tokenizer :=
  let (ret, eof, t1) := tokenizer.peekNLoop n t []
  let t2 := if eof then t1.unread (-1) else t1
  (ret, eof, ret.foldr (fun c s => s.unread c) t2)

/-- The Go method `skipN`: skips the next `n` characters, stopping at the end of input. -/
def tokenizer.skipN : tokenizer → Nat → tokenizer
  | t, 0 => t
  | t, n + 1 =>
    let (c, t1) := t.read
    if c = -1 then t1 else tokenizer.skipN t1 n

/-- The Go method `tokenizer.isStopChar`: a stop character, or a `/` that starts a comment. -/
def tokenizer.isStopChar (t : tokenizer) (c : Int) : Bool × tokenizer :=
  if Ion.isStopChar c then (true, t)
  else if c = 47 then
    let (c2, t1) := t.peek
    if c2 = 47 ∨ c2 = 42 then (true, t1) else (false, t1)
  else (false, t)

/-- The number of characters the tokenizer can still deliver: every `read` but
one at the end of input lowers it. -/
def tokenizer.size (t : tokenizer) : Nat := t.buffer.length + t.inp.length

/-! ## Numbers -/

/-- The loop of `readRadixDigits` with an iteration bound: reads on, dropping `_`
and writing the characters that satisfy `dok`, and returns the first other character. -/
def tokenizer.readRadixDigitsLoop (dok : Int → Bool) :
    Nat → tokenizer → List Int → Except Error (Int × List Int × tokenizer)
  | 0, _, _ => .error Error.outOfFuel
  | fuel + 1, t, w =>
    let (c, t1) := t.read
    if c = 95 then tokenizer.readRadixDigitsLoop dok fuel t1 w
    else if !dok c then .ok (c, w, t1)
    else tokenizer.readRadixDigitsLoop dok fuel t1 (w ++ [byte c])

/-- The Go method `readRadixDigits`. -/
def tokenizer.readRadixDigits (t : tokenizer) (dok : Int → Bool) (w : List Int) :
    Except Error (Int × List Int × tokenizer) :=
  tokenizer.readRadixDigitsLoop dok (t.size + 1) t w

/-- The Go method `readDigits`: `c` starts a digit run, or is handed back as it is. -/
def tokenizer.readDigits (t : tokenizer) (c : Int) (w : List Int) :
    Except Error (Int × List Int × tokenizer) :=
  if !isDigit c then .ok (c, w, t)
  else t.readRadixDigits isDigit (w ++ [byte c])

/-- The Go method `readExponent`: an optional sign and a digit run. -/
def tokenizer.readExponent (t : tokenizer) (w : List Int) :
    Except Error (Int × List Int × tokenizer) :=
  let (c, t1) := t.read
  if c = 43 ∨ c = 45 then
    let (c2, t2) := t1.read
    t2.readDigits c2 (w ++ [byte c])
  else t1.readDigits c w

/-- The Go method `ReadNumber`: reads a number and determines the type. -/
def tokenizer.ReadNumber (t : tokenizer) : Except Error (List Int × IonType × tokenizer) := do
  let (c0, t0) := t.read
  let (c, w, t1) := if c0 = 45 then (t0.read.1, [(45 : Int)], t0.read.2) else (c0, [], t0)
  let first := c
  let oldlen := w.length
  let (c, w, t2) ← t1.readDigits c w
  if first = 48 ∧ w.length - oldlen > 1 then
    throw Error.leadingZeroes
  let (c, w, tt, t3) ←
    if c = 46 then do
      let (c1, t3) := t2.read
      let (c2, w2, t4) ← t3.readDigits c1 (w ++ [46])
      pure (c2, w2, IonType.DecimalType, t4)
    else pure (c, w, IonType.IntType, t2)
  let (c, w, tt, t5) ←
    if c = 101 ∨ c = 69 then do        -- 'e', 'E'
      let (c1, w1, t4) ← t3.readExponent (w ++ [byte c])
      pure (c1, w1, IonType.FloatType, t4)
    else if c = 100 ∨ c = 68 then do   -- 'd', 'D'
      let (c1, w1, t4) ← t3.readExponent (w ++ [byte c])
      pure (c1, w1, IonType.DecimalType, t4)
    else pure (c, w, tt, t3)
  let (ok, t6) := t5.isStopChar c
  if !ok then
    throw (invalidChar c)
  pure (w, tt, t6.unread c)

/-- The Go method `readRadix`: an optional `-`, a `0`, a radix marker accepted by
`pok`, digits accepted by `dok`, and a stop character. -/
def tokenizer.readRadix (t : tokenizer) (pok dok : Int → Bool) :
    Except Error (List Int × tokenizer) := do
  let (c0, t0) := t.read
  let (c, w, t1) := if c0 = 45 then (t0.read.1, [(45 : Int)], t0.read.2) else (c0, [], t0)
  if c ≠ 48 then
    throw (invalidChar c)
  let w := w ++ [48]
  let (c, t2) := t1.read
  if !pok c then
    throw (invalidChar c)
  let w := w ++ [byte c]
  let (c, w, t3) ← t2.readRadixDigits dok w
  let (ok, t4) := t3.isStopChar c
  if !ok then
    throw (invalidChar c)
  pure (w, t4.unread c)

/-- The local function `isB` of `readBinary`: `b` or `B`. -/
def isB (c : Int) : Bool := decide (c = 98) || decide (c = 66)

/-- The local function `isDigit` of `readBinary`: `0` or `1`. -/
def isBinaryDigit (c : Int) : Bool := decide (c = 48) || decide (c = 49)

/-- The local function `isX` of `readHex`: `x` or `X`. -/
def isX (c : Int) : Bool := decide (c = 120) || decide (c = 88)

/-- The Go method `readBinary`. -/
def tokenizer.readBinary (t : tokenizer) : Except Error (List Int × tokenizer) :=
  t.readRadix isB isBinaryDigit

/-- The Go method `readHex`. -/
def tokenizer.readHex (t : tokenizer) : Except Error (List Int × tokenizer) :=
  t.readRadix isX isHexDigit

/-- The bytes of an ASCII string, as characters. -/
def str (s : String) : List Int := s.toList.map (fun c => Int.ofNat c.toNat)

/-- The bytes of an ASCII string, as input bytes. -/
def bytes (s : String) : List Nat := s.toList.map (fun c => c.toNat)

/-! ## The characters a tokenizer still delivers -/

/-- The input bytes after newline normalisation: `\r\n` and `\r` stand for `\n`. -/
def normalize : List Nat → List Int
  | [] => []
  | 13 :: 10 :: cs => 10 :: normalize cs
  | c :: cs => (if c = 13 then 10 else Int.ofNat c) :: normalize cs

/-- The characters the tokenizer delivers before the end of input: the pushback
buffer from its top, then the normalised input. -/
def tokenizer.upcoming (t : tokenizer) : List Int := t.buffer ++ normalize t.inp

/-- The results of `n` successive calls of `read`. -/
def tokenizer.reads : tokenizer → Nat → List Int
  | _, 0 => []
  | t, n + 1 => t.read.1 :: tokenizer.reads t.read.2 n

/-! ## Timestamps -/

/-- The Go method `readTimestampDigits`: exactly `n` digits, then the next character. -/
def tokenizer.readTimestampDigits : tokenizer → Nat → List Int →
    Except Error (Int × List Int × tokenizer)
  | t, 0, w => .ok (t.read.1, w, t.read.2)
  | t, n + 1, w =>
    let (c, t1) := t.read
    if !isDigit c then .error (invalidChar c)
    else tokenizer.readTimestampDigits t1 n (w ++ [byte c])

/-- The Go method `readTimestampFinish`: the check of the terminating character. -/
def tokenizer.readTimestampFinish (t : tokenizer) (c : Int) (w : List Int) :
    Except Error (List Int × tokenizer) :=
  let (ok, t1) := t.isStopChar c
  if !ok then .error (invalidChar c)
  else .ok (w, t1.unread c)

/-- The Go method `readTimestampOffset`: nothing, or a sign and `hh:mm`. -/
def tokenizer.readTimestampOffset (t : tokenizer) (c : Int) (w : List Int) :
    Except Error (Int × List Int × tokenizer) := do
  if c ≠ 45 ∧ c ≠ 43 then
    return (c, w, t)
  let w := w ++ [byte c]
  let (c, w, t1) ← t.readTimestampDigits 2 w
  if c ≠ 58 then
    throw (invalidChar c)
  t1.readTimestampDigits 2 (w ++ [58])

/-- The Go method `readTimestampOffsetOrZ`: an offset, or `z` or `Z`. -/
def tokenizer.readTimestampOffsetOrZ (t : tokenizer) (c : Int) (w : List Int) :
    Except Error (Int × List Int × tokenizer) :=
  if c = 45 ∨ c = 43 then t.readTimestampOffset c w
  else if c = 122 ∨ c = 90 then .ok (t.read.1, w ++ [byte c], t.read.2)
  else .error (invalidChar c)

/-- The Go method `readTimestamp`. -/
def tokenizer.readTimestamp (t : tokenizer) : Except Error (List Int × tokenizer) := do
  let (c, w, t) ← t.readTimestampDigits 4 []
  if c = 84 then
    -- yyyyT
    return (w ++ [84], t)
  if c ≠ 45 then
    throw (invalidChar c)
  let (c, w, t) ← t.readTimestampDigits 2 (w ++ [45])
  if c = 84 then
    -- yyyy-mmT
    return (w ++ [84], t)
  if c ≠ 45 then
    throw (invalidChar c)
  let (c, w, t) ← t.readTimestampDigits 2 (w ++ [45])
  if c ≠ 84 then
    -- yyyy-mm-dd
    return ← t.readTimestampFinish c w
  let w := w ++ [84]
  let (c, t) := t.read
  if !isDigit c then
    -- yyyy-mm-ddT(+hh:mm)?
    let (c, w, t) ← t.readTimestampOffset c w
    return ← t.readTimestampFinish c w
  let (c, w, t) ← t.readTimestampDigits 1 (w ++ [byte c])
  if c ≠ 58 then
    throw (invalidChar c)
  let (c, w, t) ← t.readTimestampDigits 2 (w ++ [58])
  if c ≠ 58 then
    -- yyyy-mm-ddThh:mmZ
    let (c, w, t) ← t.readTimestampOffsetOrZ c w
    return ← t.readTimestampFinish c w
  let (c, w, t) ← t.readTimestampDigits 2 (w ++ [58])
  if c ≠ 46 then
    -- yyyy-mm-ddThh:mm:ssZ
    let (c, w, t) ← t.readTimestampOffsetOrZ c w
    return ← t.readTimestampFinish c w
  let w := w ++ [46]
  -- yyyy-mm-ddThh:mm:ss.ssssZ
  let (c, t) := t.read
  let (c, w, t) ← if isDigit c then t.readDigits c w else pure (c, w, t)
  let (c, w, t) ← t.readTimestampOffsetOrZ c w
  t.readTimestampFinish c w

/-! ## The parts of `readTimestamp` -/

/-- The part of `readTimestamp` after the seconds: `c` follows them. -/
def tokenizer.readTimestampAfterSecond (t : tokenizer) (c : Int) (w : List Int) :
    Except Error (List Int × tokenizer) := do
  if c ≠ 46 then
    -- yyyy-mm-ddThh:mm:ssZ
    let (c, w, t) ← t.readTimestampOffsetOrZ c w
    return ← t.readTimestampFinish c w
  let w := w ++ [46]
  -- yyyy-mm-ddThh:mm:ss.ssssZ
  let (c, t) := t.read
  let (c, w, t) ← if isDigit c then t.readDigits c w else pure (c, w, t)
  let (c, w, t) ← t.readTimestampOffsetOrZ c w
  t.readTimestampFinish c w

/-- The part of `readTimestamp` after the minutes: `c` follows them. -/
def tokenizer.readTimestampAfterMinute (t : tokenizer) (c : Int) (w : List Int) :
    Except Error (List Int × tokenizer) := do
  if c ≠ 58 then
    -- yyyy-mm-ddThh:mmZ
    let (c, w, t) ← t.readTimestampOffsetOrZ c w
    return ← t.readTimestampFinish c w
  let (c, w, t) ← t.readTimestampDigits 2 (w ++ [58])
  t.readTimestampAfterSecond c w

/-- The part of `readTimestamp` after the day: `c` follows it. -/
def tokenizer.readTimestampAfterDay (t : tokenizer) (c : Int) (w : List Int) :
    Except Error (List Int × tokenizer) := do
  if c ≠ 84 then
    -- yyyy-mm-dd
    return ← t.readTimestampFinish c w
  let w := w ++ [84]
  let (c, t) := t.read
  if !isDigit c then
    -- yyyy-mm-ddT(+hh:mm)?
    let (c, w, t) ← t.readTimestampOffset c w
    return ← t.readTimestampFinish c w
  let (c, w, t) ← t.readTimestampDigits 1 (w ++ [byte c])
  if c ≠ 58 then
    throw (invalidChar c)
  let (c, w, t) ← t.readTimestampDigits 2 (w ++ [58])
  t.readTimestampAfterMinute c w

/-- The part of `readTimestamp` after the month: `c` follows it. -/
def tokenizer.readTimestampAfterMonth (t : tokenizer) (c : Int) (w : List Int) :
    Except Error (List Int × tokenizer) := do
  if c = 84 then
    -- yyyy-mmT
    return (w ++ [84], t)
  if c ≠ 45 then
    throw (invalidChar c)
  let (c, w, t) ← t.readTimestampDigits 2 (w ++ [45])
  t.readTimestampAfterDay c w

/-- The part of `readTimestamp` after the year: `c` follows it. -/
def tokenizer.readTimestampAfterYear (t : tokenizer) (c : Int) (w : List Int) :
    Except Error (List Int × tokenizer) := do
  if c = 84 then
    -- yyyyT
    return (w ++ [84], t)
  if c ≠ 45 then
    throw (invalidChar c)
  let (c, w, t) ← t.readTimestampDigits 2 (w ++ [45])
  t.readTimestampAfterMonth c w

/-! ## Escapes and quoted text -/

/-- The signed value of the low 32 bits of `u`: a Go `rune` (`int32`) given by its
bit pattern. -/
def int32 (u : Nat) : Int :=
  if u % 4294967296 < 2147483648 then Int.ofNat (u % 4294967296)
  else Int.ofNat (u % 4294967296) - 4294967296

/-- The loop of `readHexEscapeSeq`, `val` being the bit pattern of the rune so far:
the step `val = (val << 4) | rune(d)` is taken on 32 bits. -/
def tokenizer.readHexEscapeSeqLoop : Nat → tokenizer → Nat → Except Error (Int × tokenizer)
  | 0, t, val => .ok (int32 val, t)
  | len + 1, t, val =>
    let (c, t1) := t.read
    match fromHex c with
    | .error e => .error e
    | .ok d => tokenizer.readHexEscapeSeqLoop len t1 (((val <<< 4) % 4294967296) ||| d.toNat)

/-- The Go method `readHexEscapeSeq`: the rune written with `len` hex digits. -/
def tokenizer.readHexEscapeSeq (t : tokenizer) (len : Nat) : Except Error (Int × tokenizer) :=
  tokenizer.readHexEscapeSeqLoop len t 0

/-- The Go method `readEscapedChar`, called just after a backslash. -/
def tokenizer.readEscapedChar (t : tokenizer) (clob : Bool) : Except Error (Int × tokenizer) :=
  let (c, t1) := t.read
  if c = 48 then .ok (0, t1)           -- '0'
  else if c = 97 then .ok (7, t1)      -- 'a'
  else if c = 98 then .ok (8, t1)      -- 'b'
  else if c = 116 then .ok (9, t1)     -- 't'
  else if c = 110 then .ok (10, t1)    -- 'n'
  else if c = 102 then .ok (12, t1)    -- 'f'
  else if c = 114 then .ok (13, t1)    -- 'r'
  else if c = 118 then .ok (11, t1)    -- 'v'
  else if c = 63 then .ok (63, t1)     -- '?'
  else if c = 47 then .ok (47, t1)     -- '/'
  else if c = 39 then .ok (39, t1)     -- single quote
  else if c = 34 then .ok (34, t1)     -- double quote
  else if c = 92 then .ok (92, t1)     -- backslash
  else if c = 85 then                  -- 'U'
    if clob then .error (invalidChar 85)
    else t1.readHexEscapeSeq 8
  else if c = 117 then t1.readHexEscapeSeq 4   -- 'u'
  else if c = 120 then t1.readHexEscapeSeq 2   -- 'x'
  else .error (Error.badEscape c)

/-- The bytes `strings.Builder.WriteRune` appends for the rune `r`: its UTF-8
encoding, that of U+FFFD for a surrogate or a value outside `0..0x10FFFF`. -/
def encodeRune (r : Int) : List Int :=
  if 0 ≤ r ∧ r ≤ 127 then [r]
  else if 0 ≤ r ∧ r ≤ 2047 then [192 + r / 64, 128 + r % 64]
  else if r < 0 ∨ r > 1114111 ∨ (55296 ≤ r ∧ r ≤ 57343) then [239, 191, 189]
  else if r ≤ 65535 then [224 + r / 4096, 128 + r / 64 % 64, 128 + r % 64]
  else [240 + r / 262144, 128 + r / 4096 % 64, 128 + r / 64 % 64, 128 + r % 64]

/-- The loop of `readSymbol` and of `readOperator`, with an iteration bound:
`c` is the character peeked at, `ok` the character class. -/
def tokenizer.readWhileLoop (ok : Int → Bool) :
    Nat → tokenizer → Int → List Int → Except Error (List Int × tokenizer)
  | 0, _, _, _ => .error Error.outOfFuel
  | fuel + 1, t, c, ret =>
    if ok c then
      let t1 := t.read.2
      let (c2, t2) := t1.peek
      tokenizer.readWhileLoop ok fuel t2 c2 (ret ++ [byte c])
    else .ok (ret, t)

/-- The Go method `readSymbol`: reads an unquoted symbol value. -/
def tokenizer.readSymbol (t : tokenizer) : Except Error (List Int × tokenizer) :=
  let (c, t1) := t.peek
  tokenizer.readWhileLoop isIdentifierPart (t1.size + 1) t1 c []

/-- The Go method `readOperator`. -/
def tokenizer.readOperator (t : tokenizer) : Except Error (List Int × tokenizer) :=
  let (c, t1) := t.peek
  tokenizer.readWhileLoop isOperatorChar (t1.size + 1) t1 c []

/-- The loop of `readQuotedSymbol` (`quote` the single quote) and of `readString`
(`quote` the double quote), with an iteration bound. -/
def tokenizer.readQuotedLoop (quote : Int) :
    Nat → tokenizer → List Int → Except Error (List Int × tokenizer)
  | 0, _, _ => .error Error.outOfFuel
  | fuel + 1, t, ret =>
    let (c, t1) := t.read
    if c = -1 ∨ c = 10 then .error (invalidChar c)
    else if c = quote then .ok (ret, t1)
    else if c = 92 then
      let (c2, t2) := t1.peek
      if c2 = 10 then tokenizer.readQuotedLoop quote fuel t2.read.2 ret
      else
        match t2.readEscapedChar false with
        | .error e => .error e
        | .ok (r, t3) => tokenizer.readQuotedLoop quote fuel t3 (ret ++ encodeRune r)
    else tokenizer.readQuotedLoop quote fuel t1 (ret ++ [byte c])

/-- The Go method `readQuotedSymbol`: reads a quoted symbol. -/
def tokenizer.readQuotedSymbol (t : tokenizer) : Except Error (List Int × tokenizer) :=
  tokenizer.readQuotedLoop 39 (t.size + 1) t []

/-- The Go method `readString`: reads a quoted string. -/
def tokenizer.readString (t : tokenizer) : Except Error (List Int × tokenizer) :=
  tokenizer.readQuotedLoop 34 (t.size + 1) t []

/-- The loop of `readLongString`, with an iteration bound.  The method
`skipEndOfLongString` is not among the sources at hand and is taken as the
parameter `skipEnd` (already applied to the comment handler). -/
def tokenizer.readLongStringLoop (skipEnd : tokenizer → Except Error (Bool × tokenizer)) :
    Nat → tokenizer → List Int → Except Error (List Int × tokenizer)
  | 0, _, _ => .error Error.outOfFuel
  | fuel + 1, t, ret =>
    let (c, t1) := t.read
    if c = -1 then .error (invalidChar c)
    else if c = 39 then
      match skipEnd t1 with
      | .error e => .error e
      | .ok (ok, t2) =>
        if ok then .ok (ret, t2)
        else tokenizer.readLongStringLoop skipEnd fuel t2 ret
    else if c = 92 then
      let (c2, t2) := t1.peek
      if c2 = 10 then tokenizer.readLongStringLoop skipEnd fuel t2.read.2 ret
      else
        match t2.readEscapedChar false with
        | .error e => .error e
        | .ok (r, t3) => tokenizer.readLongStringLoop skipEnd fuel t3 (ret ++ encodeRune r)
    else tokenizer.readLongStringLoop skipEnd fuel t1 (ret ++ [byte c])

/-- The Go method `readLongString`: reads a triple-quoted string. -/
def tokenizer.readLongString (t : tokenizer)
    (skipEnd : tokenizer → Except Error (Bool × tokenizer)) :
    Except Error (List Int × tokenizer) :=
  tokenizer.readLongStringLoop skipEnd (t.size + 1) t []

/-- The Go method `ReadValue`: reads the value of a token of the given type. -/
def tokenizer.ReadValue (t : tokenizer) (tok : tokenType)
    (skipEnd : tokenizer → Except Error (Bool × tokenizer)) :
    Except Error (List Int × tokenizer) := do
  let (str, t1) ←
    match tok with
    | tokenType.tokenSymbol => t.readSymbol
    | tokenType.tokenSymbolQuoted => t.readQuotedSymbol
    | tokenType.tokenSymbolOperator => t.readOperator
    | tokenType.tokenDot => t.readOperator
    | tokenType.tokenString => t.readString
    | tokenType.tokenLongString => t.readLongString skipEnd
    | tokenType.tokenBinary => t.readBinary
    | tokenType.tokenHex => t.readHex
    | tokenType.tokenTimestamp => t.readTimestamp
    | _ => throw Error.panic
  pure (str, { t1 with unfinished := false })

/-- The Go method `ReadShortClob`.  The method `skipLobWhitespace` is not among the
sources at hand and is taken as a parameter. -/
def tokenizer.ReadShortClob (t : tokenizer)
    (skipLobWhitespace : tokenizer → Except Error (Int × Bool × tokenizer)) :
    Except Error (List Int × tokenizer) := do
  let (str, t1) ← t.readString
  let (c, _, t2) ← skipLobWhitespace t1
  if c ≠ 125 then
    throw (invalidChar c)
  let (c, t3) := t2.read
  if c ≠ 125 then
    throw (invalidChar c)
  pure (str, { t3 with unfinished := false })

/-- The Go method `ReadLongClob`, with `skipLobWhitespace` and `skipEndOfLongString`
as parameters. -/
def tokenizer.ReadLongClob (t : tokenizer)
    (skipLobWhitespace : tokenizer → Except Error (Int × Bool × tokenizer))
    (skipEnd : tokenizer → Except Error (Bool × tokenizer)) :
    Except Error (List Int × tokenizer) := do
  let (str, t1) ← t.readLongString skipEnd
  let (c, _, t2) ← skipLobWhitespace t1
  if c ≠ 125 then
    throw (invalidChar c)
  let (c, t3) := t2.read
  if c ≠ 125 then
    throw (invalidChar c)
  pure (str, { t3 with unfinished := false })

/-! ## Token dispatch -/

/-- The Go method `isTripleQuote`: after a single quote, are the next two
characters single quotes too?  If so they are skipped. -/
def tokenizer.isTripleQuote (t : tokenizer) : Bool × tokenizer :=
  let (cs, eof, t1) := t.peekN 2
  if eof then (false, t1)
  else if cs.getD 0 0 = 39 ∧ cs.getD 1 0 = 39 then (true, t1.skipN 2)
  else (false, t1)

/-- The Go method `isInf`: does the sign `c` begin a `+inf` or `-inf` keyword?
If so, `inf` is skipped. -/
def tokenizer.isInf (t : tokenizer) (c : Int) : Bool × tokenizer :=
  if c ≠ 43 ∧ c ≠ 45 then (false, t)
  else
    let (cs, _, t1) := t.peekN 5
    if cs.length < 3 ∨ cs.getD 0 0 ≠ 105 ∨ cs.getD 1 0 ≠ 110 ∨ cs.getD 2 0 ≠ 102 then
      -- Definitely not +-inf.
      (false, t1)
    else if cs.length = 3 ∨ Ion.isStopChar (cs.getD 3 0) then
      -- Cleanly-terminated +-inf.
      (true, t1.skipN 3)
    else if cs.getD 3 0 = 47 ∧ cs.length > 4 ∧ (cs.getD 4 0 = 47 ∨ cs.getD 4 0 = 42) then
      -- +-inf followed immediately by a comment works too.
      (true, t1.skipN 3)
    else (false, t1)

/-- The Go method `scanForNumericType`: the kind of number `c` begins, found by
peeking at four characters. -/
def tokenizer.scanForNumericType (t : tokenizer) (c : Int) : Except Error (tokenType × tokenizer) :=
  if !isDigit c then .error Error.panic
  else
    let (cs, _, t1) := t.peekN 4
    if c = 48 ∧ cs.length > 0 ∧ (cs.getD 0 0 = 98 ∨ cs.getD 0 0 = 66) then
      .ok (tokenType.tokenBinary, t1)
    else if c = 48 ∧ cs.length > 0 ∧ (cs.getD 0 0 = 120 ∨ cs.getD 0 0 = 88) then
      .ok (tokenType.tokenHex, t1)
    else if cs.length ≥ 4 ∧ isDigit (cs.getD 0 0) ∧ isDigit (cs.getD 1 0) ∧ isDigit (cs.getD 2 0)
        ∧ (cs.getD 3 0 = 45 ∨ cs.getD 3 0 = 84) then
      .ok (tokenType.tokenTimestamp, t1)
    else
      -- Can't tell yet; wait until actually reading it to find out.
      .ok (tokenType.tokenNumber, t1)

/-- The Go method `finish`. -/
def tokenizer.finish (t : tokenizer) (token : tokenType) (more : Bool) : tokenizer :=
  { t with token := token, unfinished := more }

/-- The Go method `Next`: advances to the next token.  The methods `skipValue` and
`skipWhitespace` are not among the sources at hand and are taken as parameters:
each returns the first significant character, consumed. -/
def tokenizer.Next (t : tokenizer)
    (skipValue : tokenizer → Except Error (Int × tokenizer))
    (skipWhitespace : tokenizer → Except Error (Int × Bool × tokenizer)) :
    Except Error tokenizer := do
  let (c, t) ←
    if t.unfinished then skipValue t
    else do
      let (c, _, t1) ← skipWhitespace t
      pure (c, t1)
  if c = -1 then
    pure (t.finish tokenType.tokenEOF true)
  else if c = 47 then
    pure ((t.unread c).finish tokenType.tokenSymbolOperator true)
  else if c = 58 then
    let (c2, t) := t.peek
    if c2 = 58 then
      pure (t.read.2.finish tokenType.tokenDoubleColon false)
    else pure (t.finish tokenType.tokenColon false)
  else if c = 123 then
    let (c2, t) := t.peek
    if c2 = 123 then
      pure (t.read.2.finish tokenType.tokenOpenDoubleBrace true)
    else pure (t.finish tokenType.tokenOpenBrace true)
  else if c = 125 then
    pure (t.finish tokenType.tokenCloseBrace false)
  else if c = 91 then
    pure (t.finish tokenType.tokenOpenBracket true)
  else if c = 93 then
    pure (t.finish tokenType.tokenCloseBracket false)
  else if c = 40 then
    pure (t.finish tokenType.tokenOpenParen true)
  else if c = 41 then
    pure (t.finish tokenType.tokenCloseParen false)
  else if c = 44 then
    pure (t.finish tokenType.tokenComma false)
  else if c = 46 then
    let (c2, t) := t.peek
    if isOperatorChar c2 then
      pure ((t.unread c).finish tokenType.tokenSymbolOperator true)
    else pure (t.finish tokenType.tokenDot false)
  else if c = 39 then
    let (ok, t) := t.isTripleQuote
    if ok then
      pure (t.finish tokenType.tokenLongString true)
    else pure (t.finish tokenType.tokenSymbolQuoted true)
  else if c = 43 then
    let (ok, t) := t.isInf c
    if ok then
      pure (t.finish tokenType.tokenFloatInf false)
    else pure ((t.unread c).finish tokenType.tokenSymbolOperator true)
  else if c = 45 then
    let (c2, t) := t.peek
    if isDigit c2 then
      let t := t.read.2
      let (tt, t) ← t.scanForNumericType c2
      if tt = tokenType.tokenTimestamp then
        -- can't have negative timestamps.
        throw (invalidChar c2)
      else pure (((t.unread c2).unread c).finish tt true)
    else
      let (ok, t) := t.isInf c
      if ok then
        pure (t.finish tokenType.tokenFloatMinusInf false)
      else pure ((t.unread c).finish tokenType.tokenSymbolOperator true)
  else if isOperatorChar c then
    pure ((t.unread c).finish tokenType.tokenSymbolOperator true)
  else if c = 34 then
    pure (t.finish tokenType.tokenString true)
  else if isIdentifierStart c then
    pure ((t.unread c).finish tokenType.tokenSymbol true)
  else if isDigit c then
    let (tt, t) ← t.scanForNumericType c
    pure ((t.unread c).finish tt true)
  else throw (invalidChar c)

/-! ## Reference functions on character lists, used to state what the loops do -/

/-- The first character of `s`, or the end-of-input sentinel `-1`. -/
def hd : List Int → Int
  | [] => -1
  | c :: _ => c

/-- What `readRadixDigits` does on the characters `s`: the bytes written, the
character returned (`-1` when `s` runs out) and the characters left. -/
def scanDigits (dok : Int → Bool) : List Int → List Int × Int × List Int
  | [] => ([], -1, [])
  | c :: s =>
    if c = 95 then scanDigits dok s
    else if !dok c then ([], c, s)
    else ((byte c :: (scanDigits dok s).1), (scanDigits dok s).2.1, (scanDigits dok s).2.2)


/-- What `readDigits` does when called with `c` on the characters `s`. -/
def scanDigitsFrom (c : Int) (s : List Int) : List Int × Int × List Int :=
  if !isDigit c then ([], c, s)
  else ((byte c :: (scanDigits isDigit s).1), (scanDigits isDigit s).2.1, (scanDigits isDigit s).2.2)

/-- What `readExponent` does on the characters `s`. -/
def scanExponent (s : List Int) : List Int × Int × List Int :=
  let c := hd s
  if c = 43 ∨ c = 45 then
    let r := scanDigitsFrom (hd s.tail) s.tail.tail
    (byte c :: r.1, r.2.1, r.2.2)
  else scanDigitsFrom c s.tail

/-- What the end of `ReadNumber` does: the terminating character `c` must be a stop
character or start a comment with the first of the characters `s` after it. -/
def scanNumberEnd (w : List Int) (tt : IonType) (c : Int) (s : List Int) :
    Except Error (List Int × IonType × Int × List Int) :=
  if isStopChar c ∨ (c = 47 ∧ (hd s = 47 ∨ hd s = 42)) then .ok (w, tt, c, s)
  else .error (invalidChar c)

/-- What `ReadNumber` does from its exponent marker on. -/
def scanNumberExp (w : List Int) (tt : IonType) (c : Int) (s : List Int) :
    Except Error (List Int × IonType × Int × List Int) :=
  if c = 101 ∨ c = 69 then
    scanNumberEnd (w ++ byte c :: (scanExponent s).1) IonType.FloatType
      (scanExponent s).2.1 (scanExponent s).2.2
  else if c = 100 ∨ c = 68 then
    scanNumberEnd (w ++ byte c :: (scanExponent s).1) IonType.DecimalType
      (scanExponent s).2.1 (scanExponent s).2.2
  else scanNumberEnd w tt c s

/-- What `ReadNumber` does from its decimal point on. -/
def scanNumberFrac (w : List Int) (c : Int) (s : List Int) :
    Except Error (List Int × IonType × Int × List Int) :=
  if c = 46 then
    scanNumberExp (w ++ 46 :: (scanDigitsFrom (hd s) s.tail).1) IonType.DecimalType
      (scanDigitsFrom (hd s) s.tail).2.1 (scanDigitsFrom (hd s) s.tail).2.2
  else scanNumberExp w IonType.IntType c s

/-- What `ReadNumber` does after the sign: `c` is the first character of the
integer part and `s` holds the characters after it. -/
def scanNumberInt (w : List Int) (c : Int) (s : List Int) :
    Except Error (List Int × IonType × Int × List Int) :=
  if c = 48 ∧ (scanDigitsFrom c s).1.length > 1 then .error Error.leadingZeroes
  else scanNumberFrac (w ++ (scanDigitsFrom c s).1) (scanDigitsFrom c s).2.1 (scanDigitsFrom c s).2.2

/-- What `ReadNumber` does on the characters `s`: the text, the type, the
terminating character and the characters after it. -/
def scanNumber (s : List Int) : Except Error (List Int × IonType × Int × List Int) :=
  if hd s = 45 then scanNumberInt [45] (hd s.tail) s.tail.tail
  else scanNumberInt [] (hd s) s.tail

/-- The end of `ReadNumber`: the check of the terminating character. -/
def tokenizer.readNumberEnd (t5 : tokenizer) (c : Int) (w : List Int) (tt : IonType) :
    Except Error (List Int × IonType × tokenizer) := do
  let (ok, t6) := t5.isStopChar c
  if !ok then
    throw (invalidChar c)
  pure (w, tt, t6.unread c)

/-- The part of `ReadNumber` from the exponent marker on. -/
def tokenizer.readNumberExp (t3 : tokenizer) (c : Int) (w : List Int) (tt : IonType) :
    Except Error (List Int × IonType × tokenizer) := do
  let (c, w, tt, t5) ←
    if c = 101 ∨ c = 69 then do        -- 'e', 'E'
      let (c1, w1, t4) ← t3.readExponent (w ++ [byte c])
      pure (c1, w1, IonType.FloatType, t4)
    else if c = 100 ∨ c = 68 then do   -- 'd', 'D'
      let (c1, w1, t4) ← t3.readExponent (w ++ [byte c])
      pure (c1, w1, IonType.DecimalType, t4)
    else pure (c, w, tt, t3)
  t5.readNumberEnd c w tt

/-- The part of `ReadNumber` from the decimal point on. -/
def tokenizer.readNumberFrac (t2 : tokenizer) (c : Int) (w : List Int) :
    Except Error (List Int × IonType × tokenizer) := do
  let (c, w, tt, t3) ←
    if c = 46 then do
      let (c1, t3) := t2.read
      let (c2, w2, t4) ← t3.readDigits c1 (w ++ [46])
      pure (c2, w2, IonType.DecimalType, t4)
    else pure (c, w, IonType.IntType, t2)
  t3.readNumberExp c w tt

/-- The part of `ReadNumber` after the sign. -/
def tokenizer.readNumberInt (t1 : tokenizer) (c : Int) (w : List Int) :
    Except Error (List Int × IonType × tokenizer) := do
  let first := c
  let oldlen := w.length
  let (c, w, t2) ← t1.readDigits c w
  if first = 48 ∧ w.length - oldlen > 1 then
    throw Error.leadingZeroes
  t2.readNumberFrac c w


/-- The result `r` of a number reader agrees with the reference result `p`: the same
error, or the same text and type with a tokenizer that delivers the terminating
character and then the characters after it. -/
def Refines (r : Except Error (List Int × IonType × tokenizer))
    (p : Except Error (List Int × IonType × Int × List Int)) : Prop :=
  match p with
  | .error e => r = .error e
  | .ok (w, tt, c, rest) => ∃ t2, r = .ok (w, tt, t2) ∧ t2.upcoming = c :: rest


/-- What `readRadix` does on the characters `s`: the text, the terminating
character and the characters after it. -/
def scanRadix (pok dok : Int → Bool) (s : List Int) : Except Error (List Int × Int × List Int) :=
  let sign : List Int := if hd s = 45 then [45] else []
  let s1 := if hd s = 45 then s.tail else s
  if hd s1 ≠ 48 then .error (invalidChar (hd s1))
  else if !pok (hd s1.tail) then .error (invalidChar (hd s1.tail))
  else
    let d := scanDigits dok s1.tail.tail
    if isStopChar d.2.1 ∨ (d.2.1 = 47 ∧ (hd d.2.2 = 47 ∨ hd d.2.2 = 42)) then
      .ok (sign ++ [48, byte (hd s1.tail)] ++ d.1, d.2.1, d.2.2)
    else .error (invalidChar d.2.1)

/-- The result `r` of a text reader agrees with the reference result `p`: the same
error, or the same text with a tokenizer that delivers the terminating character
and then the characters after it. -/
def RefinesText (r : Except Error (List Int × tokenizer))
    (p : Except Error (List Int × Int × List Int)) : Prop :=
  match p with
  | .error e => r = .error e
  | .ok (w, c, rest) => ∃ t2, r = .ok (w, t2) ∧ t2.upcoming = c :: rest

/-- The part of `readRadix` after the sign. -/
def tokenizer.readRadixBody (t1 : tokenizer) (pok dok : Int → Bool) (c : Int) (w : List Int) :
    Except Error (List Int × tokenizer) := do
  if c ≠ 48 then
    throw (invalidChar c)
  let w := w ++ [48]
  let (c, t2) := t1.read
  if !pok c then
    throw (invalidChar c)
  let w := w ++ [byte c]
  let (c, w, t3) ← t2.readRadixDigits dok w
  let (ok, t4) := t3.isStopChar c
  if !ok then
    throw (invalidChar c)
  pure (w, t4.unread c)


/-! ## Literal shapes, used to state the claims -/

/-- A digit run with separators: every character of `s` satisfies `dok` or is a
`_` that stands between two such characters; `prev` tells whether the character
before `s` satisfied `dok`. -/
def wellSeparated (dok : Int → Bool) : Bool → List Int → Bool
  | prev, [] => prev
  | prev, c :: s =>
    if c = 95 then prev && wellSeparated dok false s
    else dok c && wellSeparated dok true s

/-- A non-empty run of `dok` characters with single `_` separators strictly
between them. -/
def sepDigits (dok : Int → Bool) (s : List Int) : Bool := wellSeparated dok false s

/-- The text `s` with every `_` removed. -/
def dropUnderscores (s : List Int) : List Int := s.filter (fun c => decide (c ≠ 95))

/-- The value of the digit text `s` in base `radix`, where `_` counts for nothing
and a digit has the value `fromHex` gives it. -/
def radixValue (radix : Int) (s : List Int) : Int :=
  s.foldl (fun acc c =>
    if c = 95 then acc
    else match fromHex c with
      | .ok d => acc * radix + d
      | .error _ => acc) 0


/-- The text `w` holds none of the characters that decide the type of a number:
`.`, `d`, `D`, `e`, `E`. -/
def NoMarks (w : List Int) : Prop :=
  46 ∉ w ∧ 100 ∉ w ∧ 68 ∉ w ∧ 101 ∉ w ∧ 69 ∉ w

/-- The type `tt` is the one the text of a number calls for: Float with an `e` or
`E`, else Decimal with a `.`, `d` or `D`, else Int. -/
def TypeByText (text : List Int) (tt : IonType) : Prop :=
  (tt = IonType.FloatType ↔ (101 ∈ text ∨ 69 ∈ text))
  ∧ (tt = IonType.DecimalType ↔
      ((46 ∈ text ∨ 100 ∈ text ∨ 68 ∈ text) ∧ ¬ (101 ∈ text ∨ 69 ∈ text)))
  ∧ (tt = IonType.IntType ↔
      (¬ (46 ∈ text ∨ 100 ∈ text ∨ 68 ∈ text) ∧ ¬ (101 ∈ text ∨ 69 ∈ text)))


/-- The character `c` may end an unquoted value when `next` follows it: it is a
stop character, or a `/` that starts a comment. -/
def StopOrComment (c next : Int) : Prop :=
  isStopChar c = true ∨ (c = 47 ∧ (next = 47 ∨ next = 42))

/-- A reference result `r` on the characters `cur`, reached with the text `w`
written: either it stops `n` characters into `cur`, at a character that may end a
value, having written those `n` characters but for the `_` among them; or it is
the leading-zeroes error; or the error for a character of `cur` that may not end
a value. -/
def NumberSpec (cur w : List Int) (r : Except Error (List Int × IonType × Int × List Int)) :
    Prop :=
  match r with
  | .ok (text, _, c, rest) =>
    ∃ n, n ≤ cur.length ∧ c = hd (cur.drop n) ∧ rest = (cur.drop n).tail
      ∧ text = w ++ dropUnderscores (cur.take n) ∧ StopOrComment c (hd rest)
  | .error e =>
    e = Error.leadingZeroes
    ∨ ∃ n, n ≤ cur.length ∧ e = invalidChar (hd (cur.drop n))
        ∧ ¬ StopOrComment (hd (cur.drop n)) (hd (cur.drop n).tail)


/-- The characters `peekN` returns on the characters `up`: at most `n`, up to the
end of input or a pushed-back end-of-input sentinel. -/
def peekChars : Nat → List Int → List Int
  | 0, _ => []
  | _ + 1, [] => []
  | n + 1, c :: s => if c = -1 then [] else c :: peekChars n s

/-- Whether `peekN` meets the end of input on the characters `up`. -/
def peekEOF : Nat → List Int → Bool
  | 0, _ => false
  | _ + 1, [] => true
  | n + 1, c :: s => if c = -1 then true else peekEOF n s

/-- The characters a tokenizer delivers after `peekN`, `up` being those before:
what was read ahead is pushed back, the end-of-input sentinel included. -/
def restore : Nat → List Int → List Int
  | 0, up => up
  | _ + 1, [] => [-1]
  | n + 1, c :: s => if c = -1 then c :: s else c :: restore n s

/-- The results of `n` successive reads on the characters `s`. -/
def readsOf : List Int → Nat → List Int
  | _, 0 => []
  | s, n + 1 => hd s :: readsOf s.tail n


/-- The token dispatch of `Next`: what `Next` does once its skip has returned the
first significant character `c`. -/
def tokenizer.dispatch (t : tokenizer) (c : Int) : Except Error tokenizer := do
  if c = -1 then
    pure (t.finish tokenType.tokenEOF true)
  else if c = 47 then
    pure ((t.unread c).finish tokenType.tokenSymbolOperator true)
  else if c = 58 then
    let (c2, t) := t.peek
    if c2 = 58 then
      pure (t.read.2.finish tokenType.tokenDoubleColon false)
    else pure (t.finish tokenType.tokenColon false)
  else if c = 123 then
    let (c2, t) := t.peek
    if c2 = 123 then
      pure (t.read.2.finish tokenType.tokenOpenDoubleBrace true)
    else pure (t.finish tokenType.tokenOpenBrace true)
  else if c = 125 then
    pure (t.finish tokenType.tokenCloseBrace false)
  else if c = 91 then
    pure (t.finish tokenType.tokenOpenBracket true)
  else if c = 93 then
    pure (t.finish tokenType.tokenCloseBracket false)
  else if c = 40 then
    pure (t.finish tokenType.tokenOpenParen true)
  else if c = 41 then
    pure (t.finish tokenType.tokenCloseParen false)
  else if c = 44 then
    pure (t.finish tokenType.tokenComma false)
  else if c = 46 then
    let (c2, t) := t.peek
    if isOperatorChar c2 then
      pure ((t.unread c).finish tokenType.tokenSymbolOperator true)
    else pure (t.finish tokenType.tokenDot false)
  else if c = 39 then
    let (ok, t) := t.isTripleQuote
    if ok then
      pure (t.finish tokenType.tokenLongString true)
    else pure (t.finish tokenType.tokenSymbolQuoted true)
  else if c = 43 then
    let (ok, t) := t.isInf c
    if ok then
      pure (t.finish tokenType.tokenFloatInf false)
    else pure ((t.unread c).finish tokenType.tokenSymbolOperator true)
  else if c = 45 then
    let (c2, t) := t.peek
    if isDigit c2 then
      let t := t.read.2
      let (tt, t) ← t.scanForNumericType c2
      if tt = tokenType.tokenTimestamp then
        -- can't have negative timestamps.
        throw (invalidChar c2)
      else pure (((t.unread c2).unread c).finish tt true)
    else
      let (ok, t) := t.isInf c
      if ok then
        pure (t.finish tokenType.tokenFloatMinusInf false)
      else pure ((t.unread c).finish tokenType.tokenSymbolOperator true)
  else if isOperatorChar c then
    pure ((t.unread c).finish tokenType.tokenSymbolOperator true)
  else if c = 34 then
    pure (t.finish tokenType.tokenString true)
  else if isIdentifierStart c then
    pure ((t.unread c).finish tokenType.tokenSymbol true)
  else if isDigit c then
    let (tt, t) ← t.scanForNumericType c
    pure ((t.unread c).finish tt true)
  else throw (invalidChar c)

/-- The skip that `Next` starts with (`skipValue` when the token is unfinished,
`skipWhitespace` otherwise) returns the first significant character `c`, consumed,
and leaves the tokenizer `t1`. -/
def FirstSignificant (t : tokenizer)
    (skipValue : tokenizer → Except Error (Int × tokenizer))
    (skipWhitespace : tokenizer → Except Error (Int × Bool × tokenizer))
    (c : Int) (t1 : tokenizer) : Prop :=
  (t.unfinished = true → skipValue t = .ok (c, t1))
  ∧ (t.unfinished = false → ∃ b, skipWhitespace t = .ok (c, b, t1))

/-- What `skipWhitespace` and `skipValue` do where nothing is to be skipped, on an
input that begins with a significant character other than `/`: they read it. -/
def skipNothing (t : tokenizer) : Except Error (Int × Bool × tokenizer) :=
  .ok (t.read.1, false, t.read.2)

/-! ## Timestamp literals, used to state the claims -/

/-- The list `ds` consists of `n` digits. -/
def digitRun (n : Nat) (ds : List Int) : Bool := decide (ds.length = n) && ds.all isDigit

/-- The literal `lit` has the shape of `form`: a digit where `form` has a digit,
and the very character of `form` elsewhere. -/
def sameShape : List Int → List Int → Bool
  | [], [] => true
  | x :: xs, p :: ps => (if isDigit p then isDigit x else decide (x = p)) && sameShape xs ps
  | _, _ => false

/-- The eight timestamp forms. -/
def timestampForms : List String :=
  ["2001T", "2001-01T", "2001-01-01", "2001-01-01T", "2001-01-01T00:00Z",
   "2001-01-01T00:00:00Z", "2001-01-01T00:00:00.000Z", "2001-01-01T00:00:00.000+00:00"]

/-- The part of a timestamp literal after the seconds. -/
def TsAfterSecond (x : List Int) : Prop :=
  x = [90]
  ∨ (∃ f, digitRun 3 f = true ∧ x = 46 :: f ++ [90])
  ∨ (∃ f oh om, digitRun 3 f = true ∧ digitRun 2 oh = true ∧ digitRun 2 om = true
      ∧ x = 46 :: f ++ 43 :: oh ++ 58 :: om)

/-- The part of a timestamp literal after the minutes. -/
def TsAfterMinute (x : List Int) : Prop :=
  x = [90] ∨ ∃ s x2, digitRun 2 s = true ∧ TsAfterSecond x2 ∧ x = 58 :: s ++ x2

/-- The part of a timestamp literal after the day. -/
def TsAfterDay (x : List Int) : Prop :=
  x = [] ∨ x = [84]
  ∨ ∃ h mi x2, digitRun 2 h = true ∧ digitRun 2 mi = true ∧ TsAfterMinute x2
      ∧ x = 84 :: h ++ 58 :: mi ++ x2

/-- The part of a timestamp literal after the month. -/
def TsAfterMonth (x : List Int) : Prop :=
  x = [84] ∨ ∃ d x2, digitRun 2 d = true ∧ TsAfterDay x2 ∧ x = 45 :: d ++ x2

/-- The part of a timestamp literal after the year. -/
def TsAfterYear (x : List Int) : Prop :=
  x = [84] ∨ ∃ m x2, digitRun 2 m = true ∧ TsAfterMonth x2 ∧ x = 45 :: m ++ x2

/-- A timestamp literal of one of the eight forms, taken apart. -/
def TsLiteral (lit : List Int) : Prop :=
  ∃ y x, digitRun 4 y = true ∧ TsAfterYear x ∧ lit = y ++ x


/-- Every literal of the shape of `form` satisfies `P`. -/
def Covers (P : List Int → Prop) (form : List Int) : Prop :=
  ∀ x, sameShape x form = true → P x


/-- The characters `inf` come next on the characters `up`, followed by the end of
input, a stop character, or the start of a comment. -/
def infAhead (up : List Int) : Prop :=
  readsOf up 3 = [105, 110, 102]
  ∧ StopOrComment ((readsOf up 5).getD 3 0) ((readsOf up 5).getD 4 0)

/-- The next three characters the tokenizer delivers are `inf`, and what follows
them is the end of input, a stop character, or `//` or `/*`. -/
def InfAhead (t : tokenizer) : Prop :=
  t.reads 3 = [105, 110, 102]
  ∧ StopOrComment ((t.reads 5).getD 3 0) ((t.reads 5).getD 4 0)


/-! ## Escapes, used to state the claims -/

/-- The fixed escape table: the character after the backslash and the code point
it stands for (`0 a b t n f r v`, the two quotes, the backslash, `?` and `/`). -/
def escapeTable : List (Int × Int) :=
  [(48, 0), (97, 7), (98, 8), (116, 9), (110, 10), (102, 12), (114, 13), (118, 11),
   (39, 39), (34, 34), (92, 92), (63, 63), (47, 47)]

/-- The hex escapes: the marker (`x`, `u`, `U`) and its number of hex digits. -/
def hexEscapes : List (Int × Nat) := [(120, 2), (117, 4), (85, 8)]

/-- The value of one hex digit, by `fromHex`. -/
def hexDigitValue (d : Int) : Nat :=
  match fromHex d with
  | .ok v => v.toNat
  | .error _ => 0

/-- The value of the hex digits `ds` that follow the value `val`. -/
def hexFold (val : Nat) (ds : List Int) : Nat :=
  ds.foldl (fun v d => v * 16 + hexDigitValue d) val

/-- The hexadecimal value of the digits `ds`. -/
def hexValue (ds : List Int) : Nat := hexFold 0 ds

/-- One step of the loop of `readHexEscapeSeq` on the bit pattern `val`. -/
def hexStep (val : Nat) (d : Int) : Nat :=
  ((val <<< 4) % 4294967296) ||| hexDigitValue d

/-- A stand-in for `skipEndOfLongString` where a long string ends right at its
closing quotes: the two remaining quotes are skipped and the end is reported. -/
def skipClosingQuotes (t : tokenizer) : Except Error (Bool × tokenizer) :=
  .ok (true, t.skipN 2)

/-! ## Writing symbols and strings (`textutils.go`) -/

/-- The Go function `isSymbolRef` on the bytes of `sym`: is this the text form of a
symbol reference, a `$` followed by digits? -/
def isSymbolRef (sym : List Nat) : Bool :=
  match sym with
  | [] => false
  | c :: rest =>
    if c ≠ 36 then false
    else if rest.length = 0 then false
    else rest.all (fun b => isDigit (Int.ofNat b))

/-- The Go function `symbolNeedsQuoting` on the bytes of `sym`. -/
def symbolNeedsQuoting (sym : List Nat) : Bool :=
  if sym = [] ∨ sym = bytes "null" ∨ sym = bytes "true" ∨ sym = bytes "false"
      ∨ sym = bytes "nan" then true
  else if isSymbolRef sym then true
  else if !isIdentifierStart (Int.ofNat (sym.headD 0)) then true
  else if sym.tail.any (fun b => !isIdentifierPart (Int.ofNat b)) then true
  else false

/-- The Go table `hexChars`: the sixteen hex digits, in upper case. -/
def hexChars : List Nat := [48, 49, 50, 51, 52, 53, 54, 55, 56, 57, 65, 66, 67, 68, 69, 70]

/-- The bytes the Go function `writeEscapedChar` writes for the byte `c`. -/
def writeEscapedChar (c : Nat) : List Nat :=
  if c = 0 then [92, 48]            -- \0
  else if c = 7 then [92, 97]       -- \a
  else if c = 8 then [92, 98]       -- \b
  else if c = 9 then [92, 116]      -- \t
  else if c = 10 then [92, 110]     -- \n
  else if c = 12 then [92, 102]     -- \f
  else if c = 13 then [92, 114]     -- \r
  else if c = 11 then [92, 118]     -- \v
  else if c = 39 then [92, 39]      -- single quote
  else if c = 34 then [92, 34]      -- double quote
  else if c = 92 then [92, 92]      -- backslash
  else [92, 120, hexChars.getD ((c >>> 4) &&& 15) 0, hexChars.getD (c &&& 15) 0]

/-- The bytes the Go function `writeEscapedSymbol` writes for the bytes `sym`. -/
def writeEscapedSymbol : List Nat → List Nat
  | [] => []
  | c :: rest =>
    (if c < 32 ∨ c = 92 ∨ c = 39 then writeEscapedChar c else [c]) ++ writeEscapedSymbol rest

/-- The bytes the Go function `writeEscapedString` writes for the bytes `s`. -/
def writeEscapedString : List Nat → List Nat
  | [] => []
  | c :: rest =>
    (if c < 32 ∨ c = 92 ∨ c = 34 then writeEscapedChar c else [c]) ++ writeEscapedString rest

/-- The bytes the Go function `writeSymbol` writes for the bytes `sym`. -/
def writeSymbol (sym : List Nat) : List Nat :=
  if symbolNeedsQuoting sym then [39] ++ writeEscapedSymbol sym ++ [39]
  else sym

/-- A letter of either case. -/
def isLetter (c : Nat) : Prop := (65 ≤ c ∧ c ≤ 90) ∨ (97 ≤ c ∧ c ≤ 122)

/-- An identifier: a letter, `_` or `$`, followed by letters, digits, `_` and `$`. -/
def IsIdentifier (sym : List Nat) : Prop :=
  ∃ c rest, sym = c :: rest ∧ (isLetter c ∨ c = 95 ∨ c = 36)
    ∧ ∀ b ∈ rest, isLetter b ∨ (48 ≤ b ∧ b ≤ 57) ∨ b = 95 ∨ b = 36

/-- A symbol reference: `$` followed by one or more digits. -/
def IsSymbolReference (sym : List Nat) : Prop :=
  ∃ ds, ds ≠ [] ∧ (∀ d ∈ ds, 48 ≤ d ∧ d ≤ 57) ∧ sym = 36 :: ds

/-! ## Quoted text, used to state the claims -/

/-- The characters of an escape after its backslash, with the rune they stand for:
a character of the fixed table, or `x`, `u`, `U` with 2, 4, 8 hex digits. -/
inductive EscapeBody : List Int → Int → Prop
  | table (c r : Int) : (c, r) ∈ escapeTable → EscapeBody [c] r
  | hex (m : Int) (n : Nat) (ds : List Int) : (m, n) ∈ hexEscapes → ds.length = n →
      (∀ d ∈ ds, isHexDigit d = true) → EscapeBody (m :: ds) (int32 (hexValue ds))

/-- The inside of a quoted text with the closing quote `q`: `QuotedText q pre w`
says that the characters `pre` are a sequence of plain characters (any but the end
of input, the newline, the quote `q` and the backslash), of line continuations
(a backslash and a newline) and of escapes (a backslash and an escape body), and
that they stand for the bytes `w`. -/
inductive QuotedText (q : Int) : List Int → List Int → Prop
  | nil : QuotedText q [] []
  | plain (c : Int) (s w : List Int) : c ≠ -1 → c ≠ 10 → c ≠ q → c ≠ 92 →
      QuotedText q s w → QuotedText q (c :: s) (byte c :: w)
  | continuation (s w : List Int) : QuotedText q s w → QuotedText q (92 :: 10 :: s) w
  | escape (body : List Int) (r : Int) (s w : List Int) : EscapeBody body r →
      QuotedText q s w → QuotedText q (92 :: body ++ s) (encodeRune r ++ w)

/-! ## Blobs, and the states a tokenizer goes through -/

/-- The loop of `ReadBlob`, with an iteration bound: the characters that
`skipLobWhitespace` (a parameter, as in `ReadShortClob`) returns are written up to
the first closing brace. -/
def tokenizer.ReadBlobLoop (skipLobWhitespace : tokenizer → Except Error (Int × Bool × tokenizer)) :
    Nat → tokenizer → List Int → Except Error (List Int × tokenizer)
  | 0, _, _ => .error Error.outOfFuel
  | fuel + 1, t, w =>
    match skipLobWhitespace t with
    | .error e => .error e
    | .ok (c, _, t1) =>
      if c = -1 then .error (invalidChar c)
      else if c = 125 then .ok (w, t1)
      else tokenizer.ReadBlobLoop skipLobWhitespace fuel t1 (w ++ [byte c])

/-- The Go method `ReadBlob`. -/
def tokenizer.ReadBlob (t : tokenizer)
    (skipLobWhitespace : tokenizer → Except Error (Int × Bool × tokenizer)) :
    Except Error (List Int × tokenizer) := do
  let (w, t1) ← tokenizer.ReadBlobLoop skipLobWhitespace (t.size + 1) t []
  let (c, t2) := t1.read
  if c ≠ 125 then
    throw (invalidChar c)
  pure (w, { t2 with unfinished := false })

/-- A stand-in for `skipEndOfLongString` where no further segment follows: the quote
just read ends the long string exactly when the next two characters are quotes,
which are then skipped (the check that `isTripleQuote` makes). -/
def skipEndIfTripleQuote (t : tokenizer) : Except Error (Bool × tokenizer) :=
  .ok t.isTripleQuote

/-! ## The structural reader -/

/-- Modelled from the spec: a document as the structural reader walks it, reduced to
the tokens that matter for `StepIn` and `StepOut`: a scalar value (a null container
is one: "nulls cannot be entered"), and the opening and closing delimiter of a
container (struct, list or s-expression); separators, field names and annotations
are left out. -/
inductive Tok
  | scalar
  | opening
  | closing
  deriving DecidableEq, Repr

/-- Modelled from the spec: "recursively skipping their substructure".  Skips to
just after the closing delimiter of the container the cursor is in, `d` being the
number of containers opened on the way and not closed yet; `none` if the input
ends first. -/
def skipToClose : Nat → List Tok → Option (List Tok)
  | _, [] => none
  | d, Tok.scalar :: ts => skipToClose d ts
  | d, Tok.opening :: ts => skipToClose (d + 1) ts
  | 0, Tok.closing :: ts => some ts
  | d + 1, Tok.closing :: ts => skipToClose d ts

/-- Modelled from the spec: the structural reader, "all cursor and frame-stack state
lives in the tokenizer/reader instance".  `toks` is the input not yet consumed,
`depth` the depth of the container frame stack ("stack depth equals current nesting
depth"), `onContainer` says that the cursor is on a container that has not been
stepped into, whose contents are still ahead (the pending payload that "advancing
to the next token first fully skips"), and `err` is the sticky error. -/
structure Reader where
  toks : List Tok
  depth : Nat
  onContainer : Bool
  err : Bool
  deriving DecidableEq, Repr

/-- Modelled from the spec: a reader at the start of a document. -/
def Reader.start (doc : List Tok) : Reader :=
  { toks := doc, depth := 0, onContainer := false, err := false }

/-- Modelled from the spec: the input after the value the cursor is on; a container
that was not stepped into is skipped, as "advancing to the next token first fully
skips any unconsumed pending payload". -/
def Reader.ahead (r : Reader) : Option (List Tok) :=
  if r.onContainer then skipToClose 0 r.toks else some r.toks

/-- Modelled from the spec: "`Next()`: advances to the next sibling value in the
current frame (or at top level).  Returns whether a value was found; returns false
both at genuine end-of-container/input and after an error [...].  Idempotent at the
end".  Input that ends inside a container, and a closing delimiter at top level,
are errors. -/
def Reader.Next (r : Reader) : Bool × Reader :=
  if r.err then (false, r)
  else
    match r.ahead with
    | none => (false, { r with err := true })
    | some [] =>
      if r.depth = 0 then (false, { r with toks := [], onContainer := false })
      else (false, { r with err := true })
    | some (Tok.closing :: ts) =>
      if r.depth = 0 then (false, { r with err := true })
      else (false, { r with toks := Tok.closing :: ts, onContainer := false })
    | some (Tok.scalar :: ts) => (true, { r with toks := ts, onContainer := false })
    | some (Tok.opening :: ts) => (true, { r with toks := ts, onContainer := true })

/-- Modelled from the spec: "`StepIn()`: legal only when positioned on a non-null
container value; fails otherwise.  Pushes a new frame; the first subsequent `Next()`
yields the first child, or false if the container is empty." -/
def Reader.StepIn (r : Reader) : Option Reader :=
  if r.err = false ∧ r.onContainer = true then
    some { r with depth := r.depth + 1, onContainer := false }
  else none

/-- Modelled from the spec: "`StepOut()`: legal only with at least one open frame.
Discards — without materializing — any unread remaining siblings of the current
frame (recursively skipping their substructure) and pops the frame, leaving the
cursor positioned right after the container in the parent frame, ready for
`Next()`." -/
def Reader.StepOut (r : Reader) : Option Reader :=
  if r.err = false ∧ 0 < r.depth then
    match r.ahead.bind (skipToClose 0) with
    | none => none
    | some ts => some { r with toks := ts, depth := r.depth - 1, onContainer := false }
  else none

/-- The reader after `k` calls of `Next`. -/
def Reader.nexts : Nat → Reader → Reader
  | 0, r => r
  | k + 1, r => Reader.nexts k r.Next.2

/-- Modelled from the spec: the tokens of a well-formed sequence of values, each a
scalar or a container with a well-formed sequence of children between its
delimiters. -/
inductive Values : List Tok → Prop
  | nil : Values []
  | scalar (vs : List Tok) : Values vs → Values (Tok.scalar :: vs)
  | container (cs vs : List Tok) : Values cs → Values vs →
      Values (Tok.opening :: cs ++ Tok.closing :: vs)

/-! ## Underscores in numbers, used to state the claims -/

/-- The characters `s1` are the characters `s2` with one `_` put in directly after
a decimal digit. -/
inductive UnderscoreAfterDigit : List Int → List Int → Prop
  | here (d : Int) (s : List Int) : isDigit d = true →
      UnderscoreAfterDigit (d :: 95 :: s) (d :: s)
  | there (c : Int) (s1 s2 : List Int) : UnderscoreAfterDigit s1 s2 →
      UnderscoreAfterDigit (c :: s1) (c :: s2)

/-- What a caller sees of the result of `ReadNumber` besides the tokenizer: the
error, or the text and the type. -/
def outcome (r : Except Error (List Int × IonType × tokenizer)) :
    Except Error (List Int × IonType) :=
  match r with
  | .ok (w, tt, _) => .ok (w, tt)
  | .error e => .error e

/-- Every character of `s` satisfies `dok` or is a `_`. -/
def separatedRun (dok : Int → Bool) (s : List Int) : Bool :=
  s.all (fun c => dok c || decide (c = 95))

/-- The reference result without the terminating character and the rest. -/
def scanOutcome (r : Except Error (List Int × IonType × Int × List Int)) :
    Except Error (List Int × IonType) :=
  match r with
  | .ok (w, tt, _, _) => .ok (w, tt)
  | .error e => .error e

/-- What may stand between the integer part and the exponent marker: nothing, a
`.`, or a `.` with a digit and further digits and `_`. -/
def fractionPart : List Int → Bool
  | [] => true
  | [46] => true
  | 46 :: fd :: frun => isDigit fd && separatedRun isDigit frun
  | _ => false

/-! ## Exponents, used to state the claims -/

/-- The exponent markers of `ReadNumber`: `e`, `E`, `d`, `D`. -/
def isExponentMarker (c : Int) : Bool :=
  decide (c = 101) || decide (c = 69) || decide (c = 100) || decide (c = 68)

/-- What stands after an exponent marker in the text `w`: wherever `w` holds a
marker, an optional sign and then decimal digits only follow it to the end. -/
def ExponentShape (w : List Int) : Prop :=
  ∀ pre m suf, w = pre ++ m :: suf → isExponentMarker m = true →
    ∃ sg ds, suf = sg ++ ds ∧ (sg = [] ∨ sg = [43] ∨ sg = [45]) ∧ ds.all isDigit = true

/-! ## Timestamps as `readTimestamp` reads them, used to state the claims -/

/-- The characters `rest` after a timestamp let it end: they begin with a stop
character or with a comment, or the input ends there. -/
def TsEnd (rest : List Int) : Prop := StopOrComment (hd rest) (hd rest.tail)

/-- An offset: a sign, two digits, `:` and two digits. -/
def TsOffset (x : List Int) : Prop :=
  ∃ sg oh om, (sg = 43 ∨ sg = 45) ∧ digitRun 2 oh = true ∧ digitRun 2 om = true
    ∧ x = sg :: oh ++ 58 :: om

/-- What ends a timestamp with a time: `Z`, `z` or an offset. -/
def TsOffsetOrZ (x : List Int) : Prop := x = [90] ∨ x = [122] ∨ TsOffset x

/-- The fraction of the seconds in the input: nothing, or a digit followed by
digits and `_`. -/
def TsFraction (f : List Int) : Prop :=
  f = [] ∨ ∃ d r, isDigit d = true ∧ separatedRun isDigit r = true ∧ f = d :: r

/-- The characters `x` that `readTimestamp` consumes after the seconds, `rest`
being what follows them. -/
def TsReadAfterSecond (x rest : List Int) : Prop :=
  (TsOffsetOrZ x ∨ ∃ f z, TsFraction f ∧ TsOffsetOrZ z ∧ x = 46 :: f ++ z) ∧ TsEnd rest

/-- The characters `x` that `readTimestamp` consumes after the minutes. -/
def TsReadAfterMinute (x rest : List Int) : Prop :=
  (TsOffsetOrZ x ∧ TsEnd rest)
  ∨ ∃ s x2, digitRun 2 s = true ∧ TsReadAfterSecond x2 rest ∧ x = 58 :: s ++ x2

/-- The characters `x` that `readTimestamp` consumes after the day. -/
def TsReadAfterDay (x rest : List Int) : Prop :=
  ((x = [] ∨ x = [84] ∨ ∃ o, TsOffset o ∧ x = 84 :: o) ∧ TsEnd rest)
  ∨ ∃ h mi x2, digitRun 2 h = true ∧ digitRun 2 mi = true ∧ TsReadAfterMinute x2 rest
      ∧ x = 84 :: h ++ 58 :: mi ++ x2

/-- The characters `x` that `readTimestamp` consumes after the month. -/
def TsReadAfterMonth (x rest : List Int) : Prop :=
  x = [84] ∨ ∃ d x2, digitRun 2 d = true ∧ TsReadAfterDay x2 rest ∧ x = 45 :: d ++ x2

/-- The characters `x` that `readTimestamp` consumes after the year. -/
def TsReadAfterYear (x rest : List Int) : Prop :=
  x = [84] ∨ ∃ m x2, digitRun 2 m = true ∧ TsReadAfterMonth x2 rest ∧ x = 45 :: m ++ x2

/-- The characters `lit` that `readTimestamp` consumes, `rest` being what follows
them: a year of four digits and what comes after it, every field but the
fraction of a fixed number of digits. -/
def TsRead (lit rest : List Int) : Prop :=
  ∃ y x, digitRun 4 y = true ∧ TsReadAfterYear x rest ∧ lit = y ++ x

/-- The result `r` of a part of `readTimestamp` that starts on the characters `cur`
with the text `w` written: an invalid-character error, or the text `w` followed by
the characters `x` it consumed, without their `_`, where `x` and what follows
satisfy `Shape` and the tokenizer returned delivers what follows. -/
def TsResult (r : Except Error (List Int × tokenizer)) (w cur : List Int)
    (Shape : List Int → List Int → Prop) : Prop :=
  (∃ c, r = .error (invalidChar c))
  ∨ ∃ x rest t2, r = .ok (w ++ dropUnderscores x, t2) ∧ cur = x ++ rest ∧ Shape x rest
      ∧ ∀ k, t2.reads k = readsOf rest k

/-! ## The number literal at the head of the input, used to state the claims -/

/-- The hexadecimal digits with their values: `0` to `9`, `a` to `f`, `A` to `F`. -/
def hexDigitTable : List (Int × Nat) :=
  [(48, 0), (49, 1), (50, 2), (51, 3), (52, 4), (53, 5), (54, 6), (55, 7), (56, 8), (57, 9),
   (97, 10), (98, 11), (99, 12), (100, 13), (101, 14), (102, 15),
   (65, 10), (66, 11), (67, 12), (68, 13), (69, 14), (70, 15)]

/-- The characters that are hexadecimal digits. -/
def hexDigitChars : List Int := hexDigitTable.map Prod.fst

/-- The value of the character `d` as a hexadecimal digit, by the table. -/
def hexDigitOf (d : Int) : Nat :=
  match hexDigitTable.find? (fun p => p.1 == d) with
  | some p => p.2
  | none => 0

/-- The number that the hexadecimal digits `ds` write: each digit counts for its
value times the power of 16 of its place. -/
def hexNumber : List Int → Nat
  | [] => 0
  | d :: ds => hexDigitOf d * 16 ^ ds.length + hexNumber ds

/-! ## The instant of a timestamp -/

/-- Modelled from the spec: the instant that a timestamp value stands for, as the
seconds from 0000-01-01T00:00:00Z in the Gregorian calendar and the digits of the
fraction of the second without trailing zeros.  The spec names the timestamp
instant as what the reader decodes from the literal (§4.2, scalar accessors) and
asks that literals of different precision and offset that represent the same
instant decode to the identical instant (§8). -/
structure Instant where
  seconds : Int
  fraction : List Int
  deriving DecidableEq, Repr

/-- The number that the decimal digits `ds` write. -/
def decimalValue (ds : List Int) : Nat :=
  ds.foldl (fun v d => v * 10 + (d - 48).toNat) 0

/-- The field of `n` digits at the head of `s`: its value and what follows it. -/
def takeField (n : Nat) (s : List Int) : Option (Nat × List Int) :=
  if digitRun n (s.take n) then some (decimalValue (s.take n), s.drop n) else none

/-- Is `y` a leap year of the Gregorian calendar? -/
def isLeapYear (y : Nat) : Bool :=
  (y % 4 == 0 && y % 100 != 0) || y % 400 == 0

/-- The days of the year before the first of month `m`, in a year that is no leap
year. -/
def daysBeforeMonth (m : Nat) : Nat :=
  [0, 31, 59, 90, 120, 151, 181, 212, 243, 273, 304, 334].getD (m - 1) 0

/-- The days from 0000-01-01 to the day `d` of month `m` of year `y`. -/
def daysBefore (y m d : Nat) : Nat :=
  (365 * y + (y + 3) / 4 + (y + 399) / 400 - (y + 99) / 100)
    + daysBeforeMonth m + (if 2 < m ∧ isLeapYear y then 1 else 0) + (d - 1)

/-- Modelled from the spec: the instant of the date and time fields `y`-`mo`-`d`
`h`:`mi`:`s` with the fraction digits `f`, given at the offset of `off` minutes from
UTC; nothing where a field is out of its range. -/
def instantOf (y mo d h mi s : Nat) (f : List Int) (off : Int) : Option Instant :=
  if 1 ≤ mo ∧ mo ≤ 12 ∧ 1 ≤ d ∧ d ≤ 31 ∧ h < 24 ∧ mi < 60 ∧ s < 60 then
    some { seconds :=
             (((Int.ofNat (daysBefore y mo d) * 24 + Int.ofNat h) * 60 + Int.ofNat mi) - off) * 60
               + Int.ofNat s,
           fraction := (f.reverse.dropWhile (fun c => decide (c = 48))).reverse }
  else none

/-- Modelled from the spec: the offset `Z` or `±hh:mm` in minutes. -/
def decodeOffset (s : List Int) : Option Int :=
  match s with
  | [90] => some 0
  | sg :: rest =>
    if sg = 43 ∨ sg = 45 then
      match takeField 2 rest with
      | some (h, 58 :: rest2) =>
        match takeField 2 rest2 with
        | some (m, []) =>
          some ((if sg = 45 then -1 else 1) * (Int.ofNat h * 60 + Int.ofNat m))
        | _ => none
      | _ => none
    else none
  | [] => none

/-- Modelled from the spec: the part of the decoding after `yyyy-mm-ddThh:mm`: the
seconds with their fraction, if any, and the offset. -/
def decodeTimeOfDay (y mo d h mi : Nat) (s : List Int) : Option Instant :=
  match s with
  | 58 :: s1 =>
    match takeField 2 s1 with
    | some (sec, 46 :: s2) =>
      match decodeOffset (s2.dropWhile isDigit) with
      | some off => instantOf y mo d h mi sec (s2.takeWhile isDigit) off
      | none => none
    | some (sec, s2) =>
      match decodeOffset s2 with
      | some off => instantOf y mo d h mi sec [] off
      | none => none
    | none => none
  | _ =>
    match decodeOffset s with
    | some off => instantOf y mo d h mi 0 [] off
    | none => none

/-- Modelled from the spec: the part of the decoding after `yyyy-mm-dd`: nothing, a
`T`, or a `T` and the time of day with its offset. -/
def decodeAfterDay (y mo d : Nat) (s : List Int) : Option Instant :=
  match s with
  | [] => instantOf y mo d 0 0 0 [] 0
  | [84] => instantOf y mo d 0 0 0 [] 0
  | 84 :: s1 =>
    match takeField 2 s1 with
    | some (h, 58 :: s2) =>
      match takeField 2 s2 with
      | some (mi, s3) => decodeTimeOfDay y mo d h mi s3
      | none => none
    | _ => none
  | _ => none

/-- Modelled from the spec: the instant decoded from the text of a timestamp of
one of the precision variants `yyyyT`, `yyyy-mmT`, `yyyy-mm-dd`, `yyyy-mm-ddT` and
the forms with a time of day and an offset (§6, grammar surface).  A field that
the literal does not give has its least value (month 1, day 1, time 00:00:00), `Z`
is the offset zero, and the offset is taken off to get the instant in UTC. -/
def decodeTimestamp (w : List Int) : Option Instant :=
  match takeField 4 w with
  | some (y, [84]) => instantOf y 1 1 0 0 0 [] 0
  | some (y, 45 :: s1) =>
    match takeField 2 s1 with
    | some (mo, [84]) => instantOf y mo 1 0 0 0 [] 0
    | some (mo, 45 :: s2) =>
      match takeField 2 s2 with
      | some (d, s3) => decodeAfterDay y mo d s3
      | none => none
    | _ => none
  | _ => none

/-! ## The tokenizer as Go runs it: calls that fail leave a state too -/

/-- A method of the tokenizer as Go runs it.  A Go method changes the tokenizer in
place, and a call that returns an error leaves the tokenizer as it was when the
error was found: so a method maps the tokenizer to a value or an error, and in both
cases to the tokenizer it leaves. -/
def TokM (α : Type) : Type := tokenizer → Except Error α × tokenizer

instance instMonadTokM : Monad TokM where
  pure a := fun t => (.ok a, t)
  bind m f := fun t =>
    match m t with
    | (.ok a, t1) => f a t1
    | (.error e, t1) => (.error e, t1)

/-- Returning the error `e`: the tokenizer stays as it is. -/
def Run.fail {α : Type} (e : Error) : TokM α := fun t => (.error e, t)

/-- The tokenizer itself, for the methods that look at `t.token` or `t.unfinished`. -/
def Run.get : TokM tokenizer := fun t => (.ok t, t)

/-- The Go method `read`. -/
def Run.read : TokM Int := fun t => (.ok t.read.1, t.read.2)

/-- The Go method `unread`. -/
def Run.unread (c : Int) : TokM Unit := fun t => (.ok (), t.unread c)

/-- The Go method `peek`. -/
def Run.peek : TokM Int := fun t => (.ok t.peek.1, t.peek.2)

/-- The Go method `peekN`: the characters, and whether the end of input was met. -/
def Run.peekN (n : Nat) : TokM (List Int × Bool) :=
  fun t => (.ok ((t.peekN n).1, (t.peekN n).2.1), (t.peekN n).2.2)

/-- The Go method `skipN`. -/
def Run.skipN (n : Nat) : TokM Unit := fun t => (.ok (), t.skipN n)

/-- The Go method `tokenizer.isStopChar`. -/
def Run.isStopChar (c : Int) : TokM Bool :=
  fun t => (.ok (t.isStopChar c).1, (t.isStopChar c).2)

/-- The Go method `isTripleQuote`. -/
def Run.isTripleQuote : TokM Bool := fun t => (.ok t.isTripleQuote.1, t.isTripleQuote.2)

/-- The Go method `isInf`. -/
def Run.isInf (c : Int) : TokM Bool := fun t => (.ok (t.isInf c).1, (t.isInf c).2)

/-- The Go method `finish`. -/
def Run.finish (token : tokenType) (more : Bool) : TokM Unit :=
  fun t => (.ok (), t.finish token more)

/-- The Go assignment `t.unfinished = false`. -/
def Run.setFinished : TokM Unit := fun t => (.ok (), { t with unfinished := false })

/-- The loop of `readRadixDigits`, with an iteration bound. -/
def Run.readRadixDigitsLoop (dok : Int → Bool) : Nat → List Int → TokM (Int × List Int)
  | 0, _ => Run.fail Error.outOfFuel
  | fuel + 1, w => do
    let c ← Run.read
    if c = 95 then Run.readRadixDigitsLoop dok fuel w
    else if !dok c then pure (c, w)
    else Run.readRadixDigitsLoop dok fuel (w ++ [byte c])

/-- The Go method `readRadixDigits`. -/
def Run.readRadixDigits (fuel : Nat) (dok : Int → Bool) (w : List Int) : TokM (Int × List Int) :=
  Run.readRadixDigitsLoop dok fuel w

/-- The Go method `readDigits`. -/
def Run.readDigits (fuel : Nat) (c : Int) (w : List Int) : TokM (Int × List Int) :=
  if !isDigit c then pure (c, w)
  else Run.readRadixDigits fuel isDigit (w ++ [byte c])

/-- The Go method `readExponent`. -/
def Run.readExponent (fuel : Nat) (w : List Int) : TokM (Int × List Int) := do
  let c ← Run.read
  if c = 43 ∨ c = 45 then do
    let c2 ← Run.read
    Run.readDigits fuel c2 (w ++ [byte c])
  else Run.readDigits fuel c w

/-- The Go method `ReadNumber`. -/
def Run.ReadNumber (fuel : Nat) : TokM (List Int × IonType) := do
  let c0 ← Run.read
  let (c, w) ← if c0 = 45 then do
      let c1 ← Run.read
      pure (c1, [(45 : Int)])
    else pure (c0, [])
  let first := c
  let oldlen := w.length
  let (c, w) ← Run.readDigits fuel c w
  if first = 48 ∧ w.length - oldlen > 1 then Run.fail Error.leadingZeroes
  else do
    let (c, w, tt) ← if c = 46 then do
        let c1 ← Run.read
        let (c2, w2) ← Run.readDigits fuel c1 (w ++ [46])
        pure (c2, w2, IonType.DecimalType)
      else pure (c, w, IonType.IntType)
    let (c, w, tt) ← if c = 101 ∨ c = 69 then do
        let (c1, w1) ← Run.readExponent fuel (w ++ [byte c])
        pure (c1, w1, IonType.FloatType)
      else if c = 100 ∨ c = 68 then do
        let (c1, w1) ← Run.readExponent fuel (w ++ [byte c])
        pure (c1, w1, IonType.DecimalType)
      else pure (c, w, tt)
    let ok ← Run.isStopChar c
    if !ok then Run.fail (invalidChar c)
    else do
      Run.unread c
      pure (w, tt)

/-- The Go method `readRadix`. -/
def Run.readRadix (fuel : Nat) (pok dok : Int → Bool) : TokM (List Int) := do
  let c0 ← Run.read
  let (c, w) ← if c0 = 45 then do
      let c1 ← Run.read
      pure (c1, [(45 : Int)])
    else pure (c0, [])
  if c ≠ 48 then Run.fail (invalidChar c)
  else do
    let w := w ++ [48]
    let c ← Run.read
    if !pok c then Run.fail (invalidChar c)
    else do
      let w := w ++ [byte c]
      let (c, w) ← Run.readRadixDigits fuel dok w
      let ok ← Run.isStopChar c
      if !ok then Run.fail (invalidChar c)
      else do
        Run.unread c
        pure w

/-- The Go method `readBinary`. -/
def Run.readBinary (fuel : Nat) : TokM (List Int) := Run.readRadix fuel isB isBinaryDigit

/-- The Go method `readHex`. -/
def Run.readHex (fuel : Nat) : TokM (List Int) := Run.readRadix fuel isX isHexDigit

/-- The Go method `readTimestampDigits`. -/
def Run.readTimestampDigits : Nat → List Int → TokM (Int × List Int)
  | 0, w => do
    let c ← Run.read
    pure (c, w)
  | n + 1, w => do
    let c ← Run.read
    if !isDigit c then Run.fail (invalidChar c)
    else Run.readTimestampDigits n (w ++ [byte c])

/-- The Go method `readTimestampFinish`. -/
def Run.readTimestampFinish (c : Int) (w : List Int) : TokM (List Int) := do
  let ok ← Run.isStopChar c
  if !ok then Run.fail (invalidChar c)
  else do
    Run.unread c
    pure w

/-- The Go method `readTimestampOffset`. -/
def Run.readTimestampOffset (c : Int) (w : List Int) : TokM (Int × List Int) :=
  if c ≠ 45 ∧ c ≠ 43 then pure (c, w)
  else do
    let (c2, w2) ← Run.readTimestampDigits 2 (w ++ [byte c])
    if c2 ≠ 58 then Run.fail (invalidChar c2)
    else Run.readTimestampDigits 2 (w2 ++ [58])

/-- The Go method `readTimestampOffsetOrZ`. -/
def Run.readTimestampOffsetOrZ (c : Int) (w : List Int) : TokM (Int × List Int) :=
  if c = 45 ∨ c = 43 then Run.readTimestampOffset c w
  else if c = 122 ∨ c = 90 then do
    let c2 ← Run.read
    pure (c2, w ++ [byte c])
  else Run.fail (invalidChar c)

/-- The Go method `readTimestamp`. -/
def Run.readTimestamp (fuel : Nat) : TokM (List Int) := do
  let (c, w) ← Run.readTimestampDigits 4 []
  if c = 84 then pure (w ++ [84])                    -- yyyyT
  else if c ≠ 45 then Run.fail (invalidChar c)
  else do
    let (c, w) ← Run.readTimestampDigits 2 (w ++ [45])
    if c = 84 then pure (w ++ [84])                  -- yyyy-mmT
    else if c ≠ 45 then Run.fail (invalidChar c)
    else do
      let (c, w) ← Run.readTimestampDigits 2 (w ++ [45])
      if c ≠ 84 then Run.readTimestampFinish c w     -- yyyy-mm-dd
      else do
        let w := w ++ [84]
        let c ← Run.read
        if !isDigit c then do                        -- yyyy-mm-ddT(+hh:mm)?
          let (c, w) ← Run.readTimestampOffset c w
          Run.readTimestampFinish c w
        else do
          let (c, w) ← Run.readTimestampDigits 1 (w ++ [byte c])
          if c ≠ 58 then Run.fail (invalidChar c)
          else do
            let (c, w) ← Run.readTimestampDigits 2 (w ++ [58])
            if c ≠ 58 then do                        -- yyyy-mm-ddThh:mmZ
              let (c, w) ← Run.readTimestampOffsetOrZ c w
              Run.readTimestampFinish c w
            else do
              let (c, w) ← Run.readTimestampDigits 2 (w ++ [58])
              if c ≠ 46 then do                      -- yyyy-mm-ddThh:mm:ssZ
                let (c, w) ← Run.readTimestampOffsetOrZ c w
                Run.readTimestampFinish c w
              else do
                let w := w ++ [46]
                let c ← Run.read                     -- yyyy-mm-ddThh:mm:ss.ssssZ
                let (c, w) ← if isDigit c then Run.readDigits fuel c w else pure (c, w)
                let (c, w) ← Run.readTimestampOffsetOrZ c w
                Run.readTimestampFinish c w

/-- The loop of `readHexEscapeSeq`. -/
def Run.readHexEscapeSeqLoop : Nat → Nat → TokM Int
  | 0, val => pure (int32 val)
  | len + 1, val => do
    let c ← Run.read
    match fromHex c with
    | .error e => Run.fail e
    | .ok d => Run.readHexEscapeSeqLoop len (((val <<< 4) % 4294967296) ||| d.toNat)

/-- The Go method `readHexEscapeSeq`. -/
def Run.readHexEscapeSeq (len : Nat) : TokM Int := Run.readHexEscapeSeqLoop len 0

/-- The Go method `readEscapedChar`. -/
def Run.readEscapedChar (clob : Bool) : TokM Int := do
  let c ← Run.read
  if c = 48 then pure 0
  else if c = 97 then pure 7
  else if c = 98 then pure 8
  else if c = 116 then pure 9
  else if c = 110 then pure 10
  else if c = 102 then pure 12
  else if c = 114 then pure 13
  else if c = 118 then pure 11
  else if c = 63 then pure 63
  else if c = 47 then pure 47
  else if c = 39 then pure 39
  else if c = 34 then pure 34
  else if c = 92 then pure 92
  else if c = 85 then
    if clob then Run.fail (invalidChar 85)
    else Run.readHexEscapeSeq 8
  else if c = 117 then Run.readHexEscapeSeq 4
  else if c = 120 then Run.readHexEscapeSeq 2
  else Run.fail (Error.badEscape c)

/-- The loop of `readSymbol` and of `readOperator`, with an iteration bound: `c` is
the character peeked at. -/
def Run.readWhileLoop (ok : Int → Bool) : Nat → Int → List Int → TokM (List Int)
  | 0, _, _ => Run.fail Error.outOfFuel
  | fuel + 1, c, ret =>
    if ok c then do
      let _ ← Run.read
      let c2 ← Run.peek
      Run.readWhileLoop ok fuel c2 (ret ++ [byte c])
    else pure ret

/-- The Go method `readSymbol`. -/
def Run.readSymbol (fuel : Nat) : TokM (List Int) := do
  let c ← Run.peek
  Run.readWhileLoop isIdentifierPart fuel c []

/-- The Go method `readOperator`. -/
def Run.readOperator (fuel : Nat) : TokM (List Int) := do
  let c ← Run.peek
  Run.readWhileLoop isOperatorChar fuel c []

/-- The loop of `readQuotedSymbol` and of `readString`, with an iteration bound. -/
def Run.readQuotedLoop (quote : Int) : Nat → List Int → TokM (List Int)
  | 0, _ => Run.fail Error.outOfFuel
  | fuel + 1, ret => do
    let c ← Run.read
    if c = -1 ∨ c = 10 then Run.fail (invalidChar c)
    else if c = quote then pure ret
    else if c = 92 then do
      let c2 ← Run.peek
      if c2 = 10 then do
        let _ ← Run.read
        Run.readQuotedLoop quote fuel ret
      else do
        let r ← Run.readEscapedChar false
        Run.readQuotedLoop quote fuel (ret ++ encodeRune r)
    else Run.readQuotedLoop quote fuel (ret ++ [byte c])

/-- The Go method `readQuotedSymbol`. -/
def Run.readQuotedSymbol (fuel : Nat) : TokM (List Int) := Run.readQuotedLoop 39 fuel []

/-- The Go method `readString`. -/
def Run.readString (fuel : Nat) : TokM (List Int) := Run.readQuotedLoop 34 fuel []

/-- Modelled from the spec: the rest of a `//` comment, up to the end of the line or
of the input ("skips whitespace and comments", section 4.1). -/
def Run.skipSingleLineComment : Nat → TokM Unit
  | 0 => Run.fail Error.outOfFuel
  | fuel + 1 => do
    let c ← Run.read
    if c = -1 ∨ c = 10 then pure ()
    else Run.skipSingleLineComment fuel

/-- Modelled from the spec: the rest of a `/* */` comment, up to the closing `*/`;
`star` tells whether the character before was a `*`.  The end of the input inside
the comment is an unexpected character (section 4.1, failure policy). -/
def Run.skipBlockComment : Nat → Bool → TokM Unit
  | 0, _ => Run.fail Error.outOfFuel
  | fuel + 1, star => do
    let c ← Run.read
    if c = -1 then Run.fail (invalidChar c)
    else if star = true ∧ c = 47 then pure ()
    else Run.skipBlockComment fuel (decide (c = 42))

/-- Modelled from the spec: called after a `/` was read; if the next character makes
it the start of a `//` or `/* */` comment (a one-character lookahead with `peek`),
the comment is skipped.  Returns whether a comment was skipped. -/
def Run.skipComment (fuel : Nat) : TokM Bool := do
  let c ← Run.peek
  if c = 47 then do
    let _ ← Run.read
    Run.skipSingleLineComment fuel
    pure true
  else if c = 42 then do
    let _ ← Run.read
    Run.skipBlockComment fuel false
    pure true
  else pure false

/-- Modelled from the spec: the loop of `skipWhitespace` ("skips whitespace and
comments", section 4.1) and of `skipLobWhitespace` (the whitespace that a lob
tolerates; no comments): reads on over whitespace, and over comments if `comments`
is set, and returns the first other character, consumed, with the flag whether
anything was skipped.  A `/` that starts no comment is such a character. -/
def Run.skipWhitespaceLoop (comments : Bool) : Nat → Bool → TokM (Int × Bool)
  | 0, _ => Run.fail Error.outOfFuel
  | fuel + 1, skipped => do
    let c ← Run.read
    if isWhitespace c then Run.skipWhitespaceLoop comments fuel true
    else if c = 47 ∧ comments = true then do
      let found ← Run.skipComment fuel
      if found then Run.skipWhitespaceLoop comments fuel true
      else pure (c, skipped)
    else pure (c, skipped)

/-- Modelled from the spec: the method `skipWhitespace` that `Next` calls. -/
def Run.skipWhitespace (fuel : Nat) : TokM (Int × Bool) :=
  Run.skipWhitespaceLoop true fuel false

/-- Modelled from the spec: the method `skipLobWhitespace` that the lob readers call. -/
def Run.skipLobWhitespace (fuel : Nat) : TokM (Int × Bool) :=
  Run.skipWhitespaceLoop false fuel false

/-- Modelled from the spec: the method `skipEndOfLongString` that `readLongString`
calls just after it read a single quote ("after a closing `'''`, if
whitespace/comments are followed by another `'''`, reading continues seamlessly as
if it were one literal", section 4.1).  If the quote is not followed by two more,
it is text and the result is `false`.  Otherwise the two quotes are skipped, then
whitespace and comments; if a further `'''` follows, it is skipped too and the
result is `false` (the literal goes on); else the character found is pushed back
and the result is `true`. -/
def Run.skipEndOfLongString (fuel : Nat) : TokM Bool := do
  let (cs, eof) ← Run.peekN 2
  if eof = true ∨ cs.getD 0 0 ≠ 39 ∨ cs.getD 1 0 ≠ 39 then pure false
  else do
    Run.skipN 2
    let (c, _) ← Run.skipWhitespace fuel
    if c = 39 then do
      let ok ← Run.isTripleQuote
      if ok then pure false
      else do
        Run.unread c
        pure true
    else do
      Run.unread c
      pure true

/-- The loop of `readLongString`, with an iteration bound. -/
def Run.readLongStringLoop : Nat → List Int → TokM (List Int)
  | 0, _ => Run.fail Error.outOfFuel
  | fuel + 1, ret => do
    let c ← Run.read
    if c = -1 then Run.fail (invalidChar c)
    else if c = 39 then do
      let ok ← Run.skipEndOfLongString fuel
      if ok then pure ret
      else Run.readLongStringLoop fuel ret
    else if c = 92 then do
      let c2 ← Run.peek
      if c2 = 10 then do
        let _ ← Run.read
        Run.readLongStringLoop fuel ret
      else do
        let r ← Run.readEscapedChar false
        Run.readLongStringLoop fuel (ret ++ encodeRune r)
    else Run.readLongStringLoop fuel (ret ++ [byte c])

/-- The Go method `readLongString`. -/
def Run.readLongString (fuel : Nat) : TokM (List Int) := Run.readLongStringLoop fuel []

/-- The Go method `ReadValue`. -/
def Run.ReadValue (fuel : Nat) (tok : tokenType) : TokM (List Int) := do
  let str ←
    match tok with
    | tokenType.tokenSymbol => Run.readSymbol fuel
    | tokenType.tokenSymbolQuoted => Run.readQuotedSymbol fuel
    | tokenType.tokenSymbolOperator => Run.readOperator fuel
    | tokenType.tokenDot => Run.readOperator fuel
    | tokenType.tokenString => Run.readString fuel
    | tokenType.tokenLongString => Run.readLongString fuel
    | tokenType.tokenBinary => Run.readBinary fuel
    | tokenType.tokenHex => Run.readHex fuel
    | tokenType.tokenTimestamp => Run.readTimestamp fuel
    | _ => Run.fail Error.panic
  Run.setFinished
  pure str

/-- The Go method `ReadShortClob`. -/
def Run.ReadShortClob (fuel : Nat) : TokM (List Int) := do
  let str ← Run.readString fuel
  let (c, _) ← Run.skipLobWhitespace fuel
  if c ≠ 125 then Run.fail (invalidChar c)
  else do
    let c ← Run.read
    if c ≠ 125 then Run.fail (invalidChar c)
    else do
      Run.setFinished
      pure str

/-- The Go method `ReadLongClob`. -/
def Run.ReadLongClob (fuel : Nat) : TokM (List Int) := do
  let str ← Run.readLongString fuel
  let (c, _) ← Run.skipLobWhitespace fuel
  if c ≠ 125 then Run.fail (invalidChar c)
  else do
    let c ← Run.read
    if c ≠ 125 then Run.fail (invalidChar c)
    else do
      Run.setFinished
      pure str

/-- The loop of `ReadBlob`, with an iteration bound. -/
def Run.ReadBlobLoop : Nat → List Int → TokM (List Int)
  | 0, _ => Run.fail Error.outOfFuel
  | fuel + 1, w => do
    let (c, _) ← Run.skipLobWhitespace fuel
    if c = -1 then Run.fail (invalidChar c)
    else if c = 125 then pure w
    else Run.ReadBlobLoop fuel (w ++ [byte c])

/-- The Go method `ReadBlob`. -/
def Run.ReadBlob (fuel : Nat) : TokM (List Int) := do
  let w ← Run.ReadBlobLoop fuel []
  let c ← Run.read
  if c ≠ 125 then Run.fail (invalidChar c)
  else do
    Run.setFinished
    pure w

/-- The Go method `scanForNumericType`. -/
def Run.scanForNumericType (c : Int) : TokM tokenType :=
  if !isDigit c then Run.fail Error.panic
  else do
    let (cs, _) ← Run.peekN 4
    if c = 48 ∧ cs.length > 0 ∧ (cs.getD 0 0 = 98 ∨ cs.getD 0 0 = 66) then
      pure tokenType.tokenBinary
    else if c = 48 ∧ cs.length > 0 ∧ (cs.getD 0 0 = 120 ∨ cs.getD 0 0 = 88) then
      pure tokenType.tokenHex
    else if cs.length ≥ 4 ∧ isDigit (cs.getD 0 0) ∧ isDigit (cs.getD 1 0) ∧ isDigit (cs.getD 2 0)
        ∧ (cs.getD 3 0 = 45 ∨ cs.getD 3 0 = 84) then
      pure tokenType.tokenTimestamp
    else pure tokenType.tokenNumber

/-- Modelled from the spec: the payload of a lob, after `\x7b\x7b`, is skipped by
reading it (section 4.1, lob payloads): past the whitespace a `"` begins a short
clob, `'''` a long clob, and anything else belongs to a blob. -/
def Run.skipLob (fuel : Nat) : TokM Unit := do
  let (c, _) ← Run.skipLobWhitespace fuel
  if c = 34 then do
    let _ ← Run.ReadShortClob fuel
    pure ()
  else if c = 39 then do
    let ok ← Run.isTripleQuote
    if ok then do
      let _ ← Run.ReadLongClob fuel
      pure ()
    else Run.fail (invalidChar c)
  else do
    Run.unread c
    let _ ← Run.ReadBlob fuel
    pure ()

/-- Modelled from the spec: the rest of a container is skipped up to its closing
delimiter, "recursively skipping their substructure" (section 4.2) with an explicit
stack and no recursion (section 9): `closers` holds the closing delimiters that are
awaited, the innermost first.  Strings, quoted symbols, long strings, lobs and
comments are skipped as wholes, as a delimiter inside them does not count; every
other character is passed over.  A closing delimiter other than the awaited one, and
the end of the input, are unexpected characters. -/
def Run.skipContainerLoop : Nat → List Int → TokM Unit
  | 0, _ => Run.fail Error.outOfFuel
  | fuel + 1, closers => do
    let (c, _) ← Run.skipWhitespace fuel
    if c = -1 then Run.fail (invalidChar c)
    else if c = 34 then do
      let _ ← Run.readString fuel
      Run.skipContainerLoop fuel closers
    else if c = 39 then do
      let ok ← Run.isTripleQuote
      if ok then do
        let _ ← Run.readLongString fuel
        Run.skipContainerLoop fuel closers
      else do
        let _ ← Run.readQuotedSymbol fuel
        Run.skipContainerLoop fuel closers
    else if c = 40 then Run.skipContainerLoop fuel (41 :: closers)
    else if c = 91 then Run.skipContainerLoop fuel (93 :: closers)
    else if c = 123 then do
      let c2 ← Run.peek
      if c2 = 123 then do
        let _ ← Run.read
        Run.skipLob fuel
        Run.skipContainerLoop fuel closers
      else Run.skipContainerLoop fuel (125 :: closers)
    else if c = 41 ∨ c = 93 ∨ c = 125 then
      if closers.head? ≠ some c then Run.fail (invalidChar c)
      else if closers.tail = [] then pure ()
      else Run.skipContainerLoop fuel closers.tail
    else Run.skipContainerLoop fuel closers

/-- Modelled from the spec: what `skipValue` skips for a pending token of the kind
`tok` ("advancing to the next token first fully skips any unconsumed pending
payload", section 3; "skip remainder of this token", section 9).  The payload of a
scalar is skipped by reading it with the reader of its kind, a lob by `skipLob`, a
container up to its closing delimiter; a token of another kind has no payload. -/
def Run.skipPayload (fuel : Nat) (tok : tokenType) : TokM Unit :=
  match tok with
  | tokenType.tokenNumber => do
    let _ ← Run.ReadNumber fuel
    pure ()
  | tokenType.tokenBinary | tokenType.tokenHex | tokenType.tokenTimestamp
  | tokenType.tokenSymbol | tokenType.tokenSymbolQuoted | tokenType.tokenSymbolOperator
  | tokenType.tokenString | tokenType.tokenLongString => do
    let _ ← Run.ReadValue fuel tok
    pure ()
  | tokenType.tokenOpenDoubleBrace => Run.skipLob fuel
  | tokenType.tokenOpenBrace => Run.skipContainerLoop fuel [125]
  | tokenType.tokenOpenBracket => Run.skipContainerLoop fuel [93]
  | tokenType.tokenOpenParen => Run.skipContainerLoop fuel [41]
  | _ => pure ()

/-- Modelled from the spec: the method `skipValue` that `Next` calls when the token
is pending: the payload of the token is skipped, the token is no longer pending, and
then whitespace and comments are skipped as by `skipWhitespace`; the result is the
first significant character, consumed. -/
def Run.skipValue (fuel : Nat) : TokM Int := do
  let t ← Run.get
  Run.skipPayload fuel t.token
  Run.setFinished
  let (c, _) ← Run.skipWhitespace fuel
  pure c

/-- The Go method `Next`. -/
def Run.Next (fuel : Nat) : TokM Unit := do
  let t ← Run.get
  let c ← if t.unfinished then Run.skipValue fuel
    else do
      let (c, _) ← Run.skipWhitespace fuel
      pure c
  if c = -1 then Run.finish tokenType.tokenEOF true
  else if c = 47 then do
    Run.unread c
    Run.finish tokenType.tokenSymbolOperator true
  else if c = 58 then do
    let c2 ← Run.peek
    if c2 = 58 then do
      let _ ← Run.read
      Run.finish tokenType.tokenDoubleColon false
    else Run.finish tokenType.tokenColon false
  else if c = 123 then do
    let c2 ← Run.peek
    if c2 = 123 then do
      let _ ← Run.read
      Run.finish tokenType.tokenOpenDoubleBrace true
    else Run.finish tokenType.tokenOpenBrace true
  else if c = 125 then Run.finish tokenType.tokenCloseBrace false
  else if c = 91 then Run.finish tokenType.tokenOpenBracket true
  else if c = 93 then Run.finish tokenType.tokenCloseBracket false
  else if c = 40 then Run.finish tokenType.tokenOpenParen true
  else if c = 41 then Run.finish tokenType.tokenCloseParen false
  else if c = 44 then Run.finish tokenType.tokenComma false
  else if c = 46 then do
    let c2 ← Run.peek
    if isOperatorChar c2 then do
      Run.unread c
      Run.finish tokenType.tokenSymbolOperator true
    else Run.finish tokenType.tokenDot false
  else if c = 39 then do
    let ok ← Run.isTripleQuote
    if ok then Run.finish tokenType.tokenLongString true
    else Run.finish tokenType.tokenSymbolQuoted true
  else if c = 43 then do
    let ok ← Run.isInf c
    if ok then Run.finish tokenType.tokenFloatInf false
    else do
      Run.unread c
      Run.finish tokenType.tokenSymbolOperator true
  else if c = 45 then do
    let c2 ← Run.peek
    if isDigit c2 then do
      let _ ← Run.read
      let tt ← Run.scanForNumericType c2
      if tt = tokenType.tokenTimestamp then Run.fail (invalidChar c2)
      else do
        Run.unread c2
        Run.unread c
        Run.finish tt true
    else do
      let ok ← Run.isInf c
      if ok then Run.finish tokenType.tokenFloatMinusInf false
      else do
        Run.unread c
        Run.finish tokenType.tokenSymbolOperator true
  else if isOperatorChar c then do
    Run.unread c
    Run.finish tokenType.tokenSymbolOperator true
  else if c = 34 then Run.finish tokenType.tokenString true
  else if isIdentifierStart c then do
    Run.unread c
    Run.finish tokenType.tokenSymbol true
  else if isDigit c then do
    let tt ← Run.scanForNumericType c
    Run.unread c
    Run.finish tt true
  else Run.fail (invalidChar c)

/-- The calls of the tokenizer's interface: `Next`, `ReadValue` for a token kind,
`ReadNumber`, and the three lob readers. -/
inductive Call
  | next
  | readValue (tok : tokenType)
  | readNumber
  | readBlob
  | readShortClob
  | readLongClob
  deriving DecidableEq, Repr

/-- A call of the interface as Go runs it, the value it returns left aside.  The
loops of the model make at most `fuel` iterations each, and a loop that would make
more ends with the error `outOfFuel`, which is no error of the program. -/
def Call.run (fuel : Nat) : Call → TokM Unit
  | .next => Run.Next fuel
  | .readValue tok => do
    let _ ← Run.ReadValue fuel tok
    pure ()
  | .readNumber => do
    let _ ← Run.ReadNumber fuel
    pure ()
  | .readBlob => do
    let _ ← Run.ReadBlob fuel
    pure ()
  | .readShortClob => do
    let _ ← Run.ReadShortClob fuel
    pure ()
  | .readLongClob => do
    let _ ← Run.ReadLongClob fuel
    pure ()

/-- The tokenizer after a call, whether it returned a value or an error. -/
def Call.after (fuel : Nat) (call : Call) (t : tokenizer) : tokenizer := (call.run fuel t).2

/-- The tokenizer after the calls of a list, made one after the other. -/
def Call.afterAll (fuel : Nat) (calls : List Call) (t : tokenizer) : tokenizer :=
  calls.foldl (fun s call => call.after fuel s) t

/-- The states a tokenizer goes through: a fresh tokenizer on any input, and the
state after any call of the interface, whether it returns a value or an error, for
any iteration bound.  A call of the program that returns makes finitely many
iterations, and is the call of the model for every bound above their number: a call
that does not run out of iterations has the same outcome for every larger bound
(`Below.call_fuel`). -/
inductive Reaches : tokenizer → Prop
  | fresh (bs : List Nat) : Reaches (tokenizeBytes bs)
  | call (t : tokenizer) (fuel : Nat) (call : Call) : Reaches t → Reaches (call.after fuel t)

/-- The result `r` of a call leaves at most `b` entries in the pushback buffer if a
value was returned, and at most 6 in case of an error. -/
def within {α : Type} (b : Nat) (r : Except Error α × tokenizer) : Prop :=
  match r with
  | (.ok _, t) => t.buffer.length ≤ b
  | (.error _, t) => t.buffer.length ≤ 6

/-- Started with at most `a` entries in the pushback buffer, the method `m` leaves at
most `b` when it returns a value and at most 6 when it returns an error. -/
structure Bounded {α : Type} (m : TokM α) (a b : Nat) : Prop where
  le : ∀ t : tokenizer, t.buffer.length ≤ a → within b (m t)

/-- The method `m2` does what `m1` does, wherever `m1` does not run out of
iterations. -/
structure Below {α : Type} (m1 m2 : TokM α) : Prop where
  eq : ∀ t : tokenizer, (m1 t).1 ≠ .error Error.outOfFuel → m2 t = m1 t

end Ion

namespace Ion

/-! ## Lemmas on the primitive operations -/

@[simp] theorem hd_nil : hd [] = -1 := rfl

@[simp] theorem hd_cons (c : Int) (s : List Int) : hd (c :: s) = c := rfl

theorem normalize_crlf (cs : List Nat) : normalize (13 :: 10 :: cs) = 10 :: normalize cs := by
  rw [normalize]

theorem normalize_cr (cs : List Nat) (h : ∀ cs2, cs ≠ 10 :: cs2) :
    normalize (13 :: cs) = 10 :: normalize cs := by
  rw [normalize]
  · simp
  · intro cs2 _ h2; exact h cs2 h2

theorem normalize_other (c : Nat) (cs : List Nat) (h : c ≠ 13) :
    normalize (c :: cs) = Int.ofNat c :: normalize cs := by
  rw [normalize]
  · simp [h]
  · intro cs2 h2; exact absurd h2 h

theorem normalize_length_le (bs : List Nat) : (normalize bs).length ≤ bs.length := by
  induction bs using normalize.induct with
  | case1 => simp [normalize]
  | case2 cs ih => simp [normalize]; omega
  | case3 c cs h ih =>
    by_cases h13 : c = 13
    · subst h13
      rw [normalize_cr cs (fun cs2 h2 => h cs2 rfl h2)]; simp; omega
    · rw [normalize_other c cs h13]; simp; omega

theorem upcoming_length_le (t : tokenizer) : t.upcoming.length ≤ t.size := by
  have := normalize_length_le t.inp
  simp [tokenizer.upcoming, tokenizer.size]; omega

theorem read_fst (t : tokenizer) : t.read.1 = hd t.upcoming := by
  unfold tokenizer.read tokenizer.upcoming
  cases hb : t.buffer with
  | cons c rest => simp
  | nil =>
    cases hi : t.inp with
    | nil => simp [normalize]
    | cons c cs =>
      by_cases h13 : c = 13
      · subst h13
        cases cs with
        | nil => simp [normalize]
        | cons d ds =>
          by_cases h10 : d = 10
          · subst h10; simp [normalize]
          · rw [normalize_cr _ (by intro cs2 h2; simp at h2; exact h10 h2.1)]
            cases d with
            | zero => simp
            | succ d => 
              simp 
              split <;> simp_all
      · simp [normalize_other c cs h13, h13]

theorem read_upcoming (t : tokenizer) : t.read.2.upcoming = t.upcoming.tail := by
  unfold tokenizer.read tokenizer.upcoming
  cases hb : t.buffer with
  | cons c rest => simp
  | nil =>
    cases hi : t.inp with
    | nil => simp [normalize, hb, hi]
    | cons c cs =>
      by_cases h13 : c = 13
      · subst h13
        cases cs with
        | nil => simp [normalize, hb]
        | cons d ds =>
          by_cases h10 : d = 10
          · subst h10; simp [normalize, hb]
          · rw [normalize_cr _ (by intro cs2 h2; simp at h2; exact h10 h2.1)]
            simp 
            split <;> simp_all
      · simp [normalize_other c cs h13, h13, hb]

theorem read_size (t : tokenizer) : t.read.2.size ≤ t.size - 1 := by
  unfold tokenizer.read tokenizer.size
  cases hb : t.buffer with
  | cons c rest => simp
  | nil =>
    cases hi : t.inp with
    | nil => simp [hb, hi]
    | cons c cs =>
      by_cases h13 : c = 13
      · subst h13
        cases cs with
        | nil => simp [hb]
        | cons d ds =>
          simp
          split <;> simp_all
      · simp [h13, hb]

theorem unread_upcoming (t : tokenizer) (c : Int) : (t.unread c).upcoming = c :: t.upcoming := by
  simp [tokenizer.unread, tokenizer.upcoming]

/-! ## Digit runs -/

theorem readRadixDigitsLoop_eq (dok : Int → Bool) (hdok : dok (-1) = false) :
    ∀ (s : List Int) (fuel : Nat) (t : tokenizer) (w : List Int),
      t.upcoming = s → s.length < fuel →
      ∃ t2, tokenizer.readRadixDigitsLoop dok fuel t w
          = .ok ((scanDigits dok s).2.1, w ++ (scanDigits dok s).1, t2)
        ∧ t2.upcoming = (scanDigits dok s).2.2 := by
  intro s
  induction s with
  | nil =>
    intro fuel t w hs hf
    obtain ⟨k, rfl⟩ : ∃ k, fuel = k + 1 := ⟨fuel - 1, by simp at hf; omega⟩
    have h1 := read_fst t
    have h2 := read_upcoming t
    rw [hs] at h1 h2
    simp at h1 h2
    refine ⟨t.read.2, ?_, by simpa [scanDigits] using h2⟩
    simp [tokenizer.readRadixDigitsLoop, h1, hdok, scanDigits]
  | cons c s ih =>
    intro fuel t w hs hf
    obtain ⟨k, rfl⟩ : ∃ k, fuel = k + 1 := ⟨fuel - 1, by simp at hf; omega⟩
    have h1 := read_fst t
    have h2 := read_upcoming t
    rw [hs] at h1 h2
    simp at h1 h2
    have hk : s.length < k := by simp at hf; omega
    by_cases h95 : c = 95
    · obtain ⟨t2, e, u⟩ := ih k t.read.2 w h2 hk
      exact ⟨t2, by simp [tokenizer.readRadixDigitsLoop, h1, h95, scanDigits, e], by simpa [scanDigits, h95] using u⟩
    · by_cases hdc : dok c = true
      · obtain ⟨t2, e, u⟩ := ih k t.read.2 (w ++ [byte c]) h2 hk
        exact ⟨t2, by simp [tokenizer.readRadixDigitsLoop, h1, h95, scanDigits, e, hdc],
          by simpa [scanDigits, h95, hdc] using u⟩
      · exact ⟨t.read.2, by simp [tokenizer.readRadixDigitsLoop, h1, h95, scanDigits, hdc],
          by simpa [scanDigits, h95, hdc] using h2⟩

theorem readRadixDigits_eq (dok : Int → Bool) (hdok : dok (-1) = false) (t : tokenizer)
    (w : List Int) :
    ∃ t2, t.readRadixDigits dok w
        = .ok ((scanDigits dok t.upcoming).2.1, w ++ (scanDigits dok t.upcoming).1, t2)
      ∧ t2.upcoming = (scanDigits dok t.upcoming).2.2 := by
  have := upcoming_length_le t
  exact readRadixDigitsLoop_eq dok hdok t.upcoming (t.size + 1) t w rfl (by omega)


theorem isDigit_eof : isDigit (-1) = false := by decide

theorem readDigits_eq (t : tokenizer) (c : Int) (w : List Int) :
    ∃ t2, t.readDigits c w
        = .ok ((scanDigitsFrom c t.upcoming).2.1, w ++ (scanDigitsFrom c t.upcoming).1, t2)
      ∧ t2.upcoming = (scanDigitsFrom c t.upcoming).2.2 := by
  unfold tokenizer.readDigits scanDigitsFrom
  by_cases hdc : isDigit c = true
  · obtain ⟨t2, e, u⟩ := readRadixDigits_eq isDigit isDigit_eof t (w ++ [byte c])
    exact ⟨t2, by simp [hdc, e], by simpa [hdc] using u⟩
  · exact ⟨t, by simp [hdc], by simp [hdc]⟩

theorem readExponent_eq (t : tokenizer) (w : List Int) :
    ∃ t2, t.readExponent w
        = .ok ((scanExponent t.upcoming).2.1, w ++ (scanExponent t.upcoming).1, t2)
      ∧ t2.upcoming = (scanExponent t.upcoming).2.2 := by
  unfold tokenizer.readExponent scanExponent
  have h1 := read_fst t
  have h2 := read_upcoming t
  have h3 := read_fst t.read.2
  have h4 := read_upcoming t.read.2
  rw [h2] at h3 h4
  by_cases hs : hd t.upcoming = 43 ∨ hd t.upcoming = 45
  · obtain ⟨t2, e, u⟩ := readDigits_eq t.read.2.read.2 t.read.2.read.1 (w ++ [byte t.read.1])
    rw [h4, h3, h1] at e
    rw [h4, h3] at u
    refine ⟨t2, ?_, ?_⟩
    · simp only [h1, hs, if_true, h3]
      simpa using e
    · simp only [hs, if_true]
      exact u
  · obtain ⟨t2, e, u⟩ := readDigits_eq t.read.2 t.read.1 w
    rw [h2, h1] at e
    rw [h2, h1] at u
    refine ⟨t2, ?_, ?_⟩
    · simp only [h1, hs, if_false]
      simpa using e
    · simp only [hs, if_false]
      exact u


theorem peek_fst (t : tokenizer) : t.peek.1 = hd t.upcoming := by
  unfold tokenizer.peek
  cases hb : t.buffer with
  | cons c rest => simp [tokenizer.upcoming, hb]
  | nil => simpa using read_fst t

theorem peek_upcoming (t : tokenizer) :
    t.peek.2.upcoming = if t.upcoming = [] then [-1] else t.upcoming := by
  unfold tokenizer.peek
  cases hb : t.buffer with
  | cons c rest => simp [tokenizer.upcoming, hb]
  | nil =>
    have h1 := read_fst t
    have h2 := read_upcoming t
    simp only [unread_upcoming, h1, h2]
    cases t.upcoming <;> simp

theorem isStopChar_slash : isStopChar 47 = false := by decide

theorem isStopChar_fst (t : tokenizer) (c : Int) :
    (t.isStopChar c).1 = (isStopChar c
      || (decide (c = 47) && (decide (hd t.upcoming = 47) || decide (hd t.upcoming = 42)))) := by
  unfold tokenizer.isStopChar
  have h1 := peek_fst t
  by_cases hs : isStopChar c = true
  · simp [hs]
  · by_cases h47 : c = 47
    · subst h47
      by_cases hc : hd t.upcoming = 47 ∨ hd t.upcoming = 42
      · simp only [isStopChar_slash, h1, hc]; rcases hc with hc | hc <;> simp [hc]
      · simp only [isStopChar_slash, h1, hc]
        simp only [not_or] at hc
        simp [hc.1, hc.2]
    · simp [hs, h47]

theorem isStopChar_upcoming (t : tokenizer) (c : Int) (h : (t.isStopChar c).1 = true) :
    (t.isStopChar c).2.upcoming = t.upcoming := by
  have h1 := peek_fst t
  have h2 := peek_upcoming t
  unfold tokenizer.isStopChar at h ⊢
  by_cases hs : isStopChar c = true
  · simp [hs]
  · by_cases h47 : c = 47
    · subst h47
      by_cases hc : t.peek.1 = 47 ∨ t.peek.1 = 42
      · simp only [isStopChar_slash, hc, if_true]
        simp only [Bool.false_eq_true, if_false]
        rw [h2]
        have : t.upcoming ≠ [] := by
          intro hn
          rw [h1, hn] at hc
          simp at hc
        simp [this]
      · simp [isStopChar_slash, hc] at h
    · simp [hs, h47] at h


/-! ## `ReadNumber` against its reference function -/

theorem ReadNumber_stages (t : tokenizer) :
    t.ReadNumber =
      if t.read.1 = 45 then t.read.2.read.2.readNumberInt t.read.2.read.1 [45]
      else t.read.2.readNumberInt t.read.1 [] := by
  unfold tokenizer.ReadNumber tokenizer.readNumberInt tokenizer.readNumberFrac
    tokenizer.readNumberExp tokenizer.readNumberEnd
  generalize t.read = r
  obtain ⟨c0, t0⟩ := r
  by_cases h : c0 = 45
  · simp only [h, if_true]
  · simp only [h, if_false]

theorem readNumberEnd_refines (t : tokenizer) (c : Int) (w : List Int) (tt : IonType) :
    Refines (t.readNumberEnd c w tt) (scanNumberEnd w tt c t.upcoming) := by
  have h1 := isStopChar_fst t c
  have h2 := isStopChar_upcoming t c
  unfold tokenizer.readNumberEnd scanNumberEnd
  by_cases hs : isStopChar c = true ∨ (c = 47 ∧ (hd t.upcoming = 47 ∨ hd t.upcoming = 42))
  · have hok : (t.isStopChar c).1 = true := by
      rw [h1]
      rcases hs with hs | ⟨h47, hs | hs⟩
      · simp [hs]
      · simp [hs, h47]
      · simp [hs, h47]
    rw [if_pos hs]
    refine ⟨(t.isStopChar c).2.unread c, ?_, by rw [unread_upcoming, h2 hok]⟩
    simp [hok, bind, Except.bind, pure, Except.pure]
  · have hok : (t.isStopChar c).1 = false := by
      rw [h1]
      simp only [not_or, not_and] at hs
      by_cases h47 : c = 47
      · have := hs.2 h47
        simp [hs.1, this.1, this.2]
      · simp [hs.1, h47]
    rw [if_neg hs]
    simp [Refines, hok, bind, Except.bind, throw, throwThe, MonadExceptOf.throw]

theorem readNumberExp_refines (t : tokenizer) (c : Int) (w : List Int) (tt : IonType) :
    Refines (t.readNumberExp c w tt) (scanNumberExp w tt c t.upcoming) := by
  obtain ⟨t2, e, u⟩ := readExponent_eq t (w ++ [byte c])
  unfold tokenizer.readNumberExp scanNumberExp
  by_cases h1 : c = 101 ∨ c = 69
  · have := readNumberEnd_refines t2 (scanExponent t.upcoming).2.1
      (w ++ [byte c] ++ (scanExponent t.upcoming).1) IonType.FloatType
    rw [u] at this
    simpa [h1, e, bind, Except.bind, pure, Except.pure] using this
  · by_cases h2 : c = 100 ∨ c = 68
    · have := readNumberEnd_refines t2 (scanExponent t.upcoming).2.1
        (w ++ [byte c] ++ (scanExponent t.upcoming).1) IonType.DecimalType
      rw [u] at this
      simpa [h1, h2, e, bind, Except.bind, pure, Except.pure] using this
    · have := readNumberEnd_refines t c w tt
      simpa [h1, h2, bind, Except.bind, pure, Except.pure] using this

theorem readNumberFrac_refines (t : tokenizer) (c : Int) (w : List Int) :
    Refines (t.readNumberFrac c w) (scanNumberFrac w c t.upcoming) := by
  unfold tokenizer.readNumberFrac scanNumberFrac
  by_cases h1 : c = 46
  · obtain ⟨t2, e, u⟩ := readDigits_eq t.read.2 t.read.1 (w ++ [46])
    rw [read_upcoming, read_fst] at u e
    have := readNumberExp_refines t2 (scanDigitsFrom (hd t.upcoming) t.upcoming.tail).2.1
      (w ++ [46] ++ (scanDigitsFrom (hd t.upcoming) t.upcoming.tail).1) IonType.DecimalType
    rw [u] at this
    simpa [h1, e, read_fst, bind, Except.bind, pure, Except.pure] using this
  · have := readNumberExp_refines t c w IonType.IntType
    simpa [h1, bind, Except.bind, pure, Except.pure] using this

theorem readNumberInt_refines (t : tokenizer) (c : Int) (w : List Int) :
    Refines (t.readNumberInt c w) (scanNumberInt w c t.upcoming) := by
  obtain ⟨t2, e, u⟩ := readDigits_eq t c w
  unfold tokenizer.readNumberInt scanNumberInt
  by_cases h1 : c = 48 ∧ (scanDigitsFrom c t.upcoming).1.length > 1
  · rw [if_pos h1]
    obtain ⟨rfl, h2⟩ := h1
    simp [Refines, e, bind, Except.bind, throw, throwThe, MonadExceptOf.throw]
    omega
  · rw [if_neg h1]
    have := readNumberFrac_refines t2 (scanDigitsFrom c t.upcoming).2.1
      (w ++ (scanDigitsFrom c t.upcoming).1)
    rw [u] at this
    have h3 : ¬ (c = 48 ∧ 1 < (scanDigitsFrom c t.upcoming).1.length) := h1
    simpa [e, h3, bind, Except.bind, pure, Except.pure] using this

theorem ReadNumber_refines (t : tokenizer) : Refines t.ReadNumber (scanNumber t.upcoming) := by
  rw [ReadNumber_stages]
  unfold scanNumber
  rw [read_fst]
  by_cases h : hd t.upcoming = 45
  · have := readNumberInt_refines t.read.2.read.2 t.read.2.read.1 [45]
    rw [read_upcoming, read_upcoming] at this
    simpa [h, read_fst, read_upcoming] using this
  · have := readNumberInt_refines t.read.2 t.read.1 []
    rw [read_upcoming] at this
    simpa [h, read_fst] using this


/-! ## `readRadix` against its reference function -/

theorem readRadix_stages (t : tokenizer) (pok dok : Int → Bool) :
    t.readRadix pok dok =
      if t.read.1 = 45 then t.read.2.read.2.readRadixBody pok dok t.read.2.read.1 [45]
      else t.read.2.readRadixBody pok dok t.read.1 [] := by
  unfold tokenizer.readRadix tokenizer.readRadixBody
  generalize t.read = r
  obtain ⟨c0, t0⟩ := r
  by_cases h : c0 = 45
  · simp only [h, if_true]
  · simp only [h, if_false]

theorem stopCheck_true (t : tokenizer) (c : Int)
    (h : isStopChar c = true ∨ (c = 47 ∧ (hd t.upcoming = 47 ∨ hd t.upcoming = 42))) :
    (t.isStopChar c).1 = true ∧ ((t.isStopChar c).2.unread c).upcoming = c :: t.upcoming := by
  have h1 := isStopChar_fst t c
  have hok : (t.isStopChar c).1 = true := by
    rw [h1]
    rcases h with hs | ⟨h47, hs | hs⟩
    · simp [hs]
    · simp [hs, h47]
    · simp [hs, h47]
  exact ⟨hok, by rw [unread_upcoming, isStopChar_upcoming t c hok]⟩

theorem stopCheck_false (t : tokenizer) (c : Int)
    (h : ¬ (isStopChar c = true ∨ (c = 47 ∧ (hd t.upcoming = 47 ∨ hd t.upcoming = 42)))) :
    (t.isStopChar c).1 = false := by
  rw [isStopChar_fst t c]
  simp only [not_or, not_and] at h
  by_cases h47 : c = 47
  · have := h.2 h47
    simp [h.1, this.1, this.2]
  · simp [h.1, h47]

theorem readRadixBody_refines (t : tokenizer) (pok dok : Int → Bool) (hdok : dok (-1) = false)
    (c : Int) (w : List Int) :
    RefinesText (t.readRadixBody pok dok c w)
      (if c ≠ 48 then .error (invalidChar c)
       else if !pok (hd t.upcoming) then .error (invalidChar (hd t.upcoming))
       else if isStopChar (scanDigits dok t.upcoming.tail).2.1
            ∨ ((scanDigits dok t.upcoming.tail).2.1 = 47
              ∧ (hd (scanDigits dok t.upcoming.tail).2.2 = 47
                ∨ hd (scanDigits dok t.upcoming.tail).2.2 = 42)) then
         .ok (w ++ [48, byte (hd t.upcoming)] ++ (scanDigits dok t.upcoming.tail).1,
           (scanDigits dok t.upcoming.tail).2.1, (scanDigits dok t.upcoming.tail).2.2)
       else .error (invalidChar (scanDigits dok t.upcoming.tail).2.1)) := by
  unfold tokenizer.readRadixBody
  by_cases h48 : c = 48
  · by_cases hp : pok (hd t.upcoming) = true
    · obtain ⟨t3, e, u⟩ := readRadixDigits_eq dok hdok t.read.2 (w ++ [48, byte t.read.1])
      rw [read_upcoming] at u
      rw [read_upcoming, read_fst] at e
      by_cases hs : isStopChar (scanDigits dok t.upcoming.tail).2.1 = true
            ∨ ((scanDigits dok t.upcoming.tail).2.1 = 47
              ∧ (hd (scanDigits dok t.upcoming.tail).2.2 = 47
                ∨ hd (scanDigits dok t.upcoming.tail).2.2 = 42))
      · have hs2 := hs
        rw [← u] at hs2
        obtain ⟨hok, hu⟩ := stopCheck_true t3 _ hs2
        rw [u] at hu
        simp only [h48, hp, hs, RefinesText]
        refine ⟨(t3.isStopChar (scanDigits dok t.upcoming.tail).2.1).2.unread
          (scanDigits dok t.upcoming.tail).2.1, ?_, hu⟩
        simp [read_fst, hp, e, hok, bind, Except.bind, pure, Except.pure]
      · have hs2 := hs
        rw [← u] at hs2
        have hok := stopCheck_false t3 _ hs2
        simp only [h48, hp, hs, RefinesText]
        simp [read_fst, hp, e, hok, bind, Except.bind, pure, Except.pure, throw, throwThe,
          MonadExceptOf.throw]
    · simp [RefinesText, h48, hp, read_fst, bind, Except.bind, throw, throwThe,
        MonadExceptOf.throw, pure, Except.pure]
  · simp [RefinesText, h48, bind, Except.bind, throw, throwThe, MonadExceptOf.throw]

theorem readRadix_refines (t : tokenizer) (pok dok : Int → Bool) (hdok : dok (-1) = false) :
    RefinesText (t.readRadix pok dok) (scanRadix pok dok t.upcoming) := by
  rw [readRadix_stages]
  unfold scanRadix
  rw [read_fst]
  by_cases h : hd t.upcoming = 45
  · have := readRadixBody_refines t.read.2.read.2 pok dok hdok t.read.2.read.1 [45]
    rw [read_upcoming, read_upcoming] at this
    simpa [h, read_fst, read_upcoming] using this
  · have := readRadixBody_refines t.read.2 pok dok hdok t.read.1 []
    rw [read_upcoming, read_fst] at this
    cases hu : t.upcoming with
    | nil => simp [hu] at this ⊢; simpa [h] using this
    | cons a s => 
      rw [hu] at this h
      simp at this h ⊢
      simpa [h] using this


/-! ## Integer literals -/

theorem isStopChar_facts (z : Int) (h : isStopChar z = true) :
    z ≠ 95 ∧ isDigit z = false ∧ isHexDigit z = false ∧ isBinaryDigit z = false
      ∧ z ≠ 46 ∧ z ≠ 101 ∧ z ≠ 69 ∧ z ≠ 100 ∧ z ≠ 68 := by
  unfold isStopChar at h
  simp only [isDigit, isHexDigit, isBinaryDigit]
  split at h
  · rename_i h1
    have : z = -1 ∨ z = 123 ∨ z = 125 ∨ z = 91 ∨ z = 93 ∨ z = 40 ∨ z = 41 ∨ z = 44 ∨ z = 34
      ∨ z = 39 := h1
    rcases this with h | h | h | h | h | h | h | h | h | h <;> subst h <;> decide
  · split at h
    · rename_i h1
      rcases h1 with h | h | h | h <;> subst h <;> decide
    · simp at h

theorem byte_isDigit (c : Int) (h : isDigit c = true) : byte c = c := by
  simp [isDigit] at h
  unfold byte
  omega

theorem byte_isBinaryDigit (c : Int) (h : isBinaryDigit c = true) : byte c = c := by
  simp [isBinaryDigit] at h
  unfold byte
  omega

theorem byte_isHexDigit (c : Int) (h : isHexDigit c = true) : byte c = c := by
  unfold isHexDigit at h
  unfold byte
  by_cases hd1 : isDigit c = true
  · simp [isDigit] at hd1; omega
  · simp only [hd1] at h
    by_cases h2 : 97 ≤ c ∧ c ≤ 102
    · omega
    · by_cases h3 : 65 ≤ c ∧ c ≤ 70
      · omega
      · simp [h2, h3] at h

theorem scanDigits_wellSeparated (dok : Int → Bool) (hbyte : ∀ c, dok c = true → byte c = c)
    (rest : List Int) (hterm : dok (hd rest) = false) (h95 : hd rest ≠ 95) :
    ∀ (body : List Int) (prev : Bool), wellSeparated dok prev body = true →
      scanDigits dok (body ++ rest) = (dropUnderscores body, hd rest, rest.tail) := by
  intro body
  induction body with
  | nil =>
    intro prev _
    cases rest with
    | nil => simp [scanDigits, dropUnderscores]
    | cons c s =>
      simp only [hd_cons] at hterm h95
      simp [scanDigits, dropUnderscores, hterm, h95]
  | cons c s ih =>
    intro prev hw
    by_cases hc : c = 95
    · subst hc
      simp only [wellSeparated, if_true, Bool.and_eq_true] at hw
      have := ih false hw.2
      simp [scanDigits, dropUnderscores] at this ⊢
      exact this
    · simp only [wellSeparated, hc, if_false, Bool.and_eq_true] at hw
      have := ih true hw.2
      simp only [dropUnderscores] at this
      simp [scanDigits, dropUnderscores, hc, hw.1, this, hbyte c hw.1]

theorem radixValue_fold (radix : Int) (s : List Int) :
    ∀ acc : Int,
      (dropUnderscores s).foldl (fun acc c =>
        if c = 95 then acc
        else match fromHex c with
          | .ok d => acc * radix + d
          | .error _ => acc) acc
      = s.foldl (fun acc c =>
        if c = 95 then acc
        else match fromHex c with
          | .ok d => acc * radix + d
          | .error _ => acc) acc := by
  induction s with
  | nil => intro acc; rfl
  | cons c s ih =>
    intro acc
    by_cases hc : c = 95
    · simp [dropUnderscores, hc] at ih ⊢
      exact ih acc
    · simp [dropUnderscores, hc] at ih ⊢
      exact ih _

theorem radixValue_dropUnderscores (radix : Int) (s : List Int) :
    radixValue radix (dropUnderscores s) = radixValue radix s :=
  radixValue_fold radix s 0


theorem scanNumberInt_integer (w : List Int) (c : Int) (body rest : List Int)
    (hc : isDigit c = true) (hw : wellSeparated isDigit true body = true)
    (hz : c = 48 → body = []) (hstop : isStopChar (hd rest) = true) :
    scanNumberInt w c (body ++ rest)
      = .ok (w ++ c :: dropUnderscores body, IonType.IntType, hd rest, rest.tail) := by
  obtain ⟨h95, hdig, _, _, h46, h101, h69, h100, h68⟩ := isStopChar_facts _ hstop
  have hs := scanDigits_wellSeparated isDigit byte_isDigit rest hdig h95 body true hw
  have hf : scanDigitsFrom c (body ++ rest) = (c :: dropUnderscores body, hd rest, rest.tail) := by
    simp [scanDigitsFrom, hc, hs, byte_isDigit c hc]
  have hlen : ¬ (c = 48 ∧ (c :: dropUnderscores body).length > 1) := by
    rintro ⟨h48, hl⟩
    rw [hz h48] at hl
    simp [dropUnderscores] at hl
  unfold scanNumberInt
  rw [hf]
  simp only [hlen, if_false]
  simp [scanNumberFrac, scanNumberExp, scanNumberEnd, h46, h101, h69, h100, h68, hstop]

theorem scanRadix_integer (pok dok : Int → Bool) (hbyte : ∀ c, dok c = true → byte c = c)
    (sign body rest : List Int) (m : Int) (hsign : sign = [] ∨ sign = [45])
    (hm : pok m = true) (hmb : byte m = m)
    (hw : sepDigits dok body = true) (hstop : isStopChar (hd rest) = true)
    (hterm : dok (hd rest) = false) :
    scanRadix pok dok (sign ++ 48 :: m :: body ++ rest)
      = .ok (sign ++ 48 :: m :: dropUnderscores body, hd rest, rest.tail) := by
  obtain ⟨h95, -⟩ := isStopChar_facts _ hstop
  have hs := scanDigits_wellSeparated dok hbyte rest hterm h95 body false hw
  rcases hsign with rfl | rfl
  · simp [scanRadix, hm, hmb, hs, hstop]
  · simp [scanRadix, hm, hmb, hs, hstop]


/-! ## The type of a number -/

theorem NoMarks_nil : NoMarks [] := by simp [NoMarks]

theorem NoMarks_append {a b : List Int} (ha : NoMarks a) (hb : NoMarks b) : NoMarks (a ++ b) := by
  simp only [NoMarks, List.mem_append, not_or] at *
  tauto

theorem NoMarks_cons {c : Int} {b : List Int} (hc : c ≠ 46 ∧ c ≠ 100 ∧ c ≠ 68 ∧ c ≠ 101 ∧ c ≠ 69)
    (hb : NoMarks b) : NoMarks (c :: b) := by
  simp only [NoMarks, List.mem_cons, not_or] at *
  obtain ⟨h1, h2, h3, h4, h5⟩ := hc
  exact ⟨⟨fun h => h1 h.symm, hb.1⟩, ⟨fun h => h2 h.symm, hb.2.1⟩, ⟨fun h => h3 h.symm, hb.2.2.1⟩,
    ⟨fun h => h4 h.symm, hb.2.2.2.1⟩, ⟨fun h => h5 h.symm, hb.2.2.2.2⟩⟩

theorem digit_noMark {c : Int} (h : isDigit c = true) :
    byte c ≠ 46 ∧ byte c ≠ 100 ∧ byte c ≠ 68 ∧ byte c ≠ 101 ∧ byte c ≠ 69 := by
  rw [byte_isDigit c h]
  simp [isDigit] at h
  omega

theorem scanDigits_noMarks (s : List Int) : NoMarks (scanDigits isDigit s).1 := by
  induction s with
  | nil => simp [scanDigits, NoMarks]
  | cons c s ih =>
    by_cases h95 : c = 95
    · simpa [scanDigits, h95] using ih
    · by_cases hc : isDigit c = true
      · simp only [scanDigits, h95, hc, if_false, Bool.not_true, Bool.false_eq_true]
        exact NoMarks_cons (digit_noMark hc) ih
      · simp [scanDigits, h95, hc, NoMarks]

theorem scanDigitsFrom_noMarks (c : Int) (s : List Int) : NoMarks (scanDigitsFrom c s).1 := by
  unfold scanDigitsFrom
  by_cases hc : isDigit c = true
  · simp only [hc, Bool.not_true, Bool.false_eq_true, if_false]
    exact NoMarks_cons (digit_noMark hc) (scanDigits_noMarks s)
  · simp [hc, NoMarks]

theorem scanExponent_noMarks (s : List Int) : NoMarks (scanExponent s).1 := by
  unfold scanExponent
  by_cases h : hd s = 43 ∨ hd s = 45
  · simp only [h, if_true]
    refine NoMarks_cons ?_ (scanDigitsFrom_noMarks _ _)
    rcases h with h | h <;> rw [h] <;> decide
  · simp only [h, if_false]
    exact scanDigitsFrom_noMarks _ _

theorem scanNumberEnd_ok {w : List Int} {tt : IonType} {c : Int} {s : List Int}
    {text : List Int} {tt2 : IonType} {c2 : Int} {rest : List Int}
    (h : scanNumberEnd w tt c s = .ok (text, tt2, c2, rest)) :
    text = w ∧ tt2 = tt ∧ c2 = c ∧ rest = s
      ∧ (isStopChar c = true ∨ (c = 47 ∧ (hd s = 47 ∨ hd s = 42))) := by
  unfold scanNumberEnd at h
  split at h
  · rename_i hs
    simp at h
    exact ⟨h.1.symm, h.2.1.symm, h.2.2.1.symm, h.2.2.2.symm, hs⟩
  · simp at h

theorem scanNumberExp_type {w : List Int} {tt : IonType} {c : Int} {s : List Int}
    {text : List Int} {tt2 : IonType} {c2 : Int} {rest : List Int}
    (hw : 100 ∉ w ∧ 68 ∉ w ∧ 101 ∉ w ∧ 69 ∉ w)
    (htt : (tt = IonType.DecimalType ∧ 46 ∈ w) ∨ (tt = IonType.IntType ∧ 46 ∉ w))
    (h : scanNumberExp w tt c s = .ok (text, tt2, c2, rest)) : TypeByText text tt2 := by
  have hex := scanExponent_noMarks s
  unfold scanNumberExp at h
  by_cases h1 : c = 101 ∨ c = 69
  · rw [if_pos h1] at h
    obtain ⟨rfl, rfl, -⟩ := scanNumberEnd_ok h
    have hb : byte c = c := by rcases h1 with rfl | rfl <;> decide
    simp only [TypeByText, NoMarks, hb, List.mem_append, List.mem_cons] at *
    rcases h1 with rfl | rfl <;> simp
  · rw [if_neg h1] at h
    by_cases h2 : c = 100 ∨ c = 68
    · rw [if_pos h2] at h
      obtain ⟨rfl, rfl, -⟩ := scanNumberEnd_ok h
      have hb : byte c = c := by rcases h2 with rfl | rfl <;> decide
      simp only [TypeByText, NoMarks, hb, List.mem_append, List.mem_cons] at *
      rcases h2 with rfl | rfl <;> simp [hw, hex]
    · rw [if_neg h2] at h
      obtain ⟨rfl, rfl, -⟩ := scanNumberEnd_ok h
      simp only [TypeByText]
      rcases htt with ⟨rfl, h46⟩ | ⟨rfl, h46⟩ <;> simp [hw, h46]


theorem scanNumberFrac_type {w : List Int} {c : Int} {s : List Int}
    {text : List Int} {tt2 : IonType} {c2 : Int} {rest : List Int}
    (hw : NoMarks w)
    (h : scanNumberFrac w c s = .ok (text, tt2, c2, rest)) : TypeByText text tt2 := by
  have hds := scanDigitsFrom_noMarks (hd s) s.tail
  unfold scanNumberFrac at h
  by_cases h1 : c = 46
  · rw [if_pos h1] at h
    refine scanNumberExp_type ?_ (Or.inl ⟨rfl, by simp⟩) h
    simp only [NoMarks, List.mem_append, List.mem_cons] at *
    simp [hw, hds]
  · rw [if_neg h1] at h
    exact scanNumberExp_type ⟨hw.2.1, hw.2.2.1, hw.2.2.2.1, hw.2.2.2.2⟩ (Or.inr ⟨rfl, hw.1⟩) h

theorem scanNumberInt_type {w : List Int} {c : Int} {s : List Int}
    {text : List Int} {tt2 : IonType} {c2 : Int} {rest : List Int}
    (hw : NoMarks w)
    (h : scanNumberInt w c s = .ok (text, tt2, c2, rest)) : TypeByText text tt2 := by
  unfold scanNumberInt at h
  split at h
  · simp at h
  · exact scanNumberFrac_type (NoMarks_append hw (scanDigitsFrom_noMarks c s)) h

theorem scanNumber_type {s : List Int}
    {text : List Int} {tt2 : IonType} {c2 : Int} {rest : List Int}
    (h : scanNumber s = .ok (text, tt2, c2, rest)) : TypeByText text tt2 := by
  unfold scanNumber at h
  split at h
  · exact scanNumberInt_type (NoMarks_cons (by decide) NoMarks_nil) h
  · exact scanNumberInt_type NoMarks_nil h

theorem ReadNumber_ok {t t2 : tokenizer} {text : List Int} {tt : IonType}
    (h : t.ReadNumber = .ok (text, tt, t2)) :
    ∃ c rest, scanNumber t.upcoming = .ok (text, tt, c, rest) ∧ t2.upcoming = c :: rest := by
  have href := ReadNumber_refines t
  cases hp : scanNumber t.upcoming with
  | error e =>
    rw [hp] at href
    simp only [Refines] at href
    rw [href] at h
    cases h
  | ok r =>
    obtain ⟨w, tt1, c, rest⟩ := r
    rw [hp] at href
    obtain ⟨t3, e, u⟩ := href
    rw [e] at h
    injection h with h
    injection h with h1 h
    injection h with h2 h3
    subst h1 h2 h3
    exact ⟨c, rest, rfl, u⟩

theorem scanDigits_length (dok : Int → Bool) (body : List Int)
    (hbody : ∀ c ∈ body, dok c = true ∨ c = 95) (rest : List Int) :
    (body.filter (fun c => decide (c ≠ 95))).length ≤ (scanDigits dok (body ++ rest)).1.length := by
  induction body with
  | nil => simp
  | cons c body ih =>
    have ih2 := ih (fun x hx => hbody x (List.mem_cons_of_mem _ hx))
    by_cases h95 : c = 95
    · simpa [scanDigits, h95] using ih2
    · have hc : dok c = true := by
        rcases hbody c (List.mem_cons_self _ _) with h | h
        · exact h
        · exact absurd h h95
      simpa [scanDigits, h95, hc] using ih2

theorem scanNumberInt_leadingZero (w : List Int) (body rest : List Int)
    (hbody : ∀ c ∈ body, isDigit c = true ∨ c = 95) (hdig : ∃ c ∈ body, isDigit c = true) :
    scanNumberInt w 48 (body ++ rest) = .error Error.leadingZeroes := by
  have hl := scanDigits_length isDigit body hbody rest
  obtain ⟨c, hc, hcd⟩ := hdig
  have hc95 : c ≠ 95 := by
    intro h; subst h; simp [isDigit] at hcd
  have hpos : 0 < (body.filter (fun c => decide (c ≠ 95))).length := by
    apply List.length_pos_of_mem (a := c)
    simp [List.mem_filter, hc, hc95]
  unfold scanNumberInt
  rw [if_pos]
  refine ⟨rfl, ?_⟩
  simp only [scanDigitsFrom]
  have : isDigit 48 = true := by decide
  simp [this]
  omega

theorem scanDigits_isDigit_stop (rest : List Int) (hstop : isStopChar (hd rest) = true) :
    scanDigits isDigit rest = ([], hd rest, rest.tail) := by
  obtain ⟨h95, hdig, -⟩ := isStopChar_facts _ hstop
  simpa [dropUnderscores] using
    scanDigits_wellSeparated isDigit byte_isDigit rest hdig h95 [] true rfl

theorem scanNumber_zero_forms (rest : List Int) (hstop : isStopChar (hd rest) = true) :
    scanNumber (str "0" ++ rest) = .ok (str "0", IonType.IntType, hd rest, rest.tail)
    ∧ scanNumber (str "-0" ++ rest) = .ok (str "-0", IonType.IntType, hd rest, rest.tail)
    ∧ scanNumber (str "0.5" ++ rest) = .ok (str "0.5", IonType.DecimalType, hd rest, rest.tail)
    ∧ scanNumber (str "0d1" ++ rest) = .ok (str "0d1", IonType.DecimalType, hd rest, rest.tail)
    ∧ scanNumber (str "0e0" ++ rest) = .ok (str "0e0", IonType.FloatType, hd rest, rest.tail) := by
  obtain ⟨h95, hdig, -, -, h46, h101, h69, h100, h68⟩ := isStopChar_facts _ hstop
  have hs := scanDigits_isDigit_stop rest hstop
  have e : ∀ s, str s = s.toList.map (fun c => Int.ofNat c.toNat) := fun _ => rfl
  refine ⟨?_, ?_, ?_, ?_, ?_⟩ <;>
    simp [e, scanNumber, scanNumberInt, scanNumberFrac, scanNumberExp, scanNumberEnd,
      scanDigitsFrom, scanExponent, scanDigits, isDigit, byte, hs, hstop, h46, h101, h69, h100, h68]


/-! ## Where `ReadNumber` stops -/

theorem hd_tail_eq (cur : List Int) (h : hd cur ≠ -1) : cur = hd cur :: cur.tail := by
  cases cur with
  | nil => simp at h
  | cons c s => simp

theorem scanDigits_cut (dok : Int → Bool) (hbyte : ∀ c, dok c = true → byte c = c) (s : List Int) :
    ∃ n, n ≤ s.length ∧ (scanDigits dok s).2.1 = hd (s.drop n)
      ∧ (scanDigits dok s).2.2 = (s.drop n).tail
      ∧ (scanDigits dok s).1 = dropUnderscores (s.take n) := by
  induction s with
  | nil => exact ⟨0, by simp [scanDigits, dropUnderscores]⟩
  | cons c s ih =>
    obtain ⟨n, hn, h1, h2, h3⟩ := ih
    by_cases h95 : c = 95
    · refine ⟨n + 1, by simpa using hn, ?_⟩
      simp [scanDigits, h95, h1, h2, h3, dropUnderscores]
    · by_cases hc : dok c = true
      · refine ⟨n + 1, by simpa using hn, ?_⟩
        simp [scanDigits, h95, hc, h1, h2, h3, dropUnderscores, hbyte c hc]
      · exact ⟨0, by simp [scanDigits, h95, hc, dropUnderscores]⟩

theorem scanDigitsFrom_cut (cur : List Int) :
    ∃ n, n ≤ cur.length ∧ (scanDigitsFrom (hd cur) cur.tail).2.1 = hd (cur.drop n)
      ∧ (scanDigitsFrom (hd cur) cur.tail).2.2 = (cur.drop n).tail
      ∧ (scanDigitsFrom (hd cur) cur.tail).1 = dropUnderscores (cur.take n) := by
  cases cur with
  | nil => exact ⟨0, by simp [scanDigitsFrom, isDigit, dropUnderscores]⟩
  | cons c s =>
    by_cases hc : isDigit c = true
    · have h95 : c ≠ 95 := by
        intro h; rw [h] at hc; simp [isDigit] at hc
      obtain ⟨n, hn, h1, h2, h3⟩ := scanDigits_cut isDigit byte_isDigit s
      refine ⟨n + 1, by simpa using hn, ?_⟩
      simp [scanDigitsFrom, hc, h1, h2, h3, dropUnderscores, h95, byte_isDigit _ hc]
    · exact ⟨0, by simp [scanDigitsFrom, hc, dropUnderscores]⟩

theorem scanExponent_cut (s : List Int) :
    ∃ n, n ≤ s.length ∧ (scanExponent s).2.1 = hd (s.drop n)
      ∧ (scanExponent s).2.2 = (s.drop n).tail
      ∧ (scanExponent s).1 = dropUnderscores (s.take n) := by
  by_cases h : hd s = 43 ∨ hd s = 45
  · cases s with
    | nil => simp at h
    | cons c s =>
      simp only [hd_cons] at h
      have hb : byte c = c := by rcases h with rfl | rfl <;> decide
      have h95 : c ≠ 95 := by rcases h with rfl | rfl <;> decide
      obtain ⟨n, hn, h1, h2, h3⟩ := scanDigitsFrom_cut s
      refine ⟨n + 1, by simpa using hn, ?_⟩
      simp [scanExponent, h, h1, h2, h3, dropUnderscores, h95, hb]
  · obtain ⟨n, hn, h1, h2, h3⟩ := scanDigitsFrom_cut s
    exact ⟨n, hn, by simp [scanExponent, h, h1, h2, h3]⟩

theorem NumberSpec_shift (cur w : List Int) (m : Nat) (hm : m ≤ cur.length)
    (r : Except Error (List Int × IonType × Int × List Int))
    (h : NumberSpec (cur.drop m) (w ++ dropUnderscores (cur.take m)) r) : NumberSpec cur w r := by
  cases r with
  | error e =>
    simp only [NumberSpec] at h ⊢
    rcases h with h | ⟨n, hn, h1, h2⟩
    · exact Or.inl h
    · refine Or.inr ⟨m + n, ?_, ?_, ?_⟩
      · simp at hn; omega
      · rw [h1, List.drop_drop]
      · rwa [List.drop_drop] at h2
  | ok v =>
    obtain ⟨text, tt, c, rest⟩ := v
    simp only [NumberSpec] at h ⊢
    obtain ⟨n, hn, h1, h2, h3, h4⟩ := h
    refine ⟨m + n, ?_, ?_, ?_, ?_, h4⟩
    · simp at hn; omega
    · rw [h1, List.drop_drop]
    · rw [h2, List.drop_drop]
    · rw [h3, List.take_add]
      simp [dropUnderscores]

theorem scanNumberEnd_spec (cur w : List Int) (tt : IonType) :
    NumberSpec cur w (scanNumberEnd w tt (hd cur) cur.tail) := by
  unfold scanNumberEnd
  by_cases h : isStopChar (hd cur) = true ∨ (hd cur = 47 ∧ (hd cur.tail = 47 ∨ hd cur.tail = 42))
  · rw [if_pos h]
    exact ⟨0, by simp, by simp, by simp, by simp [dropUnderscores], h⟩
  · rw [if_neg h]
    exact Or.inr ⟨0, by simp, by simp, by simpa [StopOrComment] using h⟩

theorem scanNumberExp_spec (cur w : List Int) (tt : IonType) :
    NumberSpec cur w (scanNumberExp w tt (hd cur) cur.tail) := by
  unfold scanNumberExp
  by_cases h1 : hd cur = 101 ∨ hd cur = 69
  · rw [if_pos h1]
    cases cur with
    | nil => simp at h1
    | cons c s =>
      simp only [hd_cons, List.tail_cons] at h1 ⊢
      have hb : byte c = c := by rcases h1 with rfl | rfl <;> decide
      have h95 : c ≠ 95 := by rcases h1 with rfl | rfl <;> decide
      obtain ⟨n, hn, e1, e2, e3⟩ := scanExponent_cut s
      rw [e1, e2, e3, hb]
      have := scanNumberEnd_spec (s.drop n) (w ++ c :: dropUnderscores (s.take n))
        IonType.FloatType
      apply NumberSpec_shift _ _ (n + 1) (by simpa using hn)
      simpa [dropUnderscores, h95] using this
  · rw [if_neg h1]
    by_cases h2 : hd cur = 100 ∨ hd cur = 68
    · rw [if_pos h2]
      cases cur with
      | nil => simp at h2
      | cons c s =>
        simp only [hd_cons, List.tail_cons] at h2 ⊢
        have hb : byte c = c := by rcases h2 with rfl | rfl <;> decide
        have h95 : c ≠ 95 := by rcases h2 with rfl | rfl <;> decide
        obtain ⟨n, hn, e1, e2, e3⟩ := scanExponent_cut s
        rw [e1, e2, e3, hb]
        have := scanNumberEnd_spec (s.drop n) (w ++ c :: dropUnderscores (s.take n))
          IonType.DecimalType
        apply NumberSpec_shift _ _ (n + 1) (by simpa using hn)
        simpa [dropUnderscores, h95] using this
    · rw [if_neg h2]
      exact scanNumberEnd_spec cur w tt

theorem scanNumberFrac_spec (cur w : List Int) :
    NumberSpec cur w (scanNumberFrac w (hd cur) cur.tail) := by
  unfold scanNumberFrac
  by_cases h1 : hd cur = 46
  · rw [if_pos h1]
    cases cur with
    | nil => simp at h1
    | cons c s =>
      simp only [hd_cons, List.tail_cons] at h1 ⊢
      subst h1
      obtain ⟨n, hn, e1, e2, e3⟩ := scanDigitsFrom_cut s
      rw [e1, e2, e3]
      have := scanNumberExp_spec (s.drop n) (w ++ 46 :: dropUnderscores (s.take n))
        IonType.DecimalType
      apply NumberSpec_shift _ _ (n + 1) (by simpa using hn)
      simpa [dropUnderscores] using this
  · rw [if_neg h1]
    exact scanNumberExp_spec cur w IonType.IntType

theorem scanNumberInt_spec (cur w : List Int) :
    NumberSpec cur w (scanNumberInt w (hd cur) cur.tail) := by
  unfold scanNumberInt
  split
  · exact Or.inl rfl
  · obtain ⟨n, hn, e1, e2, e3⟩ := scanDigitsFrom_cut cur
    rw [e1, e2, e3]
    exact NumberSpec_shift _ _ n hn _ (scanNumberFrac_spec (cur.drop n) _)

theorem scanNumber_spec (s : List Int) : NumberSpec s [] (scanNumber s) := by
  unfold scanNumber
  by_cases h : hd s = 45
  · rw [if_pos h]
    cases s with
    | nil => simp at h
    | cons c s =>
      simp only [hd_cons, List.tail_cons] at h ⊢
      subst h
      apply NumberSpec_shift _ _ 1 (by simp)
      simpa [dropUnderscores] using scanNumberInt_spec s [45]
  · rw [if_neg h]
    exact scanNumberInt_spec s []


theorem reads_eq_readsOf : ∀ (n : Nat) (t : tokenizer), t.reads n = readsOf t.upcoming n := by
  intro n
  induction n with
  | zero => intro t; rfl
  | succ n ih =>
    intro t
    rw [tokenizer.reads, readsOf, ih, read_fst, read_upcoming]

theorem readsOf_restore : ∀ (n : Nat) (up : List Int) (k : Nat),
    readsOf (restore n up) k = readsOf up k := by
  intro n
  induction n with
  | zero => intro up k; rfl
  | succ n ih =>
    intro up k
    cases up with
    | nil =>
      cases k with
      | zero => rfl
      | succ k => simp [restore, readsOf]
    | cons c s =>
      by_cases hc : c = -1
      · simp [restore, hc]
      · cases k with
        | zero => rfl
        | succ k => simp [restore, hc, readsOf, ih]

theorem restore_eq_of_not_eof : ∀ (n : Nat) (up : List Int), peekEOF n up = false →
    restore n up = up := by
  intro n
  induction n with
  | zero => intro up _; rfl
  | succ n ih =>
    intro up h
    cases up with
    | nil => simp [peekEOF] at h
    | cons c s =>
      by_cases hc : c = -1
      · simp [restore, hc]
      · simp only [peekEOF, hc, if_false] at h
        simp [restore, hc, ih s h]

theorem foldr_unread_upcoming (ret : List Int) (t : tokenizer) :
    (ret.foldr (fun c s => s.unread c) t).upcoming = ret ++ t.upcoming := by
  induction ret with
  | nil => rfl
  | cons c ret ih => simp [List.foldr, unread_upcoming, ih]

theorem peekNLoop_eq : ∀ (n : Nat) (t : tokenizer) (ret : List Int),
    (tokenizer.peekNLoop n t ret).1 = ret ++ peekChars n t.upcoming
    ∧ (tokenizer.peekNLoop n t ret).2.1 = peekEOF n t.upcoming
    ∧ peekChars n t.upcoming
        ++ (if peekEOF n t.upcoming then [-1] else [])
        ++ (tokenizer.peekNLoop n t ret).2.2.upcoming = restore n t.upcoming := by
  intro n
  induction n with
  | zero => intro t ret; simp [tokenizer.peekNLoop, peekChars, peekEOF, restore]
  | succ n ih =>
    intro t ret
    have h1 := read_fst t
    have h2 := read_upcoming t
    cases hu : t.upcoming with
    | nil =>
      rw [hu] at h1 h2
      simp at h1 h2
      simp [tokenizer.peekNLoop, h1, h2, peekChars, peekEOF, restore]
    | cons c s =>
      rw [hu] at h1 h2
      simp at h1 h2
      by_cases hc : c = -1
      · simp [tokenizer.peekNLoop, h1, h2, peekChars, peekEOF, restore, hc]
      · obtain ⟨i1, i2, i3⟩ := ih t.read.2 (ret ++ [c])
        rw [h2] at i1 i2 i3
        simp [tokenizer.peekNLoop, h1, peekChars, peekEOF, restore, hc, i1, i2]
        simpa using i3

theorem peekN_eq (t : tokenizer) (n : Nat) :
    (t.peekN n).1 = peekChars n t.upcoming
    ∧ (t.peekN n).2.1 = peekEOF n t.upcoming
    ∧ (t.peekN n).2.2.upcoming = restore n t.upcoming := by
  obtain ⟨h1, h2, h3⟩ := peekNLoop_eq n t []
  simp only [List.nil_append] at h1
  refine ⟨?_, ?_, ?_⟩
  · simp [tokenizer.peekN, h1]
  · simp [tokenizer.peekN, h2]
  · simp only [tokenizer.peekN, foldr_unread_upcoming, h1]
    rw [← h3, h2]
    cases peekEOF n t.upcoming <;> simp [unread_upcoming]


/-! ## Timestamps -/

theorem Next_eq_dispatch (t t1 : tokenizer)
    (skipValue : tokenizer → Except Error (Int × tokenizer))
    (skipWhitespace : tokenizer → Except Error (Int × Bool × tokenizer)) (c : Int)
    (h : FirstSignificant t skipValue skipWhitespace c t1) :
    t.Next skipValue skipWhitespace = t1.dispatch c := by
  unfold tokenizer.Next tokenizer.dispatch
  cases hu : t.unfinished with
  | true =>
    rw [h.1 hu]
    rfl
  | false =>
    obtain ⟨b, hb⟩ := h.2 hu
    rw [hb]
    rfl

theorem digitRun_cons {n : Nat} {d : Int} {ds : List Int} (h : digitRun (n + 1) (d :: ds) = true) :
    isDigit d = true ∧ digitRun n ds = true := by
  simp [digitRun] at h ⊢
  exact ⟨h.2.1, h.1, h.2.2⟩

theorem digitRun_zero {ds : List Int} (h : digitRun 0 ds = true) : ds = [] := by
  simp [digitRun] at h
  exact h.1

theorem digitRun_pos {n : Nat} {ds : List Int} (h : digitRun (n + 1) ds = true) :
    ∃ d ds2, ds = d :: ds2 ∧ isDigit d = true ∧ digitRun n ds2 = true := by
  cases ds with
  | nil => simp [digitRun] at h
  | cons d ds2 => exact ⟨d, ds2, rfl, digitRun_cons h⟩

theorem readTimestampDigits_ok : ∀ (n : Nat) (ds : List Int) (t : tokenizer) (w s : List Int),
    digitRun n ds = true → t.upcoming = ds ++ s →
    ∃ t2, t.readTimestampDigits n w = .ok (hd s, w ++ ds, t2) ∧ t2.upcoming = s.tail := by
  intro n
  induction n with
  | zero =>
    intro ds t w s hd1 hu
    rw [digitRun_zero hd1] at hu ⊢
    simp at hu
    exact ⟨t.read.2, by simp [tokenizer.readTimestampDigits, read_fst, hu],
      by rw [read_upcoming, hu]⟩
  | succ n ih =>
    intro ds t w s hd1 hu
    obtain ⟨d, ds2, rfl, hd2, hd3⟩ := digitRun_pos hd1
    have h1 := read_fst t
    have h2 := read_upcoming t
    rw [hu] at h1 h2
    simp at h1 h2
    obtain ⟨t2, e, u⟩ := ih ds2 t.read.2 (w ++ [byte d]) s hd3 h2
    refine ⟨t2, ?_, u⟩
    rw [byte_isDigit d hd2] at e
    simp [tokenizer.readTimestampDigits, h1, hd2, e, byte_isDigit d hd2]

theorem readTimestampFinish_ok (t : tokenizer) (c : Int) (w : List Int)
    (h : isStopChar c = true) :
    ∃ t2, t.readTimestampFinish c w = .ok (w, t2) ∧ t2.upcoming = c :: t.upcoming := by
  obtain ⟨hok, hu⟩ := stopCheck_true t c (Or.inl h)
  exact ⟨_, by simp [tokenizer.readTimestampFinish, hok], hu⟩

theorem offsetOrZ_Z (t : tokenizer) (w : List Int) :
    t.readTimestampOffsetOrZ 90 w = .ok (hd t.upcoming, w ++ [90], t.read.2) := by
  have hb : byte 90 = 90 := by decide
  simp [tokenizer.readTimestampOffsetOrZ, read_fst, hb]

theorem offset_plus_ok (t : tokenizer) (w oh om s : List Int)
    (hoh : digitRun 2 oh = true) (hom : digitRun 2 om = true)
    (hu : t.upcoming = oh ++ 58 :: om ++ s) :
    ∃ t2, t.readTimestampOffset 43 w = .ok (hd s, w ++ 43 :: oh ++ 58 :: om, t2)
      ∧ t2.upcoming = s.tail := by
  obtain ⟨t2, e2, u2⟩ := readTimestampDigits_ok 2 oh t (w ++ [43]) (58 :: om ++ s) hoh
    (by simpa using hu)
  simp only [hd_cons, List.tail_cons] at e2 u2
  obtain ⟨t3, e3, u3⟩ := readTimestampDigits_ok 2 om t2 (w ++ [43] ++ oh ++ [58]) s hom u2
  refine ⟨t3, ?_, u3⟩
  have hb : byte 43 = 43 := by decide
  simp [tokenizer.readTimestampOffset, bind, Except.bind, hb, e2, pure, Except.pure]
  simpa using e3

theorem digits_wellSeparated : ∀ (ds : List Int), ds.all isDigit = true →
    wellSeparated isDigit true ds = true ∧ dropUnderscores ds = ds := by
  intro ds
  induction ds with
  | nil => intro _; simp [wellSeparated, dropUnderscores]
  | cons d ds ih =>
    intro h
    simp only [List.all_cons, Bool.and_eq_true] at h
    have h95 : d ≠ 95 := by
      intro h2; rw [h2] at h; simp [isDigit] at h
    obtain ⟨i1, i2⟩ := ih h.2
    simp [dropUnderscores] at i2
    simp [wellSeparated, dropUnderscores, h95, h.1, i1]
    exact i2

theorem readDigits_run (t : tokenizer) (w f s : List Int) (z : Int) (n : Nat)
    (hf : digitRun (n + 1) f = true) (hz : isDigit z = false) (hz95 : z ≠ 95)
    (hu : t.upcoming = f ++ z :: s) :
    ∃ t2, t.read.2.readDigits t.read.1 w = .ok (z, w ++ f, t2) ∧ t2.upcoming = s := by
  obtain ⟨d, f2, rfl, hd1, hd2⟩ := digitRun_pos hf
  have hall : f2.all isDigit = true := by
    simp [digitRun] at hd2
    simpa using hd2.2
  obtain ⟨hw, hdu⟩ := digits_wellSeparated f2 hall
  have h1 := read_fst t
  have h2 := read_upcoming t
  rw [hu] at h1 h2
  simp only [List.cons_append, hd_cons, List.tail_cons] at h1 h2
  obtain ⟨t2, e, u⟩ := readDigits_eq t.read.2 t.read.1 w
  have hs := scanDigits_wellSeparated isDigit byte_isDigit (z :: s) hz hz95 f2 true hw
  rw [h1, h2] at e u
  simp only [scanDigitsFrom, hd1, Bool.not_true, Bool.false_eq_true, if_false, hs, hdu,
    hd_cons, List.tail_cons, byte_isDigit d hd1] at e u
  exact ⟨t2, by rw [h1]; simpa using e, u⟩

theorem afterSecond_ok (t : tokenizer) (c : Int) (w x rest : List Int)
    (hx : TsAfterSecond x) (hstop : isStopChar (hd rest) = true)
    (hc : c = hd (x ++ rest)) (hu : t.upcoming = (x ++ rest).tail) :
    ∃ t2, t.readTimestampAfterSecond c w = .ok (w ++ x, t2) := by
  rcases hx with rfl | ⟨f, hf, rfl⟩ | ⟨f, oh, om, hf, hoh, hom, rfl⟩
  · simp only [List.singleton_append, hd_cons, List.tail_cons] at hc hu
    subst hc
    have e1 := offsetOrZ_Z t w
    rw [hu] at e1
    obtain ⟨t2, e2, -⟩ := readTimestampFinish_ok t.read.2 (hd rest) (w ++ [90]) hstop
    exact ⟨t2, by simp [tokenizer.readTimestampAfterSecond, bind, Except.bind, e1, e2, pure,
      Except.pure]⟩
  · simp only [List.cons_append, hd_cons, List.tail_cons, List.append_assoc,
      List.singleton_append] at hc hu
    subst hc
    obtain ⟨t2, e2, u2⟩ := readDigits_run t (w ++ [46]) f rest 90 2 hf (by decide) (by decide) hu
    have e3 := offsetOrZ_Z t2 (w ++ [46] ++ f)
    rw [u2] at e3
    obtain ⟨t4, e4, -⟩ := readTimestampFinish_ok t2.read.2 (hd rest) (w ++ [46] ++ f ++ [90]) hstop
    obtain ⟨d, f2, rfl, hd1, -⟩ := digitRun_pos hf
    have h1 := read_fst t
    rw [hu] at h1
    simp only [List.cons_append, hd_cons] at h1
    refine ⟨t4, ?_⟩
    rw [h1] at e2
    simp at e2 e3 e4
    simp [tokenizer.readTimestampAfterSecond, bind, Except.bind, h1, hd1, e2, e3, e4, pure,
      Except.pure]
  · simp only [List.cons_append, hd_cons, List.tail_cons, List.append_assoc] at hc hu
    subst hc
    obtain ⟨t2, e2, u2⟩ := readDigits_run t (w ++ [46]) f (oh ++ 58 :: (om ++ rest)) 43 2 hf
      (by decide) (by decide) hu
    obtain ⟨t3, e3, u3⟩ := offset_plus_ok t2 (w ++ [46] ++ f) oh om rest hoh hom
      (by simpa using u2)
    obtain ⟨t4, e4, -⟩ := readTimestampFinish_ok t3 (hd rest)
      (w ++ [46] ++ f ++ 43 :: oh ++ 58 :: om) hstop
    obtain ⟨d, f2, rfl, hd1, -⟩ := digitRun_pos hf
    have h1 := read_fst t
    rw [hu] at h1
    simp only [List.cons_append, hd_cons] at h1
    refine ⟨t4, ?_⟩
    rw [h1] at e2
    simp at e2 e3 e4
    simp [tokenizer.readTimestampAfterSecond, bind, Except.bind, h1, hd1, e2, e3, e4,
      tokenizer.readTimestampOffsetOrZ, pure, Except.pure]

theorem afterMinute_ok (t : tokenizer) (c : Int) (w x rest : List Int)
    (hx : TsAfterMinute x) (hstop : isStopChar (hd rest) = true)
    (hc : c = hd (x ++ rest)) (hu : t.upcoming = (x ++ rest).tail) :
    ∃ t2, t.readTimestampAfterMinute c w = .ok (w ++ x, t2) := by
  rcases hx with rfl | ⟨s, x2, hs, hx2, rfl⟩
  · simp only [List.singleton_append, hd_cons, List.tail_cons] at hc hu
    subst hc
    have e1 := offsetOrZ_Z t w
    rw [hu] at e1
    obtain ⟨t2, e2, -⟩ := readTimestampFinish_ok t.read.2 (hd rest) (w ++ [90]) hstop
    exact ⟨t2, by simp [tokenizer.readTimestampAfterMinute, bind, Except.bind, e1, e2, pure,
      Except.pure]⟩
  · simp only [List.cons_append, hd_cons, List.tail_cons, List.append_assoc] at hc hu
    subst hc
    obtain ⟨t2, e2, u2⟩ := readTimestampDigits_ok 2 s t (w ++ [58]) (x2 ++ rest) hs hu
    obtain ⟨t3, e3⟩ := afterSecond_ok t2 (hd (x2 ++ rest)) (w ++ [58] ++ s) x2 rest hx2 hstop
      rfl u2
    refine ⟨t3, ?_⟩
    simp at e2 e3
    simp [tokenizer.readTimestampAfterMinute, bind, Except.bind, e2, e3, pure, Except.pure]

theorem afterDay_ok (t : tokenizer) (c : Int) (w x rest : List Int)
    (hx : TsAfterDay x) (hstop : isStopChar (hd rest) = true)
    (hc : c = hd (x ++ rest)) (hu : t.upcoming = (x ++ rest).tail) :
    ∃ t2, t.readTimestampAfterDay c w = .ok (w ++ x, t2) := by
  obtain ⟨h95, hdig, -, -, h46, -⟩ := isStopChar_facts _ hstop
  rcases hx with rfl | rfl | ⟨h, mi, x2, hh, hmi, hx2, rfl⟩
  · simp only [List.nil_append] at hc hu
    subst hc
    have h84 : hd rest ≠ 84 := by
      intro h; rw [h] at hstop; simp [isStopChar] at hstop
    obtain ⟨t2, e2, -⟩ := readTimestampFinish_ok t (hd rest) w hstop
    exact ⟨t2, by simp [tokenizer.readTimestampAfterDay, bind, Except.bind, h84, e2, pure,
      Except.pure]⟩
  · simp only [List.singleton_append, hd_cons, List.tail_cons] at hc hu
    subst hc
    have h1 := read_fst t
    rw [hu] at h1
    have h45 : hd rest ≠ 45 := by
      intro h; rw [h] at hstop; simp [isStopChar] at hstop
    have h43 : hd rest ≠ 43 := by
      intro h; rw [h] at hstop; simp [isStopChar] at hstop
    obtain ⟨t2, e2, -⟩ := readTimestampFinish_ok t.read.2 (hd rest) (w ++ [84]) hstop
    exact ⟨t2, by simp [tokenizer.readTimestampAfterDay, tokenizer.readTimestampOffset, bind,
      Except.bind, h1, hdig, h45, h43, e2, pure, Except.pure]⟩
  · simp only [List.cons_append, hd_cons, List.tail_cons, List.append_assoc] at hc hu
    subst hc
    obtain ⟨h1d, h2, rfl, hh1, hh2⟩ := digitRun_pos hh
    have r1 := read_fst t
    have r2 := read_upcoming t
    rw [hu] at r1 r2
    simp only [List.cons_append, hd_cons, List.tail_cons] at r1 r2
    obtain ⟨t2, e2, u2⟩ := readTimestampDigits_ok 1 h2 t.read.2 (w ++ [84] ++ [h1d])
      (58 :: (mi ++ (x2 ++ rest))) hh2 r2
    simp only [hd_cons, List.tail_cons] at e2 u2
    obtain ⟨t3, e3, u3⟩ := readTimestampDigits_ok 2 mi t2 (w ++ [84] ++ [h1d] ++ h2 ++ [58])
      (x2 ++ rest) hmi u2
    obtain ⟨t4, e4⟩ := afterMinute_ok t3 (hd (x2 ++ rest)) (w ++ [84] ++ [h1d] ++ h2 ++ [58] ++ mi)
      x2 rest hx2 hstop rfl u3
    refine ⟨t4, ?_⟩
    simp at e2 e3 e4
    simp [tokenizer.readTimestampAfterDay, bind, Except.bind, r1, hh1, byte_isDigit h1d hh1,
      e2, e3, e4, pure, Except.pure]

theorem afterMonth_ok (t : tokenizer) (c : Int) (w x rest : List Int)
    (hx : TsAfterMonth x) (hstop : isStopChar (hd rest) = true)
    (hc : c = hd (x ++ rest)) (hu : t.upcoming = (x ++ rest).tail) :
    ∃ t2, t.readTimestampAfterMonth c w = .ok (w ++ x, t2) := by
  rcases hx with rfl | ⟨d, x2, hd1, hx2, rfl⟩
  · simp only [List.singleton_append, hd_cons] at hc
    subst hc
    exact ⟨t, by simp [tokenizer.readTimestampAfterMonth, pure, Except.pure]⟩
  · simp only [List.cons_append, hd_cons, List.tail_cons, List.append_assoc] at hc hu
    subst hc
    obtain ⟨t2, e2, u2⟩ := readTimestampDigits_ok 2 d t (w ++ [45]) (x2 ++ rest) hd1 hu
    obtain ⟨t3, e3⟩ := afterDay_ok t2 (hd (x2 ++ rest)) (w ++ [45] ++ d) x2 rest hx2 hstop rfl u2
    refine ⟨t3, ?_⟩
    simp at e2 e3
    simp [tokenizer.readTimestampAfterMonth, bind, Except.bind, e2, e3, pure, Except.pure]

theorem afterYear_ok (t : tokenizer) (c : Int) (w x rest : List Int)
    (hx : TsAfterYear x) (hstop : isStopChar (hd rest) = true)
    (hc : c = hd (x ++ rest)) (hu : t.upcoming = (x ++ rest).tail) :
    ∃ t2, t.readTimestampAfterYear c w = .ok (w ++ x, t2) := by
  rcases hx with rfl | ⟨d, x2, hd1, hx2, rfl⟩
  · simp only [List.singleton_append, hd_cons] at hc
    subst hc
    exact ⟨t, by simp [tokenizer.readTimestampAfterYear, pure, Except.pure]⟩
  · simp only [List.cons_append, hd_cons, List.tail_cons, List.append_assoc] at hc hu
    subst hc
    obtain ⟨t2, e2, u2⟩ := readTimestampDigits_ok 2 d t (w ++ [45]) (x2 ++ rest) hd1 hu
    obtain ⟨t3, e3⟩ := afterMonth_ok t2 (hd (x2 ++ rest)) (w ++ [45] ++ d) x2 rest hx2 hstop rfl u2
    refine ⟨t3, ?_⟩
    simp at e2 e3
    simp [tokenizer.readTimestampAfterYear, bind, Except.bind, e2, e3, pure, Except.pure]

theorem readTimestamp_stages (t : tokenizer) :
    t.readTimestamp = (do
      let (c, w, t) ← t.readTimestampDigits 4 []
      t.readTimestampAfterYear c w) := by
  unfold tokenizer.readTimestamp tokenizer.readTimestampAfterYear
    tokenizer.readTimestampAfterMonth tokenizer.readTimestampAfterDay
    tokenizer.readTimestampAfterMinute tokenizer.readTimestampAfterSecond
  rfl

theorem readTimestamp_literal (t : tokenizer) (lit rest : List Int)
    (hlit : TsLiteral lit) (hstop : isStopChar (hd rest) = true)
    (hu : t.upcoming = lit ++ rest) :
    ∃ t2, t.readTimestamp = .ok (lit, t2) := by
  obtain ⟨y, x, hy, hx, rfl⟩ := hlit
  rw [List.append_assoc] at hu
  obtain ⟨t2, e2, u2⟩ := readTimestampDigits_ok 4 y t [] (x ++ rest) hy hu
  obtain ⟨t3, e3⟩ := afterYear_ok t2 (hd (x ++ rest)) ([] ++ y) x rest hx hstop rfl u2
  refine ⟨t3, ?_⟩
  rw [readTimestamp_stages]
  simp at e2 e3
  simp [bind, Except.bind, e2, e3]


theorem sameShape_nil {x : List Int} (h : sameShape x [] = true) : x = [] := by
  cases x with
  | nil => rfl
  | cons a xs => simp [sameShape] at h

theorem sameShape_digit {x : List Int} {p : Int} {ps : List Int} (hp : isDigit p = true)
    (h : sameShape x (p :: ps) = true) :
    ∃ a xs, x = a :: xs ∧ isDigit a = true ∧ sameShape xs ps = true := by
  cases x with
  | nil => simp [sameShape] at h
  | cons a xs =>
    simp only [sameShape, hp, if_true, Bool.and_eq_true] at h
    exact ⟨a, xs, rfl, h.1, h.2⟩

theorem sameShape_char {x : List Int} {p : Int} {ps : List Int} (hp : isDigit p = false)
    (h : sameShape x (p :: ps) = true) :
    ∃ xs, x = p :: xs ∧ sameShape xs ps = true := by
  cases x with
  | nil => simp [sameShape] at h
  | cons a xs =>
    simp only [sameShape, hp, Bool.false_eq_true, if_false, Bool.and_eq_true,
      decide_eq_true_eq] at h
    exact ⟨xs, by rw [h.1], h.2⟩

theorem sameShape_two {x : List Int} {p q : Int} {ps : List Int} (hp : isDigit p = true)
    (hq : isDigit q = true) (h : sameShape x (p :: q :: ps) = true) :
    ∃ ds xs, x = ds ++ xs ∧ digitRun 2 ds = true ∧ sameShape xs ps = true := by
  obtain ⟨a, x1, rfl, ha, h1⟩ := sameShape_digit hp h
  obtain ⟨b, x2, rfl, hb, h2⟩ := sameShape_digit hq h1
  exact ⟨[a, b], x2, rfl, by simp [digitRun, ha, hb], h2⟩

theorem sameShape_three {x : List Int} {p q r : Int} {ps : List Int} (hp : isDigit p = true)
    (hq : isDigit q = true) (hr : isDigit r = true) (h : sameShape x (p :: q :: r :: ps) = true) :
    ∃ ds xs, x = ds ++ xs ∧ digitRun 3 ds = true ∧ sameShape xs ps = true := by
  obtain ⟨a, x1, rfl, ha, h1⟩ := sameShape_digit hp h
  obtain ⟨b, x2, rfl, hb, h2⟩ := sameShape_digit hq h1
  obtain ⟨c, x3, rfl, hc, h3⟩ := sameShape_digit hr h2
  exact ⟨[a, b, c], x3, rfl, by simp [digitRun, ha, hb, hc], h3⟩

theorem covers_second_Z : Covers TsAfterSecond (str "Z") := by
  intro x h
  obtain ⟨x1, rfl, h1⟩ := sameShape_char (p := 90) (by decide) h
  rw [sameShape_nil h1]
  exact Or.inl rfl

theorem covers_second_frac : Covers TsAfterSecond (str ".000Z") := by
  intro x h
  obtain ⟨x1, rfl, h1⟩ := sameShape_char (p := 46) (by decide) h
  obtain ⟨f, x2, rfl, hf, h2⟩ := sameShape_three (by decide) (by decide) (by decide) h1
  obtain ⟨x3, rfl, h3⟩ := sameShape_char (p := 90) (by decide) h2
  rw [sameShape_nil h3]
  exact Or.inr (Or.inl ⟨f, hf, rfl⟩)

theorem covers_second_offset : Covers TsAfterSecond (str ".000+00:00") := by
  intro x h
  obtain ⟨x1, rfl, h1⟩ := sameShape_char (p := 46) (by decide) h
  obtain ⟨f, x2, rfl, hf, h2⟩ := sameShape_three (by decide) (by decide) (by decide) h1
  obtain ⟨x3, rfl, h3⟩ := sameShape_char (p := 43) (by decide) h2
  obtain ⟨oh, x4, rfl, hoh, h4⟩ := sameShape_two (by decide) (by decide) h3
  obtain ⟨x5, rfl, h5⟩ := sameShape_char (p := 58) (by decide) h4
  obtain ⟨om, x6, rfl, hom, h6⟩ := sameShape_two (by decide) (by decide) h5
  rw [sameShape_nil h6]
  exact Or.inr (Or.inr ⟨f, oh, om, hf, hoh, hom, by simp⟩)

theorem covers_minute_Z : Covers TsAfterMinute (str "Z") := by
  intro x h
  obtain ⟨x1, rfl, h1⟩ := sameShape_char (p := 90) (by decide) h
  rw [sameShape_nil h1]
  exact Or.inl rfl

theorem covers_minute_second {form : List Int} (hc : Covers TsAfterSecond form) :
    Covers TsAfterMinute (str ":00" ++ form) := by
  intro x h
  obtain ⟨x1, rfl, h1⟩ := sameShape_char (p := 58) (by decide) h
  obtain ⟨s, x2, rfl, hs, h2⟩ := sameShape_two (by decide) (by decide) h1
  exact Or.inr ⟨s, x2, hs, hc x2 h2, rfl⟩

theorem covers_day_end : Covers TsAfterDay [] := by
  intro x h
  rw [sameShape_nil h]
  exact Or.inl rfl

theorem covers_day_T : Covers TsAfterDay (str "T") := by
  intro x h
  obtain ⟨x1, rfl, h1⟩ := sameShape_char (p := 84) (by decide) h
  rw [sameShape_nil h1]
  exact Or.inr (Or.inl rfl)

theorem covers_day_time {form : List Int} (hc : Covers TsAfterMinute form) :
    Covers TsAfterDay (str "T00:00" ++ form) := by
  intro x h
  obtain ⟨x1, rfl, h1⟩ := sameShape_char (p := 84) (by decide) h
  obtain ⟨hh, x2, rfl, hhh, h2⟩ := sameShape_two (by decide) (by decide) h1
  obtain ⟨x3, rfl, h3⟩ := sameShape_char (p := 58) (by decide) h2
  obtain ⟨mi, x4, rfl, hmi, h4⟩ := sameShape_two (by decide) (by decide) h3
  exact Or.inr (Or.inr ⟨hh, mi, x4, hhh, hmi, hc x4 h4, by simp⟩)

theorem covers_month_T : Covers TsAfterMonth (str "T") := by
  intro x h
  obtain ⟨x1, rfl, h1⟩ := sameShape_char (p := 84) (by decide) h
  rw [sameShape_nil h1]
  exact Or.inl rfl

theorem covers_month_day {form : List Int} (hc : Covers TsAfterDay form) :
    Covers TsAfterMonth (str "-01" ++ form) := by
  intro x h
  obtain ⟨x1, rfl, h1⟩ := sameShape_char (p := 45) (by decide) h
  obtain ⟨d, x2, rfl, hd1, h2⟩ := sameShape_two (by decide) (by decide) h1
  exact Or.inr ⟨d, x2, hd1, hc x2 h2, rfl⟩

theorem covers_year_T : Covers TsAfterYear (str "T") := by
  intro x h
  obtain ⟨x1, rfl, h1⟩ := sameShape_char (p := 84) (by decide) h
  rw [sameShape_nil h1]
  exact Or.inl rfl

theorem covers_year_month {form : List Int} (hc : Covers TsAfterMonth form) :
    Covers TsAfterYear (str "-01" ++ form) := by
  intro x h
  obtain ⟨x1, rfl, h1⟩ := sameShape_char (p := 45) (by decide) h
  obtain ⟨d, x2, rfl, hd1, h2⟩ := sameShape_two (by decide) (by decide) h1
  exact Or.inr ⟨d, x2, hd1, hc x2 h2, rfl⟩

theorem covers_literal {form : List Int} (hc : Covers TsAfterYear form) :
    Covers TsLiteral (str "2001" ++ form) := by
  intro x h
  obtain ⟨y, x2, rfl, hy, h2⟩ := sameShape_two (by decide) (by decide) h
  obtain ⟨y2, x3, rfl, hy2, h3⟩ := sameShape_two (by decide) (by decide) h2
  refine ⟨y ++ y2, x3, ?_, hc x3 h3, by simp⟩
  simp [digitRun] at hy hy2 ⊢
  exact ⟨by omega, hy.2, hy2.2⟩

theorem timestampForms_covered : ∀ form ∈ timestampForms, Covers TsLiteral (str form) := by
  intro form hform
  simp only [timestampForms, List.mem_cons, List.mem_singleton, List.not_mem_nil,
    or_false] at hform
  rcases hform with rfl | rfl | rfl | rfl | rfl | rfl | rfl | rfl
  · exact covers_literal covers_year_T
  · exact covers_literal (covers_year_month covers_month_T)
  · exact covers_literal (covers_year_month (covers_month_day covers_day_end))
  · exact covers_literal (covers_year_month (covers_month_day covers_day_T))
  · exact covers_literal (covers_year_month (covers_month_day (covers_day_time covers_minute_Z)))
  · exact covers_literal (covers_year_month (covers_month_day (covers_day_time
      (covers_minute_second covers_second_Z))))
  · exact covers_literal (covers_year_month (covers_month_day (covers_day_time
      (covers_minute_second covers_second_frac))))
  · exact covers_literal (covers_year_month (covers_month_day (covers_day_time
      (covers_minute_second covers_second_offset))))


/-! ## Dispatch on a digit -/

theorem digit_bounds {c : Int} (h : isDigit c = true) : 48 ≤ c ∧ c ≤ 57 := by
  simpa [isDigit] using h

theorem isOperatorChar_digit {c : Int} (h : isDigit c = true) : isOperatorChar c = false := by
  have hb := digit_bounds h
  unfold isOperatorChar
  rw [if_neg (by omega), if_neg (by omega)]

theorem isIdentifierStart_digit {c : Int} (h : isDigit c = true) :
    isIdentifierStart c = false := by
  have hb := digit_bounds h
  unfold isIdentifierStart
  rw [if_neg (by omega), if_neg (by omega), if_neg (by omega)]

theorem dispatch_digit (t : tokenizer) (c : Int) (h : isDigit c = true) :
    t.dispatch c = (do
      let (tt, t2) ← t.scanForNumericType c
      pure ((t2.unread c).finish tt true)) := by
  have hb := digit_bounds h
  unfold tokenizer.dispatch
  repeat rw [if_neg (by omega)]
  simp only [isOperatorChar_digit h, isIdentifierStart_digit h, h, Bool.false_eq_true, if_false,
    if_true]
  rw [if_neg (by omega)]

theorem scanForNumericType_timestamp (t : tokenizer) (c0 a b c z : Int) (s : List Int)
    (h0 : isDigit c0 = true) (ha : isDigit a = true) (hb : isDigit b = true)
    (hc : isDigit c = true) (hz : z = 45 ∨ z = 84) (hu : t.upcoming = a :: b :: c :: z :: s) :
    ∃ t2, t.scanForNumericType c0 = .ok (tokenType.tokenTimestamp, t2)
      ∧ t2.upcoming = t.upcoming := by
  obtain ⟨p1, p2, p3⟩ := peekN_eq t 4
  have ba := digit_bounds ha
  have bb := digit_bounds hb
  have bc := digit_bounds hc
  have na : a ≠ -1 := by omega
  have nb : b ≠ -1 := by omega
  have nc : c ≠ -1 := by omega
  have nz : z ≠ -1 := by rcases hz with rfl | rfl <;> decide
  have hchars : peekChars 4 t.upcoming = [a, b, c, z] := by
    rw [hu]; simp [peekChars, na, nb, nc, nz]
  have heof : peekEOF 4 t.upcoming = false := by
    rw [hu]; simp [peekEOF, na, nb, nc, nz]
  rw [hchars] at p1
  rw [restore_eq_of_not_eof 4 _ heof] at p3
  refine ⟨(t.peekN 4).2.2, ?_, p3⟩
  unfold tokenizer.scanForNumericType
  simp only [h0, Bool.not_true, Bool.false_eq_true, if_false, p1]
  have n1 : ¬ (a = 98 ∨ a = 66) := by omega
  have n2 : ¬ (a = 120 ∨ a = 88) := by omega
  simp [n1, n2, ha, hb, hc, hz]


theorem finish_upcoming (t : tokenizer) (tok : tokenType) (more : Bool) :
    (t.finish tok more).upcoming = t.upcoming := rfl

theorem TsLiteral_head {lit : List Int} (h : TsLiteral lit) :
    ∃ c0 a b c z s, lit = c0 :: a :: b :: c :: z :: s ∧ isDigit c0 = true ∧ isDigit a = true
      ∧ isDigit b = true ∧ isDigit c = true ∧ (z = 45 ∨ z = 84) := by
  obtain ⟨y, x, hy, hx, rfl⟩ := h
  obtain ⟨c0, y1, rfl, h0, hy1⟩ := digitRun_pos hy
  obtain ⟨a, y2, rfl, ha, hy2⟩ := digitRun_pos hy1
  obtain ⟨b, y3, rfl, hb, hy3⟩ := digitRun_pos hy2
  obtain ⟨c, y4, rfl, hc, hy4⟩ := digitRun_pos hy3
  rw [digitRun_zero hy4]
  rcases hx with rfl | ⟨m, x2, -, -, rfl⟩
  · exact ⟨c0, a, b, c, 84, [], rfl, h0, ha, hb, hc, Or.inr rfl⟩
  · exact ⟨c0, a, b, c, 45, m ++ x2, rfl, h0, ha, hb, hc, Or.inl rfl⟩

/-! ## The keywords `+inf` and `-inf` -/

theorem readsOf_inf {up : List Int} (h : readsOf up 3 = [105, 110, 102]) :
    ∃ s, up = 105 :: 110 :: 102 :: s := by
  rcases up with _ | ⟨a, _ | ⟨b, _ | ⟨c, s⟩⟩⟩
  · simp [readsOf] at h
  · simp [readsOf] at h
  · simp [readsOf] at h
  · simp [readsOf] at h
    obtain ⟨rfl, rfl, rfl⟩ := h
    exact ⟨s, rfl⟩

theorem peekChars_inf {up : List Int} {n : Nat}
    (h : ¬ ((peekChars (n + 3) up).length < 3 ∨ (peekChars (n + 3) up).getD 0 0 ≠ 105
      ∨ (peekChars (n + 3) up).getD 1 0 ≠ 110 ∨ (peekChars (n + 3) up).getD 2 0 ≠ 102)) :
    ∃ s, up = 105 :: 110 :: 102 :: s := by
  simp only [not_or, not_lt, ne_eq, not_not] at h
  obtain ⟨hl, h0, h1, h2⟩ := h
  rcases up with _ | ⟨a, up⟩
  · simp [peekChars] at hl
  by_cases ha : a = -1
  · simp [peekChars, ha] at hl
  simp only [peekChars, ha, if_false] at hl h0 h1 h2
  rcases up with _ | ⟨b, up⟩
  · simp [peekChars] at hl
  by_cases hb : b = -1
  · simp [peekChars, hb] at hl
  simp only [peekChars, hb, if_false] at hl h0 h1 h2
  rcases up with _ | ⟨c, up⟩
  · simp [peekChars] at hl
  by_cases hc : c = -1
  · simp [peekChars, hc] at hl
  simp only [peekChars, hc, if_false] at hl h0 h1 h2
  simp at h0 h1 h2
  subst h0 h1 h2
  exact ⟨up, rfl⟩

theorem isInf_cond (s : List Int) :
    (((105 :: 110 :: 102 :: peekChars 2 s).length = 3
        ∨ isStopChar ((105 :: 110 :: 102 :: peekChars 2 s).getD 3 0) = true)
      ∨ ((105 :: 110 :: 102 :: peekChars 2 s).getD 3 0 = 47
        ∧ (105 :: 110 :: 102 :: peekChars 2 s).length > 4
        ∧ ((105 :: 110 :: 102 :: peekChars 2 s).getD 4 0 = 47
          ∨ (105 :: 110 :: 102 :: peekChars 2 s).getD 4 0 = 42)))
    ↔ StopOrComment (hd s) (hd s.tail) := by
  unfold StopOrComment
  rcases s with _ | ⟨d, s⟩
  · simp [peekChars, isStopChar]
  by_cases hd1 : d = -1
  · subst hd1; simp [peekChars, isStopChar]
  rcases s with _ | ⟨e, s⟩
  · simp [peekChars, hd1]
  by_cases he : e = -1
  · subst he; simp [peekChars, hd1]
  · simp [peekChars, hd1, he]

theorem skipN_three (t : tokenizer) (a b c : Int) (s : List Int)
    (hu : t.upcoming = a :: b :: c :: s) (ha : a ≠ -1) (hb : b ≠ -1) (hc : c ≠ -1) :
    (t.skipN 3).upcoming = s := by
  have r1 := read_fst t
  have u1 := read_upcoming t
  rw [hu] at r1 u1
  simp only [hd_cons, List.tail_cons] at r1 u1
  have r2 := read_fst t.read.2
  have u2 := read_upcoming t.read.2
  rw [u1] at r2 u2
  simp only [hd_cons, List.tail_cons] at r2 u2
  have r3 := read_fst t.read.2.read.2
  have u3 := read_upcoming t.read.2.read.2
  rw [u2] at r3 u3
  simp only [hd_cons, List.tail_cons] at r3 u3
  simp [tokenizer.skipN, r1, r2, r3, ha, hb, hc, u3]

theorem readsOf_eof (k : Nat) : readsOf [-1] k = readsOf [] k := by
  cases k with
  | zero => rfl
  | succ k => simp [readsOf]

theorem infAhead_cons (s : List Int) :
    infAhead (105 :: 110 :: 102 :: s) ↔ StopOrComment (hd s) (hd s.tail) := by
  simp [infAhead, readsOf]

theorem isInf_spec (t : tokenizer) (c : Int) (hc : c = 43 ∨ c = 45) :
    (infAhead t.upcoming → (t.isInf c).1 = true
      ∧ ∀ k, readsOf t.upcoming (3 + k) = [105, 110, 102] ++ readsOf (t.isInf c).2.upcoming k)
    ∧ (¬ infAhead t.upcoming → (t.isInf c).1 = false
      ∧ ∀ k, readsOf (t.isInf c).2.upcoming k = readsOf t.upcoming k) := by
  obtain ⟨p1, -, p3⟩ := peekN_eq t 5
  have hc2 : ¬ (c ≠ 43 ∧ c ≠ 45) := by rcases hc with rfl | rfl <;> decide
  by_cases hfirst : (peekChars 5 t.upcoming).length < 3 ∨ (peekChars 5 t.upcoming).getD 0 0 ≠ 105
      ∨ (peekChars 5 t.upcoming).getD 1 0 ≠ 110 ∨ (peekChars 5 t.upcoming).getD 2 0 ≠ 102
  · -- not `inf`
    have hval : t.isInf c = (false, (t.peekN 5).2.2) := by
      unfold tokenizer.isInf
      rw [if_neg hc2]
      simp only [p1]
      rw [if_pos hfirst]
    have hno : ¬ infAhead t.upcoming := by
      intro h
      obtain ⟨s, hs⟩ := readsOf_inf h.1
      rw [hs] at hfirst
      simp [peekChars] at hfirst
      omega
    refine ⟨fun h => absurd h hno, fun _ => ?_⟩
    rw [hval]
    exact ⟨rfl, fun k => by simp only [p3, readsOf_restore]⟩
  · obtain ⟨s, hs⟩ := peekChars_inf (n := 2) hfirst
    have hchars : peekChars 5 t.upcoming = 105 :: 110 :: 102 :: peekChars 2 s := by
      rw [hs]; simp [peekChars]
    have hrest : (t.peekN 5).2.2.upcoming = 105 :: 110 :: 102 :: restore 2 s := by
      rw [p3, hs]; simp [restore]
    have hskip := skipN_three (t.peekN 5).2.2 105 110 102 (restore 2 s) hrest (by decide)
      (by decide) (by decide)
    have hcond := isInf_cond s
    rw [← hchars] at hcond
    have hia := infAhead_cons s
    rw [← hs] at hia
    by_cases hso : StopOrComment (hd s) (hd s.tail)
    · have hval : t.isInf c = (true, (t.peekN 5).2.2.skipN 3) := by
        unfold tokenizer.isInf
        rw [if_neg hc2]
        simp only [p1]
        rw [if_neg hfirst]
        rcases hcond.2 hso with h1 | h2
        · rw [if_pos h1]
        · by_cases h1 : (peekChars 5 t.upcoming).length = 3
              ∨ isStopChar ((peekChars 5 t.upcoming).getD 3 0) = true
          · rw [if_pos h1]
          · rw [if_neg h1, if_pos h2]
      refine ⟨fun _ => ?_, fun h => absurd (hia.2 hso) h⟩
      rw [hval]
      refine ⟨rfl, fun k => ?_⟩
      simp only [hskip, readsOf_restore]
      rw [hs, Nat.add_comm]
      simp [readsOf]
    · have hval : t.isInf c = (false, (t.peekN 5).2.2) := by
        unfold tokenizer.isInf
        rw [if_neg hc2]
        simp only [p1]
        rw [if_neg hfirst]
        have h12 := fun h => hso (hcond.1 h)
        rw [if_neg (fun h => h12 (Or.inl h)), if_neg (fun h => h12 (Or.inr h))]
      refine ⟨fun h => absurd (hia.1 h) hso, fun _ => ?_⟩
      rw [hval]
      exact ⟨rfl, fun k => by simp only [p3, readsOf_restore]⟩


theorem InfAhead_iff (t : tokenizer) : InfAhead t ↔ infAhead t.upcoming := by
  simp only [InfAhead, infAhead, reads_eq_readsOf]

theorem infAhead_congr {a b : List Int} (h : ∀ k, readsOf a k = readsOf b k) :
    infAhead a ↔ infAhead b := by
  simp only [infAhead, h]

theorem inf_branch (t2 t1 : tokenizer) (c : Int) (tok : tokenType) (hc : c = 43 ∨ c = 45)
    (heq : ∀ k, readsOf t2.upcoming k = readsOf t1.upcoming k) :
    (InfAhead t1 →
      (if (t2.isInf c).1 = true then (t2.isInf c).2.finish tok false
        else ((t2.isInf c).2.unread c).finish tokenType.tokenSymbolOperator true).token = tok
      ∧ (if (t2.isInf c).1 = true then (t2.isInf c).2.finish tok false
        else ((t2.isInf c).2.unread c).finish tokenType.tokenSymbolOperator true).unfinished
          = false
      ∧ ∀ k, t1.reads (3 + k) = [105, 110, 102]
          ++ (if (t2.isInf c).1 = true then (t2.isInf c).2.finish tok false
            else ((t2.isInf c).2.unread c).finish
              tokenType.tokenSymbolOperator true).reads k)
    ∧ (¬ InfAhead t1 →
      (if (t2.isInf c).1 = true then (t2.isInf c).2.finish tok false
        else ((t2.isInf c).2.unread c).finish tokenType.tokenSymbolOperator true).token
          = tokenType.tokenSymbolOperator
      ∧ (if (t2.isInf c).1 = true then (t2.isInf c).2.finish tok false
        else ((t2.isInf c).2.unread c).finish tokenType.tokenSymbolOperator true).unfinished
          = true
      ∧ ∀ k, (if (t2.isInf c).1 = true then (t2.isInf c).2.finish tok false
            else ((t2.isInf c).2.unread c).finish
              tokenType.tokenSymbolOperator true).reads (k + 1) = c :: t1.reads k) := by
  obtain ⟨hyes, hno⟩ := isInf_spec t2 c hc
  have hiff : InfAhead t1 ↔ infAhead t2.upcoming :=
    (InfAhead_iff t1).trans (infAhead_congr heq).symm
  constructor
  · intro h
    obtain ⟨h1, h2⟩ := hyes (hiff.1 h)
    rw [h1]
    simp only [if_true]
    refine ⟨rfl, rfl, fun k => ?_⟩
    rw [reads_eq_readsOf, reads_eq_readsOf, finish_upcoming, ← heq, h2 k]
  · intro h
    obtain ⟨h1, h2⟩ := hno (fun h3 => h (hiff.2 h3))
    rw [h1]
    simp only [Bool.false_eq_true, if_false]
    refine ⟨rfl, rfl, fun k => ?_⟩
    rw [reads_eq_readsOf, reads_eq_readsOf, finish_upcoming, unread_upcoming]
    simp only [readsOf, hd_cons, List.tail_cons]
    rw [h2 k, heq k]

theorem dispatch_plus (t : tokenizer) :
    t.dispatch 43 = .ok (if (t.isInf 43).1 = true then (t.isInf 43).2.finish
        tokenType.tokenFloatInf false
      else ((t.isInf 43).2.unread 43).finish tokenType.tokenSymbolOperator true) := by
  unfold tokenizer.dispatch
  repeat rw [if_neg (by decide)]
  rw [if_pos rfl]
  generalize t.isInf 43 = r
  obtain ⟨ok, t2⟩ := r
  cases ok <;> rfl

theorem dispatch_minus (t : tokenizer) (h : isDigit t.peek.1 = false) :
    t.dispatch 45 = .ok (if (t.peek.2.isInf 45).1 = true then (t.peek.2.isInf 45).2.finish
        tokenType.tokenFloatMinusInf false
      else ((t.peek.2.isInf 45).2.unread 45).finish tokenType.tokenSymbolOperator true) := by
  unfold tokenizer.dispatch
  repeat rw [if_neg (by decide)]
  rw [if_pos rfl]
  generalize hp : t.peek = p at h
  obtain ⟨c2, t1⟩ := p
  simp only at h
  simp only [h, Bool.false_eq_true, if_false]
  generalize t1.isInf 45 = r
  obtain ⟨ok, t2⟩ := r
  cases ok <;> rfl

/-! ## Escapes -/

theorem fromHex_ok {d : Int} (h : isHexDigit d = true) :
    ∃ v, fromHex d = .ok v ∧ 0 ≤ v ∧ v < 16 := by
  unfold isHexDigit at h
  unfold fromHex
  by_cases h1 : 48 ≤ d ∧ d ≤ 57
  · exact ⟨d - 48, by simp [h1], by omega, by omega⟩
  · by_cases h2 : 97 ≤ d ∧ d ≤ 102
    · exact ⟨10 + (d - 97), by simp [h1, h2], by omega, by omega⟩
    · by_cases h3 : 65 ≤ d ∧ d ≤ 70
      · exact ⟨10 + (d - 65), by simp [h1, h2, h3], by omega, by omega⟩
      · have : isDigit d = false := by simpa [isDigit] using h1
        simp [this, h2, h3] at h

theorem fromHex_error {d : Int} (h : isHexDigit d = false) :
    fromHex d = .error (invalidChar d) := by
  unfold isHexDigit at h
  unfold fromHex
  by_cases h1 : 48 ≤ d ∧ d ≤ 57
  · have : isDigit d = true := by simpa [isDigit] using h1
    simp [this] at h
  · have hd1 : isDigit d = false := by simpa [isDigit] using h1
    by_cases h2 : 97 ≤ d ∧ d ≤ 102
    · simp [hd1, h2] at h
    · by_cases h3 : 65 ≤ d ∧ d ≤ 70
      · simp [hd1, h2, h3] at h
      · simp [h1, h2, h3]

theorem hexDigitValue_lt (d : Int) : hexDigitValue d < 16 := by
  by_cases h : isHexDigit d = true
  · obtain ⟨v, e, h0, h1⟩ := fromHex_ok h
    simp only [hexDigitValue, e]
    omega
  · have := fromHex_error (by simpa using h)
    simp [hexDigitValue, this]

theorem hexStep_eq (val : Nat) (d : Int) :
    hexStep val d = (val * 16 + hexDigitValue d) % 4294967296 := by
  have hlt := hexDigitValue_lt d
  unfold hexStep
  have h1 : (val <<< 4) % 4294967296 = 2 ^ 4 * (val % 268435456) := by
    rw [Nat.shiftLeft_eq]
    omega
  rw [h1, ← Nat.mul_add_lt_is_or (by simpa using hlt)]
  omega

theorem hexFold_shift (ds : List Int) : ∀ val : Nat,
    hexFold val ds = val * 16 ^ ds.length + hexFold 0 ds := by
  induction ds with
  | nil => intro val; simp [hexFold]
  | cons d ds ih =>
    intro val
    have e1 : hexFold val (d :: ds) = hexFold (val * 16 + hexDigitValue d) ds := rfl
    have e2 : hexFold 0 (d :: ds) = hexFold (0 * 16 + hexDigitValue d) ds := rfl
    rw [e1, e2, ih (val * 16 + hexDigitValue d), ih (0 * 16 + hexDigitValue d)]
    simp only [List.length_cons, pow_succ]
    ring

theorem hexFold_lt (ds : List Int) : hexFold 0 ds < 16 ^ ds.length := by
  induction ds using List.reverseRecOn with
  | nil => simp [hexFold]
  | append_singleton ds d ih =>
    have hlt := hexDigitValue_lt d
    have e : hexFold 0 (ds ++ [d]) = hexFold 0 ds * 16 + hexDigitValue d := by
      simp [hexFold, List.foldl_append]
    rw [e, List.length_append, List.length_singleton, pow_succ]
    omega

theorem int32_mod (u : Nat) : int32 (u % 4294967296) = int32 u := by
  simp [int32]

theorem int32_congr {a b : Nat} (h : a % 4294967296 = b % 4294967296) : int32 a = int32 b := by
  rw [← int32_mod a, ← int32_mod b, h]

theorem stepFold_mod (ds : List Int) : ∀ val : Nat,
    (ds.foldl hexStep val) % 4294967296 = (hexFold val ds) % 4294967296 := by
  induction ds with
  | nil => intro val; rfl
  | cons d ds ih =>
    intro val
    have e1 : hexFold val (d :: ds) = hexFold (val * 16 + hexDigitValue d) ds := rfl
    rw [List.foldl_cons, ih, e1, hexFold_shift ds (hexStep val d),
      hexFold_shift ds (val * 16 + hexDigitValue d), hexStep_eq]
    rw [Nat.add_mod, Nat.mul_mod, Nat.mod_mod, ← Nat.mul_mod, ← Nat.add_mod]

theorem readHexEscapeSeqLoop_ok : ∀ (ds : List Int) (t : tokenizer) (val : Nat) (s : List Int),
    (∀ d ∈ ds, isHexDigit d = true) → t.upcoming = ds ++ s →
    ∃ t2, tokenizer.readHexEscapeSeqLoop ds.length t val = .ok (int32 (ds.foldl hexStep val), t2)
      ∧ t2.upcoming = s := by
  intro ds
  induction ds with
  | nil =>
    intro t val s _ hu
    exact ⟨t, by simp [tokenizer.readHexEscapeSeqLoop], by simpa using hu⟩
  | cons d ds ih =>
    intro t val s hall hu
    have r1 := read_fst t
    have r2 := read_upcoming t
    rw [hu] at r1 r2
    simp only [List.cons_append, hd_cons, List.tail_cons] at r1 r2
    obtain ⟨v, e, h0, h1⟩ := fromHex_ok (hall d (List.mem_cons_self _ _))
    obtain ⟨t2, e2, u2⟩ := ih t.read.2 (hexStep val d) s
      (fun x hx => hall x (List.mem_cons_of_mem _ hx)) r2
    refine ⟨t2, ?_, u2⟩
    have hv : hexStep val d = ((val <<< 4) % 4294967296) ||| v.toNat := by
      simp [hexStep, hexDigitValue, e]
    rw [hv] at e2
    simp [tokenizer.readHexEscapeSeqLoop, r1, e, e2, hv]

theorem readHexEscapeSeqLoop_error : ∀ (pre : List Int) (n : Nat) (t : tokenizer) (val : Nat)
    (rest : List Int), pre.length < n → (∀ d ∈ pre, isHexDigit d = true) →
    isHexDigit (hd rest) = false → t.upcoming = pre ++ rest →
    tokenizer.readHexEscapeSeqLoop n t val = .error (invalidChar (hd rest)) := by
  intro pre
  induction pre with
  | nil =>
    intro n t val rest hn _ hbad hu
    obtain ⟨k, rfl⟩ : ∃ k, n = k + 1 := ⟨n - 1, by simp at hn; omega⟩
    have r1 := read_fst t
    rw [hu] at r1
    simp only [List.nil_append] at r1
    simp [tokenizer.readHexEscapeSeqLoop, r1, fromHex_error hbad]
  | cons d pre ih =>
    intro n t val rest hn hall hbad hu
    obtain ⟨k, rfl⟩ : ∃ k, n = k + 1 := ⟨n - 1, by simp at hn; omega⟩
    have r1 := read_fst t
    have r2 := read_upcoming t
    rw [hu] at r1 r2
    simp only [List.cons_append, hd_cons, List.tail_cons] at r1 r2
    obtain ⟨v, e, -⟩ := fromHex_ok (hall d (List.mem_cons_self _ _))
    have := ih k t.read.2 (((val <<< 4) % 4294967296) ||| v.toNat) rest
      (by simp at hn; omega) (fun x hx => hall x (List.mem_cons_of_mem _ hx)) hbad r2
    simp [tokenizer.readHexEscapeSeqLoop, r1, e, this]

theorem readHexEscapeSeq_ok (t : tokenizer) (ds s : List Int)
    (hall : ∀ d ∈ ds, isHexDigit d = true) (hu : t.upcoming = ds ++ s) :
    ∃ t2, t.readHexEscapeSeq ds.length = .ok (int32 (hexValue ds), t2) ∧ t2.upcoming = s := by
  obtain ⟨t2, e, u⟩ := readHexEscapeSeqLoop_ok ds t 0 s hall hu
  refine ⟨t2, ?_, u⟩
  rw [tokenizer.readHexEscapeSeq, e, int32_congr (stepFold_mod ds 0)]
  rfl


theorem int32_small {u : Nat} (h : u < 4294967296) :
    int32 u = if u < 2147483648 then Int.ofNat u else Int.ofNat u - 4294967296 := by
  unfold int32
  rw [Nat.mod_eq_of_lt h]

/-! ## Symbols that need quoting -/

theorem isIdentifierStart_nat (c : Nat) :
    isIdentifierStart (Int.ofNat c) = true ↔ (isLetter c ∨ c = 95 ∨ c = 36) := by
  unfold isIdentifierStart isLetter
  simp only [Int.ofNat_eq_coe]
  split_ifs <;> simp <;> omega

theorem isDigit_nat (c : Nat) : isDigit (Int.ofNat c) = true ↔ (48 ≤ c ∧ c ≤ 57) := by
  simp only [isDigit, Int.ofNat_eq_coe, Bool.and_eq_true, decide_eq_true_eq]
  omega

theorem isIdentifierPart_nat (c : Nat) :
    isIdentifierPart (Int.ofNat c) = true
      ↔ (isLetter c ∨ (48 ≤ c ∧ c ≤ 57) ∨ c = 95 ∨ c = 36) := by
  unfold isIdentifierPart
  rw [Bool.or_eq_true, isIdentifierStart_nat, isDigit_nat]
  tauto

theorem isSymbolRef_iff (sym : List Nat) : isSymbolRef sym = true ↔ IsSymbolReference sym := by
  unfold IsSymbolReference
  cases sym with
  | nil => simp [isSymbolRef]
  | cons c rest =>
    by_cases hc : c = 36
    · subst hc
      cases rest with
      | nil => simp [isSymbolRef]
      | cons d ds =>
        simp only [isSymbolRef, ne_eq, not_true_eq_false, if_false, List.length_cons,
          Nat.add_one_ne_zero, List.all_eq_true, isDigit_nat]
        constructor
        · intro h; exact ⟨d :: ds, by simp, h, rfl⟩
        · rintro ⟨ds2, -, h, e⟩
          simp only [List.cons.injEq, true_and] at e
          rw [e]; exact h
    · simp only [isSymbolRef, ne_eq, hc, not_false_eq_true, if_true, Bool.false_eq_true, false_iff]
      rintro ⟨ds, -, -, e⟩
      simp only [List.cons.injEq] at e
      exact hc e.1

/-! ## Successive reads -/

theorem readsOf_eq_take : ∀ (n : Nat) (up : List Int),
    readsOf up n = (up ++ List.replicate n (-1)).take n := by
  intro n
  induction n with
  | zero => intro up; rfl
  | succ n ih =>
    intro up
    cases up with
    | nil =>
      have := ih []
      simp only [List.nil_append, List.take_replicate, min_self] at this
      simp [readsOf, this, List.replicate_succ]
    | cons c s =>
      have h := ih s
      have e : (s ++ List.replicate (n + 1) (-1 : Int)).take n
          = (s ++ List.replicate n (-1)).take n := by
        rw [List.replicate_succ', ← List.append_assoc, List.take_append_of_le_length]
        simp
      simp [readsOf, h, e]

theorem normalize_no_cr (bs : List Nat) : (13 : Int) ∉ normalize bs := by
  induction bs using normalize.induct with
  | case1 => simp [normalize]
  | case2 cs ih => simp [normalize, ih]
  | case3 c cs h ih =>
    by_cases h13 : c = 13
    · subst h13
      rw [normalize_cr cs (fun cs2 e => h cs2 rfl e)]
      simp [ih]
    · rw [normalize_other c cs h13]
      simp only [List.mem_cons, not_or]
      exact ⟨by simp only [Int.ofNat_eq_coe]; omega, ih⟩

theorem peekChars_takeWhile : ∀ (n : Nat) (up : List Int),
    peekChars n up = (readsOf up n).takeWhile (fun c => decide (c ≠ -1)) := by
  intro n
  induction n with
  | zero => intro up; rfl
  | succ n ih =>
    intro up
    cases up with
    | nil => simp [peekChars, readsOf]
    | cons c s =>
      by_cases hc : c = -1
      · simp [peekChars, readsOf, hc]
      · simp [peekChars, readsOf, hc, ih s, List.takeWhile_cons]

theorem peekEOF_iff : ∀ (n : Nat) (up : List Int),
    peekEOF n up = true ↔ (-1 : Int) ∈ readsOf up n := by
  intro n
  induction n with
  | zero => intro up; simp [peekEOF, readsOf]
  | succ n ih =>
    intro up
    cases up with
    | nil => simp [peekEOF, readsOf]
    | cons c s =>
      by_cases hc : c = -1
      · simp [peekEOF, readsOf, hc]
      · have : ¬ (-1 : Int) = c := fun e => hc e.symm
        simp [peekEOF, readsOf, hc, ih s, this]

theorem peekChars_take : ∀ (n : Nat) (up : List Int), (-1 : Int) ∉ up →
    peekChars n up = up.take n ∧ (peekEOF n up = true ↔ up.length < n) := by
  intro n
  induction n with
  | zero => intro up _; simp [peekChars, peekEOF]
  | succ n ih =>
    intro up h
    cases up with
    | nil => simp [peekChars, peekEOF]
    | cons c s =>
      simp only [List.mem_cons, not_or] at h
      have hc : ¬ c = -1 := fun e => h.1 e.symm
      obtain ⟨h1, h2⟩ := ih s h.2
      simp [peekChars, peekEOF, hc, h1, h2]

/-! ## The pending mark -/

theorem Next_ok_dispatch (t t2 : tokenizer)
    (skipValue : tokenizer → Except Error (Int × tokenizer))
    (skipWhitespace : tokenizer → Except Error (Int × Bool × tokenizer))
    (h : t.Next skipValue skipWhitespace = .ok t2) :
    ∃ c t1, FirstSignificant t skipValue skipWhitespace c t1 ∧ t1.dispatch c = .ok t2 := by
  cases hu : t.unfinished with
  | true =>
    cases hs : skipValue t with
    | error e =>
      unfold tokenizer.Next at h
      simp [hu, hs, bind, Except.bind] at h
    | ok r =>
      obtain ⟨c, t1⟩ := r
      have hf : FirstSignificant t skipValue skipWhitespace c t1 :=
        ⟨fun _ => hs, fun h2 => by rw [hu] at h2; cases h2⟩
      exact ⟨c, t1, hf, by rw [← Next_eq_dispatch t t1 skipValue skipWhitespace c hf]; exact h⟩
  | false =>
    cases hs : skipWhitespace t with
    | error e =>
      unfold tokenizer.Next at h
      simp [hu, hs, bind, Except.bind] at h
    | ok r =>
      obtain ⟨c, b, t1⟩ := r
      have hf : FirstSignificant t skipValue skipWhitespace c t1 :=
        ⟨fun h2 => (by rw [hu] at h2; cases h2), fun _ => ⟨b, hs⟩⟩
      exact ⟨c, t1, hf, by rw [← Next_eq_dispatch t t1 skipValue skipWhitespace c hf]; exact h⟩

theorem scanForNumericType_kind (t t2 : tokenizer) (c : Int) (tt : tokenType)
    (h : t.scanForNumericType c = .ok (tt, t2)) :
    (tt = tokenType.tokenBinary ∨ tt = tokenType.tokenHex ∨ tt = tokenType.tokenTimestamp
      ∨ tt = tokenType.tokenNumber) ∧ t2 = (t.peekN 4).2.2 := by
  unfold tokenizer.scanForNumericType at h
  split at h
  · cases h
  · generalize t.peekN 4 = r at h ⊢
    obtain ⟨cs, e, t1⟩ := r
    simp only at h
    split_ifs at h <;> cases h <;> simp

/-- What a successful dispatch returns: one of twelve tokenizers, marked with a
token kind, and with the pending mark unless the kind is one of the nine that
carry no payload. -/
theorem dispatch_ok (t t2 : tokenizer) (c : Int) (h : t.dispatch c = .ok t2) :
    ∃ t1 tok, t2 = t1.finish tok (decide (tok ∉ [tokenType.tokenDoubleColon,
        tokenType.tokenColon, tokenType.tokenCloseBrace, tokenType.tokenCloseBracket,
        tokenType.tokenCloseParen, tokenType.tokenComma, tokenType.tokenDot,
        tokenType.tokenFloatInf, tokenType.tokenFloatMinusInf]))
      ∧ tok ∉ [tokenType.tokenError, tokenType.tokenCloseDoubleBrace]
      ∧ t1 ∈ [t, t.unread c, t.peek.2.read.2, t.peek.2, t.peek.2.unread c, t.isTripleQuote.2,
          (t.isInf c).2, (t.isInf c).2.unread c,
          ((t.peek.2.read.2.peekN 4).2.2.unread t.peek.1).unread c,
          (t.peek.2.isInf c).2, (t.peek.2.isInf c).2.unread c, (t.peekN 4).2.2.unread c] := by
  unfold tokenizer.dispatch at h
  simp only [bind, Except.bind, pure, Except.pure, throw, throwThe, MonadExceptOf.throw] at h
  by_cases hc : c = -1
  · rw [if_pos hc] at h; cases h; exact ⟨_, _, rfl, by decide, by simp⟩
  rw [if_neg hc] at h
  clear hc
  by_cases hc : c = 47
  · rw [if_pos hc] at h; cases h; exact ⟨_, _, rfl, by decide, by simp⟩
  rw [if_neg hc] at h
  clear hc
  by_cases hc : c = 58
  · rw [if_pos hc] at h
    split at h <;> (cases h; exact ⟨_, _, rfl, by decide, by simp⟩)
  rw [if_neg hc] at h
  clear hc
  by_cases hc : c = 123
  · rw [if_pos hc] at h
    split at h <;> (cases h; exact ⟨_, _, rfl, by decide, by simp⟩)
  rw [if_neg hc] at h
  clear hc
  by_cases hc : c = 125
  · rw [if_pos hc] at h; cases h; exact ⟨_, _, rfl, by decide, by simp⟩
  rw [if_neg hc] at h
  clear hc
  by_cases hc : c = 91
  · rw [if_pos hc] at h; cases h; exact ⟨_, _, rfl, by decide, by simp⟩
  rw [if_neg hc] at h
  clear hc
  by_cases hc : c = 93
  · rw [if_pos hc] at h; cases h; exact ⟨_, _, rfl, by decide, by simp⟩
  rw [if_neg hc] at h
  clear hc
  by_cases hc : c = 40
  · rw [if_pos hc] at h; cases h; exact ⟨_, _, rfl, by decide, by simp⟩
  rw [if_neg hc] at h
  clear hc
  by_cases hc : c = 41
  · rw [if_pos hc] at h; cases h; exact ⟨_, _, rfl, by decide, by simp⟩
  rw [if_neg hc] at h
  clear hc
  by_cases hc : c = 44
  · rw [if_pos hc] at h; cases h; exact ⟨_, _, rfl, by decide, by simp⟩
  rw [if_neg hc] at h
  clear hc
  by_cases hc : c = 46
  · rw [if_pos hc] at h
    split at h <;> (cases h; exact ⟨_, _, rfl, by decide, by simp⟩)
  rw [if_neg hc] at h
  clear hc
  by_cases hc : c = 39
  · rw [if_pos hc] at h
    split at h <;> (cases h; exact ⟨_, _, rfl, by decide, by simp⟩)
  rw [if_neg hc] at h
  clear hc
  by_cases hc : c = 43
  · rw [if_pos hc] at h
    split at h <;> (cases h; exact ⟨_, _, rfl, by decide, by simp⟩)
  rw [if_neg hc] at h
  clear hc
  by_cases hc : c = 45
  · rw [if_pos hc] at h
    split at h
    · split at h
      · cases h
      · rename_i v hv
        obtain ⟨tt, t3⟩ := v
        obtain ⟨hk, rfl⟩ := scanForNumericType_kind _ _ _ _ hv
        split at h
        · cases h
        · rename_i hne
          cases h
          simp only at hne
          rcases hk with rfl | rfl | rfl | rfl
          · exact ⟨_, _, rfl, by simp, by simp⟩
          · exact ⟨_, _, rfl, by simp, by simp⟩
          · exact absurd rfl hne
          · exact ⟨_, _, rfl, by simp, by simp⟩
    · split at h <;> (cases h; exact ⟨_, _, rfl, by decide, by simp⟩)
  rw [if_neg hc] at h
  clear hc
  by_cases hc : isOperatorChar c = true
  · rw [if_pos hc] at h; cases h; exact ⟨_, _, rfl, by decide, by simp⟩
  rw [if_neg hc] at h
  clear hc
  by_cases hc : c = 34
  · rw [if_pos hc] at h; cases h; exact ⟨_, _, rfl, by decide, by simp⟩
  rw [if_neg hc] at h
  clear hc
  by_cases hc : isIdentifierStart c = true
  · rw [if_pos hc] at h; cases h; exact ⟨_, _, rfl, by decide, by simp⟩
  rw [if_neg hc] at h
  clear hc
  by_cases hc : isDigit c = true
  · rw [if_pos hc] at h
    split at h
    · cases h
    · rename_i v hv
      obtain ⟨tt, t3⟩ := v
      obtain ⟨hk, rfl⟩ := scanForNumericType_kind _ _ _ _ hv
      cases h
      rcases hk with rfl | rfl | rfl | rfl <;> exact ⟨_, _, rfl, by simp, by simp⟩
  rw [if_neg hc] at h
  clear hc
  cases h

/-! ## Quoted text -/

theorem upcoming_eq_cons (t : tokenizer) (h : t.read.1 ≠ -1) :
    t.upcoming = t.read.1 :: t.read.2.upcoming := by
  rw [read_fst] at h ⊢
  rw [read_upcoming]
  cases hu : t.upcoming with
  | nil => rw [hu] at h; simp at h
  | cons c s => simp

theorem readHexEscapeSeqLoop_inv : ∀ (n : Nat) (t : tokenizer) (val : Nat) (r : Int)
    (t2 : tokenizer), tokenizer.readHexEscapeSeqLoop n t val = .ok (r, t2) →
    ∃ ds : List Int, ds.length = n ∧ (∀ d ∈ ds, isHexDigit d = true)
      ∧ t.upcoming = ds ++ t2.upcoming ∧ r = int32 (ds.foldl hexStep val) := by
  intro n
  induction n with
  | zero =>
    intro t val r t2 h
    simp only [tokenizer.readHexEscapeSeqLoop, Except.ok.injEq, Prod.mk.injEq] at h
    exact ⟨[], rfl, by simp, by simp [h.2], by simp [h.1]⟩
  | succ n ih =>
    intro t val r t2 h
    by_cases hx : isHexDigit t.read.1 = true
    · obtain ⟨v, e, -⟩ := fromHex_ok hx
      have hne : t.read.1 ≠ -1 := by
        intro h1; rw [h1] at hx; exact absurd hx (by decide)
      simp only [tokenizer.readHexEscapeSeqLoop, e] at h
      obtain ⟨ds, h1, h2, h3, h4⟩ := ih _ _ _ _ h
      refine ⟨t.read.1 :: ds, by simp [h1], ?_, ?_, ?_⟩
      · intro d hd
        rcases List.mem_cons.1 hd with rfl | hd
        · exact hx
        · exact h2 d hd
      · rw [upcoming_eq_cons t hne, h3]; rfl
      · rw [h4, List.foldl_cons]
        simp [hexStep, hexDigitValue, e]
    · have e := fromHex_error (by simpa using hx)
      simp [tokenizer.readHexEscapeSeqLoop, e] at h

theorem readHexEscapeSeq_inv (n : Nat) (t : tokenizer) (r : Int) (t2 : tokenizer)
    (h : t.readHexEscapeSeq n = .ok (r, t2)) :
    ∃ ds : List Int, ds.length = n ∧ (∀ d ∈ ds, isHexDigit d = true)
      ∧ t.upcoming = ds ++ t2.upcoming ∧ r = int32 (hexValue ds) := by
  obtain ⟨ds, h1, h2, h3, h4⟩ := readHexEscapeSeqLoop_inv n t 0 r t2 h
  exact ⟨ds, h1, h2, h3, by rw [h4, int32_congr (stepFold_mod ds 0)]; rfl⟩

theorem escapeBody_head {body : List Int} {r : Int} (h : EscapeBody body r) :
    ∃ c s, body = c :: s ∧ c ≠ -1 ∧ c ≠ 10 := by
  cases h with
  | table c r hm =>
    refine ⟨c, [], rfl, ?_⟩
    simp only [escapeTable, List.mem_cons, Prod.mk.injEq, List.mem_singleton, List.not_mem_nil,
      or_false] at hm
    omega
  | hex m n ds hm _ _ =>
    refine ⟨m, ds, rfl, ?_⟩
    simp only [hexEscapes, List.mem_cons, Prod.mk.injEq, List.mem_singleton, List.not_mem_nil,
      or_false] at hm
    omega

theorem readEscapedChar_body {body : List Int} {r : Int} (hb : EscapeBody body r)
    (t : tokenizer) (s : List Int) (hu : t.upcoming = body ++ s) :
    ∃ t2, t.readEscapedChar false = .ok (r, t2) ∧ t2.upcoming = s := by
  have r1 := read_fst t
  have r2 := read_upcoming t
  rw [hu] at r1 r2
  cases hb with
  | table c r hm =>
    simp only [List.singleton_append, hd_cons, List.tail_cons] at r1 r2
    refine ⟨t.read.2, ?_, r2⟩
    simp only [escapeTable, List.mem_cons, Prod.mk.injEq, List.mem_singleton, List.not_mem_nil,
      or_false] at hm
    rcases hm with h | h | h | h | h | h | h | h | h | h | h | h | h <;>
      (obtain ⟨rfl, rfl⟩ := h; simp [tokenizer.readEscapedChar, r1])
  | hex m n ds hm hlen hall =>
    simp only [List.cons_append, hd_cons, List.tail_cons] at r1 r2
    obtain ⟨t2, e, u⟩ := readHexEscapeSeq_ok t.read.2 ds s hall r2
    refine ⟨t2, ?_, u⟩
    rw [hlen] at e
    simp only [hexEscapes, List.mem_cons, Prod.mk.injEq, List.mem_singleton, List.not_mem_nil,
      or_false] at hm
    rcases hm with h | h | h <;>
      (obtain ⟨rfl, rfl⟩ := h; simp [tokenizer.readEscapedChar, r1, e])

theorem readEscapedChar_inv (t : tokenizer) (r : Int) (t2 : tokenizer)
    (h : t.readEscapedChar false = .ok (r, t2)) :
    ∃ body, EscapeBody body r ∧ t.upcoming = body ++ t2.upcoming := by
  unfold tokenizer.readEscapedChar at h
  simp only [Bool.false_eq_true, if_false] at h
  have tab : ∀ c r0 : Int, t.read.1 = c → (c, r0) ∈ escapeTable →
      (Except.ok (r0, t.read.2) : Except Error (Int × tokenizer)) = .ok (r, t2) →
      ∃ body, EscapeBody body r ∧ t.upcoming = body ++ t2.upcoming := by
    intro c r0 hc hm he
    simp only [Except.ok.injEq, Prod.mk.injEq] at he
    obtain ⟨rfl, rfl⟩ := he
    obtain ⟨c1, s1, e1, hne, -⟩ := escapeBody_head (EscapeBody.table c r0 hm)
    simp only [List.cons.injEq] at e1
    refine ⟨[c], EscapeBody.table c r0 hm, ?_⟩
    rw [upcoming_eq_cons t (by rw [hc, e1.1]; exact hne), hc]
    rfl
  have hx : ∀ (m : Int) (n : Nat), t.read.1 = m → (m, n) ∈ hexEscapes →
      t.read.2.readHexEscapeSeq n = .ok (r, t2) →
      ∃ body, EscapeBody body r ∧ t.upcoming = body ++ t2.upcoming := by
    intro m n hc hm he
    obtain ⟨ds, h1, h2, h3, rfl⟩ := readHexEscapeSeq_inv n t.read.2 r t2 he
    obtain ⟨c1, s1, e1, hne, -⟩ := escapeBody_head (EscapeBody.hex m n ds hm h1 h2)
    simp only [List.cons.injEq] at e1
    refine ⟨m :: ds, EscapeBody.hex m n ds hm h1 h2, ?_⟩
    rw [upcoming_eq_cons t (by rw [hc, e1.1]; exact hne), hc, h3]
    rfl
  by_cases hc : t.read.1 = 48
  · rw [if_pos hc] at h; exact tab _ _ hc (by decide) h
  rw [if_neg hc] at h; clear hc
  by_cases hc : t.read.1 = 97
  · rw [if_pos hc] at h; exact tab _ _ hc (by decide) h
  rw [if_neg hc] at h; clear hc
  by_cases hc : t.read.1 = 98
  · rw [if_pos hc] at h; exact tab _ _ hc (by decide) h
  rw [if_neg hc] at h; clear hc
  by_cases hc : t.read.1 = 116
  · rw [if_pos hc] at h; exact tab _ _ hc (by decide) h
  rw [if_neg hc] at h; clear hc
  by_cases hc : t.read.1 = 110
  · rw [if_pos hc] at h; exact tab _ _ hc (by decide) h
  rw [if_neg hc] at h; clear hc
  by_cases hc : t.read.1 = 102
  · rw [if_pos hc] at h; exact tab _ _ hc (by decide) h
  rw [if_neg hc] at h; clear hc
  by_cases hc : t.read.1 = 114
  · rw [if_pos hc] at h; exact tab _ _ hc (by decide) h
  rw [if_neg hc] at h; clear hc
  by_cases hc : t.read.1 = 118
  · rw [if_pos hc] at h; exact tab _ _ hc (by decide) h
  rw [if_neg hc] at h; clear hc
  by_cases hc : t.read.1 = 63
  · rw [if_pos hc] at h; exact tab _ _ hc (by decide) h
  rw [if_neg hc] at h; clear hc
  by_cases hc : t.read.1 = 47
  · rw [if_pos hc] at h; exact tab _ _ hc (by decide) h
  rw [if_neg hc] at h; clear hc
  by_cases hc : t.read.1 = 39
  · rw [if_pos hc] at h; exact tab _ _ hc (by decide) h
  rw [if_neg hc] at h; clear hc
  by_cases hc : t.read.1 = 34
  · rw [if_pos hc] at h; exact tab _ _ hc (by decide) h
  rw [if_neg hc] at h; clear hc
  by_cases hc : t.read.1 = 92
  · rw [if_pos hc] at h; exact tab _ _ hc (by decide) h
  rw [if_neg hc] at h; clear hc
  by_cases hc : t.read.1 = 85
  · rw [if_pos hc] at h; exact hx _ _ hc (by decide) h
  rw [if_neg hc] at h; clear hc
  by_cases hc : t.read.1 = 117
  · rw [if_pos hc] at h; exact hx _ _ hc (by decide) h
  rw [if_neg hc] at h; clear hc
  by_cases hc : t.read.1 = 120
  · rw [if_pos hc] at h; exact hx _ _ hc (by decide) h
  rw [if_neg hc] at h
  cases h

theorem readQuotedLoop_stop (q : Int) (fuel : Nat) (t : tokenizer) (ret : List Int)
    (h : hd t.upcoming = -1 ∨ hd t.upcoming = 10) :
    tokenizer.readQuotedLoop q (fuel + 1) t ret = .error (invalidChar (hd t.upcoming)) := by
  rw [← read_fst] at h ⊢
  unfold tokenizer.readQuotedLoop
  simp only [h, if_true]

theorem readQuotedLoop_quote (q : Int) (fuel : Nat) (t : tokenizer) (ret : List Int)
    (h1 : q ≠ -1) (h2 : q ≠ 10) (h : hd t.upcoming = q) :
    tokenizer.readQuotedLoop q (fuel + 1) t ret = .ok (ret, t.read.2) := by
  rw [← read_fst] at h
  unfold tokenizer.readQuotedLoop
  simp only [h, h1, h2, or_self, if_false, if_true]

theorem readQuotedLoop_plain (q : Int) (fuel : Nat) (t : tokenizer) (ret : List Int)
    (h1 : hd t.upcoming ≠ -1) (h2 : hd t.upcoming ≠ 10) (h3 : hd t.upcoming ≠ q)
    (h4 : hd t.upcoming ≠ 92) :
    tokenizer.readQuotedLoop q (fuel + 1) t ret
      = tokenizer.readQuotedLoop q fuel t.read.2 (ret ++ [byte (hd t.upcoming)]) := by
  rw [← read_fst] at h1 h2 h3 h4 ⊢
  rw [tokenizer.readQuotedLoop]
  simp only [h1, h2, h3, h4, or_self, if_false]

theorem readQuotedLoop_continuation (q : Int) (fuel : Nat) (t : tokenizer) (ret : List Int)
    (hq : q ≠ 92) (h : hd t.upcoming = 92) (h2 : t.read.2.peek.1 = 10) :
    tokenizer.readQuotedLoop q (fuel + 1) t ret
      = tokenizer.readQuotedLoop q fuel t.read.2.peek.2.read.2 ret := by
  rw [← read_fst] at h
  rw [tokenizer.readQuotedLoop]
  have hq2 : ¬ (92 : Int) = q := fun e => hq e.symm
  simp only [h, hq2, h2, if_false, if_true]
  simp

theorem readQuotedLoop_escape (q : Int) (fuel : Nat) (t : tokenizer) (ret : List Int)
    (hq : q ≠ 92) (h : hd t.upcoming = 92) (h2 : t.read.2.peek.1 ≠ 10) :
    tokenizer.readQuotedLoop q (fuel + 1) t ret
      = (t.read.2.peek.2.readEscapedChar false).bind
          (fun p => tokenizer.readQuotedLoop q fuel p.2 (ret ++ encodeRune p.1)) := by
  rw [← read_fst] at h
  rw [tokenizer.readQuotedLoop]
  have hq2 : ¬ (92 : Int) = q := fun e => hq e.symm
  simp only [h, hq2, h2, if_false, if_true]
  cases t.read.2.peek.2.readEscapedChar false with
  | error e => simp [Except.bind]
  | ok p => simp [Except.bind]

/-- The loop of the quoted readers reads through the inside of a quoted text. -/
theorem readQuotedLoop_text (q : Int) (hq : q ≠ 92) {pre w : List Int}
    (hp : QuotedText q pre w) : ∀ (fuel : Nat) (t : tokenizer) (ret rest : List Int),
    pre.length ≤ fuel → t.upcoming = pre ++ rest →
    ∃ t2 fuel2, fuel - pre.length ≤ fuel2 ∧ t2.upcoming = rest
      ∧ tokenizer.readQuotedLoop q fuel t ret = tokenizer.readQuotedLoop q fuel2 t2 (ret ++ w) := by
  induction hp with
  | nil =>
    intro fuel t ret rest _ hu
    exact ⟨t, fuel, by simp, by simpa using hu, by simp⟩
  | plain c s w h1 h2 h3 h4 _ ih =>
    intro fuel t ret rest hf hu
    obtain ⟨k, rfl⟩ : ∃ k, fuel = k + 1 := ⟨fuel - 1, by simp at hf; omega⟩
    have r2 := read_upcoming t
    rw [hu] at r2
    simp only [List.cons_append, List.tail_cons] at r2
    have hh : hd t.upcoming = c := by rw [hu]; rfl
    obtain ⟨t2, f2, b1, b2, b3⟩ := ih k t.read.2 (ret ++ [byte c]) rest
      (by simp at hf; omega) r2
    refine ⟨t2, f2, by simp at b1 ⊢; omega, b2, ?_⟩
    rw [readQuotedLoop_plain q k t ret (by rw [hh]; exact h1) (by rw [hh]; exact h2)
      (by rw [hh]; exact h3) (by rw [hh]; exact h4), hh, b3]
    simp
  | continuation s w _ ih =>
    intro fuel t ret rest hf hu
    obtain ⟨k, rfl⟩ : ∃ k, fuel = k + 1 := ⟨fuel - 1, by simp at hf; omega⟩
    have r2 := read_upcoming t
    rw [hu] at r2
    simp only [List.cons_append, List.tail_cons] at r2
    have hh : hd t.upcoming = 92 := by rw [hu]; rfl
    have p1 := peek_fst t.read.2
    have p2 := peek_upcoming t.read.2
    rw [r2] at p1 p2
    simp only [hd_cons, reduceCtorEq, if_false] at p1 p2
    have r3 := read_upcoming t.read.2.peek.2
    rw [p2] at r3
    simp only [List.tail_cons] at r3
    obtain ⟨t2, f2, b1, b2, b3⟩ := ih k t.read.2.peek.2.read.2 ret rest
      (by simp at hf; omega) r3
    refine ⟨t2, f2, by simp at b1 ⊢; omega, b2, ?_⟩
    rw [readQuotedLoop_continuation q k t ret hq hh p1, b3]
  | escape body r s w hb _ ih =>
    intro fuel t ret rest hf hu
    obtain ⟨k, rfl⟩ : ∃ k, fuel = k + 1 := ⟨fuel - 1, by simp at hf; omega⟩
    obtain ⟨c1, s1, e1, hne1, hne2⟩ := escapeBody_head hb
    have r2 := read_upcoming t
    rw [hu] at r2
    simp only [List.cons_append, List.tail_cons] at r2
    have hh : hd t.upcoming = 92 := by rw [hu]; rfl
    have p1 := peek_fst t.read.2
    have p2 := peek_upcoming t.read.2
    rw [r2] at p1 p2
    rw [e1] at p1 p2
    simp only [List.cons_append, hd_cons, reduceCtorEq, if_false] at p1 p2
    obtain ⟨t3, e3, u3⟩ := readEscapedChar_body hb t.read.2.peek.2 (s ++ rest)
      (by rw [p2, e1]; simp)
    obtain ⟨t2, f2, b1, b2, b3⟩ := ih k t3 (ret ++ encodeRune r) rest
      (by simp at hf; omega) u3
    refine ⟨t2, f2, by simp at b1 ⊢; omega, b2, ?_⟩
    rw [readQuotedLoop_escape q k t ret hq hh (by rw [p1]; exact hne2), e3]
    simp only [Except.bind]
    rw [b3]
    simp

/-- The quoted readers return a text only after the inside of a quoted text and its
closing quote. -/
theorem readQuotedLoop_inv (q : Int) (hq : q ≠ 92) : ∀ (fuel : Nat) (t : tokenizer)
    (ret w : List Int) (t2 : tokenizer), tokenizer.readQuotedLoop q fuel t ret = .ok (w, t2) →
    ∃ pre text, QuotedText q pre text ∧ t.upcoming = pre ++ q :: t2.upcoming
      ∧ w = ret ++ text := by
  intro fuel
  induction fuel with
  | zero => intro t ret w t2 h; simp [tokenizer.readQuotedLoop] at h
  | succ k ih =>
    intro t ret w t2 h
    by_cases hstop : hd t.upcoming = -1 ∨ hd t.upcoming = 10
    · rw [readQuotedLoop_stop q k t ret hstop] at h
      cases h
    have h1 : hd t.upcoming ≠ -1 := fun e => hstop (Or.inl e)
    have h2 : hd t.upcoming ≠ 10 := fun e => hstop (Or.inr e)
    have hu := upcoming_eq_cons t (by rw [read_fst]; exact h1)
    rw [read_fst] at hu
    by_cases hquote : hd t.upcoming = q
    · rw [readQuotedLoop_quote q k t ret (by rw [← hquote]; exact h1)
        (by rw [← hquote]; exact h2) hquote] at h
      simp only [Except.ok.injEq, Prod.mk.injEq] at h
      obtain ⟨rfl, rfl⟩ := h
      exact ⟨[], [], QuotedText.nil, by rw [hu, hquote]; rfl, by simp⟩
    by_cases hback : hd t.upcoming = 92
    · have p1 := peek_fst t.read.2
      have p2 := peek_upcoming t.read.2
      by_cases hnl : t.read.2.peek.1 = 10
      · rw [readQuotedLoop_continuation q k t ret hq hback hnl] at h
        obtain ⟨pre, text, a1, a2, a3⟩ := ih _ _ _ _ h
        rw [hnl] at p1
        have hne : t.read.2.upcoming ≠ [] := by
          intro e; rw [e] at p1; simp at p1
        rw [if_neg hne] at p2
        have r3 := upcoming_eq_cons t.read.2.peek.2 (by rw [read_fst, p2, ← p1]; decide)
        rw [read_fst, p2, ← p1] at r3
        refine ⟨92 :: 10 :: pre, text, QuotedText.continuation pre text a1, ?_, a3⟩
        rw [hu, hback, r3, a2]
        rfl
      · rw [readQuotedLoop_escape q k t ret hq hback hnl] at h
        cases he : t.read.2.peek.2.readEscapedChar false with
        | error e => rw [he] at h; cases h
        | ok p =>
          obtain ⟨r, t3⟩ := p
          rw [he] at h
          simp only [Except.bind] at h
          obtain ⟨pre, text, a1, a2, a3⟩ := ih _ _ _ _ h
          obtain ⟨body, b1, b2⟩ := readEscapedChar_inv _ _ _ he
          obtain ⟨c1, s1, e1, hne1, -⟩ := escapeBody_head b1
          have hne : t.read.2.upcoming ≠ [] := by
            intro e
            rw [e] at p2
            simp only [if_true] at p2
            rw [p2, e1] at b2
            simp only [List.cons_append, List.cons.injEq] at b2
            exact hne1 b2.1.symm
          rw [if_neg hne] at p2
          rw [p2] at b2
          refine ⟨92 :: body ++ pre, encodeRune r ++ text,
            QuotedText.escape body r pre text b1 a1, ?_, by rw [a3]; simp⟩
          rw [hu, hback, b2, a2]
          simp
    · rw [readQuotedLoop_plain q k t ret h1 h2 hquote hback] at h
      obtain ⟨pre, text, a1, a2, a3⟩ := ih _ _ _ _ h
      refine ⟨hd t.upcoming :: pre, byte (hd t.upcoming) :: text,
        QuotedText.plain _ pre text h1 h2 hquote hback a1, ?_, by rw [a3]; simp⟩
      rw [hu, a2]
      rfl

/-- A quoted text and its closing quote are read as the text they stand for. -/
theorem readQuotedLoop_closed (q : Int) (h1 : q ≠ -1) (h2 : q ≠ 10) (hq : q ≠ 92)
    {pre w : List Int} (hp : QuotedText q pre w) (t : tokenizer) (rest : List Int)
    (hu : t.upcoming = pre ++ q :: rest) :
    ∃ t2, tokenizer.readQuotedLoop q (t.size + 1) t [] = .ok (w, t2) ∧ t2.upcoming = rest := by
  have hl := upcoming_length_le t
  rw [hu] at hl
  simp only [List.length_append, List.length_cons] at hl
  obtain ⟨t1, f, b1, b2, b3⟩ := readQuotedLoop_text q hq hp (t.size + 1) t [] (q :: rest)
    (by omega) hu
  obtain ⟨k, rfl⟩ : ∃ k, f = k + 1 := ⟨f - 1, by omega⟩
  have r2 := read_upcoming t1
  rw [b2] at r2
  refine ⟨t1.read.2, ?_, r2⟩
  rw [b3, readQuotedLoop_quote q k t1 _ h1 h2 (by rw [b2]; rfl)]
  simp

/-- A quoted text followed by the end of input or a newline is an error. -/
theorem readQuotedLoop_open (q : Int) (hq : q ≠ 92)
    {pre w : List Int} (hp : QuotedText q pre w) (t : tokenizer) (rest : List Int)
    (hu : t.upcoming = pre ++ rest) (hr : hd rest = -1 ∨ hd rest = 10) :
    tokenizer.readQuotedLoop q (t.size + 1) t [] = .error (invalidChar (hd rest)) := by
  have hl := upcoming_length_le t
  rw [hu] at hl
  simp only [List.length_append] at hl
  obtain ⟨t1, f, b1, b2, b3⟩ := readQuotedLoop_text q hq hp (t.size + 1) t [] rest
    (by omega) hu
  obtain ⟨k, rfl⟩ : ∃ k, f = k + 1 := ⟨f - 1, by omega⟩
  rw [b3, readQuotedLoop_stop q k t1 _ (by rw [b2]; exact hr), b2]

/-! ## Written text read back -/

theorem normalize_append_no_cr : ∀ (a b : List Nat), (13 : Nat) ∉ a →
    normalize (a ++ b) = a.map Int.ofNat ++ normalize b := by
  intro a
  induction a with
  | nil => intro b _; rfl
  | cons c a ih =>
    intro b h
    simp only [List.mem_cons, not_or] at h
    rw [List.cons_append, normalize_other c (a ++ b) (fun e => h.1 e.symm), ih b h.2]
    rfl

theorem writeEscapedChar_body (c : Nat) (hc : c < 32 ∨ c = 92 ∨ c = 34 ∨ c = 39) :
    ∃ body, (writeEscapedChar c).map Int.ofNat = 92 :: body ∧ EscapeBody body (Int.ofNat c)
      ∧ (13 : Nat) ∉ writeEscapedChar c ∧ encodeRune (Int.ofNat c) = [Int.ofNat c] := by
  have tab : ∀ (c : Nat),
      (((writeEscapedChar c).map Int.ofNat).getD 1 0, Int.ofNat c) ∈ escapeTable →
      (writeEscapedChar c).map Int.ofNat = [92, ((writeEscapedChar c).map Int.ofNat).getD 1 0] →
      (13 : Nat) ∉ writeEscapedChar c → encodeRune (Int.ofNat c) = [Int.ofNat c] →
      ∃ body, (writeEscapedChar c).map Int.ofNat = 92 :: body ∧ EscapeBody body (Int.ofNat c)
        ∧ (13 : Nat) ∉ writeEscapedChar c ∧ encodeRune (Int.ofNat c) = [Int.ofNat c] :=
    fun c hm h1 h2 h3 => ⟨_, h1, EscapeBody.table _ _ hm, h2, h3⟩
  have hx : ∀ (c : Nat),
      (writeEscapedChar c).map Int.ofNat
        = 92 :: 120 :: ((writeEscapedChar c).map Int.ofNat).drop 2 →
      (((writeEscapedChar c).map Int.ofNat).drop 2).length = 2 →
      (∀ d ∈ ((writeEscapedChar c).map Int.ofNat).drop 2, isHexDigit d = true) →
      int32 (hexValue (((writeEscapedChar c).map Int.ofNat).drop 2)) = Int.ofNat c →
      (13 : Nat) ∉ writeEscapedChar c → encodeRune (Int.ofNat c) = [Int.ofNat c] →
      ∃ body, (writeEscapedChar c).map Int.ofNat = 92 :: body ∧ EscapeBody body (Int.ofNat c)
        ∧ (13 : Nat) ∉ writeEscapedChar c ∧ encodeRune (Int.ofNat c) = [Int.ofNat c] := by
    intro c h1 hl ha hv h2 h3
    refine ⟨_, h1, ?_, h2, h3⟩
    rw [← hv]
    exact EscapeBody.hex 120 2 _ (by decide) hl ha
  rcases hc with hc | rfl | rfl | rfl
  · interval_cases c <;> first
      | exact tab _ (by decide) (by decide) (by decide) (by decide)
      | exact hx _ (by decide) (by decide) (by decide) (by decide) (by decide) (by decide)
  · exact tab _ (by decide) (by decide) (by decide) (by decide)
  · exact tab _ (by decide) (by decide) (by decide) (by decide)
  · exact tab _ (by decide) (by decide) (by decide) (by decide)

theorem byte_ofNat (c : Nat) (h : c < 256) : byte (Int.ofNat c) = Int.ofNat c := by
  unfold byte
  simp only [Int.ofNat_eq_coe]
  omega

theorem writeEscapedString_text : ∀ s : List Nat, (∀ b ∈ s, b < 256) →
    QuotedText 34 ((writeEscapedString s).map Int.ofNat) (s.map Int.ofNat)
    ∧ (13 : Nat) ∉ writeEscapedString s := by
  intro s
  induction s with
  | nil => intro _; exact ⟨QuotedText.nil, by simp [writeEscapedString]⟩
  | cons c s ih =>
    intro h
    obtain ⟨i1, i2⟩ := ih (fun b hb => h b (List.mem_cons_of_mem _ hb))
    have hc := h c (List.mem_cons_self _ _)
    rw [writeEscapedString]
    by_cases he : c < 32 ∨ c = 92 ∨ c = 34
    · rw [if_pos he]
      obtain ⟨body, b1, b2, b3, b4⟩ := writeEscapedChar_body c (by omega)
      refine ⟨?_, by simp [b3, i2]⟩
      rw [List.map_append, b1, List.map_cons]
      have := QuotedText.escape body _ _ _ b2 i1
      rw [b4] at this
      exact this
    · rw [if_neg he]
      refine ⟨?_, by simp only [List.singleton_append, List.mem_cons, not_or]; exact ⟨by omega, i2⟩⟩
      have := QuotedText.plain (q := 34) (Int.ofNat c) _ _ (by simp only [Int.ofNat_eq_coe]; omega)
        (by simp only [Int.ofNat_eq_coe]; omega) (by simp only [Int.ofNat_eq_coe]; omega)
        (by simp only [Int.ofNat_eq_coe]; omega) i1
      rw [byte_ofNat c hc] at this
      exact this

theorem writeEscapedSymbol_text : ∀ s : List Nat, (∀ b ∈ s, b < 256) →
    QuotedText 39 ((writeEscapedSymbol s).map Int.ofNat) (s.map Int.ofNat)
    ∧ (13 : Nat) ∉ writeEscapedSymbol s := by
  intro s
  induction s with
  | nil => intro _; exact ⟨QuotedText.nil, by simp [writeEscapedSymbol]⟩
  | cons c s ih =>
    intro h
    obtain ⟨i1, i2⟩ := ih (fun b hb => h b (List.mem_cons_of_mem _ hb))
    have hc := h c (List.mem_cons_self _ _)
    rw [writeEscapedSymbol]
    by_cases he : c < 32 ∨ c = 92 ∨ c = 39
    · rw [if_pos he]
      obtain ⟨body, b1, b2, b3, b4⟩ := writeEscapedChar_body c (by omega)
      refine ⟨?_, by simp [b3, i2]⟩
      rw [List.map_append, b1, List.map_cons]
      have := QuotedText.escape body _ _ _ b2 i1
      rw [b4] at this
      exact this
    · rw [if_neg he]
      refine ⟨?_, by simp only [List.singleton_append, List.mem_cons, not_or]; exact ⟨by omega, i2⟩⟩
      have := QuotedText.plain (q := 39) (Int.ofNat c) _ _ (by simp only [Int.ofNat_eq_coe]; omega)
        (by simp only [Int.ofNat_eq_coe]; omega) (by simp only [Int.ofNat_eq_coe]; omega)
        (by simp only [Int.ofNat_eq_coe]; omega) i1
      rw [byte_ofNat c hc] at this
      exact this

/-! ## Unquoted symbols and operators -/

theorem reads_step (t : tokenizer) (c : Int) (s : List Int)
    (h : ∀ k, t.reads k = readsOf (c :: s) k) :
    t.read.1 = c ∧ ∀ k, t.read.2.reads k = readsOf s k := by
  constructor
  · have := h 1
    simp only [tokenizer.reads, readsOf, hd_cons, List.cons.injEq, and_true] at this
    exact this
  · intro k
    have := h (k + 1)
    simp only [tokenizer.reads, readsOf, hd_cons, List.tail_cons, List.cons.injEq] at this
    exact this.2

theorem reads_hd (t : tokenizer) (s : List Int) (h : ∀ k, t.reads k = readsOf s k) :
    t.read.1 = hd s := by
  have := h 1
  simp only [tokenizer.reads, readsOf, List.cons.injEq, and_true] at this
  exact this

theorem peek_read (t : tokenizer) : t.peek.1 = t.read.1 := by
  rw [peek_fst, read_fst]

theorem peek_reads (t : tokenizer) (k : Nat) : t.peek.2.reads k = t.reads k := by
  rw [reads_eq_readsOf, reads_eq_readsOf, peek_upcoming]
  split
  · rename_i h; rw [h]; exact readsOf_eof k
  · rfl

theorem readsOf_length_le : ∀ (n : Nat) (s : List Int), (-1 : Int) ∉ readsOf s n →
    n ≤ s.length := by
  intro n
  induction n with
  | zero => intro s _; exact Nat.zero_le _
  | succ n ih =>
    intro s h
    cases s with
    | nil => simp [readsOf] at h
    | cons c s =>
      simp only [readsOf, hd_cons, List.tail_cons, List.mem_cons, not_or] at h
      have := ih s h.2
      simp only [List.length_cons]
      omega

theorem readsOf_append_left : ∀ (body rest : List Int),
    readsOf (body ++ rest) body.length = body := by
  intro body
  induction body with
  | nil => intro rest; rfl
  | cons b body ih => intro rest; simp [readsOf, ih]

theorem readWhileLoop_run (ok : Int → Bool) : ∀ (body : List Int) (fuel : Nat) (t : tokenizer)
    (ret rest : List Int), (∀ b ∈ body, ok b = true) → ok (hd rest) = false →
    (∀ k, t.reads k = readsOf (body ++ rest) k) → body.length < fuel →
    ∃ t2, tokenizer.readWhileLoop ok fuel t (hd (body ++ rest)) ret
        = .ok (ret ++ body.map byte, t2)
      ∧ ∀ k, t2.reads k = readsOf rest k := by
  intro body
  induction body with
  | nil =>
    intro fuel t ret rest _ hstop hu hf
    obtain ⟨f, rfl⟩ : ∃ f, fuel = f + 1 := ⟨fuel - 1, by simp at hf; omega⟩
    refine ⟨t, ?_, hu⟩
    simp [tokenizer.readWhileLoop, hstop]
  | cons b body ih =>
    intro fuel t ret rest hall hstop hu hf
    obtain ⟨f, rfl⟩ : ∃ f, fuel = f + 1 := ⟨fuel - 1, by simp at hf; omega⟩
    have hb := hall b (List.mem_cons_self _ _)
    obtain ⟨-, r2⟩ := reads_step t b (body ++ rest) hu
    have p1 : t.read.2.peek.1 = hd (body ++ rest) := by
      rw [peek_read]; exact reads_hd _ _ r2
    have p2 : ∀ k, t.read.2.peek.2.reads k = readsOf (body ++ rest) k := by
      intro k; rw [peek_reads]; exact r2 k
    obtain ⟨t2, e2, u2⟩ := ih f t.read.2.peek.2 (ret ++ [byte b]) rest
      (fun x hx => hall x (List.mem_cons_of_mem _ hx)) hstop p2 (by simp at hf; omega)
    refine ⟨t2, ?_, u2⟩
    rw [tokenizer.readWhileLoop]
    simp only [List.cons_append, hd_cons, hb, if_true]
    rw [show t.read.2.peek = (t.read.2.peek.1, t.read.2.peek.2) from rfl]
    simp only [p1, e2]
    simp

/-- What `readSymbol` and `readOperator` do: they read the longest run of
characters of their class. -/
theorem readWhile_reads (ok : Int → Bool) (hok : ok (-1) = false) (t : tokenizer)
    (body rest : List Int) (hall : ∀ b ∈ body, ok b = true) (hstop : ok (hd rest) = false)
    (hu : ∀ k, t.reads k = readsOf (body ++ rest) k) :
    ∃ t2, tokenizer.readWhileLoop ok (t.peek.2.size + 1) t.peek.2 t.peek.1 []
        = .ok (body.map byte, t2)
      ∧ ∀ k, t2.reads k = readsOf rest k := by
  have p1 : t.peek.1 = hd (body ++ rest) := by
    rw [peek_read]; exact reads_hd _ _ hu
  have p2 : ∀ k, t.peek.2.reads k = readsOf (body ++ rest) k := by
    intro k; rw [peek_reads]; exact hu k
  have hlen : body.length ≤ t.peek.2.size := by
    have h1 := p2 body.length
    rw [reads_eq_readsOf, readsOf_append_left] at h1
    have h2 : (-1 : Int) ∉ readsOf t.peek.2.upcoming body.length := by
      rw [h1]
      intro hm
      have := hall _ hm
      rw [hok] at this
      cases this
    have := readsOf_length_le _ _ h2
    have := upcoming_length_le t.peek.2
    omega
  obtain ⟨t2, e2, u2⟩ := readWhileLoop_run ok body (t.peek.2.size + 1) t.peek.2 [] rest
    hall hstop p2 (by omega)
  exact ⟨t2, by rw [p1, e2]; simp, u2⟩

theorem readSymbol_reads (t : tokenizer) (body rest : List Int)
    (hall : ∀ b ∈ body, isIdentifierPart b = true) (hstop : isIdentifierPart (hd rest) = false)
    (hu : ∀ k, t.reads k = readsOf (body ++ rest) k) :
    ∃ t2, t.readSymbol = .ok (body.map byte, t2) ∧ ∀ k, t2.reads k = readsOf rest k :=
  readWhile_reads isIdentifierPart (by decide) t body rest hall hstop hu

theorem readOperator_reads (t : tokenizer) (body rest : List Int)
    (hall : ∀ b ∈ body, isOperatorChar b = true) (hstop : isOperatorChar (hd rest) = false)
    (hu : ∀ k, t.reads k = readsOf (body ++ rest) k) :
    ∃ t2, t.readOperator = .ok (body.map byte, t2) ∧ ∀ k, t2.reads k = readsOf rest k :=
  readWhile_reads isOperatorChar (by decide) t body rest hall hstop hu

/-! ## Written symbols read back -/

theorem dispatch_identifierStart (t : tokenizer) (c : Int) (h : isIdentifierStart c = true) :
    t.dispatch c = .ok ((t.unread c).finish tokenType.tokenSymbol true) := by
  have hop : isOperatorChar c = false := by
    unfold isIdentifierStart at h
    unfold isOperatorChar
    split_ifs at h ⊢ <;> first | rfl | omega
  unfold tokenizer.dispatch
  repeat rw [if_neg (by rintro rfl; exact absurd h (by decide))]
  rw [if_neg (by rw [hop]; decide)]
  rw [if_neg (by rintro rfl; exact absurd h (by decide))]
  rw [if_pos h]
  rfl

theorem dispatch_quote (t : tokenizer) :
    t.dispatch 39 = .ok (if t.isTripleQuote.1 = true
      then t.isTripleQuote.2.finish tokenType.tokenLongString true
      else t.isTripleQuote.2.finish tokenType.tokenSymbolQuoted true) := by
  unfold tokenizer.dispatch
  repeat rw [if_neg (by decide)]
  rw [if_pos rfl]
  generalize t.isTripleQuote = r
  obtain ⟨ok, t2⟩ := r
  cases ok <;> rfl

theorem isTripleQuote_false (t : tokenizer) (h : hd t.upcoming ≠ 39 ∨ t.upcoming.length < 2) :
    t.isTripleQuote.1 = false ∧ t.isTripleQuote.2.upcoming = restore 2 t.upcoming := by
  obtain ⟨h1, h2, h3⟩ := peekN_eq t 2
  unfold tokenizer.isTripleQuote
  generalize t.peekN 2 = r at h1 h2 h3
  obtain ⟨cs, eof, t1⟩ := r
  simp only at h1 h2 h3 ⊢
  cases he : eof with
  | true => simp [h3]
  | false =>
    rw [he] at h2
    have hcs : ¬ (cs.getD 0 0 = 39 ∧ cs.getD 1 0 = 39) := by
      rintro ⟨a, b⟩
      rw [h1] at a b
      cases hu : t.upcoming with
      | nil => rw [hu] at h2; simp [peekEOF] at h2
      | cons c s =>
        rw [hu] at a b h2 h
        cases s with
        | nil =>
          by_cases hc : c = -1 <;> simp [peekEOF, hc] at h2
        | cons c2 s2 =>
          by_cases hc : c = -1
          · simp [peekEOF, hc] at h2
          · simp only [peekChars, hc, if_false, List.getD_cons_zero] at a
            rcases h with h | h
            · exact h a
            · simp only [List.length_cons] at h
              omega
    simp only [Bool.false_eq_true, if_false]
    rw [if_neg hcs]
    exact ⟨rfl, h3⟩

theorem writeEscapedSymbol_head (sym : List Nat) :
    hd ((writeEscapedSymbol sym).map Int.ofNat ++ [39]) ≠ 39
      ∨ ((writeEscapedSymbol sym).map Int.ofNat ++ [39]).length < 2 := by
  cases sym with
  | nil => right; simp [writeEscapedSymbol]
  | cons c s =>
    left
    rw [writeEscapedSymbol]
    by_cases he : c < 32 ∨ c = 92 ∨ c = 39
    · rw [if_pos he]
      obtain ⟨body, b1, -⟩ := writeEscapedChar_body c (by omega)
      rw [List.map_append, b1]
      simp
    · rw [if_neg he]
      simp only [List.singleton_append, List.map_cons, List.cons_append, hd_cons, ne_eq,
        Int.ofNat_eq_coe]
      omega

theorem restore_two_closed (pre : List Int) (h : (-1 : Int) ∉ pre) :
    ∃ rest, restore 2 (pre ++ [39]) = pre ++ 39 :: rest
      ∧ ∀ k, readsOf rest k = List.replicate k (-1) := by
  have hrep : ∀ k, readsOf [] k = List.replicate k (-1) := by
    intro k; rw [readsOf_eq_take]; simp
  cases pre with
  | nil =>
    refine ⟨[-1], by simp [restore], ?_⟩
    intro k; rw [readsOf_eof]; exact hrep k
  | cons c s =>
    simp only [List.mem_cons, not_or] at h
    have hc : ¬ c = -1 := fun e => h.1 e.symm
    cases s with
    | nil => exact ⟨[], by simp [restore, hc], hrep⟩
    | cons c2 s2 =>
      have hc2 : ¬ c2 = -1 := fun e => by
        have := h.2; simp only [List.mem_cons, not_or] at this; exact this.1 e.symm
      exact ⟨[], by simp [restore, hc, hc2], hrep⟩

theorem map_ofNat_no_eof (s : List Nat) : (-1 : Int) ∉ s.map Int.ofNat := by
  intro h
  obtain ⟨b, -, hb⟩ := List.mem_map.1 h
  simp only [Int.ofNat_eq_coe] at hb
  omega

theorem symbol_is_identifier (sym : List Nat) (h : symbolNeedsQuoting sym = false) :
    ∃ c rest, sym = c :: rest ∧ isIdentifierStart (Int.ofNat c) = true
      ∧ (∀ b ∈ sym, isIdentifierPart (Int.ofNat b) = true) ∧ (13 : Nat) ∉ sym := by
  cases sym with
  | nil => simp [symbolNeedsQuoting] at h
  | cons c rest =>
    unfold symbolNeedsQuoting at h
    simp only [List.headD_cons, List.tail_cons] at h
    by_cases h1 : c :: rest = [] ∨ c :: rest = bytes "null" ∨ c :: rest = bytes "true"
        ∨ c :: rest = bytes "false" ∨ c :: rest = bytes "nan"
    · rw [if_pos h1] at h; cases h
    rw [if_neg h1] at h
    by_cases h2 : isSymbolRef (c :: rest) = true
    · rw [if_pos h2] at h; cases h
    rw [if_neg h2] at h
    by_cases h3 : isIdentifierStart (Int.ofNat c) = true
    swap
    · rw [if_pos (by simpa using h3)] at h; cases h
    rw [if_neg (by rw [h3]; decide)] at h
    by_cases h4 : rest.any (fun b => !isIdentifierPart (Int.ofNat b)) = true
    · rw [if_pos h4] at h; cases h
    have hp : ∀ b ∈ c :: rest, isIdentifierPart (Int.ofNat b) = true := by
      intro b hb
      rcases List.mem_cons.1 hb with rfl | hb
      · unfold isIdentifierPart; rw [h3]; rfl
      · by_contra hne
        exact h4 (List.any_eq_true.2 ⟨b, hb, by simpa using hne⟩)
    refine ⟨c, rest, rfl, h3, hp, ?_⟩
    intro hm
    exact absurd (hp 13 hm) (by decide)

theorem ReadValue_symbol (t t3 : tokenizer) (w : List Int)
    (skipEnd : tokenizer → Except Error (Bool × tokenizer))
    (h : t.readSymbol = .ok (w, t3)) :
    t.ReadValue tokenType.tokenSymbol skipEnd = .ok (w, { t3 with unfinished := false }) := by
  simp [tokenizer.ReadValue, h, bind, Except.bind, pure, Except.pure]

theorem ReadValue_symbolQuoted (t t3 : tokenizer) (w : List Int)
    (skipEnd : tokenizer → Except Error (Bool × tokenizer))
    (h : t.readQuotedSymbol = .ok (w, t3)) :
    t.ReadValue tokenType.tokenSymbolQuoted skipEnd
      = .ok (w, { t3 with unfinished := false }) := by
  simp [tokenizer.ReadValue, h, bind, Except.bind, pure, Except.pure]

theorem map_byte_ofNat (s : List Nat) (hs : ∀ b ∈ s, b < 256) :
    (s.map Int.ofNat).map byte = s.map Int.ofNat := by
  rw [List.map_map]
  apply List.map_congr_left
  intro b hb
  exact byte_ofNat b (hs b hb)

theorem readsOf_nil (k : Nat) : readsOf [] k = List.replicate k (-1) := by
  rw [readsOf_eq_take]; simp

/-! ## The length of the pushback buffer -/

theorem read_buffer_le (t : tokenizer) : t.read.2.buffer.length ≤ t.buffer.length - 1 := by
  unfold tokenizer.read
  cases hb : t.buffer with
  | cons c rest => simp
  | nil =>
    cases hi : t.inp with
    | nil => simp [hb]
    | cons c cs =>
      by_cases h : c = 13
      · subst h
        cases cs with
        | nil => simp [hb]
        | cons c2 cs2 =>
          by_cases h2 : c2 = 10
          · subst h2; simp [hb]
          · simp only [if_true]
            split <;> simp_all
      · simp [h, hb]

theorem unread_buffer (t : tokenizer) (c : Int) :
    (t.unread c).buffer.length = t.buffer.length + 1 := rfl

theorem peek_buffer_le (t : tokenizer) : t.peek.2.buffer.length ≤ max t.buffer.length 1 := by
  unfold tokenizer.peek
  cases hb : t.buffer with
  | cons c rest => simp [hb]
  | nil =>
    have := read_buffer_le t
    rw [hb] at this
    simp only [List.length_nil, Nat.zero_sub, Nat.le_zero] at this
    simp [unread_buffer, this]

theorem skipN_buffer_le : ∀ (n : Nat) (t : tokenizer),
    (t.skipN n).buffer.length ≤ t.buffer.length := by
  intro n
  induction n with
  | zero => intro t; exact Nat.le_refl _
  | succ n ih =>
    intro t
    have h1 := read_buffer_le t
    have h2 := ih t.read.2
    rw [tokenizer.skipN]
    simp only
    split <;> omega

theorem peekNLoop_buffer : ∀ (k : Nat) (t : tokenizer) (ret : List Int),
    ∃ m, m ≤ k
      ∧ (tokenizer.peekNLoop k t ret).1.length
          + (if (tokenizer.peekNLoop k t ret).2.1 then 1 else 0) = ret.length + m
      ∧ (tokenizer.peekNLoop k t ret).2.2.buffer.length ≤ t.buffer.length - m := by
  intro k
  induction k with
  | zero => intro t ret; exact ⟨0, Nat.le_refl _, by simp [tokenizer.peekNLoop], by simp [tokenizer.peekNLoop]⟩
  | succ k ih =>
    intro t ret
    have h1 := read_buffer_le t
    rw [tokenizer.peekNLoop]
    simp only
    by_cases hc : t.read.1 = -1
    · simp only [hc, if_true]
      exact ⟨1, by omega, rfl, h1⟩
    · simp only [hc, if_false]
      obtain ⟨m, a1, a2, a3⟩ := ih t.read.2 (ret ++ [t.read.1])
      refine ⟨m + 1, by omega, ?_, by omega⟩
      rw [a2]
      simp
      omega

theorem foldr_unread_buffer (ret : List Int) (t : tokenizer) :
    (ret.foldr (fun c s => s.unread c) t).buffer.length = ret.length + t.buffer.length := by
  induction ret with
  | nil => simp
  | cons c ret ih => simp [List.foldr, unread_buffer, ih]; omega

theorem peekN_buffer_le (t : tokenizer) (n : Nat) :
    (t.peekN n).2.2.buffer.length ≤ max t.buffer.length n := by
  obtain ⟨m, a1, a2, a3⟩ := peekNLoop_buffer n t []
  unfold tokenizer.peekN
  generalize tokenizer.peekNLoop n t [] = r at a2 a3
  obtain ⟨ret, eof, t1⟩ := r
  simp only [List.length_nil, Nat.zero_add] at a2 a3 ⊢
  rw [foldr_unread_buffer]
  cases eof with
  | true =>
    simp only [if_true, unread_buffer] at a2 ⊢
    omega
  | false =>
    simp only [Bool.false_eq_true, if_false] at a2 ⊢
    omega

theorem isStopChar_buffer_le (t : tokenizer) (c : Int) :
    (t.isStopChar c).2.buffer.length ≤ max t.buffer.length 1 := by
  have := peek_buffer_le t
  unfold tokenizer.isStopChar
  generalize t.peek = r at this
  obtain ⟨c2, t1⟩ := r
  simp only at this ⊢
  split_ifs <;> simp only <;> omega

theorem isTripleQuote_buffer_le (t : tokenizer) :
    t.isTripleQuote.2.buffer.length ≤ max t.buffer.length 2 := by
  have h1 := peekN_buffer_le t 2
  have h2 := skipN_buffer_le 2 (t.peekN 2).2.2
  unfold tokenizer.isTripleQuote
  generalize t.peekN 2 = r at h1 h2
  obtain ⟨cs, eof, t1⟩ := r
  simp only at h1 h2 ⊢
  split_ifs <;> simp only <;> omega

theorem isInf_buffer_le (t : tokenizer) (c : Int) :
    (t.isInf c).2.buffer.length ≤ max t.buffer.length 5 := by
  have h1 := peekN_buffer_le t 5
  have h2 := skipN_buffer_le 3 (t.peekN 5).2.2
  unfold tokenizer.isInf
  generalize t.peekN 5 = r at h1 h2
  obtain ⟨cs, eof, t1⟩ := r
  simp only at h1 h2 ⊢
  split_ifs <;> simp only <;> omega

/-! ## Long strings -/

theorem mem_restore : ∀ (n : Nat) (up : List Int) (c : Int), c ∈ restore n up →
    c ∈ up ∨ c = -1 := by
  intro n
  induction n with
  | zero => intro up c h; exact Or.inl h
  | succ n ih =>
    intro up c h
    cases up with
    | nil => simp only [restore, List.mem_singleton] at h; exact Or.inr h
    | cons x s =>
      rw [restore] at h
      split_ifs at h
      · exact Or.inl h
      · rcases List.mem_cons.1 h with rfl | h
        · exact Or.inl (List.mem_cons_self _ _)
        · rcases ih s c h with h | h
          · exact Or.inl (List.mem_cons_of_mem _ h)
          · exact Or.inr h

theorem mem_skipN : ∀ (n : Nat) (t : tokenizer) (c : Int), c ∈ (t.skipN n).upcoming →
    c ∈ t.upcoming := by
  intro n
  induction n with
  | zero => intro t c h; exact h
  | succ n ih =>
    intro t c h
    have r := read_upcoming t
    rw [tokenizer.skipN] at h
    simp only at h
    split_ifs at h
    · rw [r] at h; exact List.mem_of_mem_tail h
    · have := ih _ _ h
      rw [r] at this; exact List.mem_of_mem_tail this

theorem mem_isTripleQuote (t : tokenizer) (c : Int) (h : c ∈ t.isTripleQuote.2.upcoming) :
    c ∈ t.upcoming ∨ c = -1 := by
  obtain ⟨-, -, h3⟩ := peekN_eq t 2
  unfold tokenizer.isTripleQuote at h
  generalize t.peekN 2 = r at h h3
  obtain ⟨cs, eof, t1⟩ := r
  simp only at h h3
  split_ifs at h
  · rw [h3] at h; exact mem_restore _ _ _ h
  · have := mem_skipN _ _ _ h
    rw [h3] at this; exact mem_restore _ _ _ this
  · rw [h3] at h; exact mem_restore _ _ _ h

/-- A long string without a backslash never yields a single quote, whatever
`skipEndOfLongString` does short of adding characters to the input. -/
theorem readLongStringLoop_no_quote (skipEnd : tokenizer → Except Error (Bool × tokenizer))
    (hse : ∀ t b t2, skipEnd t = .ok (b, t2) → ∀ c ∈ t2.upcoming, c ∈ t.upcoming ∨ c = -1) :
    ∀ (fuel : Nat) (t : tokenizer) (ret w : List Int) (t2 : tokenizer),
    (∀ c ∈ t.upcoming, (0 ≤ c ∧ c < 256 ∧ c ≠ 92) ∨ c = -1) →
    tokenizer.readLongStringLoop skipEnd fuel t ret = .ok (w, t2) →
    (39 : Int) ∉ ret → (39 : Int) ∉ w := by
  intro fuel
  induction fuel with
  | zero => intro t ret w t2 _ h; simp [tokenizer.readLongStringLoop] at h
  | succ f ih =>
    intro t ret w t2 ht h hret
    have r1 := read_fst t
    have r2 := read_upcoming t
    have htail : ∀ c ∈ t.read.2.upcoming, (0 ≤ c ∧ c < 256 ∧ c ≠ 92) ∨ c = -1 := by
      intro c hc
      rw [r2] at hc
      exact ht c (List.mem_of_mem_tail hc)
    have hhead : t.read.1 ≠ -1 → 0 ≤ t.read.1 ∧ t.read.1 < 256 ∧ t.read.1 ≠ 92 := by
      intro hne
      have hu := upcoming_eq_cons t hne
      rcases ht t.read.1 (by rw [hu]; exact List.mem_cons_self _ _) with h1 | h1
      · exact h1
      · exact absurd h1 hne
    rw [tokenizer.readLongStringLoop] at h
    simp only at h
    split_ifs at h with h1 h2 h3
    · split at h
      · cases h
      · rename_i ok t3 he
        have h3' : ∀ c ∈ t3.upcoming, (0 ≤ c ∧ c < 256 ∧ c ≠ 92) ∨ c = -1 := by
          intro c hc
          rcases hse _ _ _ he c hc with h4 | h4
          · exact htail c h4
          · exact Or.inr h4
        split_ifs at h
        · simp only [Except.ok.injEq, Prod.mk.injEq] at h
          rw [← h.1]; exact hret
        · exact ih _ _ _ _ h3' h hret
    · exact absurd h3 (hhead h1).2.2
    · exact absurd h3 (hhead h1).2.2
    · refine ih _ _ _ _ htail h ?_
      intro hm
      rcases List.mem_append.1 hm with hm | hm
      · exact hret hm
      · simp only [List.mem_singleton] at hm
        have hb := hhead h1
        unfold byte at hm
        omega

/-! ## Stepping out of a container -/

theorem skipToClose_values {vs : List Tok} (h : Values vs) : ∀ (d : Nat) (rest : List Tok),
    skipToClose d (vs ++ rest) = skipToClose d rest := by
  induction h with
  | nil => intro d rest; rfl
  | scalar vs _ ih => intro d rest; simp only [List.cons_append, skipToClose]; exact ih d rest
  | container cs vs _ _ ih1 ih2 =>
    intro d rest
    simp only [List.cons_append, List.append_assoc, skipToClose]
    rw [ih1 (d + 1), skipToClose]
    exact ih2 d rest

/-- Inside a container at depth one, with well-formed values left before its
closing delimiter: every `Next` leaves the reader so. -/
theorem Reader.next_inside (r : Reader) (vs : List Tok) (hv : Values vs) (he : r.err = false)
    (hd : r.depth = 1) (ha : r.ahead = some (vs ++ [Tok.closing])) :
    r.Next.2.err = false ∧ r.Next.2.depth = 1
      ∧ ∃ vs2, Values vs2 ∧ r.Next.2.ahead = some (vs2 ++ [Tok.closing]) := by
  unfold Reader.Next
  rw [he, ha]
  cases hv with
  | nil =>
    simp only [Bool.false_eq_true, if_false, List.nil_append, hd, Nat.succ_ne_zero]
    exact ⟨trivial, trivial, [], Values.nil, by simp [Reader.ahead]⟩
  | scalar vs1 h1 =>
    simp only [Bool.false_eq_true, if_false, List.cons_append]
    exact ⟨trivial, hd, vs1, h1, by simp [Reader.ahead]⟩
  | container cs vs1 h1 h2 =>
    simp only [Bool.false_eq_true, if_false, List.cons_append]
    refine ⟨trivial, hd, vs1, h2, ?_⟩
    simp only [Reader.ahead, if_true, List.append_assoc, List.cons_append]
    rw [skipToClose_values h1, skipToClose]

theorem Reader.nexts_inside : ∀ (k : Nat) (r : Reader) (vs : List Tok), Values vs →
    r.err = false → r.depth = 1 → r.ahead = some (vs ++ [Tok.closing]) →
    (r.nexts k).err = false ∧ (r.nexts k).depth = 1
      ∧ ∃ vs2, Values vs2 ∧ (r.nexts k).ahead = some (vs2 ++ [Tok.closing]) := by
  intro k
  induction k with
  | zero => intro r vs hv he hd ha; exact ⟨he, hd, vs, hv, ha⟩
  | succ k ih =>
    intro r vs hv he hd ha
    obtain ⟨a, b, vs2, c, d⟩ := Reader.next_inside r vs hv he hd ha
    exact ih r.Next.2 vs2 c a b d

/-! ## Doubled punctuation and quotes -/

theorem peek_read_reads (t : tokenizer) (k : Nat) :
    t.peek.2.read.2.reads k = t.read.2.reads k := by
  rw [reads_eq_readsOf, reads_eq_readsOf, read_upcoming, read_upcoming, peek_upcoming]
  split
  · rename_i h; rw [h]; rfl
  · rfl

theorem dispatch_colon (t : tokenizer) :
    t.dispatch 58 = .ok (if t.peek.1 = 58 then t.peek.2.read.2.finish tokenType.tokenDoubleColon false
      else t.peek.2.finish tokenType.tokenColon false) := by
  unfold tokenizer.dispatch
  repeat rw [if_neg (by decide)]
  rw [if_pos rfl]
  generalize t.peek = r
  obtain ⟨c2, t2⟩ := r
  by_cases h : c2 = 58
  · simp only [h, if_true]; rfl
  · simp only [h, if_false]; rfl

theorem dispatch_brace (t : tokenizer) :
    t.dispatch 123 = .ok (if t.peek.1 = 123
      then t.peek.2.read.2.finish tokenType.tokenOpenDoubleBrace true
      else t.peek.2.finish tokenType.tokenOpenBrace true) := by
  unfold tokenizer.dispatch
  repeat rw [if_neg (by decide)]
  rw [if_pos rfl]
  generalize t.peek = r
  obtain ⟨c2, t2⟩ := r
  by_cases h : c2 = 123
  · simp only [h, if_true]; rfl
  · simp only [h, if_false]; rfl

theorem finish_reads (t : tokenizer) (tok : tokenType) (more : Bool) (k : Nat) :
    (t.finish tok more).reads k = t.reads k := by
  rw [reads_eq_readsOf, reads_eq_readsOf, finish_upcoming]

theorem peekChars_full : ∀ (n : Nat) (up : List Int), peekEOF n up = false →
    peekChars n up = readsOf up n := by
  intro n
  induction n with
  | zero => intro up _; rfl
  | succ n ih =>
    intro up h
    cases up with
    | nil => simp [peekEOF] at h
    | cons c s =>
      by_cases hc : c = -1
      · simp [peekEOF, hc] at h
      · simp only [peekEOF, hc, if_false] at h
        simp [peekChars, readsOf, hc, ih s h]

theorem peekChars_length_le : ∀ (n : Nat) (up : List Int), (peekChars n up).length ≤ n := by
  intro n
  induction n with
  | zero => intro up; simp [peekChars]
  | succ n ih =>
    intro up
    cases up with
    | nil => simp [peekChars]
    | cons c s =>
      have := ih s
      by_cases hc : c = -1
      · simp [peekChars, hc]
      · simp [peekChars, hc]; omega

theorem peekChars_short : ∀ (n : Nat) (up : List Int), peekEOF n up = true →
    (peekChars n up).length < n := by
  intro n
  induction n with
  | zero => intro up h; simp [peekEOF] at h
  | succ n ih =>
    intro up h
    cases up with
    | nil => simp [peekChars]
    | cons c s =>
      by_cases hc : c = -1
      · simp [peekChars, hc]
      · simp only [peekEOF, hc, if_false] at h
        have := ih s h
        simp [peekChars, hc]; omega

theorem readsOf_two (up : List Int) : readsOf up 2 = [hd up, hd up.tail] := rfl

theorem skipN_two (t : tokenizer) (h1 : t.read.1 ≠ -1) (h2 : t.read.2.read.1 ≠ -1) :
    t.skipN 2 = t.read.2.read.2 := by
  simp [tokenizer.skipN, h1, h2]

theorem isTripleQuote_spec (t : tokenizer) :
    (t.reads 2 = [39, 39] →
      t.isTripleQuote.1 = true ∧ ∀ k, t.isTripleQuote.2.reads k = t.read.2.read.2.reads k)
    ∧ (t.reads 2 ≠ [39, 39] →
      t.isTripleQuote.1 = false ∧ ∀ k, t.isTripleQuote.2.reads k = t.reads k) := by
  obtain ⟨h1, h2, h3⟩ := peekN_eq t 2
  have hr : t.reads 2 = readsOf t.upcoming 2 := reads_eq_readsOf 2 t
  have hrest : ∀ k, (t.peekN 2).2.2.reads k = t.reads k := by
    intro k
    rw [reads_eq_readsOf, reads_eq_readsOf, h3, readsOf_restore]
  unfold tokenizer.isTripleQuote
  generalize t.peekN 2 = r at h1 h2 h3 hrest
  obtain ⟨cs, eof, t1⟩ := r
  simp only at h1 h2 h3 hrest ⊢
  constructor
  · intro h
    have he : peekEOF 2 t.upcoming = false := by
      cases hp : peekEOF 2 t.upcoming with
      | false => rfl
      | true =>
        have := (peekEOF_iff 2 t.upcoming).1 hp
        rw [← hr, h] at this
        simp at this
    rw [he] at h2
    rw [peekChars_full 2 _ he, ← hr, h] at h1
    subst h1 h2
    simp only [Bool.false_eq_true, if_false, List.getD_cons_zero, List.getD_cons_succ, and_self,
      if_true, true_and]
    have a1 : t1.read.1 = 39 := by
      have := hrest 1
      rw [show t.reads 1 = (t.reads 2).take 1 from rfl, h] at this
      simpa [tokenizer.reads] using this
    have a2 : t1.read.2.read.1 = 39 := by
      have := hrest 2
      rw [h] at this
      simp only [tokenizer.reads, List.cons.injEq, and_true] at this
      exact this.2
    rw [skipN_two t1 (by rw [a1]; decide) (by rw [a2]; decide)]
    intro k
    have := hrest (k + 2)
    simp only [tokenizer.reads, List.cons.injEq] at this
    exact this.2.2
  · intro h
    cases he : eof with
    | true => simp only [if_true]; exact ⟨trivial, hrest⟩
    | false =>
      rw [he] at h2
      rw [peekChars_full 2 _ h2.symm, ← hr] at h1
      have hcs : ¬ (cs.getD 0 0 = 39 ∧ cs.getD 1 0 = 39) := by
        rintro ⟨a, b⟩
        apply h
        rw [hr, readsOf_two] at h1 ⊢
        rw [h1] at a b
        simp only [List.getD_cons_zero, List.getD_cons_succ] at a b
        rw [a, b]
      simp only [Bool.false_eq_true, if_false]
      rw [if_neg hcs]
      exact ⟨rfl, hrest⟩

theorem peekChars_head (n : Nat) (up : List Int) (x : Int) (hx : x ≠ -1) :
    ((peekChars (n + 1) up).length > 0 ∧ (peekChars (n + 1) up).getD 0 0 = x) ↔ hd up = x := by
  cases up with
  | nil =>
    simp only [peekChars, List.length_nil, gt_iff_lt, lt_self_iff_false, false_and, hd_nil,
      false_iff]
    exact fun e => hx e.symm
  | cons c s =>
    by_cases hc : c = -1
    · subst hc
      simp only [peekChars, if_true, List.length_nil, gt_iff_lt, lt_self_iff_false, false_and,
        hd_cons, false_iff]
      exact fun e => hx e.symm
    · simp [peekChars, hc]

theorem peekChars_four (up : List Int) :
    ((peekChars 4 up).length ≥ 4 ∧ isDigit ((peekChars 4 up).getD 0 0) = true
        ∧ isDigit ((peekChars 4 up).getD 1 0) = true ∧ isDigit ((peekChars 4 up).getD 2 0) = true
        ∧ ((peekChars 4 up).getD 3 0 = 45 ∨ (peekChars 4 up).getD 3 0 = 84))
    ↔ (isDigit ((readsOf up 4).getD 0 0) = true ∧ isDigit ((readsOf up 4).getD 1 0) = true
        ∧ isDigit ((readsOf up 4).getD 2 0) = true
        ∧ ((readsOf up 4).getD 3 0 = 45 ∨ (readsOf up 4).getD 3 0 = 84)) := by
  cases he : peekEOF 4 up with
  | false =>
    rw [peekChars_full 4 up he]
    have : (readsOf up 4).length = 4 := rfl
    simp [this]
  | true =>
    have h1 := peekChars_short 4 up he
    have h2 := (peekEOF_iff 4 up).1 he
    constructor
    · rintro ⟨h, -⟩; omega
    · rintro ⟨a, b, c, d⟩
      exfalso
      have e : readsOf up 4 = [hd up, hd up.tail, hd up.tail.tail, hd up.tail.tail.tail] := rfl
      rw [e] at a b c d h2
      simp only [List.getD_cons_zero, List.getD_cons_succ] at a b c d
      have ba := digit_bounds a
      have bb := digit_bounds b
      have bc := digit_bounds c
      simp only [List.mem_cons, List.mem_singleton, List.not_mem_nil, or_false] at h2
      omega

theorem scanForNumericType_spec (t : tokenizer) (c : Int) (hc : isDigit c = true) :
    t.scanForNumericType c
      = .ok (if c = 48 ∧ (t.read.1 = 98 ∨ t.read.1 = 66) then tokenType.tokenBinary
          else if c = 48 ∧ (t.read.1 = 120 ∨ t.read.1 = 88) then tokenType.tokenHex
          else if isDigit ((t.reads 4).getD 0 0) = true ∧ isDigit ((t.reads 4).getD 1 0) = true
              ∧ isDigit ((t.reads 4).getD 2 0) = true
              ∧ ((t.reads 4).getD 3 0 = 45 ∨ (t.reads 4).getD 3 0 = 84)
            then tokenType.tokenTimestamp
          else tokenType.tokenNumber, (t.peekN 4).2.2) := by
  obtain ⟨h1, -, -⟩ := peekN_eq t 4
  have f1 := peekChars_head 3 t.upcoming 98 (by decide)
  have f2 := peekChars_head 3 t.upcoming 66 (by decide)
  have f3 := peekChars_head 3 t.upcoming 120 (by decide)
  have f4 := peekChars_head 3 t.upcoming 88 (by decide)
  have f5 := peekChars_four t.upcoming
  rw [← read_fst] at f1 f2 f3 f4
  rw [reads_eq_readsOf]
  unfold tokenizer.scanForNumericType
  rw [hc]
  generalize t.peekN 4 = r at h1 ⊢
  obtain ⟨cs, eof, t1⟩ := r
  simp only at h1
  subst h1
  simp only [Bool.not_true, Bool.false_eq_true, if_false]
  have e1 : (c = 48 ∧ (peekChars 4 t.upcoming).length > 0
      ∧ ((peekChars 4 t.upcoming).getD 0 0 = 98 ∨ (peekChars 4 t.upcoming).getD 0 0 = 66))
      ↔ (c = 48 ∧ (t.read.1 = 98 ∨ t.read.1 = 66)) := by
    constructor
    · rintro ⟨h0, hl, h | h⟩
      · exact ⟨h0, Or.inl (f1.1 ⟨hl, h⟩)⟩
      · exact ⟨h0, Or.inr (f2.1 ⟨hl, h⟩)⟩
    · rintro ⟨h0, h | h⟩
      · exact ⟨h0, (f1.2 h).1, Or.inl (f1.2 h).2⟩
      · exact ⟨h0, (f2.2 h).1, Or.inr (f2.2 h).2⟩
  have e2 : (c = 48 ∧ (peekChars 4 t.upcoming).length > 0
      ∧ ((peekChars 4 t.upcoming).getD 0 0 = 120 ∨ (peekChars 4 t.upcoming).getD 0 0 = 88))
      ↔ (c = 48 ∧ (t.read.1 = 120 ∨ t.read.1 = 88)) := by
    constructor
    · rintro ⟨h0, hl, h | h⟩
      · exact ⟨h0, Or.inl (f3.1 ⟨hl, h⟩)⟩
      · exact ⟨h0, Or.inr (f4.1 ⟨hl, h⟩)⟩
    · rintro ⟨h0, h | h⟩
      · exact ⟨h0, (f3.2 h).1, Or.inl (f3.2 h).2⟩
      · exact ⟨h0, (f4.2 h).1, Or.inr (f4.2 h).2⟩
  by_cases ha : c = 48 ∧ (t.read.1 = 98 ∨ t.read.1 = 66)
  · rw [if_pos (e1.2 ha), if_pos ha]
  · rw [if_neg (fun h => ha (e1.1 h)), if_neg ha]
    by_cases hb : c = 48 ∧ (t.read.1 = 120 ∨ t.read.1 = 88)
    · rw [if_pos (e2.2 hb), if_pos hb]
    · rw [if_neg (fun h => hb (e2.1 h)), if_neg hb]
      by_cases hts : isDigit ((readsOf t.upcoming 4).getD 0 0) = true
              ∧ isDigit ((readsOf t.upcoming 4).getD 1 0) = true
              ∧ isDigit ((readsOf t.upcoming 4).getD 2 0) = true
              ∧ ((readsOf t.upcoming 4).getD 3 0 = 45 ∨ (readsOf t.upcoming 4).getD 3 0 = 84)
      · rw [if_pos (f5.2 hts), if_pos hts]
      · rw [if_neg (fun h => hts (f5.1 h)), if_neg hts]

/-! ## Stop characters, and the runs of `readSymbol` and `readOperator` -/

theorem isStopChar_iff (c : Int) :
    isStopChar c = true ↔ c ∈ [-1, 32, 9, 10, 13, 123, 125, 91, 93, 40, 41, 44, 34, 39] := by
  unfold isStopChar
  simp only [List.mem_cons, List.mem_singleton, List.not_mem_nil, or_false]
  split_ifs with h1 h2
  · simp only [true_iff]; omega
  · simp only [true_iff]; omega
  · simp only [Bool.false_eq_true, false_iff]; omega

theorem isStopChar_reads (t : tokenizer) (c : Int) (k : Nat) :
    (t.isStopChar c).2.reads k = t.reads k := by
  have p := peek_reads t k
  unfold tokenizer.isStopChar
  generalize t.peek = r at p
  obtain ⟨c2, t1⟩ := r
  simp only at p ⊢
  split_ifs <;> first | rfl | exact p

theorem run_split (ok : Int → Bool) (hok : ok (-1) = false) : ∀ up : List Int,
    ∃ pre rest, up = pre ++ rest ∧ (∀ c ∈ pre, ok c = true) ∧ ok (hd rest) = false := by
  intro up
  induction up with
  | nil => exact ⟨[], [], rfl, by simp, hok⟩
  | cons c s ih =>
    by_cases hc : ok c = true
    · obtain ⟨pre, rest, e, h1, h2⟩ := ih
      refine ⟨c :: pre, rest, by rw [e]; rfl, ?_, h2⟩
      intro x hx
      rcases List.mem_cons.1 hx with rfl | hx
      · exact hc
      · exact h1 x hx
    · exact ⟨[], c :: s, rfl, by simp, by simpa using hc⟩

theorem byte_isIdentifierPart (c : Int) (h : isIdentifierPart c = true) : byte c = c := by
  unfold isIdentifierPart isIdentifierStart isDigit at h
  unfold byte
  split_ifs at h <;> first | omega | (simp at h; omega)

theorem byte_isOperatorChar (c : Int) (h : isOperatorChar c = true) : byte c = c := by
  unfold isOperatorChar at h
  unfold byte
  split_ifs at h <;> omega

theorem map_byte_id (ok : Int → Bool) (hbyte : ∀ c, ok c = true → byte c = c) (pre : List Int)
    (h : ∀ c ∈ pre, ok c = true) : pre.map byte = pre := by
  induction pre with
  | nil => rfl
  | cons c s ih =>
    rw [List.map_cons, hbyte c (h c (List.mem_cons_self _ _)),
      ih (fun x hx => h x (List.mem_cons_of_mem _ hx))]

/-! ## Line continuations -/

theorem quotedText_plain_run (q : Int) (a : List Int)
    (ha : ∀ c ∈ a, c ≠ -1 ∧ c ≠ 10 ∧ c ≠ q ∧ c ≠ 92) (s w : List Int) (h : QuotedText q s w) :
    QuotedText q (a ++ s) (a.map byte ++ w) := by
  induction a with
  | nil => exact h
  | cons c a ih =>
    obtain ⟨h1, h2, h3, h4⟩ := ha c (List.mem_cons_self _ _)
    exact QuotedText.plain c _ _ h1 h2 h3 h4 (ih (fun x hx => ha x (List.mem_cons_of_mem _ hx)))

theorem readLongStringLoop_plain_run (skipEnd : tokenizer → Except Error (Bool × tokenizer)) :
    ∀ (body : List Int) (fuel : Nat) (t : tokenizer) (ret s : List Int),
    (∀ c ∈ body, c ≠ -1 ∧ c ≠ 39 ∧ c ≠ 92) → t.upcoming = body ++ s →
    ∃ t2, t2.upcoming = s
      ∧ tokenizer.readLongStringLoop skipEnd (fuel + body.length) t ret
        = tokenizer.readLongStringLoop skipEnd fuel t2 (ret ++ body.map byte) := by
  intro body
  induction body with
  | nil => intro fuel t ret s _ hu; exact ⟨t, by simpa using hu, by simp⟩
  | cons c body ih =>
    intro fuel t ret s hb hu
    obtain ⟨h1, h2, h3⟩ := hb c (List.mem_cons_self _ _)
    have r1 := read_fst t
    have r2 := read_upcoming t
    rw [hu] at r1 r2
    simp only [List.cons_append, hd_cons, List.tail_cons] at r1 r2
    obtain ⟨t2, u2, e2⟩ := ih fuel t.read.2 (ret ++ [byte c]) s
      (fun x hx => hb x (List.mem_cons_of_mem _ hx)) r2
    refine ⟨t2, u2, ?_⟩
    rw [List.length_cons, ← Nat.add_assoc, tokenizer.readLongStringLoop]
    simp only [r1, h1, h2, h3, if_false]
    rw [e2]
    simp

theorem readLongStringLoop_continuation (skipEnd : tokenizer → Except Error (Bool × tokenizer))
    (fuel : Nat) (t : tokenizer) (ret s : List Int) (hu : t.upcoming = 92 :: 10 :: s) :
    ∃ t2, t2.upcoming = s
      ∧ tokenizer.readLongStringLoop skipEnd (fuel + 1) t ret
        = tokenizer.readLongStringLoop skipEnd fuel t2 ret := by
  have r1 := read_fst t
  have r2 := read_upcoming t
  rw [hu] at r1 r2
  simp only [hd_cons, List.tail_cons] at r1 r2
  have p1 := peek_fst t.read.2
  have p2 := peek_upcoming t.read.2
  rw [r2] at p1 p2
  simp only [hd_cons, reduceCtorEq, if_false] at p1 p2
  have r3 := read_upcoming t.read.2.peek.2
  rw [p2] at r3
  simp only [List.tail_cons] at r3
  refine ⟨t.read.2.peek.2.read.2, r3, ?_⟩
  rw [tokenizer.readLongStringLoop]
  simp only [r1]
  rw [show t.read.2.peek = (t.read.2.peek.1, t.read.2.peek.2) from rfl]
  simp [p1]

theorem readLongStringLoop_quote (skipEnd : tokenizer → Except Error (Bool × tokenizer))
    (fuel : Nat) (t : tokenizer) (ret : List Int) (t2 : tokenizer) (h : t.read.1 = 39)
    (hs : skipEnd t.read.2 = .ok (true, t2)) :
    tokenizer.readLongStringLoop skipEnd (fuel + 1) t ret = .ok (ret, t2) := by
  rw [tokenizer.readLongStringLoop]
  simp [h, hs]

theorem normalize_continuation (a b : List Nat) (nl : List Nat) (q : Nat) (rest : List Nat)
    (ha : (13 : Nat) ∉ a) (hb : (13 : Nat) ∉ b ∧ (10 : Nat) ∉ b) (hq : q ≠ 10 ∧ q ≠ 13)
    (hnl : nl = [10] ∨ nl = [13] ∨ nl = [13, 10]) :
    normalize (a ++ 92 :: (nl ++ (b ++ q :: rest)))
      = a.map Int.ofNat ++ 92 :: 10 :: (b.map Int.ofNat ++ Int.ofNat q :: normalize rest) := by
  have hbq : normalize (b ++ q :: rest) = b.map Int.ofNat ++ Int.ofNat q :: normalize rest := by
    rw [normalize_append_no_cr _ _ hb.1, normalize_other q rest hq.2]
  rw [normalize_append_no_cr _ _ ha, normalize_other 92 _ (by decide)]
  rcases hnl with rfl | rfl | rfl
  · rw [List.singleton_append, normalize_other 10 _ (by decide), hbq]; rfl
  · rw [List.singleton_append, normalize_cr, hbq]; rfl
    intro cs2 e
    cases b with
    | nil =>
      simp only [List.nil_append, List.cons.injEq] at e
      exact hq.1 e.1
    | cons c b =>
      simp only [List.cons_append, List.cons.injEq] at e
      exact hb.2 (by rw [e.1]; exact List.mem_cons_self _ _)
  · rw [show [13, 10] ++ (b ++ q :: rest) = 13 :: 10 :: (b ++ q :: rest) from rfl,
      normalize_crlf, hbq]; rfl

theorem plain_of_bytes (q : Int) (hq : q = 34 ∨ q = 39) (a : List Nat)
    (ha : ∀ c ∈ a, c < 256 ∧ c ≠ 34 ∧ c ≠ 39 ∧ c ≠ 92 ∧ c ≠ 10 ∧ c ≠ 13) :
    (∀ c ∈ a.map Int.ofNat, c ≠ -1 ∧ c ≠ 10 ∧ c ≠ q ∧ c ≠ 92)
    ∧ (∀ c ∈ a.map Int.ofNat, c ≠ -1 ∧ c ≠ 39 ∧ c ≠ 92)
    ∧ (13 : Nat) ∉ a ∧ (10 : Nat) ∉ a ∧ (∀ c ∈ a, c < 256) := by
  refine ⟨?_, ?_, ?_, ?_, fun c hc => (ha c hc).1⟩
  · intro c hc
    obtain ⟨x, hx, rfl⟩ := List.mem_map.1 hc
    have := ha x hx
    simp only [Int.ofNat_eq_coe]
    rcases hq with rfl | rfl <;> omega
  · intro c hc
    obtain ⟨x, hx, rfl⟩ := List.mem_map.1 hc
    have := ha x hx
    simp only [Int.ofNat_eq_coe]
    omega
  · intro h; have := ha 13 h; omega
  · intro h; have := ha 10 h; omega

theorem quoted_continuation (q : Nat) (hq : q = 34 ∨ q = 39) (a b nl rest : List Nat)
    (ha : ∀ c ∈ a, c < 256 ∧ c ≠ 34 ∧ c ≠ 39 ∧ c ≠ 92 ∧ c ≠ 10 ∧ c ≠ 13)
    (hb : ∀ c ∈ b, c < 256 ∧ c ≠ 34 ∧ c ≠ 39 ∧ c ≠ 92 ∧ c ≠ 10 ∧ c ≠ 13)
    (hnl : nl = [10] ∨ nl = [13] ∨ nl = [13, 10]) :
    ∃ t2, tokenizer.readQuotedLoop (Int.ofNat q)
        ((tokenizeBytes (a ++ 92 :: (nl ++ (b ++ q :: rest)))).size + 1)
        (tokenizeBytes (a ++ 92 :: (nl ++ (b ++ q :: rest)))) []
        = .ok ((a ++ b).map Int.ofNat, t2)
      ∧ t2.upcoming = (tokenizeBytes rest).upcoming := by
  have hq2 : Int.ofNat q = 34 ∨ Int.ofNat q = 39 := by
    rcases hq with rfl | rfl
    · exact Or.inl rfl
    · exact Or.inr rfl
  obtain ⟨a1, -, a3, -, a5⟩ := plain_of_bytes (Int.ofNat q) hq2 a ha
  obtain ⟨b1, -, b3, b4, b5⟩ := plain_of_bytes (Int.ofNat q) hq2 b hb
  have hu : (tokenizeBytes (a ++ 92 :: (nl ++ (b ++ q :: rest)))).upcoming
      = (a.map Int.ofNat ++ 92 :: 10 :: b.map Int.ofNat) ++ Int.ofNat q :: normalize rest := by
    simp only [tokenizer.upcoming, tokenizeBytes, List.nil_append]
    rw [normalize_continuation a b nl q rest a3 ⟨b3, b4⟩ (by omega) hnl]
    simp
  have htext : QuotedText (Int.ofNat q) (a.map Int.ofNat ++ 92 :: 10 :: b.map Int.ofNat)
      ((a ++ b).map Int.ofNat) := by
    have h1 := quotedText_plain_run (Int.ofNat q) _ b1 [] [] QuotedText.nil
    have h2 := quotedText_plain_run (Int.ofNat q) _ a1 _ _ (QuotedText.continuation _ _ h1)
    rw [map_byte_ofNat a a5, map_byte_ofNat b b5] at h2
    simpa using h2
  have hne : Int.ofNat q ≠ -1 ∧ Int.ofNat q ≠ 10 ∧ Int.ofNat q ≠ 92 := by
    rcases hq2 with h | h <;> rw [h] <;> decide
  exact readQuotedLoop_closed (Int.ofNat q) hne.1 hne.2.1 hne.2.2 htext _ _ hu

/-! ## Underscores in numbers -/

theorem ReadNumber_outcome (t : tokenizer) :
    outcome t.ReadNumber = scanOutcome (scanNumber t.upcoming) := by
  have href := ReadNumber_refines t
  cases hp : scanNumber t.upcoming with
  | error e =>
    rw [hp] at href
    simp only [Refines] at href
    rw [href]
    rfl
  | ok r =>
    obtain ⟨w, tt1, c, rest⟩ := r
    rw [hp] at href
    obtain ⟨t2, e, -⟩ := href
    rw [e]
    rfl

theorem uad_hd {s1 s2 : List Int} (h : UnderscoreAfterDigit s1 s2) : hd s1 = hd s2 := by
  cases h <;> rfl

theorem uad_cursor {s1 s2 : List Int} (h : s1 = s2 ∨ UnderscoreAfterDigit s1 s2) :
    hd s1 :: s1.tail = hd s2 :: s2.tail ∨ UnderscoreAfterDigit (hd s1 :: s1.tail) (hd s2 :: s2.tail) := by
  rcases h with rfl | h
  · exact Or.inl rfl
  · right
    cases h with
    | here d s hd1 => exact UnderscoreAfterDigit.here d s hd1
    | there c s1 s2 h => exact UnderscoreAfterDigit.there c s1 s2 h

theorem uad_tail {s1 s2 : List Int} (h : s1 = s2 ∨ UnderscoreAfterDigit s1 s2)
    (hc : isDigit (hd s1) = false) :
    hd s1 = hd s2 ∧ (s1.tail = s2.tail ∨ UnderscoreAfterDigit s1.tail s2.tail) := by
  rcases h with rfl | h
  · exact ⟨rfl, Or.inl rfl⟩
  · cases h with
    | here d s hd1 => simp only [hd_cons] at hc; rw [hd1] at hc; cases hc
    | there c s1 s2 h => exact ⟨rfl, Or.inr h⟩

theorem scanDigits_uad : ∀ (s1 s2 : List Int), UnderscoreAfterDigit s1 s2 →
    (scanDigits isDigit s1).1 = (scanDigits isDigit s2).1
    ∧ (scanDigits isDigit s1).2.1 = (scanDigits isDigit s2).2.1
    ∧ ((scanDigits isDigit s1).2.2 = (scanDigits isDigit s2).2.2
      ∨ UnderscoreAfterDigit (scanDigits isDigit s1).2.2 (scanDigits isDigit s2).2.2) := by
  intro s1 s2 h
  induction h with
  | here d s hd1 =>
    have h95 : d ≠ 95 := by
      intro h; rw [h] at hd1; simp [isDigit] at hd1
    simp [scanDigits, hd1, h95]
  | there c s1 s2 h ih =>
    by_cases h95 : c = 95
    · simpa [scanDigits, h95] using ih
    · by_cases hc : isDigit c = true
      · simp only [scanDigits, h95, hc, if_false, Bool.not_true, Bool.false_eq_true]
        exact ⟨by rw [ih.1], ih.2.1, ih.2.2⟩
      · simp only [scanDigits, h95, hc, if_false, Bool.not_false, if_true]
        simp only [Bool.not_eq_true] at hc
        simp [scanDigits, h95, hc, h]

theorem scanDigitsFrom_uad (c1 c2 : Int) (s1 s2 : List Int)
    (h : c1 :: s1 = c2 :: s2 ∨ UnderscoreAfterDigit (c1 :: s1) (c2 :: s2)) :
    (scanDigitsFrom c1 s1).1 = (scanDigitsFrom c2 s2).1
    ∧ (scanDigitsFrom c1 s1).2.1 = (scanDigitsFrom c2 s2).2.1
    ∧ ((scanDigitsFrom c1 s1).2.2 = (scanDigitsFrom c2 s2).2.2
      ∨ UnderscoreAfterDigit (scanDigitsFrom c1 s1).2.2 (scanDigitsFrom c2 s2).2.2) := by
  rcases h with h | h
  · cases h
    exact ⟨rfl, rfl, Or.inl rfl⟩
  · cases h with
    | here d s hd1 => simp [scanDigitsFrom, hd1, scanDigits]
    | there c s1 s2 h =>
      by_cases hc : isDigit c1 = true
      · have := scanDigits_uad s1 s2 h
        simp only [scanDigitsFrom, hc, Bool.not_true, Bool.false_eq_true, if_false]
        exact ⟨by rw [this.1], this.2.1, this.2.2⟩
      · simp only [Bool.not_eq_true] at hc
        simp [scanDigitsFrom, hc, h]

theorem scanExponent_uad (s1 s2 : List Int) (h : s1 = s2 ∨ UnderscoreAfterDigit s1 s2) :
    (scanExponent s1).1 = (scanExponent s2).1
    ∧ (scanExponent s1).2.1 = (scanExponent s2).2.1
    ∧ ((scanExponent s1).2.2 = (scanExponent s2).2.2
      ∨ UnderscoreAfterDigit (scanExponent s1).2.2 (scanExponent s2).2.2) := by
  by_cases hs : hd s1 = 43 ∨ hd s1 = 45
  · have hnd : isDigit (hd s1) = false := by rcases hs with h | h <;> rw [h] <;> decide
    obtain ⟨e, ht⟩ := uad_tail h hnd
    have hs2 : hd s2 = 43 ∨ hd s2 = 45 := by rw [← e]; exact hs
    have := scanDigitsFrom_uad _ _ _ _ (uad_cursor ht)
    simp only [scanExponent, hs, hs2, if_true]
    exact ⟨by rw [this.1, e], this.2.1, this.2.2⟩
  · have e : hd s1 = hd s2 := by
      rcases h with rfl | h
      · rfl
      · exact uad_hd h
    have hs2 : ¬ (hd s2 = 43 ∨ hd s2 = 45) := by rw [← e]; exact hs
    have := scanDigitsFrom_uad _ _ _ _ (uad_cursor h)
    simp only [scanExponent, hs, hs2, if_false]
    exact this

theorem scanNumberEnd_uad (w : List Int) (tt : IonType) (c : Int) (s1 s2 : List Int)
    (h : s1 = s2 ∨ UnderscoreAfterDigit s1 s2) :
    scanOutcome (scanNumberEnd w tt c s1) = scanOutcome (scanNumberEnd w tt c s2) := by
  have e : hd s1 = hd s2 := by
    rcases h with rfl | h
    · rfl
    · exact uad_hd h
  unfold scanNumberEnd
  rw [e]
  split <;> rfl

theorem scanNumberExp_uad (w : List Int) (tt : IonType) (c : Int) (s1 s2 : List Int)
    (h : s1 = s2 ∨ UnderscoreAfterDigit s1 s2) :
    scanOutcome (scanNumberExp w tt c s1) = scanOutcome (scanNumberExp w tt c s2) := by
  obtain ⟨e1, e2, e3⟩ := scanExponent_uad s1 s2 h
  unfold scanNumberExp
  rw [e1, e2]
  split
  · exact scanNumberEnd_uad _ _ _ _ _ e3
  · split
    · exact scanNumberEnd_uad _ _ _ _ _ e3
    · exact scanNumberEnd_uad _ _ _ _ _ h

theorem scanNumberFrac_uad (w : List Int) (c : Int) (s1 s2 : List Int)
    (h : s1 = s2 ∨ UnderscoreAfterDigit s1 s2) :
    scanOutcome (scanNumberFrac w c s1) = scanOutcome (scanNumberFrac w c s2) := by
  obtain ⟨e1, e2, e3⟩ := scanDigitsFrom_uad _ _ _ _ (uad_cursor h)
  unfold scanNumberFrac
  rw [e1, e2]
  split
  · exact scanNumberExp_uad _ _ _ _ _ e3
  · exact scanNumberExp_uad _ _ _ _ _ h

theorem scanNumberInt_uad (w : List Int) (c1 c2 : Int) (s1 s2 : List Int)
    (h : c1 :: s1 = c2 :: s2 ∨ UnderscoreAfterDigit (c1 :: s1) (c2 :: s2)) :
    scanOutcome (scanNumberInt w c1 s1) = scanOutcome (scanNumberInt w c2 s2) := by
  have ec : c1 = c2 := by
    rcases h with h | h
    · cases h; rfl
    · simpa using uad_hd h
  subst ec
  obtain ⟨e1, e2, e3⟩ := scanDigitsFrom_uad _ _ _ _ h
  unfold scanNumberInt
  rw [e1, e2]
  split
  · rfl
  · exact scanNumberFrac_uad _ _ _ _ e3

theorem scanNumber_uad (s1 s2 : List Int) (h : UnderscoreAfterDigit s1 s2) :
    scanOutcome (scanNumber s1) = scanOutcome (scanNumber s2) := by
  have e := uad_hd h
  unfold scanNumber
  rw [e]
  split
  · rename_i h45
    have hnd : isDigit (hd s1) = false := by rw [e, h45]; decide
    obtain ⟨-, ht⟩ := uad_tail (Or.inr h) hnd
    exact scanNumberInt_uad _ _ _ _ _ (uad_cursor ht)
  · have hc := uad_cursor (Or.inr h)
    rw [e] at hc
    exact scanNumberInt_uad _ _ _ _ _ hc

theorem not_mem_dropUnderscores (s : List Int) : (95 : Int) ∉ dropUnderscores s := by
  simp [dropUnderscores, List.mem_filter]

theorem ReadNumber_no_underscore {t t2 : tokenizer} {w : List Int} {tt : IonType}
    (h : t.ReadNumber = .ok (w, tt, t2)) : (95 : Int) ∉ w := by
  obtain ⟨c, rest, hs, -⟩ := ReadNumber_ok h
  have hspec := scanNumber_spec t.upcoming
  rw [hs] at hspec
  obtain ⟨n, -, -, -, e, -⟩ := hspec
  rw [e]
  simpa using not_mem_dropUnderscores _

theorem readRadix_ok {t t2 : tokenizer} {pok dok : Int → Bool} (hdok : dok (-1) = false)
    {w : List Int} (h : t.readRadix pok dok = .ok (w, t2)) :
    ∃ c rest, scanRadix pok dok t.upcoming = .ok (w, c, rest) := by
  have href := readRadix_refines t pok dok hdok
  cases hp : scanRadix pok dok t.upcoming with
  | error e =>
    rw [hp] at href
    simp only [RefinesText] at href
    rw [href] at h
    cases h
  | ok r =>
    obtain ⟨w1, c, rest⟩ := r
    rw [hp] at href
    obtain ⟨t3, e, -⟩ := href
    rw [e] at h
    cases h
    exact ⟨c, rest, rfl⟩

theorem readRadix_no_underscore {t t2 : tokenizer} {pok dok : Int → Bool}
    (hdok : dok (-1) = false) (hbyte : ∀ c, dok c = true → byte c = c)
    (hp : ∀ c, pok c = true → byte c ≠ 95)
    {w : List Int} (h : t.readRadix pok dok = .ok (w, t2)) : (95 : Int) ∉ w := by
  obtain ⟨c, rest, hs⟩ := readRadix_ok hdok h
  obtain ⟨n, -, -, -, e⟩ := scanDigits_cut dok hbyte
    (if hd t.upcoming = 45 then t.upcoming.tail else t.upcoming).tail.tail
  have h3 : (95 : Int) ∉ (if hd t.upcoming = 45 then [(45 : Int)] else []) := by
    split <;> simp
  unfold scanRadix at hs
  simp only at hs
  generalize (if hd t.upcoming = 45 then t.upcoming.tail else t.upcoming) = s1 at hs e
  generalize (if hd t.upcoming = 45 then [(45 : Int)] else []) = sign at hs h3
  by_cases h1 : hd s1 ≠ 48
  · rw [if_pos h1] at hs; cases hs
  · rw [if_neg h1] at hs
    by_cases h2 : (!pok (hd s1.tail)) = true
    · rw [if_pos h2] at hs; cases hs
    · rw [if_neg h2] at hs
      split at hs
      · simp only [Except.ok.injEq, Prod.mk.injEq] at hs
        rw [← hs.1, e]
        have h1 := not_mem_dropUnderscores (s1.tail.tail.take n)
        have h2 := hp (hd s1.tail) (by simpa using h2)
        simp only [List.mem_append, List.mem_cons, List.mem_singleton, List.not_mem_nil,
          or_false, not_or]
        exact ⟨⟨h3, by decide, fun h => h2 h.symm⟩, h1⟩
      · cases hs

theorem scanDigits_run (dok : Int → Bool) (hbyte : ∀ c, dok c = true → byte c = c)
    (rest : List Int) (hterm : dok (hd rest) = false) (h95 : hd rest ≠ 95) :
    ∀ (run : List Int), separatedRun dok run = true →
      scanDigits dok (run ++ rest) = (dropUnderscores run, hd rest, rest.tail) := by
  intro run
  induction run with
  | nil =>
    intro _
    cases rest with
    | nil => simp [scanDigits, dropUnderscores]
    | cons c s =>
      simp only [hd_cons] at hterm h95
      simp [scanDigits, dropUnderscores, hterm, h95]
  | cons c s ih =>
    intro hw
    simp only [separatedRun, List.all_cons, Bool.and_eq_true, Bool.or_eq_true,
      decide_eq_true_eq] at hw
    have := ih (by simpa [separatedRun] using hw.2)
    by_cases hc : c = 95
    · subst hc
      simp [scanDigits, dropUnderscores] at this ⊢
      exact this
    · have hdc : dok c = true := by
        rcases hw.1 with h | h
        · exact h
        · exact absurd h hc
      simp only [dropUnderscores] at this
      simp [scanDigits, dropUnderscores, hc, hdc, this, hbyte c hdc]

theorem scanRadix_run (pok dok : Int → Bool) (hbyte : ∀ c, dok c = true → byte c = c)
    (sign run rest : List Int) (m : Int) (hsign : sign = [] ∨ sign = [45])
    (hm : pok m = true) (hmb : byte m = m)
    (hw : separatedRun dok run = true) (hstop : isStopChar (hd rest) = true)
    (hterm : dok (hd rest) = false) :
    scanRadix pok dok (sign ++ 48 :: m :: run ++ rest)
      = .ok (sign ++ 48 :: m :: dropUnderscores run, hd rest, rest.tail) := by
  obtain ⟨h95, -⟩ := isStopChar_facts _ hstop
  have hs := scanDigits_run dok hbyte rest hterm h95 run hw
  rcases hsign with rfl | rfl
  · simp [scanRadix, hm, hmb, hs, hstop]
  · simp [scanRadix, hm, hmb, hs, hstop]

theorem readRadix_run (t : tokenizer) (pok dok : Int → Bool) (hdok : dok (-1) = false)
    (hbyte : ∀ c, dok c = true → byte c = c)
    (sign run rest : List Int) (m : Int) (hsign : sign = [] ∨ sign = [45])
    (hm : pok m = true) (hmb : byte m = m)
    (hw : separatedRun dok run = true) (hstop : isStopChar (hd rest) = true)
    (hterm : dok (hd rest) = false) (hu : t.upcoming = sign ++ 48 :: m :: run ++ rest) :
    ∃ t2, t.readRadix pok dok = .ok (sign ++ 48 :: m :: dropUnderscores run, t2) := by
  have href := readRadix_refines t pok dok hdok
  rw [hu, scanRadix_run pok dok hbyte sign run rest m hsign hm hmb hw hstop hterm] at href
  obtain ⟨t2, e, -⟩ := href
  exact ⟨t2, e⟩

theorem scanDigitsFrom_run (d : Int) (run rest : List Int) (hd1 : isDigit d = true)
    (hrun : separatedRun isDigit run = true) (hterm : isDigit (hd rest) = false)
    (h95 : hd rest ≠ 95) :
    scanDigitsFrom d (run ++ rest) = (d :: dropUnderscores run, hd rest, rest.tail) := by
  simp [scanDigitsFrom, hd1, scanDigits_run isDigit byte_isDigit rest hterm h95 run hrun,
    byte_isDigit d hd1]

theorem scanNumberEnd_underscore (w : List Int) (tt : IonType) (s : List Int) :
    scanNumberEnd w tt 95 s = .error (invalidChar 95) := by
  have : isStopChar 95 = false := by decide
  simp [scanNumberEnd, this]

theorem scanNumberExp_underscore (w : List Int) (tt : IonType) (m : Int) (sg rest : List Int)
    (hm : m = 101 ∨ m = 69 ∨ m = 100 ∨ m = 68) (hsg : sg = [] ∨ sg = [43] ∨ sg = [45]) :
    scanNumberExp w tt m (sg ++ 95 :: rest) = .error (invalidChar 95) := by
  have hx : scanExponent (sg ++ 95 :: rest) = (sg, 95, rest) := by
    rcases hsg with rfl | rfl | rfl <;>
      simp [scanExponent, scanDigitsFrom, isDigit, byte]
  unfold scanNumberExp
  rw [hx]
  rcases hm with rfl | rfl | rfl | rfl <;> simp [scanNumberEnd_underscore]

theorem scanNumberFrac_underscore (w : List Int) (c : Int) (s : List Int)
    (frac : List Int) (m : Int) (sg rest : List Int) (hf : fractionPart frac = true)
    (hm : m = 101 ∨ m = 69 ∨ m = 100 ∨ m = 68) (hsg : sg = [] ∨ sg = [43] ∨ sg = [45])
    (hcs : c :: s = frac ++ m :: sg ++ 95 :: rest) :
    scanNumberFrac w c s = .error (invalidChar 95) := by
  have hmd : isDigit m = false := by rcases hm with rfl | rfl | rfl | rfl <;> decide
  have hm95 : m ≠ 95 := by rcases hm with rfl | rfl | rfl | rfl <;> decide
  have hm46 : m ≠ 46 := by rcases hm with rfl | rfl | rfl | rfl <;> decide
  match frac, hf with
  | [], _ =>
    simp only [List.nil_append, List.cons_append, List.cons.injEq] at hcs
    obtain ⟨rfl, rfl⟩ := hcs
    simp only [scanNumberFrac, hm46, if_false]
    exact scanNumberExp_underscore _ _ _ _ _ hm hsg
  | [46], _ =>
    simp only [List.cons_append, List.nil_append, List.cons.injEq] at hcs
    obtain ⟨rfl, rfl⟩ := hcs
    simp only [scanNumberFrac, if_true, hd_cons, List.tail_cons, scanDigitsFrom, hmd,
      Bool.not_false]
    exact scanNumberExp_underscore _ _ _ _ _ hm hsg
  | 46 :: fd :: frun, hf =>
    simp only [fractionPart, Bool.and_eq_true] at hf
    simp only [List.cons_append, List.cons.injEq] at hcs
    obtain ⟨rfl, rfl⟩ := hcs
    have := scanDigitsFrom_run fd frun (m :: (sg ++ 95 :: rest)) hf.1 hf.2
      (by simpa using hmd) (by simpa using hm95)
    simp only [scanNumberFrac, if_true, hd_cons, List.tail_cons, List.append_assoc,
      List.cons_append, this]
    exact scanNumberExp_underscore _ _ _ _ _ hm hsg

theorem ReadNumber_of_scan_error {t : tokenizer} {e : Error}
    (h : scanNumber t.upcoming = .error e) : t.ReadNumber = .error e := by
  have href := ReadNumber_refines t
  rw [h] at href
  exact href

theorem scanNumber_sign (sign : List Int) (c : Int) (s : List Int)
    (hsign : sign = [] ∨ sign = [45]) (hc : c ≠ 45) :
    scanNumber (sign ++ c :: s) = scanNumberInt sign c s := by
  rcases hsign with rfl | rfl
  · simp [scanNumber, hc]
  · simp [scanNumber]

theorem scanNumberInt_underscore (w rest : List Int) :
    scanNumberInt w 95 rest = .error (invalidChar 95) := by
  have h1 : isDigit 95 = false := by decide
  simp [scanNumberInt, scanDigitsFrom, h1, scanNumberFrac, scanNumberExp,
    scanNumberEnd_underscore]

theorem scanNumberInt_run (w : List Int) (d : Int) (run rest : List Int)
    (hd1 : isDigit d = true) (hrun : separatedRun isDigit run = true)
    (hz : d = 48 → dropUnderscores run = []) (hterm : isDigit (hd rest) = false)
    (h95 : hd rest ≠ 95) :
    scanNumberInt w d (run ++ rest)
      = scanNumberFrac (w ++ d :: dropUnderscores run) (hd rest) rest.tail := by
  have hlen : ¬ (d = 48 ∧ (d :: dropUnderscores run).length > 1) := by
    rintro ⟨h48, hl⟩
    rw [hz h48] at hl
    simp at hl
  unfold scanNumberInt
  rw [scanDigitsFrom_run d run rest hd1 hrun hterm h95]
  simp only [hlen, if_false]

/-! ## Exponents -/

theorem scanDigits_allDigits (s : List Int) : (scanDigits isDigit s).1.all isDigit = true := by
  induction s with
  | nil => simp [scanDigits]
  | cons c s ih =>
    by_cases h95 : c = 95
    · simpa [scanDigits, h95] using ih
    · by_cases hc : isDigit c = true
      · simp only [scanDigits, h95, hc, if_false, Bool.not_true, Bool.false_eq_true,
          List.all_cons, byte_isDigit c hc, ih, Bool.and_self]
      · simp [scanDigits, h95, hc]

theorem scanDigitsFrom_allDigits (c : Int) (s : List Int) :
    (scanDigitsFrom c s).1.all isDigit = true := by
  unfold scanDigitsFrom
  by_cases hc : isDigit c = true
  · simp only [hc, Bool.not_true, Bool.false_eq_true, if_false, List.all_cons,
      byte_isDigit c hc, scanDigits_allDigits, Bool.and_self]
  · simp [hc]

theorem scanExponent_shape (s : List Int) :
    ∃ sg ds, (scanExponent s).1 = sg ++ ds ∧ (sg = [] ∨ sg = [43] ∨ sg = [45])
      ∧ ds.all isDigit = true := by
  unfold scanExponent
  by_cases h : hd s = 43 ∨ hd s = 45
  · simp only [h, if_true]
    refine ⟨[byte (hd s)], _, rfl, ?_, scanDigitsFrom_allDigits _ _⟩
    rcases h with h | h <;> rw [h]
    · exact Or.inr (Or.inl rfl)
    · exact Or.inr (Or.inr rfl)
  · simp only [h, if_false]
    exact ⟨[], _, rfl, Or.inl rfl, scanDigitsFrom_allDigits _ _⟩

theorem digits_noExponentMarker {ds : List Int} (h : ds.all isDigit = true) :
    ∀ c ∈ ds, isExponentMarker c = false := by
  intro c hc
  have := List.all_eq_true.1 h c hc
  simp only [isDigit, Bool.and_eq_true, decide_eq_true_eq] at this
  simp only [isExponentMarker, Bool.or_eq_false_iff, decide_eq_false_iff_not]
  omega

theorem marker_split : ∀ (w0 x pre suf : List Int) (m1 m : Int),
    (∀ c ∈ w0, isExponentMarker c = false) → (∀ c ∈ x, isExponentMarker c = false) →
    isExponentMarker m = true → w0 ++ m1 :: x = pre ++ m :: suf → suf = x := by
  intro w0
  induction w0 with
  | nil =>
    intro x pre suf m1 m _ hx hm e
    cases pre with
    | nil =>
      simp only [List.nil_append, List.cons.injEq] at e
      exact e.2.symm
    | cons p pre =>
      simp only [List.nil_append, List.cons_append, List.cons.injEq] at e
      have := hx m (by rw [e.2]; simp)
      rw [this] at hm
      cases hm
  | cons a w0 ih =>
    intro x pre suf m1 m hw hx hm e
    cases pre with
    | nil =>
      simp only [List.nil_append, List.cons_append, List.cons.injEq] at e
      have := hw a (List.mem_cons_self _ _)
      rw [e.1, hm] at this
      cases this
    | cons p pre =>
      simp only [List.cons_append, List.cons.injEq] at e
      exact ih x pre suf m1 m (fun c hc => hw c (List.mem_cons_of_mem _ hc)) hx hm e.2

theorem exponentShape_of_noMarker {w : List Int} (h : ∀ c ∈ w, isExponentMarker c = false) :
    ExponentShape w := by
  intro pre m suf e hm
  have := h m (by rw [e]; simp)
  rw [this] at hm
  cases hm

theorem scanNumberExp_shape {w : List Int} {tt : IonType} {c : Int} {s : List Int}
    {text : List Int} {tt2 : IonType} {c2 : Int} {rest : List Int}
    (hw : ∀ c ∈ w, isExponentMarker c = false)
    (h : scanNumberExp w tt c s = .ok (text, tt2, c2, rest)) : ExponentShape text := by
  obtain ⟨sg, ds, e, hsg, hds⟩ := scanExponent_shape s
  have hx : ∀ c ∈ sg ++ ds, isExponentMarker c = false := by
    intro c hc
    rcases List.mem_append.1 hc with h1 | h1
    · rcases hsg with rfl | rfl | rfl
      · cases h1
      · simp only [List.mem_singleton] at h1; rw [h1]; decide
      · simp only [List.mem_singleton] at h1; rw [h1]; decide
    · exact digits_noExponentMarker hds c h1
  have key : ∀ b, ExponentShape (w ++ b :: (scanExponent s).1) := by
    intro b pre m suf e2 hm
    rw [e] at e2
    have := marker_split w (sg ++ ds) pre suf b m hw hx hm e2
    exact ⟨sg, ds, this, hsg, hds⟩
  unfold scanNumberExp at h
  by_cases h1 : c = 101 ∨ c = 69
  · rw [if_pos h1] at h
    obtain ⟨rfl, -⟩ := scanNumberEnd_ok h
    exact key _
  · rw [if_neg h1] at h
    by_cases h2 : c = 100 ∨ c = 68
    · rw [if_pos h2] at h
      obtain ⟨rfl, -⟩ := scanNumberEnd_ok h
      exact key _
    · rw [if_neg h2] at h
      obtain ⟨rfl, -⟩ := scanNumberEnd_ok h
      exact exponentShape_of_noMarker hw

theorem scanNumberFrac_shape {w : List Int} {c : Int} {s : List Int}
    {text : List Int} {tt2 : IonType} {c2 : Int} {rest : List Int}
    (hw : ∀ c ∈ w, isExponentMarker c = false)
    (h : scanNumberFrac w c s = .ok (text, tt2, c2, rest)) : ExponentShape text := by
  have hds := digits_noExponentMarker (scanDigitsFrom_allDigits (hd s) s.tail)
  unfold scanNumberFrac at h
  by_cases h1 : c = 46
  · rw [if_pos h1] at h
    refine scanNumberExp_shape ?_ h
    intro x hx
    simp only [List.mem_append, List.mem_cons] at hx
    rcases hx with hx | rfl | hx
    · exact hw x hx
    · decide
    · exact hds x hx
  · rw [if_neg h1] at h
    exact scanNumberExp_shape hw h

theorem scanNumberInt_shape {w : List Int} {c : Int} {s : List Int}
    {text : List Int} {tt2 : IonType} {c2 : Int} {rest : List Int}
    (hw : ∀ c ∈ w, isExponentMarker c = false)
    (h : scanNumberInt w c s = .ok (text, tt2, c2, rest)) : ExponentShape text := by
  have hds := digits_noExponentMarker (scanDigitsFrom_allDigits c s)
  unfold scanNumberInt at h
  split at h
  · simp at h
  · refine scanNumberFrac_shape ?_ h
    intro x hx
    rcases List.mem_append.1 hx with hx | hx
    · exact hw x hx
    · exact hds x hx

theorem scanNumber_shape {s : List Int}
    {text : List Int} {tt2 : IonType} {c2 : Int} {rest : List Int}
    (h : scanNumber s = .ok (text, tt2, c2, rest)) : ExponentShape text := by
  unfold scanNumber at h
  split at h
  · refine scanNumberInt_shape ?_ h
    intro x hx
    simp only [List.mem_singleton] at hx
    rw [hx]; decide
  · exact scanNumberInt_shape (by simp) h

theorem scanNumberExp_bare (w : List Int) (tt : IonType) (m : Int) (sg rest : List Int)
    (hm : isExponentMarker m = true) (hsg : sg = [] ∨ sg = [43] ∨ sg = [45])
    (hstop : isStopChar (hd rest) = true) :
    scanNumberExp w tt m (sg ++ rest)
      = .ok (w ++ m :: sg, if m = 101 ∨ m = 69 then IonType.FloatType else IonType.DecimalType,
          hd rest, rest.tail) := by
  obtain ⟨-, hdig, -⟩ := isStopChar_facts _ hstop
  have hns : ¬ (hd rest = 43 ∨ hd rest = 45) := by
    have := (isStopChar_iff (hd rest)).1 hstop
    simp only [List.mem_cons, List.mem_singleton, List.not_mem_nil, or_false] at this
    omega
  have hx : scanExponent (sg ++ rest) = (sg, hd rest, rest.tail) := by
    rcases hsg with rfl | rfl | rfl
    · simp [scanExponent, scanDigitsFrom, hns, hdig]
    · simp [scanExponent, scanDigitsFrom, hdig, byte]
    · simp [scanExponent, scanDigitsFrom, hdig, byte]
  simp only [isExponentMarker, Bool.or_eq_true, decide_eq_true_eq] at hm
  unfold scanNumberExp
  rw [hx]
  rcases hm with ((rfl | rfl) | rfl) | rfl <;> simp [scanNumberEnd, hstop, byte]

theorem scanNumberFrac_bare (w : List Int) (c : Int) (s : List Int)
    (frac : List Int) (m : Int) (sg rest : List Int) (hf : fractionPart frac = true)
    (hm : isExponentMarker m = true) (hsg : sg = [] ∨ sg = [43] ∨ sg = [45])
    (hstop : isStopChar (hd rest) = true)
    (hcs : c :: s = frac ++ m :: sg ++ rest) :
    scanNumberFrac w c s
      = .ok (w ++ dropUnderscores frac ++ m :: sg,
          if m = 101 ∨ m = 69 then IonType.FloatType else IonType.DecimalType,
          hd rest, rest.tail) := by
  have hm2 := hm
  simp only [isExponentMarker, Bool.or_eq_true, decide_eq_true_eq] at hm2
  have hmd : isDigit m = false := by rcases hm2 with ((rfl | rfl) | rfl) | rfl <;> decide
  have hm95 : m ≠ 95 := by rcases hm2 with ((rfl | rfl) | rfl) | rfl <;> decide
  have hm46 : m ≠ 46 := by rcases hm2 with ((rfl | rfl) | rfl) | rfl <;> decide
  match frac, hf with
  | [], _ =>
    simp only [List.nil_append, List.cons_append, List.cons.injEq] at hcs
    obtain ⟨rfl, rfl⟩ := hcs
    simp only [scanNumberFrac, hm46, if_false]
    rw [scanNumberExp_bare _ _ _ _ _ hm hsg hstop]
    simp [dropUnderscores]
  | [46], _ =>
    simp only [List.cons_append, List.nil_append, List.cons.injEq] at hcs
    obtain ⟨rfl, rfl⟩ := hcs
    simp only [scanNumberFrac, if_true, hd_cons, List.tail_cons, scanDigitsFrom, hmd,
      Bool.not_false]
    rw [scanNumberExp_bare _ _ _ _ _ hm hsg hstop]
    simp [dropUnderscores]
  | 46 :: fd :: frun, hf =>
    simp only [fractionPart, Bool.and_eq_true] at hf
    simp only [List.cons_append, List.cons.injEq] at hcs
    obtain ⟨rfl, rfl⟩ := hcs
    have hfd95 : fd ≠ 95 := by
      intro h; rw [h] at hf; simp [isDigit] at hf
    have := scanDigitsFrom_run fd frun (m :: (sg ++ rest)) hf.1 hf.2
      (by simpa using hmd) (by simpa using hm95)
    simp only [scanNumberFrac, if_true, hd_cons, List.tail_cons, List.append_assoc,
      List.cons_append, this]
    rw [scanNumberExp_bare _ _ _ _ _ hm hsg hstop]
    simp [dropUnderscores, hfd95]

/-! ## What `readTimestamp` accepts -/

theorem dropUnderscores_append (a b : List Int) :
    dropUnderscores (a ++ b) = dropUnderscores a ++ dropUnderscores b := by
  simp [dropUnderscores]

theorem dropUnderscores_cons (c : Int) (s : List Int) (h : c ≠ 95) :
    dropUnderscores (c :: s) = c :: dropUnderscores s := by
  simp [dropUnderscores, h]

theorem dropUnderscores_digitRun {n : Nat} {ds : List Int} (h : digitRun n ds = true) :
    dropUnderscores ds = ds := by
  have hall : ds.all isDigit = true := by
    simp only [digitRun, Bool.and_eq_true] at h
    exact h.2
  exact (digits_wellSeparated ds hall).2

theorem digitRun_succ {n : Nat} {d : Int} {ds : List Int} (hd1 : isDigit d = true)
    (h : digitRun n ds = true) : digitRun (n + 1) (d :: ds) = true := by
  simp only [digitRun, Bool.and_eq_true, decide_eq_true_eq, List.length_cons, List.all_cons] at h ⊢
  exact ⟨by omega, hd1, h.2⟩

theorem isDigit_ne_eof {c : Int} (h : isDigit c = true) : c ≠ -1 ∧ c ≠ 95 := by
  simp only [isDigit, Bool.and_eq_true, decide_eq_true_eq] at h
  omega

theorem readsOf_cursor (s : List Int) (k : Nat) : readsOf (hd s :: s.tail) k = readsOf s k := by
  cases s with
  | nil => exact readsOf_eof k
  | cons c s => rfl

theorem readTimestampDigits_cases : ∀ (n : Nat) (t : tokenizer) (w : List Int),
    (∃ c, t.readTimestampDigits n w = .error (invalidChar c))
    ∨ ∃ ds s t2, t.readTimestampDigits n w = .ok (hd s, w ++ ds, t2) ∧ digitRun n ds = true
        ∧ t.upcoming = ds ++ s ∧ t2.upcoming = s.tail := by
  intro n
  induction n with
  | zero =>
    intro t w
    exact Or.inr ⟨[], t.upcoming, t.read.2, by simp [tokenizer.readTimestampDigits, read_fst],
      by decide, rfl, read_upcoming t⟩
  | succ n ih =>
    intro t w
    have h1 := read_fst t
    have h2 := read_upcoming t
    by_cases hd1 : isDigit (hd t.upcoming) = true
    · have hcur := hd_tail_eq t.upcoming (isDigit_ne_eof hd1).1
      rcases ih t.read.2 (w ++ [byte (hd t.upcoming)]) with ⟨c, e⟩ | ⟨ds, s, t2, e, hds, hu, hu2⟩
      · exact Or.inl ⟨c, by simp [tokenizer.readTimestampDigits, h1, hd1, e]⟩
      · refine Or.inr ⟨hd t.upcoming :: ds, s, t2, ?_, digitRun_succ hd1 hds, ?_, hu2⟩
        · rw [byte_isDigit _ hd1] at e
          simp [tokenizer.readTimestampDigits, h1, hd1, e, byte_isDigit _ hd1]
        · rw [h2] at hu
          rw [List.cons_append, ← hu]
          exact hcur
    · exact Or.inl ⟨hd t.upcoming, by simp [tokenizer.readTimestampDigits, h1, hd1]⟩

theorem readTimestampFinish_cases (t : tokenizer) (c : Int) (w : List Int) :
    (StopOrComment c (hd t.upcoming)
      ∧ ∃ t2, t.readTimestampFinish c w = .ok (w, t2) ∧ t2.upcoming = c :: t.upcoming)
    ∨ t.readTimestampFinish c w = .error (invalidChar c) := by
  by_cases h : isStopChar c = true ∨ (c = 47 ∧ (hd t.upcoming = 47 ∨ hd t.upcoming = 42))
  · obtain ⟨hok, hu⟩ := stopCheck_true t c h
    exact Or.inl ⟨h, _, by simp [tokenizer.readTimestampFinish, hok], hu⟩
  · have hok := stopCheck_false t c h
    exact Or.inr (by simp [tokenizer.readTimestampFinish, hok])

theorem readTimestampOffset_cases (t : tokenizer) (c : Int) (w : List Int)
    (hc : c = 43 ∨ c = 45) :
    (∃ e, t.readTimestampOffset c w = .error (invalidChar e))
    ∨ ∃ oh om s t2, t.readTimestampOffset c w = .ok (hd s, w ++ c :: oh ++ 58 :: om, t2)
        ∧ digitRun 2 oh = true ∧ digitRun 2 om = true
        ∧ t.upcoming = oh ++ 58 :: om ++ s ∧ t2.upcoming = s.tail := by
  have hb : byte c = c := by rcases hc with rfl | rfl <;> decide
  have hn : ¬ (c ≠ 45 ∧ c ≠ 43) := by omega
  rcases readTimestampDigits_cases 2 t (w ++ [c]) with ⟨e, he⟩ | ⟨oh, s1, t1, e1, hoh, hu1, hu1t⟩
  · exact Or.inl ⟨e, by
      simp [tokenizer.readTimestampOffset, hn, hb, he, bind, Except.bind, pure, Except.pure]⟩
  · by_cases h58 : hd s1 = 58
    · have hs1 := hd_tail_eq s1 (by rw [h58]; decide)
      rw [h58] at hs1
      rcases readTimestampDigits_cases 2 t1 (w ++ [c] ++ oh ++ [58]) with
        ⟨e, he⟩ | ⟨om, s, t2, e2, hom, hu2, hu2t⟩
      · simp only [List.append_assoc, List.singleton_append, List.cons_append,
          List.nil_append] at he
        exact Or.inl ⟨e, by
          simp [tokenizer.readTimestampOffset, hn, hb, e1, h58, he, bind, Except.bind, pure,
            Except.pure]⟩
      · refine Or.inr ⟨oh, om, s, t2, ?_, hoh, hom, ?_, hu2t⟩
        · simp [tokenizer.readTimestampOffset, hn, hb, e1, h58, bind, Except.bind, pure,
            Except.pure]
          simpa using e2
        · rw [hu1, hs1, ← hu1t, hu2]
          simp
    · exact Or.inl ⟨hd s1, by
        simp [tokenizer.readTimestampOffset, hn, hb, e1, h58, bind, Except.bind, pure,
          Except.pure, throw, throwThe, MonadExceptOf.throw]⟩

theorem readTimestampOffsetOrZ_cases (t : tokenizer) (c : Int) (w : List Int) :
    (∃ e, t.readTimestampOffsetOrZ c w = .error (invalidChar e))
    ∨ ∃ z s t2, t.readTimestampOffsetOrZ c w = .ok (hd s, w ++ z, t2) ∧ TsOffsetOrZ z
        ∧ c :: t.upcoming = z ++ s ∧ t2.upcoming = s.tail := by
  by_cases hs : c = 45 ∨ c = 43
  · rcases readTimestampOffset_cases t c w (by omega) with
      ⟨e, he⟩ | ⟨oh, om, s, t2, e, hoh, hom, hu, hut⟩
    · exact Or.inl ⟨e, by simp [tokenizer.readTimestampOffsetOrZ, hs, he]⟩
    · refine Or.inr ⟨c :: oh ++ 58 :: om, s, t2, ?_, ?_, ?_, hut⟩
      · simp [tokenizer.readTimestampOffsetOrZ, hs, e]
      · exact Or.inr (Or.inr ⟨c, oh, om, by omega, hoh, hom, rfl⟩)
      · rw [hu]; simp
  · by_cases hz : c = 122 ∨ c = 90
    · have hb : byte c = c := by rcases hz with rfl | rfl <;> decide
      refine Or.inr ⟨[c], t.upcoming, t.read.2, ?_, ?_, rfl, read_upcoming t⟩
      · simp [tokenizer.readTimestampOffsetOrZ, hs, hz, hb, read_fst]
      · rcases hz with rfl | rfl
        · exact Or.inr (Or.inl rfl)
        · exact Or.inl rfl
    · exact Or.inl ⟨c, by simp [tokenizer.readTimestampOffsetOrZ, hs, hz]⟩

theorem TsResult_prefix {r : Except Error (List Int × tokenizer)} {w cur : List Int}
    {Shape : List Int → List Int → Prop} (p w0 cur0 : List Int)
    (Shape0 : List Int → List Int → Prop) (h : TsResult r w cur Shape)
    (hw : w = w0 ++ dropUnderscores p) (hcur : cur0 = p ++ cur)
    (hshape : ∀ x rest, Shape x rest → Shape0 (p ++ x) rest) : TsResult r w0 cur0 Shape0 := by
  rcases h with ⟨c, e⟩ | ⟨x, rest, t2, e, hx, hs, hr⟩
  · exact Or.inl ⟨c, e⟩
  · refine Or.inr ⟨p ++ x, rest, t2, ?_, ?_, hshape x rest hs, hr⟩
    · rw [e, hw, dropUnderscores_append, List.append_assoc]
    · rw [hcur, hx, List.append_assoc]

theorem TsResult_error (c : Int) (w cur : List Int) (Shape : List Int → List Int → Prop) :
    TsResult (.error (invalidChar c)) w cur Shape := Or.inl ⟨c, rfl⟩

theorem dropUnderscores_offsetOrZ {z : List Int} (h : TsOffsetOrZ z) :
    dropUnderscores z = z ∧ hd z ≠ -1 ∧ z ≠ [] := by
  rcases h with rfl | rfl | ⟨sg, oh, om, hsg, hoh, hom, rfl⟩
  · exact ⟨by decide, by decide, by simp⟩
  · exact ⟨by decide, by decide, by simp⟩
  · have h95 : sg ≠ 95 := by omega
    refine ⟨?_, by simp only [List.cons_append, hd_cons]; omega, by simp⟩
    rw [List.cons_append, dropUnderscores_cons _ _ h95, dropUnderscores_append,
      dropUnderscores_digitRun hoh, dropUnderscores_cons _ _ (by decide),
      dropUnderscores_digitRun hom]

theorem finish_result (t : tokenizer) (w s : List Int) (hu : t.upcoming = s.tail) :
    (TsEnd s ∧ ∃ t2, t.readTimestampFinish (hd s) w = .ok (w, t2)
        ∧ ∀ k, t2.reads k = readsOf s k)
    ∨ t.readTimestampFinish (hd s) w = .error (invalidChar (hd s)) := by
  rcases readTimestampFinish_cases t (hd s) w with ⟨hst, t2, e, u⟩ | e
  · rw [hu] at hst u
    refine Or.inl ⟨hst, t2, e, ?_⟩
    intro k
    rw [reads_eq_readsOf, u, readsOf_cursor]
  · exact Or.inr e

theorem offsetOrZ_finish (t : tokenizer) (c : Int) (w cur : List Int) (hc : c = hd cur)
    (hu : t.upcoming = cur.tail) (F : Except Error (List Int × tokenizer))
    (hok : ∀ c2 w2 t2, t.readTimestampOffsetOrZ c w = .ok (c2, w2, t2) →
      F = t2.readTimestampFinish c2 w2)
    (herr : ∀ e, t.readTimestampOffsetOrZ c w = .error e → F = .error e) :
    TsResult F w cur (fun x rest => TsOffsetOrZ x ∧ TsEnd rest) := by
  rcases readTimestampOffsetOrZ_cases t c w with ⟨e, he⟩ | ⟨z, s, t2, e, hz, hzs, hut⟩
  · exact Or.inl ⟨e, herr _ he⟩
  · obtain ⟨hdz, hne, hnil⟩ := dropUnderscores_offsetOrZ hz
    have hcz : c = hd z := by
      cases z with
      | nil => exact absurd rfl hnil
      | cons a z => simp only [List.cons_append, List.cons.injEq] at hzs; simp [hzs.1]
    have hcur : cur = z ++ s := by
      rw [← hzs, hu, hc]
      exact hd_tail_eq cur (by rw [← hc, hcz]; exact hne)
    rw [hok _ _ _ e]
    rcases finish_result t2 (w ++ z) s hut with ⟨hend, t3, e3, hr⟩ | e3
    · exact Or.inr ⟨z, s, t3, by rw [e3, hdz], hcur, ⟨hz, hend⟩, hr⟩
    · exact Or.inl ⟨_, e3⟩

theorem separatedRun_split (dok : Int → Bool) (hdok : dok (-1) = false) (s : List Int) :
    ∃ r s2, s = r ++ s2 ∧ separatedRun dok r = true ∧ dok (hd s2) = false ∧ hd s2 ≠ 95 := by
  obtain ⟨r, s2, e, h1, h2⟩ := run_split (fun c => dok c || decide (c = 95))
    (by simp [hdok]) s
  simp only [Bool.or_eq_false_iff, decide_eq_false_iff_not] at h2
  exact ⟨r, s2, e, by simpa [separatedRun] using h1, h2.1, h2.2⟩

theorem afterSecond_spec (t : tokenizer) (c : Int) (w cur : List Int) (hc : c = hd cur)
    (hu : t.upcoming = cur.tail) :
    TsResult (t.readTimestampAfterSecond c w) w cur TsReadAfterSecond := by
  by_cases h46 : c = 46
  · have hcur : cur = 46 :: t.upcoming := by
      rw [hu, ← h46, hc]
      exact hd_tail_eq cur (by rw [← hc, h46]; decide)
    have h1 := read_fst t
    have h2 := read_upcoming t
    by_cases hd1 : isDigit (hd t.upcoming) = true
    · have hup := hd_tail_eq t.upcoming (isDigit_ne_eof hd1).1
      obtain ⟨r, s2, es, hr, hterm, h95⟩ := separatedRun_split isDigit isDigit_eof t.upcoming.tail
      obtain ⟨t3, e3, u3⟩ := readDigits_eq t.read.2 (hd t.upcoming) (w ++ [46])
      rw [h2, es, scanDigitsFrom_run _ r s2 hd1 hr hterm h95] at e3 u3
      simp only at e3 u3
      have key := offsetOrZ_finish t3 (hd s2) (w ++ [46] ++ hd t.upcoming :: dropUnderscores r)
        s2 rfl u3 (t.readTimestampAfterSecond c w)
        (by
          intro c2 w2 t2 e
          simp only [List.append_assoc, List.singleton_append, List.cons_append,
            List.nil_append] at e
          simp [tokenizer.readTimestampAfterSecond, h46, h1, hd1, e3, e, bind, Except.bind,
            pure, Except.pure])
        (by
          intro e he
          simp only [List.append_assoc, List.singleton_append, List.cons_append,
            List.nil_append] at he
          simp [tokenizer.readTimestampAfterSecond, h46, h1, hd1, e3, he, bind, Except.bind,
            pure, Except.pure])
      refine TsResult_prefix (46 :: hd t.upcoming :: r) w cur _ key ?_ ?_ ?_
      · rw [dropUnderscores_cons _ _ (by decide),
          dropUnderscores_cons _ _ (isDigit_ne_eof hd1).2]
        simp
      · rw [hcur, hup, es]
        simp
      · rintro x rest ⟨hz, hend⟩
        exact ⟨Or.inr ⟨hd t.upcoming :: r, x, Or.inr ⟨_, r, hd1, hr, rfl⟩, hz, by simp⟩, hend⟩
    · have key := offsetOrZ_finish t.read.2 (hd t.upcoming) (w ++ [46]) t.upcoming rfl h2
        (t.readTimestampAfterSecond c w)
        (by
          intro c2 w2 t2 e
          simp [tokenizer.readTimestampAfterSecond, h46, h1, hd1, e, bind, Except.bind,
            pure, Except.pure])
        (by
          intro e he
          simp [tokenizer.readTimestampAfterSecond, h46, h1, hd1, he, bind, Except.bind,
            pure, Except.pure])
      refine TsResult_prefix [46] w cur _ key (by simp [dropUnderscores]) (by rw [hcur]; rfl) ?_
      rintro x rest ⟨hz, hend⟩
      exact ⟨Or.inr ⟨[], x, Or.inl rfl, hz, by simp⟩, hend⟩
  · have key := offsetOrZ_finish t c w cur hc hu (t.readTimestampAfterSecond c w)
      (by
        intro c2 w2 t2 e
        simp [tokenizer.readTimestampAfterSecond, h46, e, bind, Except.bind, pure, Except.pure]
        cases t2.readTimestampFinish c2 w2 <;> rfl)
      (by
        intro e he
        simp [tokenizer.readTimestampAfterSecond, h46, he, bind, Except.bind, pure,
          Except.pure])
    rcases key with ⟨e, he⟩ | ⟨x, rest, t2, e, hx, ⟨hz, hend⟩, hr⟩
    · exact Or.inl ⟨e, he⟩
    · exact Or.inr ⟨x, rest, t2, e, hx, ⟨Or.inl hz, hend⟩, hr⟩

theorem afterMinute_spec (t : tokenizer) (c : Int) (w cur : List Int) (hc : c = hd cur)
    (hu : t.upcoming = cur.tail) :
    TsResult (t.readTimestampAfterMinute c w) w cur TsReadAfterMinute := by
  by_cases h58 : c = 58
  · have hcur : cur = 58 :: t.upcoming := by
      rw [hu, ← h58, hc]
      exact hd_tail_eq cur (by rw [← hc, h58]; decide)
    rcases readTimestampDigits_cases 2 t (w ++ [58]) with ⟨e, he⟩ | ⟨ds, s, t2, e, hds, hus, hut⟩
    · exact Or.inl ⟨e, by
        simp [tokenizer.readTimestampAfterMinute, h58, he, bind, Except.bind, pure, Except.pure]⟩
    · have hF : t.readTimestampAfterMinute c w
          = t2.readTimestampAfterSecond (hd s) (w ++ [58] ++ ds) := by
        simp [tokenizer.readTimestampAfterMinute, h58, e, bind, Except.bind, pure, Except.pure]
      rw [hF]
      refine TsResult_prefix (58 :: ds) w cur _ (afterSecond_spec t2 (hd s) _ s rfl hut) ?_ ?_ ?_
      · rw [dropUnderscores_cons _ _ (by decide), dropUnderscores_digitRun hds]
        simp
      · rw [hcur, hus]; simp
      · intro x rest hx
        exact Or.inr ⟨ds, x, hds, hx, by simp⟩
  · have key := offsetOrZ_finish t c w cur hc hu (t.readTimestampAfterMinute c w)
      (by
        intro c2 w2 t2 e
        simp [tokenizer.readTimestampAfterMinute, h58, e, bind, Except.bind, pure, Except.pure]
        cases t2.readTimestampFinish c2 w2 <;> rfl)
      (by
        intro e he
        simp [tokenizer.readTimestampAfterMinute, h58, he, bind, Except.bind, pure,
          Except.pure])
    rcases key with ⟨e, he⟩ | ⟨x, rest, t2, e, hx, hs, hr⟩
    · exact Or.inl ⟨e, he⟩
    · exact Or.inr ⟨x, rest, t2, e, hx, Or.inl hs, hr⟩

theorem afterDay_spec (t : tokenizer) (c : Int) (w cur : List Int) (hc : c = hd cur)
    (hu : t.upcoming = cur.tail) :
    TsResult (t.readTimestampAfterDay c w) w cur TsReadAfterDay := by
  by_cases h84 : c = 84
  · have hcur : cur = 84 :: t.upcoming := by
      rw [hu, ← h84, hc]
      exact hd_tail_eq cur (by rw [← hc, h84]; decide)
    have h1 := read_fst t
    have h2 := read_upcoming t
    by_cases hd1 : isDigit (hd t.upcoming) = true
    · have hup := hd_tail_eq t.upcoming (isDigit_ne_eof hd1).1
      have hb := byte_isDigit _ hd1
      rcases readTimestampDigits_cases 1 t.read.2 (w ++ [84] ++ [hd t.upcoming]) with
        ⟨e, he⟩ | ⟨ds1, s1, t2, e1, hds1, hus1, hut1⟩
      · simp only [List.append_assoc, List.singleton_append, List.cons_append,
          List.nil_append] at he
        exact Or.inl ⟨e, by
          simp [tokenizer.readTimestampAfterDay, h84, h1, hd1, hb, he, bind, Except.bind, pure,
            Except.pure]⟩
      · simp only [List.append_assoc, List.singleton_append, List.cons_append,
          List.nil_append] at e1
        by_cases h58 : hd s1 = 58
        · have hs1 := hd_tail_eq s1 (by rw [h58]; decide)
          rw [h58] at hs1
          rcases readTimestampDigits_cases 2 t2 (w ++ [84] ++ hd t.upcoming :: ds1 ++ [58]) with
            ⟨e, he⟩ | ⟨mi, s, t3, e2, hmi, hus, hut⟩
          · simp only [List.append_assoc, List.singleton_append, List.cons_append,
              List.nil_append] at he
            exact Or.inl ⟨e, by
              simp [tokenizer.readTimestampAfterDay, h84, h1, hd1, hb, e1, h58, he, bind,
                Except.bind, pure, Except.pure]⟩
          · simp only [List.append_assoc, List.singleton_append, List.cons_append,
              List.nil_append] at e2
            have hF : t.readTimestampAfterDay c w
                = t3.readTimestampAfterMinute (hd s)
                    (w ++ [84] ++ hd t.upcoming :: ds1 ++ [58] ++ mi) := by
              simp [tokenizer.readTimestampAfterDay, h84, h1, hd1, hb, e1, h58, e2, bind,
                Except.bind, pure, Except.pure]
            rw [hF]
            have hh : digitRun 2 (hd t.upcoming :: ds1) = true := digitRun_succ hd1 hds1
            refine TsResult_prefix (84 :: (hd t.upcoming :: ds1) ++ 58 :: mi) w cur _
              (afterMinute_spec t3 (hd s) _ s rfl hut) ?_ ?_ ?_
            · rw [List.cons_append, dropUnderscores_cons _ _ (by decide), dropUnderscores_append,
                dropUnderscores_digitRun hh, dropUnderscores_cons _ _ (by decide),
                dropUnderscores_digitRun hmi]
              simp
            · have htl : t.upcoming.tail = ds1 ++ 58 :: (mi ++ s) := by
                rw [← h2, hus1, hs1, ← hut1, hus]
              rw [htl] at hup
              rw [hcur, hup]
              simp
            · intro x rest hx
              exact Or.inr ⟨hd t.upcoming :: ds1, mi, x, hh, hmi, hx, by simp⟩
        · exact Or.inl ⟨hd s1, by
            simp [tokenizer.readTimestampAfterDay, h84, h1, hd1, hb, e1, h58, bind,
              Except.bind, pure, Except.pure, throw, throwThe, MonadExceptOf.throw]⟩
    · by_cases hs : hd t.upcoming = 43 ∨ hd t.upcoming = 45
      · have hup := hd_tail_eq t.upcoming (by omega)
        rcases readTimestampOffset_cases t.read.2 (hd t.upcoming) (w ++ [84]) hs with
          ⟨e, he⟩ | ⟨oh, om, s, t2, e, hoh, hom, hus, hut⟩
        · exact Or.inl ⟨e, by
            simp [tokenizer.readTimestampAfterDay, h84, h1, hd1, he, bind, Except.bind, pure,
              Except.pure]⟩
        · simp only [List.append_assoc, List.singleton_append, List.cons_append,
            List.nil_append] at e
          have hF : t.readTimestampAfterDay c w
              = t2.readTimestampFinish (hd s)
                  (w ++ [84] ++ hd t.upcoming :: oh ++ 58 :: om) := by
            simp [tokenizer.readTimestampAfterDay, h84, h1, hd1, e, bind, Except.bind, pure,
              Except.pure]
            cases t2.readTimestampFinish (hd s) (w ++ 84 :: hd t.upcoming :: (oh ++ 58 :: om))
              <;> rfl
          have ho : TsOffset (hd t.upcoming :: oh ++ 58 :: om) :=
            ⟨_, oh, om, hs, hoh, hom, rfl⟩
          rw [hF]
          rcases finish_result t2 (w ++ [84] ++ hd t.upcoming :: oh ++ 58 :: om) s hut with
            ⟨hend, t3, e3, hr⟩ | e3
          · refine Or.inr ⟨84 :: (hd t.upcoming :: oh ++ 58 :: om), s, t3, ?_, ?_,
              Or.inl ⟨Or.inr (Or.inr ⟨_, ho, rfl⟩), hend⟩, hr⟩
            · rw [e3, dropUnderscores_cons _ _ (by decide),
                (dropUnderscores_offsetOrZ (Or.inr (Or.inr ho))).1]
              simp
            · rw [h2] at hus
              rw [hus] at hup
              rw [hcur, hup]
              simp
          · exact Or.inl ⟨_, e3⟩
      · have hn : hd t.upcoming ≠ 45 ∧ hd t.upcoming ≠ 43 := by omega
        have hF : t.readTimestampAfterDay c w
            = t.read.2.readTimestampFinish (hd t.upcoming) (w ++ [84]) := by
          simp [tokenizer.readTimestampAfterDay, h84, h1, hd1, tokenizer.readTimestampOffset,
            hn, bind, Except.bind, pure, Except.pure]
          cases t.read.2.readTimestampFinish (hd t.upcoming) (w ++ [84]) <;> rfl
        rw [hF]
        rcases finish_result t.read.2 (w ++ [84]) t.upcoming h2 with ⟨hend, t3, e3, hr⟩ | e3
        · exact Or.inr ⟨[84], t.upcoming, t3, by rw [e3]; rfl, hcur,
            Or.inl ⟨Or.inr (Or.inl rfl), hend⟩, hr⟩
        · exact Or.inl ⟨_, e3⟩
  · have hF : t.readTimestampAfterDay c w = t.readTimestampFinish (hd cur) w := by
      simp [tokenizer.readTimestampAfterDay, h84, hc, bind, Except.bind, pure, Except.pure]
      rw [← hc]
      simp [h84]
      cases t.readTimestampFinish c w <;> rfl
    rw [hF]
    rcases finish_result t w cur hu with ⟨hend, t3, e3, hr⟩ | e3
    · exact Or.inr ⟨[], cur, t3, by rw [e3]; simp [dropUnderscores], rfl,
        Or.inl ⟨Or.inl rfl, hend⟩, hr⟩
    · exact Or.inl ⟨_, e3⟩

theorem afterMonth_spec (t : tokenizer) (c : Int) (w cur : List Int) (hc : c = hd cur)
    (hu : t.upcoming = cur.tail) :
    TsResult (t.readTimestampAfterMonth c w) w cur TsReadAfterMonth := by
  by_cases h84 : c = 84
  · have hcur : cur = 84 :: t.upcoming := by
      rw [hu, ← h84, hc]
      exact hd_tail_eq cur (by rw [← hc, h84]; decide)
    refine Or.inr ⟨[84], t.upcoming, t, ?_, hcur, Or.inl rfl, fun k => reads_eq_readsOf k t⟩
    simp [tokenizer.readTimestampAfterMonth, h84, dropUnderscores, pure, Except.pure]
  · by_cases h45 : c = 45
    · have hcur : cur = 45 :: t.upcoming := by
        rw [hu, ← h45, hc]
        exact hd_tail_eq cur (by rw [← hc, h45]; decide)
      rcases readTimestampDigits_cases 2 t (w ++ [45]) with
        ⟨e, he⟩ | ⟨ds, s, t2, e, hds, hus, hut⟩
      · exact Or.inl ⟨e, by
          simp [tokenizer.readTimestampAfterMonth, h45, he, bind, Except.bind, pure,
            Except.pure]⟩
      · have hF : t.readTimestampAfterMonth c w
            = t2.readTimestampAfterDay (hd s) (w ++ [45] ++ ds) := by
          simp [tokenizer.readTimestampAfterMonth, h45, e, bind, Except.bind, pure, Except.pure]
        rw [hF]
        refine TsResult_prefix (45 :: ds) w cur _ (afterDay_spec t2 (hd s) _ s rfl hut) ?_ ?_ ?_
        · rw [dropUnderscores_cons _ _ (by decide), dropUnderscores_digitRun hds]
          simp
        · rw [hcur, hus]; simp
        · intro x rest hx
          exact Or.inr ⟨ds, x, hds, hx, by simp⟩
    · exact Or.inl ⟨c, by
        simp [tokenizer.readTimestampAfterMonth, h84, h45, bind, Except.bind, pure, Except.pure,
          throw, throwThe, MonadExceptOf.throw]⟩

theorem afterYear_spec (t : tokenizer) (c : Int) (w cur : List Int) (hc : c = hd cur)
    (hu : t.upcoming = cur.tail) :
    TsResult (t.readTimestampAfterYear c w) w cur TsReadAfterYear := by
  by_cases h84 : c = 84
  · have hcur : cur = 84 :: t.upcoming := by
      rw [hu, ← h84, hc]
      exact hd_tail_eq cur (by rw [← hc, h84]; decide)
    refine Or.inr ⟨[84], t.upcoming, t, ?_, hcur, Or.inl rfl, fun k => reads_eq_readsOf k t⟩
    simp [tokenizer.readTimestampAfterYear, h84, dropUnderscores, pure, Except.pure]
  · by_cases h45 : c = 45
    · have hcur : cur = 45 :: t.upcoming := by
        rw [hu, ← h45, hc]
        exact hd_tail_eq cur (by rw [← hc, h45]; decide)
      rcases readTimestampDigits_cases 2 t (w ++ [45]) with
        ⟨e, he⟩ | ⟨ds, s, t2, e, hds, hus, hut⟩
      · exact Or.inl ⟨e, by
          simp [tokenizer.readTimestampAfterYear, h45, he, bind, Except.bind, pure,
            Except.pure]⟩
      · have hF : t.readTimestampAfterYear c w
            = t2.readTimestampAfterMonth (hd s) (w ++ [45] ++ ds) := by
          simp [tokenizer.readTimestampAfterYear, h45, e, bind, Except.bind, pure, Except.pure]
        rw [hF]
        refine TsResult_prefix (45 :: ds) w cur _ (afterMonth_spec t2 (hd s) _ s rfl hut)
          ?_ ?_ ?_
        · rw [dropUnderscores_cons _ _ (by decide), dropUnderscores_digitRun hds]
          simp
        · rw [hcur, hus]; simp
        · intro x rest hx
          exact Or.inr ⟨ds, x, hds, hx, by simp⟩
    · exact Or.inl ⟨c, by
        simp [tokenizer.readTimestampAfterYear, h84, h45, bind, Except.bind, pure, Except.pure,
          throw, throwThe, MonadExceptOf.throw]⟩

theorem readTimestamp_spec (t : tokenizer) : TsResult t.readTimestamp [] t.upcoming TsRead := by
  rw [readTimestamp_stages]
  rcases readTimestampDigits_cases 4 t [] with ⟨e, he⟩ | ⟨ds, s, t2, e, hds, hus, hut⟩
  · exact Or.inl ⟨e, by simp [he, bind, Except.bind]⟩
  · have hF : (do
        let (c, w, t) ← t.readTimestampDigits 4 []
        t.readTimestampAfterYear c w) = t2.readTimestampAfterYear (hd s) ([] ++ ds) := by
      simp [e, bind, Except.bind]
    rw [hF]
    refine TsResult_prefix ds [] t.upcoming _ (afterYear_spec t2 (hd s) _ s rfl hut) ?_ hus ?_
    · rw [dropUnderscores_digitRun hds]
    · intro x rest hx
      exact ⟨ds, x, hds, hx, rfl⟩

theorem readTimestamp_inv {t t2 : tokenizer} {w : List Int}
    (h : t.readTimestamp = .ok (w, t2)) :
    ∃ lit rest, t.upcoming = lit ++ rest ∧ TsRead lit rest ∧ w = dropUnderscores lit
      ∧ ∀ k, t2.reads k = readsOf rest k := by
  rcases readTimestamp_spec t with ⟨c, e⟩ | ⟨x, rest, t3, e, hx, hs, hr⟩
  · rw [e] at h; cases h
  · rw [e] at h
    simp only [List.nil_append, Except.ok.injEq, Prod.mk.injEq] at h
    obtain ⟨rfl, rfl⟩ := h
    exact ⟨x, rest, hx, hs, rfl, hr⟩

/-! ## Where a timestamp ends -/

theorem tsReadAfterDay_end {x rest : List Int} (h : TsReadAfterDay x rest) : TsEnd rest := by
  rcases h with ⟨-, hend⟩ | ⟨hh, mi, x2, -, -, hx2, -⟩
  · exact hend
  · rcases hx2 with ⟨-, hend⟩ | ⟨s, x3, -, hx3, -⟩
    · exact hend
    · exact hx3.2

theorem tsRead_end {lit rest : List Int} (h : TsRead lit rest) :
    (∃ y, digitRun 4 y = true ∧ lit = y ++ [84])
    ∨ (∃ y m, digitRun 4 y = true ∧ digitRun 2 m = true ∧ lit = y ++ 45 :: m ++ [84])
    ∨ TsEnd rest := by
  obtain ⟨y, x, hy, hx, rfl⟩ := h
  rcases hx with rfl | ⟨m, x2, hm, hx2, rfl⟩
  · exact Or.inl ⟨y, hy, rfl⟩
  · rcases hx2 with rfl | ⟨d, x3, -, hx3, rfl⟩
    · exact Or.inr (Or.inl ⟨y, m, hy, hm, by simp⟩)
    · exact Or.inr (Or.inr (tsReadAfterDay_end hx3))

theorem readTimestamp_year (t : tokenizer) (y rest : List Int) (hy : digitRun 4 y = true)
    (hu : t.upcoming = y ++ 84 :: rest) :
    ∃ t2, t.readTimestamp = .ok (y ++ [84], t2) ∧ t2.upcoming = rest := by
  obtain ⟨t2, e, u⟩ := readTimestampDigits_ok 4 y t [] (84 :: rest) hy hu
  simp only [hd_cons, List.tail_cons, List.nil_append] at e u
  refine ⟨t2, ?_, u⟩
  rw [readTimestamp_stages]
  simp [e, bind, Except.bind, tokenizer.readTimestampAfterYear, pure, Except.pure]

theorem readTimestamp_year_month (t : tokenizer) (y m rest : List Int)
    (hy : digitRun 4 y = true) (hm : digitRun 2 m = true)
    (hu : t.upcoming = y ++ 45 :: m ++ 84 :: rest) :
    ∃ t2, t.readTimestamp = .ok (y ++ 45 :: m ++ [84], t2) ∧ t2.upcoming = rest := by
  obtain ⟨t1, e1, u1⟩ := readTimestampDigits_ok 4 y t [] (45 :: m ++ 84 :: rest) hy
    (by simpa using hu)
  simp only [List.cons_append, hd_cons, List.tail_cons, List.nil_append] at e1 u1
  obtain ⟨t2, e2, u2⟩ := readTimestampDigits_ok 2 m t1 (y ++ [45]) (84 :: rest) hm u1
  simp only [hd_cons, List.tail_cons, List.append_assoc, List.singleton_append] at e2 u2
  refine ⟨t2, ?_, u2⟩
  rw [readTimestamp_stages]
  simp [e1, e2, bind, Except.bind, tokenizer.readTimestampAfterYear,
    tokenizer.readTimestampAfterMonth, pure, Except.pure]

/-! ## The number literal at the head of the input -/

theorem hexDigitChars_spec (d : Int) (h : d ∈ hexDigitChars) :
    isHexDigit d = true ∧ hexDigitValue d = hexDigitOf d := by
  simp only [hexDigitChars, hexDigitTable, List.map_cons, List.map_nil, List.mem_cons,
    List.mem_singleton, List.not_mem_nil, or_false] at h
  rcases h with h | h | h | h | h | h | h | h | h | h | h | h | h | h | h | h | h | h | h | h
    | h | h <;> subst h <;> decide

theorem isHexDigit_chars (d : Int) (h : isHexDigit d = true) : d ∈ hexDigitChars := by
  have hb : (48 ≤ d ∧ d ≤ 57) ∨ (97 ≤ d ∧ d ≤ 102) ∨ (65 ≤ d ∧ d ≤ 70) := by
    unfold isHexDigit at h
    by_cases h1 : 48 ≤ d ∧ d ≤ 57
    · exact Or.inl h1
    · by_cases h2 : 97 ≤ d ∧ d ≤ 102
      · exact Or.inr (Or.inl h2)
      · by_cases h3 : 65 ≤ d ∧ d ≤ 70
        · exact Or.inr (Or.inr h3)
        · simp [isDigit, h1, h2, h3] at h
  rcases hb with ⟨a, b⟩ | ⟨a, b⟩ | ⟨a, b⟩ <;> interval_cases d <;> decide

theorem hexValue_eq_hexNumber : ∀ (ds : List Int), (∀ d ∈ ds, d ∈ hexDigitChars) →
    hexValue ds = hexNumber ds := by
  intro ds
  induction ds with
  | nil => intro _; rfl
  | cons d ds ih =>
    intro h
    have h1 := (hexDigitChars_spec d (h d (List.mem_cons_self _ _))).2
    have h2 := ih (fun x hx => h x (List.mem_cons_of_mem _ hx))
    have e : hexFold 0 (d :: ds) = hexFold (0 * 16 + hexDigitValue d) ds := rfl
    unfold hexValue at h2 ⊢
    rw [e, hexFold_shift ds (0 * 16 + hexDigitValue d), h2, h1]
    simp [hexNumber]

/-! ## The instant of the eight timestamp forms -/

theorem timestampForms_instant :
    ∀ form ∈ timestampForms, decodeTimestamp (str form) = some ⟨63145526400, []⟩ := by
  decide

/-! ## The pushback buffer in every state, failures included -/

section PushbackBound

set_option linter.unusedTactic false
set_option linter.unreachableTactic false
set_option maxRecDepth 8192

theorem Bounded.bind {α β : Type} {m : TokM α} {f : α → TokM β} {a b c : Nat}
    (h1 : Bounded m a b) (h2 : ∀ v, Bounded (f v) b c) : Bounded (m >>= f) a c := by
  constructor
  intro t ht
  have h := h1.le t ht
  show within c (match m t with
    | (.ok a, t1) => f a t1
    | (.error e, t1) => (.error e, t1))
  rcases hm : m t with ⟨r, t1⟩
  rw [hm] at h
  cases r with
  | ok v => exact (h2 v).le t1 h
  | error e => exact h

theorem Bounded.pure {α : Type} {v : α} {a b : Nat} (h : a ≤ b) :
    Bounded (Pure.pure v : TokM α) a b := by
  constructor
  intro t ht
  show t.buffer.length ≤ b
  omega

theorem Bounded.fail {α : Type} {e : Error} {a b : Nat} (h : a ≤ 6) :
    Bounded (Run.fail e : TokM α) a b := by
  constructor
  intro t ht
  show t.buffer.length ≤ 6
  omega

theorem Bounded.ite {α : Type} {p : Prop} [Decidable p] {x y : TokM α} {a b : Nat}
    (hx : Bounded x a b) (hy : Bounded y a b) : Bounded (if p then x else y) a b := by
  split
  · exact hx
  · exact hy

theorem Bounded.pre {α : Type} {m : TokM α} {a a2 b : Nat}
    (h : Bounded m a b) (ha : a2 ≤ a) : Bounded m a2 b :=
  ⟨fun t ht => h.le t (by omega)⟩

theorem Bounded.post {α : Type} {m : TokM α} {a b b2 : Nat}
    (h : Bounded m a b) (hb : b ≤ b2) : Bounded m a b2 := by
  constructor
  intro t ht
  have h1 := h.le t ht
  rcases hm : m t with ⟨r, t1⟩
  rw [hm] at h1
  cases r with
  | ok v => exact Nat.le_trans h1 hb
  | error e => exact h1

theorem Bounded.get {a : Nat} : Bounded Run.get a a := ⟨fun _ ht => ht⟩

theorem Bounded.read {a : Nat} : Bounded Run.read a (a - 1) := by
  constructor
  intro t ht
  have h := read_buffer_le t
  show t.read.2.buffer.length ≤ a - 1
  omega

theorem Bounded.unread {a : Nat} (c : Int) : Bounded (Run.unread c) a (a + 1) := by
  constructor
  intro t ht
  show (t.unread c).buffer.length ≤ a + 1
  rw [unread_buffer]
  omega

theorem Bounded.peek {a : Nat} : Bounded Run.peek a (max a 1) := by
  constructor
  intro t ht
  have h := peek_buffer_le t
  show t.peek.2.buffer.length ≤ max a 1
  omega

theorem Bounded.peekN {a : Nat} (n : Nat) : Bounded (Run.peekN n) a (max a n) := by
  constructor
  intro t ht
  have h := peekN_buffer_le t n
  show (t.peekN n).2.2.buffer.length ≤ max a n
  omega

theorem Bounded.skipN {a : Nat} (n : Nat) : Bounded (Run.skipN n) a a := by
  constructor
  intro t ht
  have h := skipN_buffer_le n t
  show (t.skipN n).buffer.length ≤ a
  omega

theorem Bounded.isStopChar {a : Nat} (c : Int) : Bounded (Run.isStopChar c) a (max a 1) := by
  constructor
  intro t ht
  have h := isStopChar_buffer_le t c
  show (t.isStopChar c).2.buffer.length ≤ max a 1
  omega

theorem Bounded.isTripleQuote {a : Nat} : Bounded Run.isTripleQuote a (max a 2) := by
  constructor
  intro t ht
  have h := isTripleQuote_buffer_le t
  show t.isTripleQuote.2.buffer.length ≤ max a 2
  omega

theorem Bounded.isInf {a : Nat} (c : Int) : Bounded (Run.isInf c) a (max a 5) := by
  constructor
  intro t ht
  have h := isInf_buffer_le t c
  show (t.isInf c).2.buffer.length ≤ max a 5
  omega

theorem Bounded.finish {a : Nat} (token : tokenType) (more : Bool) :
    Bounded (Run.finish token more) a a := ⟨fun _ ht => ht⟩

theorem Bounded.setFinished {a : Nat} : Bounded Run.setFinished a a := ⟨fun _ ht => ht⟩

theorem Bounded.readRadixDigitsLoop (dok : Int → Bool) : ∀ (fuel : Nat) (w : List Int) {a : Nat}, a ≤ 6 →
    Bounded (Run.readRadixDigitsLoop dok fuel w) a (a - 1) := by
  intro fuel
  induction fuel with
  | zero =>
    intro w a h
    exact Bounded.fail h
  | succ n ih =>
    intro w a h
    unfold Run.readRadixDigitsLoop
    repeat (with_reducible first
      | exact Bounded.pure (by omega)
      | exact Bounded.fail (by omega)
      | exact Bounded.post (Bounded.finish _ _) (by omega)
      | exact Bounded.post Bounded.setFinished (by omega)
      | apply Bounded.ite
      | intro _
      | apply Bounded.bind Bounded.get
      | apply Bounded.bind Bounded.read
      | apply Bounded.bind Bounded.peek
      | apply Bounded.bind (Bounded.unread _)
      | apply Bounded.bind (Bounded.peekN _)
      | apply Bounded.bind (Bounded.skipN _)
      | apply Bounded.bind (Bounded.isStopChar _)
      | apply Bounded.bind Bounded.isTripleQuote
      | apply Bounded.bind (Bounded.isInf _)
      | apply Bounded.bind Bounded.setFinished
      | apply Bounded.bind (Bounded.fail (b := 0) (by omega))
      | apply Bounded.bind (ih _ (by omega))
      | exact Bounded.post (ih _ (by omega)) (by omega))

theorem Bounded.readRadixDigits (fuel : Nat) (dok : Int → Bool) (w : List Int) {a : Nat}
    (h : a ≤ 6) : Bounded (Run.readRadixDigits fuel dok w) a (a - 1) :=
  Bounded.readRadixDigitsLoop dok fuel w h

theorem Bounded.readDigits (fuel : Nat) (c : Int) (w : List Int) {a : Nat} (h : a ≤ 6) :
    Bounded (Run.readDigits fuel c w) a (a) := by
  unfold Run.readDigits
  repeat (with_reducible first
    | exact Bounded.pure (by omega)
    | exact Bounded.fail (by omega)
    | exact Bounded.post (Bounded.finish _ _) (by omega)
    | exact Bounded.post Bounded.setFinished (by omega)
    | apply Bounded.ite
    | intro _
    | apply Bounded.bind Bounded.get
    | apply Bounded.bind Bounded.read
    | apply Bounded.bind Bounded.peek
    | apply Bounded.bind (Bounded.unread _)
    | apply Bounded.bind (Bounded.peekN _)
    | apply Bounded.bind (Bounded.skipN _)
    | apply Bounded.bind (Bounded.isStopChar _)
    | apply Bounded.bind Bounded.isTripleQuote
    | apply Bounded.bind (Bounded.isInf _)
    | apply Bounded.bind Bounded.setFinished
    | apply Bounded.bind (Bounded.fail (b := 0) (by omega))
    | apply Bounded.bind (Bounded.readRadixDigits _ _ _ (by omega))
    | exact Bounded.post (Bounded.readRadixDigits _ _ _ (by omega)) (by omega))

theorem Bounded.readExponent (fuel : Nat) (w : List Int) {a : Nat} (h : a ≤ 6) :
    Bounded (Run.readExponent fuel w) a (a - 1) := by
  unfold Run.readExponent
  repeat (with_reducible first
    | exact Bounded.pure (by omega)
    | exact Bounded.fail (by omega)
    | exact Bounded.post (Bounded.finish _ _) (by omega)
    | exact Bounded.post Bounded.setFinished (by omega)
    | apply Bounded.ite
    | intro _
    | apply Bounded.bind Bounded.get
    | apply Bounded.bind Bounded.read
    | apply Bounded.bind Bounded.peek
    | apply Bounded.bind (Bounded.unread _)
    | apply Bounded.bind (Bounded.peekN _)
    | apply Bounded.bind (Bounded.skipN _)
    | apply Bounded.bind (Bounded.isStopChar _)
    | apply Bounded.bind Bounded.isTripleQuote
    | apply Bounded.bind (Bounded.isInf _)
    | apply Bounded.bind Bounded.setFinished
    | apply Bounded.bind (Bounded.fail (b := 0) (by omega))
    | apply Bounded.bind (Bounded.readDigits _ _ _ (by omega))
    | exact Bounded.post (Bounded.readDigits _ _ _ (by omega)) (by omega))

theorem Bounded.ReadNumber (fuel : Nat) {a : Nat} (h : a ≤ 6) :
    Bounded (Run.ReadNumber fuel) a (max a 2) := by
  unfold Run.ReadNumber
  repeat (with_reducible first
    | exact Bounded.pure (by omega)
    | exact Bounded.fail (by omega)
    | exact Bounded.post (Bounded.finish _ _) (by omega)
    | exact Bounded.post Bounded.setFinished (by omega)
    | apply Bounded.ite
    | intro _
    | apply Bounded.bind Bounded.get
    | apply Bounded.bind Bounded.read
    | apply Bounded.bind Bounded.peek
    | apply Bounded.bind (Bounded.unread _)
    | apply Bounded.bind (Bounded.peekN _)
    | apply Bounded.bind (Bounded.skipN _)
    | apply Bounded.bind (Bounded.isStopChar _)
    | apply Bounded.bind Bounded.isTripleQuote
    | apply Bounded.bind (Bounded.isInf _)
    | apply Bounded.bind Bounded.setFinished
    | apply Bounded.bind (Bounded.fail (b := 0) (by omega))
    | apply Bounded.bind (Bounded.readDigits _ _ _ (by omega))
    | exact Bounded.post (Bounded.readDigits _ _ _ (by omega)) (by omega)
    | apply Bounded.bind (Bounded.readExponent _ _ (by omega))
    | exact Bounded.post (Bounded.readExponent _ _ (by omega)) (by omega)
    | apply Bounded.bind (b := a - 1))

theorem Bounded.readRadix (fuel : Nat) (pok dok : Int → Bool) {a : Nat} (h : a ≤ 6) :
    Bounded (Run.readRadix fuel pok dok) a (max a 2) := by
  unfold Run.readRadix
  repeat (with_reducible first
    | exact Bounded.pure (by omega)
    | exact Bounded.fail (by omega)
    | exact Bounded.post (Bounded.finish _ _) (by omega)
    | exact Bounded.post Bounded.setFinished (by omega)
    | apply Bounded.ite
    | intro _
    | apply Bounded.bind Bounded.get
    | apply Bounded.bind Bounded.read
    | apply Bounded.bind Bounded.peek
    | apply Bounded.bind (Bounded.unread _)
    | apply Bounded.bind (Bounded.peekN _)
    | apply Bounded.bind (Bounded.skipN _)
    | apply Bounded.bind (Bounded.isStopChar _)
    | apply Bounded.bind Bounded.isTripleQuote
    | apply Bounded.bind (Bounded.isInf _)
    | apply Bounded.bind Bounded.setFinished
    | apply Bounded.bind (Bounded.fail (b := 0) (by omega))
    | apply Bounded.bind (Bounded.readRadixDigits _ _ _ (by omega))
    | exact Bounded.post (Bounded.readRadixDigits _ _ _ (by omega)) (by omega)
    | apply Bounded.bind (b := a - 1))

theorem Bounded.readTimestampDigits : ∀ (n : Nat) (w : List Int) {a : Nat}, a ≤ 6 →
    Bounded (Run.readTimestampDigits n w) a (a - 1) := by
  intro n
  induction n with
  | zero =>
    intro w a h
    unfold Run.readTimestampDigits
    repeat (with_reducible first
      | exact Bounded.pure (by omega)
      | exact Bounded.fail (by omega)
      | exact Bounded.post (Bounded.finish _ _) (by omega)
      | exact Bounded.post Bounded.setFinished (by omega)
      | apply Bounded.ite
      | intro _
      | apply Bounded.bind Bounded.get
      | apply Bounded.bind Bounded.read
      | apply Bounded.bind Bounded.peek
      | apply Bounded.bind (Bounded.unread _)
      | apply Bounded.bind (Bounded.peekN _)
      | apply Bounded.bind (Bounded.skipN _)
      | apply Bounded.bind (Bounded.isStopChar _)
      | apply Bounded.bind Bounded.isTripleQuote
      | apply Bounded.bind (Bounded.isInf _)
      | apply Bounded.bind Bounded.setFinished
      | apply Bounded.bind (Bounded.fail (b := 0) (by omega)))
  | succ n ih =>
    intro w a h
    unfold Run.readTimestampDigits
    repeat (with_reducible first
      | exact Bounded.pure (by omega)
      | exact Bounded.fail (by omega)
      | exact Bounded.post (Bounded.finish _ _) (by omega)
      | exact Bounded.post Bounded.setFinished (by omega)
      | apply Bounded.ite
      | intro _
      | apply Bounded.bind Bounded.get
      | apply Bounded.bind Bounded.read
      | apply Bounded.bind Bounded.peek
      | apply Bounded.bind (Bounded.unread _)
      | apply Bounded.bind (Bounded.peekN _)
      | apply Bounded.bind (Bounded.skipN _)
      | apply Bounded.bind (Bounded.isStopChar _)
      | apply Bounded.bind Bounded.isTripleQuote
      | apply Bounded.bind (Bounded.isInf _)
      | apply Bounded.bind Bounded.setFinished
      | apply Bounded.bind (Bounded.fail (b := 0) (by omega))
      | apply Bounded.bind (ih _ (by omega))
      | exact Bounded.post (ih _ (by omega)) (by omega))

theorem Bounded.readTimestampFinish (c : Int) (w : List Int) {a : Nat} (h : a ≤ 5) :
    Bounded (Run.readTimestampFinish c w) a (max a 1 + 1) := by
  unfold Run.readTimestampFinish
  repeat (with_reducible first
    | exact Bounded.pure (by omega)
    | exact Bounded.fail (by omega)
    | exact Bounded.post (Bounded.finish _ _) (by omega)
    | exact Bounded.post Bounded.setFinished (by omega)
    | apply Bounded.ite
    | intro _
    | apply Bounded.bind Bounded.get
    | apply Bounded.bind Bounded.read
    | apply Bounded.bind Bounded.peek
    | apply Bounded.bind (Bounded.unread _)
    | apply Bounded.bind (Bounded.peekN _)
    | apply Bounded.bind (Bounded.skipN _)
    | apply Bounded.bind (Bounded.isStopChar _)
    | apply Bounded.bind Bounded.isTripleQuote
    | apply Bounded.bind (Bounded.isInf _)
    | apply Bounded.bind Bounded.setFinished
    | apply Bounded.bind (Bounded.fail (b := 0) (by omega)))

theorem Bounded.readTimestampOffset (c : Int) (w : List Int) {a : Nat} (h : a ≤ 6) :
    Bounded (Run.readTimestampOffset c w) a (a) := by
  unfold Run.readTimestampOffset
  repeat (with_reducible first
    | exact Bounded.pure (by omega)
    | exact Bounded.fail (by omega)
    | exact Bounded.post (Bounded.finish _ _) (by omega)
    | exact Bounded.post Bounded.setFinished (by omega)
    | apply Bounded.ite
    | intro _
    | apply Bounded.bind Bounded.get
    | apply Bounded.bind Bounded.read
    | apply Bounded.bind Bounded.peek
    | apply Bounded.bind (Bounded.unread _)
    | apply Bounded.bind (Bounded.peekN _)
    | apply Bounded.bind (Bounded.skipN _)
    | apply Bounded.bind (Bounded.isStopChar _)
    | apply Bounded.bind Bounded.isTripleQuote
    | apply Bounded.bind (Bounded.isInf _)
    | apply Bounded.bind Bounded.setFinished
    | apply Bounded.bind (Bounded.fail (b := 0) (by omega))
    | apply Bounded.bind (Bounded.readTimestampDigits _ _ (by omega))
    | exact Bounded.post (Bounded.readTimestampDigits _ _ (by omega)) (by omega))

theorem Bounded.readTimestampOffsetOrZ (c : Int) (w : List Int) {a : Nat} (h : a ≤ 6) :
    Bounded (Run.readTimestampOffsetOrZ c w) a (a) := by
  unfold Run.readTimestampOffsetOrZ
  repeat (with_reducible first
    | exact Bounded.pure (by omega)
    | exact Bounded.fail (by omega)
    | exact Bounded.post (Bounded.finish _ _) (by omega)
    | exact Bounded.post Bounded.setFinished (by omega)
    | apply Bounded.ite
    | intro _
    | apply Bounded.bind Bounded.get
    | apply Bounded.bind Bounded.read
    | apply Bounded.bind Bounded.peek
    | apply Bounded.bind (Bounded.unread _)
    | apply Bounded.bind (Bounded.peekN _)
    | apply Bounded.bind (Bounded.skipN _)
    | apply Bounded.bind (Bounded.isStopChar _)
    | apply Bounded.bind Bounded.isTripleQuote
    | apply Bounded.bind (Bounded.isInf _)
    | apply Bounded.bind Bounded.setFinished
    | apply Bounded.bind (Bounded.fail (b := 0) (by omega))
    | apply Bounded.bind (Bounded.readTimestampOffset _ _ (by omega))
    | exact Bounded.post (Bounded.readTimestampOffset _ _ (by omega)) (by omega))

theorem Bounded.readTimestamp (fuel : Nat) {a : Nat} (h : a ≤ 6) :
    Bounded (Run.readTimestamp fuel) a (max a 2) := by
  unfold Run.readTimestamp
  repeat (with_reducible first
    | exact Bounded.pure (by omega)
    | exact Bounded.fail (by omega)
    | exact Bounded.post (Bounded.finish _ _) (by omega)
    | exact Bounded.post Bounded.setFinished (by omega)
    | apply Bounded.ite
    | intro _
    | apply Bounded.bind Bounded.get
    | apply Bounded.bind Bounded.read
    | apply Bounded.bind Bounded.peek
    | apply Bounded.bind (Bounded.unread _)
    | apply Bounded.bind (Bounded.peekN _)
    | apply Bounded.bind (Bounded.skipN _)
    | apply Bounded.bind (Bounded.isStopChar _)
    | apply Bounded.bind Bounded.isTripleQuote
    | apply Bounded.bind (Bounded.isInf _)
    | apply Bounded.bind Bounded.setFinished
    | apply Bounded.bind (Bounded.fail (b := 0) (by omega))
    | apply Bounded.bind (Bounded.readTimestampDigits _ _ (by omega))
    | exact Bounded.post (Bounded.readTimestampDigits _ _ (by omega)) (by omega)
    | apply Bounded.bind (Bounded.readTimestampFinish _ _ (by omega))
    | exact Bounded.post (Bounded.readTimestampFinish _ _ (by omega)) (by omega)
    | apply Bounded.bind (Bounded.readTimestampOffset _ _ (by omega))
    | exact Bounded.post (Bounded.readTimestampOffset _ _ (by omega)) (by omega)
    | apply Bounded.bind (Bounded.readTimestampOffsetOrZ _ _ (by omega))
    | exact Bounded.post (Bounded.readTimestampOffsetOrZ _ _ (by omega)) (by omega)
    | apply Bounded.bind (Bounded.readDigits _ _ _ (by omega))
    | exact Bounded.post (Bounded.readDigits _ _ _ (by omega)) (by omega)
    | apply Bounded.bind (b := a - 1))

theorem Bounded.readHexEscapeSeqLoop : ∀ (len val : Nat) {a : Nat}, a ≤ 6 →
    Bounded (Run.readHexEscapeSeqLoop len val) a a := by
  intro len
  induction len with
  | zero =>
    intro val a h
    unfold Run.readHexEscapeSeqLoop
    exact Bounded.pure (Nat.le_refl _)
  | succ n ih =>
    intro val a h
    unfold Run.readHexEscapeSeqLoop
    apply Bounded.bind Bounded.read
    intro c
    cases fromHex c with
    | error e => exact Bounded.fail (by omega)
    | ok d => exact Bounded.post (ih _ (by omega)) (by omega)

theorem Bounded.readHexEscapeSeq (len : Nat) {a : Nat} (h : a ≤ 6) :
    Bounded (Run.readHexEscapeSeq len) a a := Bounded.readHexEscapeSeqLoop len 0 h

theorem Bounded.readEscapedChar (clob : Bool) {a : Nat} (h : a ≤ 6) :
    Bounded (Run.readEscapedChar clob) a (a) := by
  unfold Run.readEscapedChar
  repeat (with_reducible first
    | exact Bounded.pure (by omega)
    | exact Bounded.fail (by omega)
    | exact Bounded.post (Bounded.finish _ _) (by omega)
    | exact Bounded.post Bounded.setFinished (by omega)
    | apply Bounded.ite
    | intro _
    | apply Bounded.bind Bounded.get
    | apply Bounded.bind Bounded.read
    | apply Bounded.bind Bounded.peek
    | apply Bounded.bind (Bounded.unread _)
    | apply Bounded.bind (Bounded.peekN _)
    | apply Bounded.bind (Bounded.skipN _)
    | apply Bounded.bind (Bounded.isStopChar _)
    | apply Bounded.bind Bounded.isTripleQuote
    | apply Bounded.bind (Bounded.isInf _)
    | apply Bounded.bind Bounded.setFinished
    | apply Bounded.bind (Bounded.fail (b := 0) (by omega))
    | apply Bounded.bind (Bounded.readHexEscapeSeq _ (by omega))
    | exact Bounded.post (Bounded.readHexEscapeSeq _ (by omega)) (by omega))

theorem Bounded.readWhileLoop (ok : Int → Bool) : ∀ (fuel : Nat) (c : Int) (ret : List Int) {a : Nat}, a ≤ 6 →
    Bounded (Run.readWhileLoop ok fuel c ret) a (max a 1) := by
  intro fuel
  induction fuel with
  | zero =>
    intro c ret a h
    exact Bounded.fail h
  | succ n ih =>
    intro c ret a h
    unfold Run.readWhileLoop
    repeat (with_reducible first
      | exact Bounded.pure (by omega)
      | exact Bounded.fail (by omega)
      | exact Bounded.post (Bounded.finish _ _) (by omega)
      | exact Bounded.post Bounded.setFinished (by omega)
      | apply Bounded.ite
      | intro _
      | apply Bounded.bind Bounded.get
      | apply Bounded.bind Bounded.read
      | apply Bounded.bind Bounded.peek
      | apply Bounded.bind (Bounded.unread _)
      | apply Bounded.bind (Bounded.peekN _)
      | apply Bounded.bind (Bounded.skipN _)
      | apply Bounded.bind (Bounded.isStopChar _)
      | apply Bounded.bind Bounded.isTripleQuote
      | apply Bounded.bind (Bounded.isInf _)
      | apply Bounded.bind Bounded.setFinished
      | apply Bounded.bind (Bounded.fail (b := 0) (by omega))
      | apply Bounded.bind (ih _ _ (by omega))
      | exact Bounded.post (ih _ _ (by omega)) (by omega))

theorem Bounded.readSymbol (fuel : Nat) {a : Nat} (h : a ≤ 6) :
    Bounded (Run.readSymbol fuel) a (max a 1) := by
  unfold Run.readSymbol
  repeat (with_reducible first
    | exact Bounded.pure (by omega)
    | exact Bounded.fail (by omega)
    | exact Bounded.post (Bounded.finish _ _) (by omega)
    | exact Bounded.post Bounded.setFinished (by omega)
    | apply Bounded.ite
    | intro _
    | apply Bounded.bind Bounded.get
    | apply Bounded.bind Bounded.read
    | apply Bounded.bind Bounded.peek
    | apply Bounded.bind (Bounded.unread _)
    | apply Bounded.bind (Bounded.peekN _)
    | apply Bounded.bind (Bounded.skipN _)
    | apply Bounded.bind (Bounded.isStopChar _)
    | apply Bounded.bind Bounded.isTripleQuote
    | apply Bounded.bind (Bounded.isInf _)
    | apply Bounded.bind Bounded.setFinished
    | apply Bounded.bind (Bounded.fail (b := 0) (by omega))
    | apply Bounded.bind (Bounded.readWhileLoop _ _ _ _ (by omega))
    | exact Bounded.post (Bounded.readWhileLoop _ _ _ _ (by omega)) (by omega))

theorem Bounded.readOperator (fuel : Nat) {a : Nat} (h : a ≤ 6) :
    Bounded (Run.readOperator fuel) a (max a 1) := by
  unfold Run.readOperator
  repeat (with_reducible first
    | exact Bounded.pure (by omega)
    | exact Bounded.fail (by omega)
    | exact Bounded.post (Bounded.finish _ _) (by omega)
    | exact Bounded.post Bounded.setFinished (by omega)
    | apply Bounded.ite
    | intro _
    | apply Bounded.bind Bounded.get
    | apply Bounded.bind Bounded.read
    | apply Bounded.bind Bounded.peek
    | apply Bounded.bind (Bounded.unread _)
    | apply Bounded.bind (Bounded.peekN _)
    | apply Bounded.bind (Bounded.skipN _)
    | apply Bounded.bind (Bounded.isStopChar _)
    | apply Bounded.bind Bounded.isTripleQuote
    | apply Bounded.bind (Bounded.isInf _)
    | apply Bounded.bind Bounded.setFinished
    | apply Bounded.bind (Bounded.fail (b := 0) (by omega))
    | apply Bounded.bind (Bounded.readWhileLoop _ _ _ _ (by omega))
    | exact Bounded.post (Bounded.readWhileLoop _ _ _ _ (by omega)) (by omega))

theorem Bounded.readQuotedLoop (quote : Int) : ∀ (fuel : Nat) (ret : List Int) {a : Nat}, a ≤ 6 →
    Bounded (Run.readQuotedLoop quote fuel ret) a (max a 1) := by
  intro fuel
  induction fuel with
  | zero =>
    intro ret a h
    exact Bounded.fail h
  | succ n ih =>
    intro ret a h
    unfold Run.readQuotedLoop
    repeat (with_reducible first
      | exact Bounded.pure (by omega)
      | exact Bounded.fail (by omega)
      | exact Bounded.post (Bounded.finish _ _) (by omega)
      | exact Bounded.post Bounded.setFinished (by omega)
      | apply Bounded.ite
      | intro _
      | apply Bounded.bind Bounded.get
      | apply Bounded.bind Bounded.read
      | apply Bounded.bind Bounded.peek
      | apply Bounded.bind (Bounded.unread _)
      | apply Bounded.bind (Bounded.peekN _)
      | apply Bounded.bind (Bounded.skipN _)
      | apply Bounded.bind (Bounded.isStopChar _)
      | apply Bounded.bind Bounded.isTripleQuote
      | apply Bounded.bind (Bounded.isInf _)
      | apply Bounded.bind Bounded.setFinished
      | apply Bounded.bind (Bounded.fail (b := 0) (by omega))
      | apply Bounded.bind (ih _ (by omega))
      | exact Bounded.post (ih _ (by omega)) (by omega)
      | apply Bounded.bind (Bounded.readEscapedChar _ (by omega))
      | exact Bounded.post (Bounded.readEscapedChar _ (by omega)) (by omega))

theorem Bounded.readQuotedSymbol (fuel : Nat) {a : Nat} (h : a ≤ 6) :
    Bounded (Run.readQuotedSymbol fuel) a (max a 1) := Bounded.readQuotedLoop 39 fuel [] h

theorem Bounded.readString (fuel : Nat) {a : Nat} (h : a ≤ 6) :
    Bounded (Run.readString fuel) a (max a 1) := Bounded.readQuotedLoop 34 fuel [] h

theorem Bounded.skipSingleLineComment : ∀ (fuel : Nat) {a : Nat}, a ≤ 6 →
    Bounded (Run.skipSingleLineComment fuel) a a := by
  intro fuel
  induction fuel with
  | zero =>
    intro a h
    exact Bounded.fail h
  | succ n ih =>
    intro a h
    unfold Run.skipSingleLineComment
    repeat (with_reducible first
      | exact Bounded.pure (by omega)
      | exact Bounded.fail (by omega)
      | exact Bounded.post (Bounded.finish _ _) (by omega)
      | exact Bounded.post Bounded.setFinished (by omega)
      | apply Bounded.ite
      | intro _
      | apply Bounded.bind Bounded.get
      | apply Bounded.bind Bounded.read
      | apply Bounded.bind Bounded.peek
      | apply Bounded.bind (Bounded.unread _)
      | apply Bounded.bind (Bounded.peekN _)
      | apply Bounded.bind (Bounded.skipN _)
      | apply Bounded.bind (Bounded.isStopChar _)
      | apply Bounded.bind Bounded.isTripleQuote
      | apply Bounded.bind (Bounded.isInf _)
      | apply Bounded.bind Bounded.setFinished
      | apply Bounded.bind (Bounded.fail (b := 0) (by omega))
      | exact Bounded.post (ih (by omega)) (by omega))

theorem Bounded.skipBlockComment : ∀ (fuel : Nat) (star : Bool) {a : Nat}, a ≤ 6 →
    Bounded (Run.skipBlockComment fuel star) a (a) := by
  intro fuel
  induction fuel with
  | zero =>
    intro star a h
    exact Bounded.fail h
  | succ n ih =>
    intro star a h
    unfold Run.skipBlockComment
    repeat (with_reducible first
      | exact Bounded.pure (by omega)
      | exact Bounded.fail (by omega)
      | exact Bounded.post (Bounded.finish _ _) (by omega)
      | exact Bounded.post Bounded.setFinished (by omega)
      | apply Bounded.ite
      | intro _
      | apply Bounded.bind Bounded.get
      | apply Bounded.bind Bounded.read
      | apply Bounded.bind Bounded.peek
      | apply Bounded.bind (Bounded.unread _)
      | apply Bounded.bind (Bounded.peekN _)
      | apply Bounded.bind (Bounded.skipN _)
      | apply Bounded.bind (Bounded.isStopChar _)
      | apply Bounded.bind Bounded.isTripleQuote
      | apply Bounded.bind (Bounded.isInf _)
      | apply Bounded.bind Bounded.setFinished
      | apply Bounded.bind (Bounded.fail (b := 0) (by omega))
      | apply Bounded.bind (ih _ (by omega))
      | exact Bounded.post (ih _ (by omega)) (by omega))

theorem Bounded.skipComment (fuel : Nat) {a : Nat} (h : a ≤ 6) :
    Bounded (Run.skipComment fuel) a (max a 1) := by
  unfold Run.skipComment
  repeat (with_reducible first
    | exact Bounded.pure (by omega)
    | exact Bounded.fail (by omega)
    | exact Bounded.post (Bounded.finish _ _) (by omega)
    | exact Bounded.post Bounded.setFinished (by omega)
    | apply Bounded.ite
    | intro _
    | apply Bounded.bind Bounded.get
    | apply Bounded.bind Bounded.read
    | apply Bounded.bind Bounded.peek
    | apply Bounded.bind (Bounded.unread _)
    | apply Bounded.bind (Bounded.peekN _)
    | apply Bounded.bind (Bounded.skipN _)
    | apply Bounded.bind (Bounded.isStopChar _)
    | apply Bounded.bind Bounded.isTripleQuote
    | apply Bounded.bind (Bounded.isInf _)
    | apply Bounded.bind Bounded.setFinished
    | apply Bounded.bind (Bounded.fail (b := 0) (by omega))
    | apply Bounded.bind (Bounded.skipSingleLineComment _ (by omega))
    | exact Bounded.post (Bounded.skipSingleLineComment _ (by omega)) (by omega)
    | apply Bounded.bind (Bounded.skipBlockComment _ _ (by omega))
    | exact Bounded.post (Bounded.skipBlockComment _ _ (by omega)) (by omega))

theorem Bounded.skipWhitespaceLoop (comments : Bool) : ∀ (fuel : Nat) (skipped : Bool) {a : Nat}, a ≤ 6 →
    Bounded (Run.skipWhitespaceLoop comments fuel skipped) a (max (a - 1) 1) := by
  intro fuel
  induction fuel with
  | zero =>
    intro skipped a h
    exact Bounded.fail h
  | succ n ih =>
    intro skipped a h
    unfold Run.skipWhitespaceLoop
    repeat (with_reducible first
      | exact Bounded.pure (by omega)
      | exact Bounded.fail (by omega)
      | exact Bounded.post (Bounded.finish _ _) (by omega)
      | exact Bounded.post Bounded.setFinished (by omega)
      | apply Bounded.ite
      | intro _
      | apply Bounded.bind Bounded.get
      | apply Bounded.bind Bounded.read
      | apply Bounded.bind Bounded.peek
      | apply Bounded.bind (Bounded.unread _)
      | apply Bounded.bind (Bounded.peekN _)
      | apply Bounded.bind (Bounded.skipN _)
      | apply Bounded.bind (Bounded.isStopChar _)
      | apply Bounded.bind Bounded.isTripleQuote
      | apply Bounded.bind (Bounded.isInf _)
      | apply Bounded.bind Bounded.setFinished
      | apply Bounded.bind (Bounded.fail (b := 0) (by omega))
      | apply Bounded.bind (ih _ (by omega))
      | exact Bounded.post (ih _ (by omega)) (by omega)
      | apply Bounded.bind (Bounded.skipComment _ (by omega))
      | exact Bounded.post (Bounded.skipComment _ (by omega)) (by omega))

theorem Bounded.skipWhitespace (fuel : Nat) {a : Nat} (h : a ≤ 6) :
    Bounded (Run.skipWhitespace fuel) a (max (a - 1) 1) :=
  Bounded.skipWhitespaceLoop true fuel false h

theorem Bounded.skipLobWhitespace (fuel : Nat) {a : Nat} (h : a ≤ 6) :
    Bounded (Run.skipLobWhitespace fuel) a (max (a - 1) 1) :=
  Bounded.skipWhitespaceLoop false fuel false h

theorem Bounded.skipEndOfLongString (fuel : Nat) {a : Nat} (h : a ≤ 6) :
    Bounded (Run.skipEndOfLongString fuel) a (max a 3) := by
  unfold Run.skipEndOfLongString
  repeat (with_reducible first
    | exact Bounded.pure (by omega)
    | exact Bounded.fail (by omega)
    | exact Bounded.post (Bounded.finish _ _) (by omega)
    | exact Bounded.post Bounded.setFinished (by omega)
    | apply Bounded.ite
    | intro _
    | apply Bounded.bind Bounded.get
    | apply Bounded.bind Bounded.read
    | apply Bounded.bind Bounded.peek
    | apply Bounded.bind (Bounded.unread _)
    | apply Bounded.bind (Bounded.peekN _)
    | apply Bounded.bind (Bounded.skipN _)
    | apply Bounded.bind (Bounded.isStopChar _)
    | apply Bounded.bind Bounded.isTripleQuote
    | apply Bounded.bind (Bounded.isInf _)
    | apply Bounded.bind Bounded.setFinished
    | apply Bounded.bind (Bounded.fail (b := 0) (by omega))
    | apply Bounded.bind (Bounded.skipWhitespace _ (by omega))
    | exact Bounded.post (Bounded.skipWhitespace _ (by omega)) (by omega))

theorem Bounded.readLongStringLoop : ∀ (fuel : Nat) (ret : List Int) {a : Nat}, a ≤ 6 →
    Bounded (Run.readLongStringLoop fuel ret) a (max a 3) := by
  intro fuel
  induction fuel with
  | zero =>
    intro ret a h
    exact Bounded.fail h
  | succ n ih =>
    intro ret a h
    unfold Run.readLongStringLoop
    repeat (with_reducible first
      | exact Bounded.pure (by omega)
      | exact Bounded.fail (by omega)
      | exact Bounded.post (Bounded.finish _ _) (by omega)
      | exact Bounded.post Bounded.setFinished (by omega)
      | apply Bounded.ite
      | intro _
      | apply Bounded.bind Bounded.get
      | apply Bounded.bind Bounded.read
      | apply Bounded.bind Bounded.peek
      | apply Bounded.bind (Bounded.unread _)
      | apply Bounded.bind (Bounded.peekN _)
      | apply Bounded.bind (Bounded.skipN _)
      | apply Bounded.bind (Bounded.isStopChar _)
      | apply Bounded.bind Bounded.isTripleQuote
      | apply Bounded.bind (Bounded.isInf _)
      | apply Bounded.bind Bounded.setFinished
      | apply Bounded.bind (Bounded.fail (b := 0) (by omega))
      | apply Bounded.bind (ih _ (by omega))
      | exact Bounded.post (ih _ (by omega)) (by omega)
      | apply Bounded.bind (Bounded.readEscapedChar _ (by omega))
      | exact Bounded.post (Bounded.readEscapedChar _ (by omega)) (by omega)
      | apply Bounded.bind (Bounded.skipEndOfLongString _ (by omega))
      | exact Bounded.post (Bounded.skipEndOfLongString _ (by omega)) (by omega))

theorem Bounded.readLongString (fuel : Nat) {a : Nat} (h : a ≤ 6) :
    Bounded (Run.readLongString fuel) a (max a 3) := Bounded.readLongStringLoop fuel [] h

theorem Bounded.readBinary (fuel : Nat) {a : Nat} (h : a ≤ 6) :
    Bounded (Run.readBinary fuel) a (max a 2) := Bounded.readRadix fuel isB isBinaryDigit h

theorem Bounded.readHex (fuel : Nat) {a : Nat} (h : a ≤ 6) :
    Bounded (Run.readHex fuel) a (max a 2) := Bounded.readRadix fuel isX isHexDigit h

theorem Bounded.ReadValue (fuel : Nat) (tok : tokenType) {a : Nat} (h : a ≤ 6) :
    Bounded (Run.ReadValue fuel tok) a (max a 3) := by
  unfold Run.ReadValue
  cases tok <;> dsimp only <;>
    repeat (with_reducible first
      | exact Bounded.pure (by omega)
      | exact Bounded.fail (by omega)
      | exact Bounded.post (Bounded.finish _ _) (by omega)
      | exact Bounded.post Bounded.setFinished (by omega)
      | apply Bounded.ite
      | intro _
      | apply Bounded.bind Bounded.get
      | apply Bounded.bind Bounded.read
      | apply Bounded.bind Bounded.peek
      | apply Bounded.bind (Bounded.unread _)
      | apply Bounded.bind (Bounded.peekN _)
      | apply Bounded.bind (Bounded.skipN _)
      | apply Bounded.bind (Bounded.isStopChar _)
      | apply Bounded.bind Bounded.isTripleQuote
      | apply Bounded.bind (Bounded.isInf _)
      | apply Bounded.bind Bounded.setFinished
      | apply Bounded.bind (Bounded.fail (b := 0) (by omega))
      | apply Bounded.bind (Bounded.readSymbol _ (by omega))
      | exact Bounded.post (Bounded.readSymbol _ (by omega)) (by omega)
      | apply Bounded.bind (Bounded.readQuotedSymbol _ (by omega))
      | exact Bounded.post (Bounded.readQuotedSymbol _ (by omega)) (by omega)
      | apply Bounded.bind (Bounded.readOperator _ (by omega))
      | exact Bounded.post (Bounded.readOperator _ (by omega)) (by omega)
      | apply Bounded.bind (Bounded.readString _ (by omega))
      | exact Bounded.post (Bounded.readString _ (by omega)) (by omega)
      | apply Bounded.bind (Bounded.readLongString _ (by omega))
      | exact Bounded.post (Bounded.readLongString _ (by omega)) (by omega)
      | apply Bounded.bind (Bounded.readBinary _ (by omega))
      | exact Bounded.post (Bounded.readBinary _ (by omega)) (by omega)
      | apply Bounded.bind (Bounded.readHex _ (by omega))
      | exact Bounded.post (Bounded.readHex _ (by omega)) (by omega)
      | apply Bounded.bind (Bounded.readTimestamp _ (by omega))
      | exact Bounded.post (Bounded.readTimestamp _ (by omega)) (by omega))

theorem Bounded.ReadShortClob (fuel : Nat) {a : Nat} (h : a ≤ 6) :
    Bounded (Run.ReadShortClob fuel) a (max a 1) := by
  unfold Run.ReadShortClob
  repeat (with_reducible first
    | exact Bounded.pure (by omega)
    | exact Bounded.fail (by omega)
    | exact Bounded.post (Bounded.finish _ _) (by omega)
    | exact Bounded.post Bounded.setFinished (by omega)
    | apply Bounded.ite
    | intro _
    | apply Bounded.bind Bounded.get
    | apply Bounded.bind Bounded.read
    | apply Bounded.bind Bounded.peek
    | apply Bounded.bind (Bounded.unread _)
    | apply Bounded.bind (Bounded.peekN _)
    | apply Bounded.bind (Bounded.skipN _)
    | apply Bounded.bind (Bounded.isStopChar _)
    | apply Bounded.bind Bounded.isTripleQuote
    | apply Bounded.bind (Bounded.isInf _)
    | apply Bounded.bind Bounded.setFinished
    | apply Bounded.bind (Bounded.fail (b := 0) (by omega))
    | apply Bounded.bind (Bounded.readString _ (by omega))
    | exact Bounded.post (Bounded.readString _ (by omega)) (by omega)
    | apply Bounded.bind (Bounded.skipLobWhitespace _ (by omega))
    | exact Bounded.post (Bounded.skipLobWhitespace _ (by omega)) (by omega))

theorem Bounded.ReadLongClob (fuel : Nat) {a : Nat} (h : a ≤ 6) :
    Bounded (Run.ReadLongClob fuel) a (max a 3) := by
  unfold Run.ReadLongClob
  repeat (with_reducible first
    | exact Bounded.pure (by omega)
    | exact Bounded.fail (by omega)
    | exact Bounded.post (Bounded.finish _ _) (by omega)
    | exact Bounded.post Bounded.setFinished (by omega)
    | apply Bounded.ite
    | intro _
    | apply Bounded.bind Bounded.get
    | apply Bounded.bind Bounded.read
    | apply Bounded.bind Bounded.peek
    | apply Bounded.bind (Bounded.unread _)
    | apply Bounded.bind (Bounded.peekN _)
    | apply Bounded.bind (Bounded.skipN _)
    | apply Bounded.bind (Bounded.isStopChar _)
    | apply Bounded.bind Bounded.isTripleQuote
    | apply Bounded.bind (Bounded.isInf _)
    | apply Bounded.bind Bounded.setFinished
    | apply Bounded.bind (Bounded.fail (b := 0) (by omega))
    | apply Bounded.bind (Bounded.readLongString _ (by omega))
    | exact Bounded.post (Bounded.readLongString _ (by omega)) (by omega)
    | apply Bounded.bind (Bounded.skipLobWhitespace _ (by omega))
    | exact Bounded.post (Bounded.skipLobWhitespace _ (by omega)) (by omega))

theorem Bounded.ReadBlobLoop : ∀ (fuel : Nat) (w : List Int) {a : Nat}, a ≤ 6 →
    Bounded (Run.ReadBlobLoop fuel w) a (max (a - 1) 1) := by
  intro fuel
  induction fuel with
  | zero =>
    intro w a h
    exact Bounded.fail h
  | succ n ih =>
    intro w a h
    unfold Run.ReadBlobLoop
    repeat (with_reducible first
      | exact Bounded.pure (by omega)
      | exact Bounded.fail (by omega)
      | exact Bounded.post (Bounded.finish _ _) (by omega)
      | exact Bounded.post Bounded.setFinished (by omega)
      | apply Bounded.ite
      | intro _
      | apply Bounded.bind Bounded.get
      | apply Bounded.bind Bounded.read
      | apply Bounded.bind Bounded.peek
      | apply Bounded.bind (Bounded.unread _)
      | apply Bounded.bind (Bounded.peekN _)
      | apply Bounded.bind (Bounded.skipN _)
      | apply Bounded.bind (Bounded.isStopChar _)
      | apply Bounded.bind Bounded.isTripleQuote
      | apply Bounded.bind (Bounded.isInf _)
      | apply Bounded.bind Bounded.setFinished
      | apply Bounded.bind (Bounded.fail (b := 0) (by omega))
      | apply Bounded.bind (ih _ (by omega))
      | exact Bounded.post (ih _ (by omega)) (by omega)
      | apply Bounded.bind (Bounded.skipLobWhitespace _ (by omega))
      | exact Bounded.post (Bounded.skipLobWhitespace _ (by omega)) (by omega))

theorem Bounded.ReadBlob (fuel : Nat) {a : Nat} (h : a ≤ 6) :
    Bounded (Run.ReadBlob fuel) a (a) := by
  unfold Run.ReadBlob
  repeat (with_reducible first
    | exact Bounded.pure (by omega)
    | exact Bounded.fail (by omega)
    | exact Bounded.post (Bounded.finish _ _) (by omega)
    | exact Bounded.post Bounded.setFinished (by omega)
    | apply Bounded.ite
    | intro _
    | apply Bounded.bind Bounded.get
    | apply Bounded.bind Bounded.read
    | apply Bounded.bind Bounded.peek
    | apply Bounded.bind (Bounded.unread _)
    | apply Bounded.bind (Bounded.peekN _)
    | apply Bounded.bind (Bounded.skipN _)
    | apply Bounded.bind (Bounded.isStopChar _)
    | apply Bounded.bind Bounded.isTripleQuote
    | apply Bounded.bind (Bounded.isInf _)
    | apply Bounded.bind Bounded.setFinished
    | apply Bounded.bind (Bounded.fail (b := 0) (by omega))
    | apply Bounded.bind (Bounded.ReadBlobLoop _ _ (by omega))
    | exact Bounded.post (Bounded.ReadBlobLoop _ _ (by omega)) (by omega))

theorem Bounded.scanForNumericType (c : Int) {a : Nat} (h : a ≤ 6) :
    Bounded (Run.scanForNumericType c) a (max a 4) := by
  unfold Run.scanForNumericType
  repeat (with_reducible first
    | exact Bounded.pure (by omega)
    | exact Bounded.fail (by omega)
    | exact Bounded.post (Bounded.finish _ _) (by omega)
    | exact Bounded.post Bounded.setFinished (by omega)
    | apply Bounded.ite
    | intro _
    | apply Bounded.bind Bounded.get
    | apply Bounded.bind Bounded.read
    | apply Bounded.bind Bounded.peek
    | apply Bounded.bind (Bounded.unread _)
    | apply Bounded.bind (Bounded.peekN _)
    | apply Bounded.bind (Bounded.skipN _)
    | apply Bounded.bind (Bounded.isStopChar _)
    | apply Bounded.bind Bounded.isTripleQuote
    | apply Bounded.bind (Bounded.isInf _)
    | apply Bounded.bind Bounded.setFinished
    | apply Bounded.bind (Bounded.fail (b := 0) (by omega)))

theorem Bounded.skipLob (fuel : Nat) {a : Nat} (h : a ≤ 6) :
    Bounded (Run.skipLob fuel) a (6) := by
  unfold Run.skipLob
  repeat (with_reducible first
    | exact Bounded.pure (by omega)
    | exact Bounded.fail (by omega)
    | exact Bounded.post (Bounded.finish _ _) (by omega)
    | exact Bounded.post Bounded.setFinished (by omega)
    | apply Bounded.ite
    | intro _
    | apply Bounded.bind Bounded.get
    | apply Bounded.bind Bounded.read
    | apply Bounded.bind Bounded.peek
    | apply Bounded.bind (Bounded.unread _)
    | apply Bounded.bind (Bounded.peekN _)
    | apply Bounded.bind (Bounded.skipN _)
    | apply Bounded.bind (Bounded.isStopChar _)
    | apply Bounded.bind Bounded.isTripleQuote
    | apply Bounded.bind (Bounded.isInf _)
    | apply Bounded.bind Bounded.setFinished
    | apply Bounded.bind (Bounded.fail (b := 0) (by omega))
    | apply Bounded.bind (Bounded.skipLobWhitespace _ (by omega))
    | exact Bounded.post (Bounded.skipLobWhitespace _ (by omega)) (by omega)
    | apply Bounded.bind (Bounded.ReadShortClob _ (by omega))
    | exact Bounded.post (Bounded.ReadShortClob _ (by omega)) (by omega)
    | apply Bounded.bind (Bounded.ReadLongClob _ (by omega))
    | exact Bounded.post (Bounded.ReadLongClob _ (by omega)) (by omega)
    | apply Bounded.bind (Bounded.ReadBlob _ (by omega))
    | exact Bounded.post (Bounded.ReadBlob _ (by omega)) (by omega))

theorem Bounded.skipContainerLoop : ∀ (fuel : Nat) (closers : List Int) {a : Nat}, a ≤ 6 →
    Bounded (Run.skipContainerLoop fuel closers) a (6) := by
  intro fuel
  induction fuel with
  | zero =>
    intro closers a h
    exact Bounded.fail h
  | succ n ih =>
    intro closers a h
    unfold Run.skipContainerLoop
    repeat (with_reducible first
      | exact Bounded.pure (by omega)
      | exact Bounded.fail (by omega)
      | exact Bounded.post (Bounded.finish _ _) (by omega)
      | exact Bounded.post Bounded.setFinished (by omega)
      | apply Bounded.ite
      | intro _
      | apply Bounded.bind Bounded.get
      | apply Bounded.bind Bounded.read
      | apply Bounded.bind Bounded.peek
      | apply Bounded.bind (Bounded.unread _)
      | apply Bounded.bind (Bounded.peekN _)
      | apply Bounded.bind (Bounded.skipN _)
      | apply Bounded.bind (Bounded.isStopChar _)
      | apply Bounded.bind Bounded.isTripleQuote
      | apply Bounded.bind (Bounded.isInf _)
      | apply Bounded.bind Bounded.setFinished
      | apply Bounded.bind (Bounded.fail (b := 0) (by omega))
      | apply Bounded.bind (ih _ (by omega))
      | exact Bounded.post (ih _ (by omega)) (by omega)
      | apply Bounded.bind (Bounded.skipWhitespace _ (by omega))
      | exact Bounded.post (Bounded.skipWhitespace _ (by omega)) (by omega)
      | apply Bounded.bind (Bounded.readString _ (by omega))
      | exact Bounded.post (Bounded.readString _ (by omega)) (by omega)
      | apply Bounded.bind (Bounded.readLongString _ (by omega))
      | exact Bounded.post (Bounded.readLongString _ (by omega)) (by omega)
      | apply Bounded.bind (Bounded.readQuotedSymbol _ (by omega))
      | exact Bounded.post (Bounded.readQuotedSymbol _ (by omega)) (by omega)
      | apply Bounded.bind (Bounded.skipLob _ (by omega))
      | exact Bounded.post (Bounded.skipLob _ (by omega)) (by omega))

theorem Bounded.skipPayload (fuel : Nat) (tok : tokenType) {a : Nat} (h : a ≤ 6) :
    Bounded (Run.skipPayload fuel tok) a 6 := by
  unfold Run.skipPayload
  cases tok <;> dsimp only <;>
    repeat (with_reducible first
      | exact Bounded.pure (by omega)
      | exact Bounded.fail (by omega)
      | exact Bounded.post (Bounded.finish _ _) (by omega)
      | exact Bounded.post Bounded.setFinished (by omega)
      | apply Bounded.ite
      | intro _
      | apply Bounded.bind Bounded.get
      | apply Bounded.bind Bounded.read
      | apply Bounded.bind Bounded.peek
      | apply Bounded.bind (Bounded.unread _)
      | apply Bounded.bind (Bounded.peekN _)
      | apply Bounded.bind (Bounded.skipN _)
      | apply Bounded.bind (Bounded.isStopChar _)
      | apply Bounded.bind Bounded.isTripleQuote
      | apply Bounded.bind (Bounded.isInf _)
      | apply Bounded.bind Bounded.setFinished
      | apply Bounded.bind (Bounded.fail (b := 0) (by omega))
      | apply Bounded.bind (Bounded.ReadNumber _ (by omega))
      | exact Bounded.post (Bounded.ReadNumber _ (by omega)) (by omega)
      | apply Bounded.bind (Bounded.ReadValue _ _ (by omega))
      | exact Bounded.post (Bounded.ReadValue _ _ (by omega)) (by omega)
      | apply Bounded.bind (Bounded.skipLob _ (by omega))
      | exact Bounded.post (Bounded.skipLob _ (by omega)) (by omega)
      | apply Bounded.bind (Bounded.skipContainerLoop _ _ (by omega))
      | exact Bounded.post (Bounded.skipContainerLoop _ _ (by omega)) (by omega))

theorem Bounded.skipValue (fuel : Nat) {a : Nat} (h : a ≤ 6) :
    Bounded (Run.skipValue fuel) a (5) := by
  unfold Run.skipValue
  repeat (with_reducible first
    | exact Bounded.pure (by omega)
    | exact Bounded.fail (by omega)
    | exact Bounded.post (Bounded.finish _ _) (by omega)
    | exact Bounded.post Bounded.setFinished (by omega)
    | apply Bounded.ite
    | intro _
    | apply Bounded.bind Bounded.get
    | apply Bounded.bind Bounded.read
    | apply Bounded.bind Bounded.peek
    | apply Bounded.bind (Bounded.unread _)
    | apply Bounded.bind (Bounded.peekN _)
    | apply Bounded.bind (Bounded.skipN _)
    | apply Bounded.bind (Bounded.isStopChar _)
    | apply Bounded.bind Bounded.isTripleQuote
    | apply Bounded.bind (Bounded.isInf _)
    | apply Bounded.bind Bounded.setFinished
    | apply Bounded.bind (Bounded.fail (b := 0) (by omega))
    | apply Bounded.bind (Bounded.skipPayload _ _ (by omega))
    | exact Bounded.post (Bounded.skipPayload _ _ (by omega)) (by omega)
    | apply Bounded.bind (Bounded.skipWhitespace _ (by omega))
    | exact Bounded.post (Bounded.skipWhitespace _ (by omega)) (by omega))

theorem Bounded.Next (fuel : Nat) {a : Nat} (h : a ≤ 6) :
    Bounded (Run.Next fuel) a (6) := by
  unfold Run.Next
  repeat (with_reducible first
    | exact Bounded.pure (by omega)
    | exact Bounded.fail (by omega)
    | exact Bounded.post (Bounded.finish _ _) (by omega)
    | exact Bounded.post Bounded.setFinished (by omega)
    | apply Bounded.ite
    | intro _
    | apply Bounded.bind Bounded.get
    | apply Bounded.bind Bounded.read
    | apply Bounded.bind Bounded.peek
    | apply Bounded.bind (Bounded.unread _)
    | apply Bounded.bind (Bounded.peekN _)
    | apply Bounded.bind (Bounded.skipN _)
    | apply Bounded.bind (Bounded.isStopChar _)
    | apply Bounded.bind Bounded.isTripleQuote
    | apply Bounded.bind (Bounded.isInf _)
    | apply Bounded.bind Bounded.setFinished
    | apply Bounded.bind (Bounded.fail (b := 0) (by omega))
    | apply Bounded.bind (Bounded.skipValue _ (by omega))
    | exact Bounded.post (Bounded.skipValue _ (by omega)) (by omega)
    | apply Bounded.bind (Bounded.skipWhitespace _ (by omega))
    | exact Bounded.post (Bounded.skipWhitespace _ (by omega)) (by omega)
    | apply Bounded.bind (Bounded.scanForNumericType _ (by omega))
    | exact Bounded.post (Bounded.scanForNumericType _ (by omega)) (by omega)
    | apply Bounded.bind (b := 5))

theorem Bounded.call (fuel : Nat) (call : Call) {a : Nat} (h : a ≤ 6) :
    Bounded (call.run fuel) a 6 := by
  unfold Call.run
  cases call <;> dsimp only <;>
    repeat (with_reducible first
      | exact Bounded.pure (by omega)
      | intro _
      | exact Bounded.post (Bounded.Next _ (by omega)) (by omega)
      | apply Bounded.bind (Bounded.ReadValue _ _ (by omega))
      | apply Bounded.bind (Bounded.ReadNumber _ (by omega))
      | apply Bounded.bind (Bounded.ReadBlob _ (by omega))
      | apply Bounded.bind (Bounded.ReadShortClob _ (by omega))
      | apply Bounded.bind (Bounded.ReadLongClob _ (by omega)))

/-- After a call that is started with at most 6 entries in the pushback buffer there
are at most 6, whether the call returns a value or an error. -/
theorem Bounded.state_le {α : Type} {m : TokM α} {a b : Nat} (h : Bounded m a b) (hb : b ≤ 6)
    (t : tokenizer) (ht : t.buffer.length ≤ a) : (m t).2.buffer.length ≤ 6 := by
  have h1 := h.le t ht
  rcases hm : m t with ⟨r, t1⟩
  rw [hm] at h1
  cases r with
  | ok v => exact Nat.le_trans h1 hb
  | error e => exact h1

end PushbackBound

/-! ## A larger iteration bound changes no outcome -/

section IterationBound

set_option linter.unusedTactic false
set_option linter.unreachableTactic false
set_option maxRecDepth 8192

theorem Below.refl {α : Type} (m : TokM α) : Below m m := ⟨fun _ _ => rfl⟩

theorem Below.bind_both {α β : Type} {m1 m2 : TokM α} {f1 f2 : α → TokM β}
    (h : Below m1 m2) (hf : ∀ v, Below (f1 v) (f2 v)) : Below (m1 >>= f1) (m2 >>= f2) := by
  constructor
  intro t ht
  have e1 : (m1 >>= f1) t = (match m1 t with
    | (.ok a, t1) => f1 a t1
    | (.error e, t1) => (.error e, t1)) := rfl
  have e2 : (m2 >>= f2) t = (match m2 t with
    | (.ok a, t1) => f2 a t1
    | (.error e, t1) => (.error e, t1)) := rfl
  rw [e1] at ht
  rw [e1, e2]
  rcases hm : m1 t with ⟨r, t1⟩
  rw [hm] at ht
  cases r with
  | ok v =>
    rw [h.eq t (by rw [hm]; simp), hm]
    exact (hf v).eq t1 ht
  | error e =>
    rw [h.eq t (by rw [hm]; simpa using ht), hm]

theorem Below.ite_both {α : Type} {p : Prop} [Decidable p] {x1 x2 y1 y2 : TokM α}
    (hx : Below x1 x2) (hy : Below y1 y2) :
    Below (if p then x1 else y1) (if p then x2 else y2) := by
  split
  · exact hx
  · exact hy

theorem Below.outOfFuel {α : Type} (m : TokM α) : Below (Run.fail Error.outOfFuel) m :=
  ⟨fun _ h => absurd rfl h⟩

theorem Below.readRadixDigitsLoop_fuel (dok : Int → Bool) : ∀ (n m : Nat) (w : List Int), n ≤ m →
    Below (Run.readRadixDigitsLoop dok n w) (Run.readRadixDigitsLoop dok m w) := by
  intro n
  induction n with
  | zero =>
    intro m w _
    exact Below.outOfFuel _
  | succ n ih =>
    intro m w h
    obtain ⟨k, rfl⟩ : ∃ k, m = k + 1 := ⟨m - 1, by omega⟩
    have h : n ≤ k := by omega
    unfold Run.readRadixDigitsLoop
    repeat (with_reducible first
      | exact Below.refl _
      | apply Below.ite_both
      | apply Below.bind_both
      | intro _
      | exact ih _ _ h)

theorem Below.readRadixDigits_fuel (dok : Int → Bool) (w : List Int) {n m : Nat} (h : n ≤ m) :
    Below (Run.readRadixDigits n dok w) (Run.readRadixDigits m dok w) :=
  Below.readRadixDigitsLoop_fuel dok n m w h

theorem Below.readDigits_fuel (c : Int) (w : List Int) {n m : Nat} (h : n ≤ m) :
    Below (Run.readDigits n c w) (Run.readDigits m c w) := by
  unfold Run.readDigits
  repeat (with_reducible first
    | exact Below.refl _
    | apply Below.ite_both
    | apply Below.bind_both
    | intro _
    | exact Below.readRadixDigits_fuel _ _ h)

theorem Below.readExponent_fuel (w : List Int) {n m : Nat} (h : n ≤ m) :
    Below (Run.readExponent n w) (Run.readExponent m w) := by
  unfold Run.readExponent
  repeat (with_reducible first
    | exact Below.refl _
    | apply Below.ite_both
    | apply Below.bind_both
    | intro _
    | exact Below.readDigits_fuel _ _ h)

theorem Below.ReadNumber_fuel {n m : Nat} (h : n ≤ m) :
    Below (Run.ReadNumber n) (Run.ReadNumber m) := by
  unfold Run.ReadNumber
  repeat (with_reducible first
    | exact Below.refl _
    | apply Below.ite_both
    | apply Below.bind_both
    | intro _
    | exact Below.readDigits_fuel _ _ h
    | exact Below.readExponent_fuel _ h)

theorem Below.readRadix_fuel (pok dok : Int → Bool) {n m : Nat} (h : n ≤ m) :
    Below (Run.readRadix n pok dok) (Run.readRadix m pok dok) := by
  unfold Run.readRadix
  repeat (with_reducible first
    | exact Below.refl _
    | apply Below.ite_both
    | apply Below.bind_both
    | intro _
    | exact Below.readRadixDigits_fuel _ _ h)

theorem Below.readBinary_fuel {n m : Nat} (h : n ≤ m) :
    Below (Run.readBinary n) (Run.readBinary m) := Below.readRadix_fuel isB isBinaryDigit h

theorem Below.readHex_fuel {n m : Nat} (h : n ≤ m) :
    Below (Run.readHex n) (Run.readHex m) := Below.readRadix_fuel isX isHexDigit h

theorem Below.readTimestamp_fuel {n m : Nat} (h : n ≤ m) :
    Below (Run.readTimestamp n) (Run.readTimestamp m) := by
  unfold Run.readTimestamp
  repeat (with_reducible first
    | exact Below.refl _
    | apply Below.ite_both
    | apply Below.bind_both
    | intro _
    | exact Below.readDigits_fuel _ _ h)

theorem Below.readWhileLoop_fuel (ok : Int → Bool) : ∀ (n m : Nat) (c : Int) (ret : List Int), n ≤ m →
    Below (Run.readWhileLoop ok n c ret) (Run.readWhileLoop ok m c ret) := by
  intro n
  induction n with
  | zero =>
    intro m c ret _
    exact Below.outOfFuel _
  | succ n ih =>
    intro m c ret h
    obtain ⟨k, rfl⟩ : ∃ k, m = k + 1 := ⟨m - 1, by omega⟩
    have h : n ≤ k := by omega
    unfold Run.readWhileLoop
    repeat (with_reducible first
      | exact Below.refl _
      | apply Below.ite_both
      | apply Below.bind_both
      | intro _
      | exact ih _ _ _ h)

theorem Below.readSymbol_fuel {n m : Nat} (h : n ≤ m) :
    Below (Run.readSymbol n) (Run.readSymbol m) := by
  unfold Run.readSymbol
  repeat (with_reducible first
    | exact Below.refl _
    | apply Below.ite_both
    | apply Below.bind_both
    | intro _
    | exact Below.readWhileLoop_fuel _ _ _ _ _ h)

theorem Below.readOperator_fuel {n m : Nat} (h : n ≤ m) :
    Below (Run.readOperator n) (Run.readOperator m) := by
  unfold Run.readOperator
  repeat (with_reducible first
    | exact Below.refl _
    | apply Below.ite_both
    | apply Below.bind_both
    | intro _
    | exact Below.readWhileLoop_fuel _ _ _ _ _ h)

theorem Below.readQuotedLoop_fuel (quote : Int) : ∀ (n m : Nat) (ret : List Int), n ≤ m →
    Below (Run.readQuotedLoop quote n ret) (Run.readQuotedLoop quote m ret) := by
  intro n
  induction n with
  | zero =>
    intro m ret _
    exact Below.outOfFuel _
  | succ n ih =>
    intro m ret h
    obtain ⟨k, rfl⟩ : ∃ k, m = k + 1 := ⟨m - 1, by omega⟩
    have h : n ≤ k := by omega
    unfold Run.readQuotedLoop
    repeat (with_reducible first
      | exact Below.refl _
      | apply Below.ite_both
      | apply Below.bind_both
      | intro _
      | exact ih _ _ h)

theorem Below.readQuotedSymbol_fuel {n m : Nat} (h : n ≤ m) :
    Below (Run.readQuotedSymbol n) (Run.readQuotedSymbol m) := Below.readQuotedLoop_fuel 39 n m [] h

theorem Below.readString_fuel {n m : Nat} (h : n ≤ m) :
    Below (Run.readString n) (Run.readString m) := Below.readQuotedLoop_fuel 34 n m [] h

theorem Below.skipSingleLineComment_fuel : ∀ (n m : Nat) , n ≤ m →
    Below (Run.skipSingleLineComment n) (Run.skipSingleLineComment m) := by
  intro n
  induction n with
  | zero =>
    intro m _
    exact Below.outOfFuel _
  | succ n ih =>
    intro m h
    obtain ⟨k, rfl⟩ : ∃ k, m = k + 1 := ⟨m - 1, by omega⟩
    have h : n ≤ k := by omega
    unfold Run.skipSingleLineComment
    repeat (with_reducible first
      | exact Below.refl _
      | apply Below.ite_both
      | apply Below.bind_both
      | intro _
      | exact ih _ h)

theorem Below.skipBlockComment_fuel : ∀ (n m : Nat) (star : Bool), n ≤ m →
    Below (Run.skipBlockComment n star) (Run.skipBlockComment m star) := by
  intro n
  induction n with
  | zero =>
    intro m star _
    exact Below.outOfFuel _
  | succ n ih =>
    intro m star h
    obtain ⟨k, rfl⟩ : ∃ k, m = k + 1 := ⟨m - 1, by omega⟩
    have h : n ≤ k := by omega
    unfold Run.skipBlockComment
    repeat (with_reducible first
      | exact Below.refl _
      | apply Below.ite_both
      | apply Below.bind_both
      | intro _
      | exact ih _ _ h)

theorem Below.skipComment_fuel {n m : Nat} (h : n ≤ m) :
    Below (Run.skipComment n) (Run.skipComment m) := by
  unfold Run.skipComment
  repeat (with_reducible first
    | exact Below.refl _
    | apply Below.ite_both
    | apply Below.bind_both
    | intro _
    | exact Below.skipSingleLineComment_fuel _ _ h
    | exact Below.skipBlockComment_fuel _ _ _ h)

theorem Below.skipWhitespaceLoop_fuel (comments : Bool) : ∀ (n m : Nat) (skipped : Bool), n ≤ m →
    Below (Run.skipWhitespaceLoop comments n skipped) (Run.skipWhitespaceLoop comments m skipped) := by
  intro n
  induction n with
  | zero =>
    intro m skipped _
    exact Below.outOfFuel _
  | succ n ih =>
    intro m skipped h
    obtain ⟨k, rfl⟩ : ∃ k, m = k + 1 := ⟨m - 1, by omega⟩
    have h : n ≤ k := by omega
    unfold Run.skipWhitespaceLoop
    repeat (with_reducible first
      | exact Below.refl _
      | apply Below.ite_both
      | apply Below.bind_both
      | intro _
      | exact ih _ _ h
      | exact Below.skipComment_fuel h)

theorem Below.skipWhitespace_fuel {n m : Nat} (h : n ≤ m) :
    Below (Run.skipWhitespace n) (Run.skipWhitespace m) :=
  Below.skipWhitespaceLoop_fuel true n m false h

theorem Below.skipLobWhitespace_fuel {n m : Nat} (h : n ≤ m) :
    Below (Run.skipLobWhitespace n) (Run.skipLobWhitespace m) :=
  Below.skipWhitespaceLoop_fuel false n m false h

theorem Below.skipEndOfLongString_fuel {n m : Nat} (h : n ≤ m) :
    Below (Run.skipEndOfLongString n) (Run.skipEndOfLongString m) := by
  unfold Run.skipEndOfLongString
  repeat (with_reducible first
    | exact Below.refl _
    | apply Below.ite_both
    | apply Below.bind_both
    | intro _
    | exact Below.skipWhitespace_fuel h)

theorem Below.readLongStringLoop_fuel : ∀ (n m : Nat) (ret : List Int), n ≤ m →
    Below (Run.readLongStringLoop n ret) (Run.readLongStringLoop m ret) := by
  intro n
  induction n with
  | zero =>
    intro m ret _
    exact Below.outOfFuel _
  | succ n ih =>
    intro m ret h
    obtain ⟨k, rfl⟩ : ∃ k, m = k + 1 := ⟨m - 1, by omega⟩
    have h : n ≤ k := by omega
    unfold Run.readLongStringLoop
    repeat (with_reducible first
      | exact Below.refl _
      | apply Below.ite_both
      | apply Below.bind_both
      | intro _
      | exact ih _ _ h
      | exact Below.skipEndOfLongString_fuel h)

theorem Below.readLongString_fuel {n m : Nat} (h : n ≤ m) :
    Below (Run.readLongString n) (Run.readLongString m) := Below.readLongStringLoop_fuel n m [] h

theorem Below.ReadValue_fuel (tok : tokenType) {n m : Nat} (h : n ≤ m) :
    Below (Run.ReadValue n tok) (Run.ReadValue m tok) := by
  unfold Run.ReadValue
  cases tok <;> dsimp only <;>
    repeat (with_reducible first
      | exact Below.refl _
      | apply Below.ite_both
      | apply Below.bind_both
      | intro _
      | exact Below.readSymbol_fuel h
      | exact Below.readQuotedSymbol_fuel h
      | exact Below.readOperator_fuel h
      | exact Below.readString_fuel h
      | exact Below.readLongString_fuel h
      | exact Below.readBinary_fuel h
      | exact Below.readHex_fuel h
      | exact Below.readTimestamp_fuel h)

theorem Below.ReadShortClob_fuel {n m : Nat} (h : n ≤ m) :
    Below (Run.ReadShortClob n) (Run.ReadShortClob m) := by
  unfold Run.ReadShortClob
  repeat (with_reducible first
    | exact Below.refl _
    | apply Below.ite_both
    | apply Below.bind_both
    | intro _
    | exact Below.readString_fuel h
    | exact Below.skipLobWhitespace_fuel h)

theorem Below.ReadLongClob_fuel {n m : Nat} (h : n ≤ m) :
    Below (Run.ReadLongClob n) (Run.ReadLongClob m) := by
  unfold Run.ReadLongClob
  repeat (with_reducible first
    | exact Below.refl _
    | apply Below.ite_both
    | apply Below.bind_both
    | intro _
    | exact Below.readLongString_fuel h
    | exact Below.skipLobWhitespace_fuel h)

theorem Below.ReadBlobLoop_fuel : ∀ (n m : Nat) (w : List Int), n ≤ m →
    Below (Run.ReadBlobLoop n w) (Run.ReadBlobLoop m w) := by
  intro n
  induction n with
  | zero =>
    intro m w _
    exact Below.outOfFuel _
  | succ n ih =>
    intro m w h
    obtain ⟨k, rfl⟩ : ∃ k, m = k + 1 := ⟨m - 1, by omega⟩
    have h : n ≤ k := by omega
    unfold Run.ReadBlobLoop
    repeat (with_reducible first
      | exact Below.refl _
      | apply Below.ite_both
      | apply Below.bind_both
      | intro _
      | exact ih _ _ h
      | exact Below.skipLobWhitespace_fuel h)

theorem Below.ReadBlob_fuel {n m : Nat} (h : n ≤ m) :
    Below (Run.ReadBlob n) (Run.ReadBlob m) := by
  unfold Run.ReadBlob
  repeat (with_reducible first
    | exact Below.refl _
    | apply Below.ite_both
    | apply Below.bind_both
    | intro _
    | exact Below.ReadBlobLoop_fuel _ _ _ h)

theorem Below.skipLob_fuel {n m : Nat} (h : n ≤ m) :
    Below (Run.skipLob n) (Run.skipLob m) := by
  unfold Run.skipLob
  repeat (with_reducible first
    | exact Below.refl _
    | apply Below.ite_both
    | apply Below.bind_both
    | intro _
    | exact Below.skipLobWhitespace_fuel h
    | exact Below.ReadShortClob_fuel h
    | exact Below.ReadLongClob_fuel h
    | exact Below.ReadBlob_fuel h)

theorem Below.skipContainerLoop_fuel : ∀ (n m : Nat) (closers : List Int), n ≤ m →
    Below (Run.skipContainerLoop n closers) (Run.skipContainerLoop m closers) := by
  intro n
  induction n with
  | zero =>
    intro m closers _
    exact Below.outOfFuel _
  | succ n ih =>
    intro m closers h
    obtain ⟨k, rfl⟩ : ∃ k, m = k + 1 := ⟨m - 1, by omega⟩
    have h : n ≤ k := by omega
    unfold Run.skipContainerLoop
    repeat (with_reducible first
      | exact Below.refl _
      | apply Below.ite_both
      | apply Below.bind_both
      | intro _
      | exact ih _ _ h
      | exact Below.skipWhitespace_fuel h
      | exact Below.readString_fuel h
      | exact Below.readLongString_fuel h
      | exact Below.readQuotedSymbol_fuel h
      | exact Below.skipLob_fuel h)

theorem Below.skipPayload_fuel (tok : tokenType) {n m : Nat} (h : n ≤ m) :
    Below (Run.skipPayload n tok) (Run.skipPayload m tok) := by
  unfold Run.skipPayload
  cases tok <;> dsimp only <;>
    repeat (with_reducible first
      | exact Below.refl _
      | apply Below.ite_both
      | apply Below.bind_both
      | intro _
      | exact Below.ReadNumber_fuel h
      | exact Below.ReadValue_fuel _ h
      | exact Below.skipLob_fuel h
      | exact Below.skipContainerLoop_fuel _ _ _ h)

theorem Below.skipValue_fuel {n m : Nat} (h : n ≤ m) :
    Below (Run.skipValue n) (Run.skipValue m) := by
  unfold Run.skipValue
  repeat (with_reducible first
    | exact Below.refl _
    | apply Below.ite_both
    | apply Below.bind_both
    | intro _
    | exact Below.skipPayload_fuel _ h
    | exact Below.skipWhitespace_fuel h)

theorem Below.Next_fuel {n m : Nat} (h : n ≤ m) :
    Below (Run.Next n) (Run.Next m) := by
  unfold Run.Next
  repeat (with_reducible first
    | exact Below.refl _
    | apply Below.ite_both
    | apply Below.bind_both
    | intro _
    | exact Below.skipValue_fuel h
    | exact Below.skipWhitespace_fuel h)

/-- A call that does not run out of iterations has the same outcome, value or error
and tokenizer, for every larger iteration bound. -/
theorem Below.call_fuel (call : Call) {n m : Nat} (h : n ≤ m) :
    Below (call.run n) (call.run m) := by
  unfold Call.run
  cases call <;> dsimp only <;>
    repeat (with_reducible first
      | exact Below.refl _
      | apply Below.ite_both
      | apply Below.bind_both
      | intro _
      | exact Below.Next_fuel h
      | exact Below.ReadValue_fuel _ h
      | exact Below.ReadNumber_fuel h
      | exact Below.ReadBlob_fuel h
      | exact Below.ReadShortClob_fuel h
      | exact Below.ReadLongClob_fuel h)

end IterationBound

/-! ## The skipping methods at work -/

/-- What `skipWhitespace` and `skipLobWhitespace` do: whitespace and comments are
skipped and the first other character is consumed and returned; a `/` that starts
no comment is such a character; in a lob there are no comments. -/
theorem skipWhitespace_examples :
    Run.skipWhitespace 20 (tokenizeBytes (bytes " // c\n /* d */ x y"))
      = (.ok (120, true), tokenizer.mk (bytes " y") [] tokenType.tokenError false)
    ∧ Run.skipWhitespace 20 (tokenizeBytes (bytes "x y"))
      = (.ok (120, false), tokenizer.mk (bytes " y") [] tokenType.tokenError false)
    ∧ Run.skipWhitespace 20 (tokenizeBytes (bytes " /x"))
      = (.ok (47, true), tokenizer.mk [] [120] tokenType.tokenError false)
    ∧ Run.skipWhitespace 20 (tokenizeBytes (bytes " /* c"))
      = (.error Error.unexpectedEOF, tokenizer.mk [] [] tokenType.tokenError false)
    ∧ Run.skipLobWhitespace 20 (tokenizeBytes (bytes " \n // c"))
      = (.ok (47, true), tokenizer.mk (bytes "/ c") [] tokenType.tokenError false) := by
  decide

/-- The values of the test `TestIgnoreValues` are skipped as it expects: on its input
three calls of `Next` find a struct, a list and a symbol, which `ReadValue` reads as
`foo`, and a fourth call finds the end of the input. -/
theorem skipValue_ignores_values :
    (Call.afterAll 60 [.next]
        (tokenizeBytes (bytes "\x7bskip: me, please: true\x7d\n[skip, me, please]\nfoo"))).token
      = tokenType.tokenOpenBrace
    ∧ (Call.afterAll 60 [.next, .next]
        (tokenizeBytes (bytes "\x7bskip: me, please: true\x7d\n[skip, me, please]\nfoo"))).token
      = tokenType.tokenOpenBracket
    ∧ Call.afterAll 60 [.next, .next, .next]
        (tokenizeBytes (bytes "\x7bskip: me, please: true\x7d\n[skip, me, please]\nfoo"))
      = tokenizer.mk (bytes "oo") [102] tokenType.tokenSymbol true
    ∧ Run.ReadValue 60 tokenType.tokenSymbol (tokenizer.mk (bytes "oo") [102] tokenType.tokenSymbol true)
      = (.ok (str "foo"), tokenizer.mk [] [-1] tokenType.tokenSymbol false)
    ∧ Run.Next 60 (tokenizer.mk [] [-1] tokenType.tokenSymbol false)
      = (.ok (), tokenizer.mk [] [] tokenType.tokenEOF true) := by
  decide

/-- Adjacent segments of a long string are read as one literal, and a pending long
string, a lob and a container are skipped as wholes, a closing delimiter inside a
string or a lob not counting. -/
theorem skipValue_examples :
    Run.Next 60 (tokenizeBytes (bytes "'''beep''' /* c */ '''boop''' x"))
      = (.ok (), tokenizer.mk (bytes "beep''' /* c */ '''boop''' x") []
          tokenType.tokenLongString true)
    ∧ Run.ReadValue 60 tokenType.tokenLongString
        (tokenizer.mk (bytes "beep''' /* c */ '''boop''' x") [] tokenType.tokenLongString true)
      = (.ok (str "beepboop"), tokenizer.mk [] [120] tokenType.tokenLongString false)
    ∧ Call.afterAll 60 [.next, .next] (tokenizeBytes (bytes "'''beep''' /* c */ '''boop''' x"))
      = tokenizer.mk [] [120] tokenType.tokenSymbol true
    ∧ Call.afterAll 60 [.next, .next]
        (tokenizeBytes (bytes "\x7b\x7b '''hello'''\n'''wor\x7d\x7dld''' \x7d\x7d 1"))
      = tokenizer.mk [] [49, -1] tokenType.tokenNumber true
    ∧ Call.afterAll 60 [.next, .next] (tokenizeBytes (bytes "\x7b\x7b SGVs bG8g \x7d\x7d 1"))
      = tokenizer.mk [] [49, -1] tokenType.tokenNumber true
    ∧ Call.afterAll 60 [.next, .next]
        (tokenizeBytes (bytes "(a [b \"]\" ')' \x7b\x7b \"x\" \x7d\x7d] c) 1"))
      = tokenizer.mk [] [49, -1] tokenType.tokenNumber true := by
  decide

/-! ## Claims -/

/-- C1: an integer literal (optional `-`; a decimal digit run without a leading
zero, or `0b`/`0B`/`0x`/`0X` and a run of digits of that radix; single `_` strictly
between digits) that is followed by a stop character or the end of input is read
successfully, by `ReadNumber` as an Int respectively by `ReadValue` on a binary or
hex token, and the text returned is the literal with every `_` removed, which has
the value of the literal in its radix. -/
theorem C1_integer_literal_text (t : tokenizer) (sign body rest : List Int)
    (hsign : sign = [] ∨ sign = [45]) (hstop : isStopChar (hd rest) = true) :
    (sepDigits isDigit body = true → (hd body = 48 → body = [48]) →
      t.upcoming = sign ++ body ++ rest →
      ∃ t2, t.ReadNumber = .ok (sign ++ dropUnderscores body, IonType.IntType, t2)
        ∧ radixValue 10 (dropUnderscores body) = radixValue 10 body)
    ∧ (∀ m skipEnd, sepDigits isBinaryDigit body = true → (m = 98 ∨ m = 66) →
      t.upcoming = sign ++ 48 :: m :: body ++ rest →
      ∃ t2, t.ReadValue tokenType.tokenBinary skipEnd
          = .ok (sign ++ 48 :: m :: dropUnderscores body, t2)
        ∧ radixValue 2 (dropUnderscores body) = radixValue 2 body)
    ∧ (∀ m skipEnd, sepDigits isHexDigit body = true → (m = 120 ∨ m = 88) →
      t.upcoming = sign ++ 48 :: m :: body ++ rest →
      ∃ t2, t.ReadValue tokenType.tokenHex skipEnd
          = .ok (sign ++ 48 :: m :: dropUnderscores body, t2)
        ∧ radixValue 16 (dropUnderscores body) = radixValue 16 body) := by
  obtain ⟨h95, hdig, hhex, hbin, -⟩ := isStopChar_facts _ hstop
  refine ⟨?_, ?_, ?_⟩
  · intro hw hz hu
    cases body with
    | nil => simp [sepDigits, wellSeparated] at hw
    | cons c body =>
      have hc95 : c ≠ 95 := by
        intro h; subst h; simp [sepDigits, wellSeparated] at hw
      simp only [sepDigits, wellSeparated, hc95, if_false, Bool.and_eq_true] at hw
      have hz2 : c = 48 → body = [] := by
        intro h
        have := hz (by simpa using h)
        simp at this
        exact this.2
      have hc45 : c ≠ 45 := by
        intro h; subst h; simp [isDigit] at hw
      have key := scanNumberInt_integer sign c body rest hw.1 hw.2 hz2 hstop
      have href := ReadNumber_refines t
      have hscan : scanNumber t.upcoming
          = .ok (sign ++ c :: dropUnderscores body, IonType.IntType, hd rest, rest.tail) := by
        rw [hu]
        rcases hsign with rfl | rfl
        · simpa [scanNumber, hc45] using key
        · simpa [scanNumber] using key
      rw [hscan] at href
      obtain ⟨t2, e, -⟩ := href
      refine ⟨t2, ?_, radixValue_dropUnderscores 10 _⟩
      simpa [dropUnderscores, hc95] using e
  · intro m skipEnd hw hm hu
    have hpm : isB m = true := by rcases hm with rfl | rfl <;> decide
    have hmb : byte m = m := by rcases hm with rfl | rfl <;> decide
    have key := scanRadix_integer isB isBinaryDigit byte_isBinaryDigit sign body rest m hsign
      hpm hmb hw hstop hbin
    have href := readRadix_refines t isB isBinaryDigit (by decide)
    rw [hu, key] at href
    obtain ⟨t2, e, -⟩ := href
    refine ⟨{ t2 with unfinished := false }, ?_, radixValue_dropUnderscores 2 _⟩
    simp [tokenizer.ReadValue, tokenizer.readBinary, e, bind, Except.bind, pure, Except.pure]
  · intro m skipEnd hw hm hu
    have hpm : isX m = true := by rcases hm with rfl | rfl <;> decide
    have hmb : byte m = m := by rcases hm with rfl | rfl <;> decide
    have key := scanRadix_integer isX isHexDigit byte_isHexDigit sign body rest m hsign
      hpm hmb hw hstop hhex
    have href := readRadix_refines t isX isHexDigit (by decide)
    rw [hu, key] at href
    obtain ⟨t2, e, -⟩ := href
    refine ⟨{ t2 with unfinished := false }, ?_, radixValue_dropUnderscores 16 _⟩
    simp [tokenizer.ReadValue, tokenizer.readHex, e, bind, Except.bind, pure, Except.pure]

theorem C1_integer_literal_text_witness :
    (∃ t2, (tokenizeBytes (bytes "-1_2_3_4_5")).ReadNumber
        = .ok (str "-12345", IonType.IntType, t2)
      ∧ radixValue 10 (dropUnderscores (str "1_2_3_4_5")) = radixValue 10 (str "1_2_3_4_5"))
    ∧ (∃ t2, (tokenizeBytes (bytes "-0x0102_0e0F ")).ReadValue tokenType.tokenHex
          (fun t => .ok (true, t)) = .ok (str "-0x01020e0F", t2)
      ∧ radixValue 16 (dropUnderscores (str "0102_0e0F")) = radixValue 16 (str "0102_0e0F")) :=
  ⟨(C1_integer_literal_text (tokenizeBytes (bytes "-1_2_3_4_5")) [45] (str "1_2_3_4_5") []
      (by decide) (by decide)).1 (by decide) (by decide) (by decide),
   (C1_integer_literal_text (tokenizeBytes (bytes "-0x0102_0e0F ")) [45] (str "0102_0e0F") [32]
      (by decide) (by decide)).2.2 120 (fun t => .ok (true, t)) (by decide) (by decide)
      (by decide)⟩

/-- C2: whenever `ReadNumber` succeeds, the type it returns is Float exactly when the
text returned holds an `e` or `E`, Decimal exactly when it holds a `.`, `d` or `D`
and no `e` or `E`, and Int exactly when it holds none of them; so `123.`, `123.0`,
`123.456`, `123d2`, `123d+2`, `123d-2` are read as Decimal and `1e100`, `1.2e+0`,
`-123.456e-78` as Float. -/
theorem C2_number_type_by_text :
    (∀ (t t2 : tokenizer) (text : List Int) (tt : IonType),
      t.ReadNumber = .ok (text, tt, t2) →
        (tt = IonType.FloatType ↔ (101 ∈ text ∨ 69 ∈ text))
        ∧ (tt = IonType.DecimalType ↔
            ((46 ∈ text ∨ 100 ∈ text ∨ 68 ∈ text) ∧ ¬ (101 ∈ text ∨ 69 ∈ text)))
        ∧ (tt = IonType.IntType ↔
            (¬ (46 ∈ text ∨ 100 ∈ text ∨ 68 ∈ text) ∧ ¬ (101 ∈ text ∨ 69 ∈ text))))
    ∧ (∀ lit ∈ ["123.", "123.0", "123.456", "123d2", "123d+2", "123d-2"],
        ∃ t2, (tokenizeBytes (bytes lit)).ReadNumber = .ok (str lit, IonType.DecimalType, t2))
    ∧ (∀ lit ∈ ["1e100", "1.2e+0", "-123.456e-78"],
        ∃ t2, (tokenizeBytes (bytes lit)).ReadNumber = .ok (str lit, IonType.FloatType, t2)) := by
  refine ⟨?_, ?_, ?_⟩
  · intro t t2 text tt h
    obtain ⟨c, rest, hs, -⟩ := ReadNumber_ok h
    exact scanNumber_type hs
  · intro lit hlit
    simp only [List.mem_cons, List.mem_singleton, List.not_mem_nil, or_false] at hlit
    rcases hlit with rfl | rfl | rfl | rfl | rfl | rfl <;>
      exact ⟨⟨[], [-1], tokenType.tokenError, false⟩, by decide⟩
  · intro lit hlit
    simp only [List.mem_cons, List.mem_singleton, List.not_mem_nil, or_false] at hlit
    rcases hlit with rfl | rfl | rfl <;>
      exact ⟨⟨[], [-1], tokenType.tokenError, false⟩, by decide⟩

theorem C2_number_type_by_text_witness :
    (IonType.FloatType = IonType.FloatType ↔ ((101 : Int) ∈ str "1e100" ∨ (69 : Int) ∈ str "1e100"))
    ∧ (IonType.FloatType = IonType.DecimalType ↔
        (((46 : Int) ∈ str "1e100" ∨ (100 : Int) ∈ str "1e100" ∨ (68 : Int) ∈ str "1e100")
          ∧ ¬ ((101 : Int) ∈ str "1e100" ∨ (69 : Int) ∈ str "1e100")))
    ∧ (IonType.FloatType = IonType.IntType ↔
        (¬ ((46 : Int) ∈ str "1e100" ∨ (100 : Int) ∈ str "1e100" ∨ (68 : Int) ∈ str "1e100")
          ∧ ¬ ((101 : Int) ∈ str "1e100" ∨ (69 : Int) ∈ str "1e100"))) :=
  C2_number_type_by_text.1 (tokenizeBytes (bytes "1e100\n"))
    ⟨[], [10], tokenType.tokenError, false⟩ (str "1e100") IonType.FloatType (by decide)

/-- C3 (the code departs from the claim): `readBinary` and `readHex` accept a radix
marker that no digit follows: on `0b` at the end of input, on `-0x_` before a space
and on `0X__` before a `]` they return the text read so far instead of an error. -/
theorem C3_radix_marker_without_digits_is_accepted :
    (tokenizeBytes (bytes "0b")).readBinary
      = .ok (str "0b", { inp := [], buffer := [-1], token := tokenType.tokenError, unfinished := false })
    ∧ (tokenizeBytes (bytes "-0x_ ")).readHex
      = .ok (str "-0x", { inp := [], buffer := [32], token := tokenType.tokenError, unfinished := false })
    ∧ (tokenizeBytes (bytes "0X__]")).readHex
      = .ok (str "0X", { inp := [], buffer := [93], token := tokenType.tokenError, unfinished := false }) := by
  decide

/-- C4: `ReadNumber` rejects leading zeros: when the integer part, after an optional
`-`, begins with `0` and goes on with digits and `_` among which there is a digit
(as in `00`, `01`, `-007`, `00.5`), it returns the leading-zeroes error, whatever
follows; and `0`, `-0`, `0.5`, `0d1`, `0e0` before a stop character or the end of
input are accepted and returned unchanged. -/
theorem C4_leading_zeros (t : tokenizer) (rest : List Int) :
    (∀ sign body, (sign = [] ∨ sign = [45]) →
      (∀ c ∈ body, isDigit c = true ∨ c = 95) → (∃ c ∈ body, isDigit c = true) →
      t.upcoming = sign ++ 48 :: body ++ rest →
      t.ReadNumber = .error Error.leadingZeroes)
    ∧ (∀ lit ∈ ["0", "-0", "0.5", "0d1", "0e0"], isStopChar (hd rest) = true →
      t.upcoming = str lit ++ rest →
      ∃ tt t2, t.ReadNumber = .ok (str lit, tt, t2)) := by
  constructor
  · intro sign body hsign hbody hdig hu
    have href := ReadNumber_refines t
    have key : scanNumber t.upcoming = .error Error.leadingZeroes := by
      rw [hu]
      rcases hsign with rfl | rfl
      · simpa [scanNumber] using scanNumberInt_leadingZero [] body rest hbody hdig
      · simpa [scanNumber] using scanNumberInt_leadingZero [45] body rest hbody hdig
    rw [key] at href
    exact href
  · intro lit hlit hstop hu
    have href := ReadNumber_refines t
    obtain ⟨h1, h2, h3, h4, h5⟩ := scanNumber_zero_forms rest hstop
    simp only [List.mem_cons, List.mem_singleton, List.not_mem_nil, or_false] at hlit
    rw [hu] at href
    rcases hlit with rfl | rfl | rfl | rfl | rfl
    · rw [h1] at href; obtain ⟨t2, e, -⟩ := href; exact ⟨_, t2, e⟩
    · rw [h2] at href; obtain ⟨t2, e, -⟩ := href; exact ⟨_, t2, e⟩
    · rw [h3] at href; obtain ⟨t2, e, -⟩ := href; exact ⟨_, t2, e⟩
    · rw [h4] at href; obtain ⟨t2, e, -⟩ := href; exact ⟨_, t2, e⟩
    · rw [h5] at href; obtain ⟨t2, e, -⟩ := href; exact ⟨_, t2, e⟩

theorem C4_leading_zeros_witness :
    (tokenizeBytes (bytes "-007 ")).ReadNumber = .error Error.leadingZeroes
    ∧ ∃ tt t2, (tokenizeBytes (bytes "0.5 ")).ReadNumber = .ok (str "0.5", tt, t2) :=
  ⟨(C4_leading_zeros (tokenizeBytes (bytes "-007 ")) [32]).1 [45] (str "07") (by decide)
      (by decide) (by decide) (by decide),
   (C4_leading_zeros (tokenizeBytes (bytes "0.5 ")) [32]).2 "0.5" (by decide) (by decide)
      (by decide)⟩

/-- C7: negative timestamps are rejected: when the first significant character is
`-` and four digits and then `-` or `T` follow it, `Next` returns an error (the
unexpected-character error for the first digit) and so yields no token. -/
theorem C7_negative_timestamp (t t1 : tokenizer)
    (skipValue : tokenizer → Except Error (Int × tokenizer))
    (skipWhitespace : tokenizer → Except Error (Int × Bool × tokenizer))
    (d1 d2 d3 d4 z : Int) (s : List Int)
    (hskip : FirstSignificant t skipValue skipWhitespace 45 t1)
    (hu : t1.upcoming = d1 :: d2 :: d3 :: d4 :: z :: s)
    (h1 : isDigit d1 = true) (h2 : isDigit d2 = true) (h3 : isDigit d3 = true)
    (h4 : isDigit d4 = true) (hz : z = 45 ∨ z = 84) :
    t.Next skipValue skipWhitespace = .error (invalidChar d1) := by
  have p1 := peek_fst t1
  have p2 := peek_upcoming t1
  rw [hu] at p1 p2
  simp only [hd_cons, reduceCtorEq, if_false] at p1 p2
  have r2 := read_upcoming t1.peek.2
  rw [p2] at r2
  simp only [List.tail_cons] at r2
  obtain ⟨t2, e2, -⟩ := scanForNumericType_timestamp t1.peek.2.read.2 d1 d2 d3 d4 z s h1 h2 h3 h4
    hz r2
  rw [Next_eq_dispatch t t1 skipValue skipWhitespace 45 hskip]
  unfold tokenizer.dispatch
  simp [p1, h1, e2, bind, Except.bind, throw, throwThe, MonadExceptOf.throw]

theorem C7_negative_timestamp_witness :
    (tokenizeBytes (bytes "-2001-01-01T")).Next (fun t => .ok (t.read.1, t.read.2)) skipNothing
      = .error (invalidChar 50) :=
  C7_negative_timestamp (tokenizeBytes (bytes "-2001-01-01T"))
    (tokenizeBytes (bytes "-2001-01-01T")).read.2
    (fun t => .ok (t.read.1, t.read.2)) skipNothing 50 48 48 49 45 (str "01-01T")
    ⟨fun h => absurd h (by decide), fun _ => ⟨false, rfl⟩⟩ (by decide)
    (by decide) (by decide) (by decide) (by decide) (by decide)

/-- C8: when the first significant character is `+`, or `-` with no digit after it,
`Next` yields the `+inf` respectively `-inf` token, not pending, having consumed
exactly the sign and `inf`, if the next three characters are `inf` and the end of
input, a stop character, `//` or `/*` follows them; in every other case it yields an
operator-symbol token, pending, and nothing is consumed: the reads that follow
return the sign and then what followed it. -/
theorem C8_inf_keyword (t t1 : tokenizer)
    (skipValue : tokenizer → Except Error (Int × tokenizer))
    (skipWhitespace : tokenizer → Except Error (Int × Bool × tokenizer)) (c : Int)
    (hskip : FirstSignificant t skipValue skipWhitespace c t1)
    (hc : c = 43 ∨ (c = 45 ∧ isDigit t1.read.1 = false)) :
    ∃ t2, t.Next skipValue skipWhitespace = .ok t2
      ∧ (InfAhead t1 →
        t2.token = (if c = 43 then tokenType.tokenFloatInf else tokenType.tokenFloatMinusInf)
        ∧ t2.unfinished = false
        ∧ ∀ k, t1.reads (3 + k) = [105, 110, 102] ++ t2.reads k)
      ∧ (¬ InfAhead t1 →
        t2.token = tokenType.tokenSymbolOperator
        ∧ t2.unfinished = true
        ∧ ∀ k, t2.reads (k + 1) = c :: t1.reads k) := by
  rw [Next_eq_dispatch t t1 skipValue skipWhitespace c hskip]
  rcases hc with rfl | ⟨rfl, hnd⟩
  · have hb := inf_branch t1 t1 43 tokenType.tokenFloatInf (Or.inl rfl) (fun _ => rfl)
    exact ⟨_, dispatch_plus t1, hb⟩
  · have p1 := peek_fst t1
    have p2 := peek_upcoming t1
    rw [read_fst] at hnd
    have heq : ∀ k, readsOf t1.peek.2.upcoming k = readsOf t1.upcoming k := by
      intro k
      rw [p2]
      split
      · rename_i h; rw [h]; exact readsOf_eof k
      · rfl
    have hb := inf_branch t1.peek.2 t1 45 tokenType.tokenFloatMinusInf (Or.inr rfl) heq
    exact ⟨_, dispatch_minus t1 (by rw [p1]; exact hnd), hb⟩

theorem C8_inf_keyword_witness :
    (∃ t2, (tokenizeBytes (bytes "-inf//x")).Next (fun t => .ok (t.read.1, t.read.2))
        skipNothing = .ok t2
      ∧ t2.token = tokenType.tokenFloatMinusInf ∧ t2.unfinished = false
      ∧ (tokenizeBytes (bytes "-inf//x")).read.2.reads 5 = [105, 110, 102] ++ t2.reads 2)
    ∧ (∃ t2, (tokenizeBytes (bytes "+inf/2")).Next (fun t => .ok (t.read.1, t.read.2))
        skipNothing = .ok t2
      ∧ t2.token = tokenType.tokenSymbolOperator ∧ t2.unfinished = true
      ∧ t2.reads 7 = 43 :: (tokenizeBytes (bytes "+inf/2")).read.2.reads 6) := by
  constructor
  · obtain ⟨t2, h1, h2, -⟩ := C8_inf_keyword (tokenizeBytes (bytes "-inf//x"))
      (tokenizeBytes (bytes "-inf//x")).read.2 (fun t => .ok (t.read.1, t.read.2)) skipNothing 45
      ⟨fun h => absurd h (by decide), fun _ => ⟨false, rfl⟩⟩ (Or.inr ⟨rfl, by decide⟩)
    obtain ⟨h3, h4, h5⟩ := h2 (by unfold InfAhead StopOrComment; decide)
    exact ⟨t2, h1, h3, h4, h5 2⟩
  · obtain ⟨t2, h1, -, h2⟩ := C8_inf_keyword (tokenizeBytes (bytes "+inf/2"))
      (tokenizeBytes (bytes "+inf/2")).read.2 (fun t => .ok (t.read.1, t.read.2)) skipNothing 43
      ⟨fun h => absurd h (by decide), fun _ => ⟨false, rfl⟩⟩ (Or.inl rfl)
    obtain ⟨h3, h4, h5⟩ := h2 (by unfold InfAhead StopOrComment; decide)
    exact ⟨t2, h1, h3, h4, h5 6⟩

/-- C10 (the code departs from the claim): inside a clob the escape `\U` with eight
hex digits is accepted.  `ReadShortClob` and `ReadLongClob` read their text with
`readString` and `readLongString`, which call `readEscapedChar` with the clob flag
off, so that the guard on `U`, which rejects the escape when the flag is on, is not
reached: the clob payloads `\U00000041` are read as the byte `A`. -/
theorem C10_clob_accepts_eight_digit_escape :
    (tokenizeBytes (bytes "\\U00000041\"\x7d\x7d")).readString
      = .ok ([65], tokenizer.mk [125, 125] [] tokenType.tokenError false)
    ∧ (tokenizeBytes (bytes "\\U00000041\"\x7d\x7d")).ReadShortClob skipNothing
      = .ok ([65], tokenizer.mk [] [] tokenType.tokenError false)
    ∧ (tokenizeBytes (bytes "\\U00000041'''\x7d\x7d")).ReadLongClob skipNothing
        skipClosingQuotes
      = .ok ([65], tokenizer.mk [] [] tokenType.tokenError false)
    ∧ (tokenizeBytes (bytes "U00000041")).readEscapedChar true
      = .error (Error.unexpectedChar 85) := by
  decide

/-- C14: `symbolNeedsQuoting` is false exactly for the identifiers that are neither
one of the keywords `null`, `true`, `false`, `nan` nor a symbol reference; for
every other symbol text, the empty one included, it is true. -/
theorem C14_symbolNeedsQuoting (sym : List Nat) :
    (symbolNeedsQuoting sym = false ↔
      (IsIdentifier sym
        ∧ sym ∉ [bytes "null", bytes "true", bytes "false", bytes "nan"]
        ∧ ¬ IsSymbolReference sym))
    ∧ (symbolNeedsQuoting sym = true ↔
      ¬ (IsIdentifier sym
        ∧ sym ∉ [bytes "null", bytes "true", bytes "false", bytes "nan"]
        ∧ ¬ IsSymbolReference sym))
    ∧ symbolNeedsQuoting [] = true := by
  have key : symbolNeedsQuoting sym = false ↔
      (IsIdentifier sym
        ∧ sym ∉ [bytes "null", bytes "true", bytes "false", bytes "nan"]
        ∧ ¬ IsSymbolReference sym) := by
    rw [← isSymbolRef_iff]
    cases sym with
    | nil => simp [symbolNeedsQuoting, IsIdentifier]
    | cons c rest =>
      unfold symbolNeedsQuoting IsIdentifier
      simp only [List.headD_cons, List.tail_cons, List.mem_cons, List.mem_singleton,
        List.not_mem_nil, or_false, reduceCtorEq, false_or]
      by_cases hk : c :: rest = bytes "null" ∨ c :: rest = bytes "true"
          ∨ c :: rest = bytes "false" ∨ c :: rest = bytes "nan"
      · simp [hk]
      · rw [if_neg hk]
        by_cases hr : isSymbolRef (c :: rest) = true
        · simp [hr]
        · rw [if_neg hr]
          by_cases hs : isIdentifierStart (Int.ofNat c) = true
          · have hs2 := (isIdentifierStart_nat c).1 hs
            simp only [hs, Bool.not_true, Bool.false_eq_true, if_false]
            by_cases hp : rest.any (fun b => !isIdentifierPart (Int.ofNat b)) = true
            · simp only [hp, if_true, Bool.true_eq_false, false_iff]
              rintro ⟨⟨c2, r2, e, -, hall⟩, -⟩
              simp only [List.cons.injEq] at e
              obtain ⟨b, hb, hbad⟩ := List.any_eq_true.1 hp
              rw [e.2] at hb
              have := (isIdentifierPart_nat b).2 (hall b hb)
              rw [this] at hbad
              simp at hbad
            · simp only [hp, Bool.false_eq_true, if_false, true_iff]
              refine ⟨⟨c, rest, rfl, hs2, ?_⟩, hk, hr⟩
              intro b hb
              apply (isIdentifierPart_nat b).1
              by_contra hne
              exact hp (List.any_eq_true.2 ⟨b, hb, by simpa using hne⟩)
          · simp only [hs, Bool.not_false, if_true, Bool.true_eq_false, false_iff]
            rintro ⟨⟨c2, r2, e, h2, -⟩, -⟩
            simp only [List.cons.injEq] at e
            rw [← e.1] at h2
            exact absurd ((isIdentifierStart_nat c).2 h2) hs
  refine ⟨key, ?_, by decide⟩
  rw [← key]
  cases symbolNeedsQuoting sym <;> simp

/-- C15: on a fresh tokenizer over the bytes `s`, the first `n` calls of `read`
return the bytes of `s` with every `\r\n` and every lone `\r` replaced by `\n`, in
order, followed by the sentinel `-1` on every call after them; none returns `\r`.
(A `read` of the model has no error result: the input is held in memory.) -/
theorem C15_read_normalises (s : List Nat) (n : Nat) :
    (tokenizeBytes s).reads n = (normalize s ++ List.replicate n (-1)).take n
    ∧ (13 : Int) ∉ (tokenizeBytes s).reads n := by
  have e : (tokenizeBytes s).reads n = (normalize s ++ List.replicate n (-1)).take n := by
    rw [reads_eq_readsOf, readsOf_eq_take]
    simp [tokenizer.upcoming, tokenizeBytes]
  refine ⟨e, ?_⟩
  rw [e]
  intro h
  have h2 := List.mem_of_mem_take h
  rw [List.mem_append] at h2
  rcases h2 with h2 | h2
  · exact normalize_no_cr s h2
  · have := List.eq_of_mem_replicate h2
    omega

/-- C17: `peekN n`, in any state, returns the characters that the next `n` calls of
`read` would return, up to the first end-of-input sentinel among them, and reports
the end of input exactly when there is one; where no sentinel has been pushed back
these are the first `min n remaining` upcoming characters, the end of input being
reported when fewer than `n` remain.  After it every sequence of reads returns
what it would have returned without the call. -/
theorem C17_peekN_consumes_nothing (t : tokenizer) (n : Nat) :
    (t.peekN n).1 = (t.reads n).takeWhile (fun c => decide (c ≠ -1))
    ∧ ((t.peekN n).2.1 = true ↔ (-1 : Int) ∈ t.reads n)
    ∧ ((-1 : Int) ∉ t.upcoming →
        (t.peekN n).1 = t.upcoming.take n
        ∧ (t.peekN n).1.length = min n t.upcoming.length
        ∧ ((t.peekN n).2.1 = true ↔ t.upcoming.length < n))
    ∧ ∀ k, (t.peekN n).2.2.reads k = t.reads k := by
  obtain ⟨h1, h2, h3⟩ := peekN_eq t n
  refine ⟨?_, ?_, ?_, ?_⟩
  · rw [h1, reads_eq_readsOf, peekChars_takeWhile]
  · rw [h2, reads_eq_readsOf, peekEOF_iff]
  · intro h
    obtain ⟨a, b⟩ := peekChars_take n t.upcoming h
    rw [h1, h2, a]
    exact ⟨rfl, by simp, b⟩
  · intro k
    rw [reads_eq_readsOf, reads_eq_readsOf, h3, readsOf_restore]

theorem C17_peekN_consumes_nothing_witness :
    (-1 : Int) ∉ (tokenizeBytes (bytes "ab")).upcoming
    ∧ ((tokenizeBytes (bytes "ab")).peekN 5).1 = (tokenizeBytes (bytes "ab")).upcoming.take 5
    ∧ ((tokenizeBytes (bytes "ab")).peekN 5).1.length
        = min 5 (tokenizeBytes (bytes "ab")).upcoming.length
    ∧ (((tokenizeBytes (bytes "ab")).peekN 5).2.1 = true
        ↔ (tokenizeBytes (bytes "ab")).upcoming.length < 5) :=
  ⟨by decide, (C17_peekN_consumes_nothing (tokenizeBytes (bytes "ab")) 5).2.2.1 (by decide)⟩

/-- C18: after a successful `Next` the pending mark is set when the token is a
generic number, a binary or hex number, a timestamp, an unquoted, quoted or operator
symbol, a string or a long string, and it is not set when the token is `:`, `::`,
`,`, `.`, `)`, `]`, `}`, `+inf` or `-inf`. -/
theorem C18_pending_mark (t t2 : tokenizer)
    (skipValue : tokenizer → Except Error (Int × tokenizer))
    (skipWhitespace : tokenizer → Except Error (Int × Bool × tokenizer))
    (h : t.Next skipValue skipWhitespace = .ok t2) :
    (t2.token ∈ [tokenType.tokenNumber, tokenType.tokenBinary, tokenType.tokenHex,
        tokenType.tokenTimestamp, tokenType.tokenSymbol, tokenType.tokenSymbolQuoted,
        tokenType.tokenSymbolOperator, tokenType.tokenString, tokenType.tokenLongString] →
      t2.unfinished = true)
    ∧ (t2.token ∈ [tokenType.tokenColon, tokenType.tokenDoubleColon, tokenType.tokenComma,
        tokenType.tokenDot, tokenType.tokenCloseParen, tokenType.tokenCloseBracket,
        tokenType.tokenCloseBrace, tokenType.tokenFloatInf, tokenType.tokenFloatMinusInf] →
      t2.unfinished = false) := by
  obtain ⟨c, t1, -, hd⟩ := Next_ok_dispatch t t2 skipValue skipWhitespace h
  obtain ⟨t3, tok, rfl, -, -⟩ := dispatch_ok t1 t2 c hd
  simp only [tokenizer.finish]
  constructor
  · intro hm
    revert hm
    cases tok <;> decide
  · intro hm
    revert hm
    cases tok <;> decide

theorem C18_pending_mark_witness :
    ((tokenizeBytes (bytes "::x")).Next (fun t => .ok (t.read.1, t.read.2)) skipNothing
        = .ok (tokenizer.mk (bytes "x") [] tokenType.tokenDoubleColon false))
    ∧ (tokenizer.mk (bytes "x") [] tokenType.tokenDoubleColon false).unfinished = false
    ∧ ((tokenizeBytes (bytes "ab")).Next (fun t => .ok (t.read.1, t.read.2)) skipNothing
        = .ok (tokenizer.mk (bytes "b") [97] tokenType.tokenSymbol true))
    ∧ (tokenizer.mk (bytes "b") [97] tokenType.tokenSymbol true).unfinished = true :=
  ⟨by decide,
   (C18_pending_mark (tokenizeBytes (bytes "::x"))
      (tokenizer.mk (bytes "x") [] tokenType.tokenDoubleColon false)
      (fun t => .ok (t.read.1, t.read.2)) skipNothing (by decide)).2 (by decide),
   by decide,
   (C18_pending_mark (tokenizeBytes (bytes "ab"))
      (tokenizer.mk (bytes "b") [97] tokenType.tokenSymbol true)
      (fun t => .ok (t.read.1, t.read.2)) skipNothing (by decide)).1 (by decide)⟩

/-- C11: `readString` and `readQuotedSymbol` return an error, and no text, whenever
the end of input or an unescaped newline comes before the closing quote: if the
characters before it are the inside of a quoted text (plain characters, line
continuations and escapes, none of them the closing quote), the error is the one
for the end of input or for the newline; and they return a text only where the
inside of a quoted text is followed by the closing quote, so that no input without
one is accepted. -/
theorem C11_unterminated_quoted_text (t : tokenizer) :
    (∀ pre w rest, QuotedText 34 pre w → t.upcoming = pre ++ rest →
        (hd rest = -1 ∨ hd rest = 10) → t.readString = .error (invalidChar (hd rest)))
    ∧ (∀ pre w rest, QuotedText 39 pre w → t.upcoming = pre ++ rest →
        (hd rest = -1 ∨ hd rest = 10) → t.readQuotedSymbol = .error (invalidChar (hd rest)))
    ∧ (∀ w t2, t.readString = .ok (w, t2) →
        ∃ pre, QuotedText 34 pre w ∧ t.upcoming = pre ++ 34 :: t2.upcoming)
    ∧ (∀ w t2, t.readQuotedSymbol = .ok (w, t2) →
        ∃ pre, QuotedText 39 pre w ∧ t.upcoming = pre ++ 39 :: t2.upcoming) := by
  refine ⟨?_, ?_, ?_, ?_⟩
  · intro pre w rest hp hu hr
    exact readQuotedLoop_open 34 (by decide) hp t rest hu hr
  · intro pre w rest hp hu hr
    exact readQuotedLoop_open 39 (by decide) hp t rest hu hr
  · intro w t2 h
    obtain ⟨pre, text, a1, a2, a3⟩ := readQuotedLoop_inv 34 (by decide) _ _ _ _ _ h
    simp only [List.nil_append] at a3
    exact ⟨pre, by rw [a3]; exact a1, a2⟩
  · intro w t2 h
    obtain ⟨pre, text, a1, a2, a3⟩ := readQuotedLoop_inv 39 (by decide) _ _ _ _ _ h
    simp only [List.nil_append] at a3
    exact ⟨pre, by rw [a3]; exact a1, a2⟩

theorem C11_unterminated_quoted_text_witness :
    (tokenizeBytes (bytes "ab\ncd\"")).readString = .error (invalidChar (hd [10, 99, 100, 34]))
    ∧ (tokenizeBytes (bytes "a\\'")).readQuotedSymbol = .error (invalidChar (hd []))
    ∧ (∃ pre, QuotedText 34 pre [97]
        ∧ (tokenizeBytes (bytes "a\"b")).upcoming
          = pre ++ 34 :: (tokenizer.mk (bytes "b") [] tokenType.tokenError false).upcoming) :=
  ⟨(C11_unterminated_quoted_text (tokenizeBytes (bytes "ab\ncd\""))).1 [97, 98] _ [10, 99, 100, 34]
      (QuotedText.plain 97 [98] _ (by decide) (by decide) (by decide) (by decide)
        (QuotedText.plain 98 [] _ (by decide) (by decide) (by decide) (by decide)
          QuotedText.nil))
      (by decide) (by decide),
   (C11_unterminated_quoted_text (tokenizeBytes (bytes "a\\'"))).2.1 [97, 92, 39] _ []
      (QuotedText.plain 97 [92, 39] _ (by decide) (by decide) (by decide) (by decide)
        (QuotedText.escape [39] 39 [] [] (EscapeBody.table 39 39 (by decide)) QuotedText.nil))
      (by decide) (by decide),
   (C11_unterminated_quoted_text (tokenizeBytes (bytes "a\"b"))).2.2.1 [97]
      (tokenizer.mk (bytes "b") [] tokenType.tokenError false) (by decide)⟩

/-- C12: for every byte string `s`, `readString` on the bytes that
`writeEscapedString` writes for `s`, followed by a closing double quote and any
further input `rest`, succeeds and returns exactly `s`; what it leaves to be read
is `rest`: the input is consumed up to and including that closing quote. -/
theorem C12_string_round_trip (s rest : List Nat) (hs : ∀ b ∈ s, b < 256) :
    ∃ t2, (tokenizeBytes (writeEscapedString s ++ 34 :: rest)).readString
        = .ok (s.map Int.ofNat, t2)
      ∧ t2.upcoming = (tokenizeBytes rest).upcoming := by
  obtain ⟨h1, h2⟩ := writeEscapedString_text s hs
  have hu : (tokenizeBytes (writeEscapedString s ++ 34 :: rest)).upcoming
      = (writeEscapedString s).map Int.ofNat ++ 34 :: normalize rest := by
    simp only [tokenizer.upcoming, tokenizeBytes, List.nil_append]
    rw [normalize_append_no_cr _ _ h2, normalize_other 34 rest (by decide)]
    rfl
  exact readQuotedLoop_closed 34 (by decide) (by decide) (by decide) h1 _ _ hu

theorem C12_string_round_trip_witness :
    (∀ b ∈ [7, 34, 200, 92, 97, 13, 1], b < 256)
    ∧ ∃ t2, (tokenizeBytes (writeEscapedString [7, 34, 200, 92, 97, 13, 1] ++ 34 :: [44, 49])).readString
        = .ok ([7, 34, 200, 92, 97, 13, 1].map Int.ofNat, t2)
      ∧ t2.upcoming = (tokenizeBytes [44, 49]).upcoming :=
  ⟨by decide, C12_string_round_trip [7, 34, 200, 92, 97, 13, 1] [44, 49] (by decide)⟩

/-- C13: for every symbol text `sym` (a byte string), tokenizing the bytes that
`writeSymbol` writes for it yields one symbol token with the value `sym`.  Where
`symbolNeedsQuoting sym` is false the output is `sym` itself, `Next` classifies it
as an unquoted symbol and `ReadValue` returns `sym`; otherwise the output is `sym`
escaped, between single quotes, `Next` classifies it as a quoted symbol, not as a
long string, and `ReadValue` returns `sym`.  In both cases nothing is left to be
read after the value.  (The skip that `Next` starts with is assumed to return the
first byte of the output, which is significant.) -/
theorem C13_symbol_round_trip (sym : List Nat) (hs : ∀ b ∈ sym, b < 256)
    (skipValue : tokenizer → Except Error (Int × tokenizer))
    (skipWhitespace : tokenizer → Except Error (Int × Bool × tokenizer))
    (skipEnd : tokenizer → Except Error (Bool × tokenizer))
    (hskip : FirstSignificant (tokenizeBytes (writeSymbol sym)) skipValue skipWhitespace
      (tokenizeBytes (writeSymbol sym)).read.1 (tokenizeBytes (writeSymbol sym)).read.2) :
    writeSymbol sym
        = (if symbolNeedsQuoting sym then [39] ++ writeEscapedSymbol sym ++ [39] else sym)
    ∧ ∃ t2 t3, (tokenizeBytes (writeSymbol sym)).Next skipValue skipWhitespace = .ok t2
      ∧ t2.token = (if symbolNeedsQuoting sym then tokenType.tokenSymbolQuoted
          else tokenType.tokenSymbol)
      ∧ t2.ReadValue t2.token skipEnd = .ok (sym.map Int.ofNat, t3)
      ∧ ∀ k, t3.reads k = List.replicate k (-1) := by
  refine ⟨rfl, ?_⟩
  rw [Next_eq_dispatch _ _ skipValue skipWhitespace _ hskip]
  have r1 := read_fst (tokenizeBytes (writeSymbol sym))
  have r2 := read_upcoming (tokenizeBytes (writeSymbol sym))
  generalize (tokenizeBytes (writeSymbol sym)).read = rd at r1 r2
  obtain ⟨c0, t1⟩ := rd
  simp only at r1 r2 ⊢
  have hup : (tokenizeBytes (writeSymbol sym)).upcoming = normalize (writeSymbol sym) := by
    simp [tokenizer.upcoming, tokenizeBytes]
  rw [hup] at r1 r2
  cases hq : symbolNeedsQuoting sym with
  | false =>
    obtain ⟨c, rest, rfl, hstart, hpart, h13⟩ := symbol_is_identifier sym hq
    have hw : writeSymbol (c :: rest) = c :: rest := by simp [writeSymbol, hq]
    have hn : normalize (c :: rest) = (c :: rest).map Int.ofNat := by
      have := normalize_append_no_cr (c :: rest) [] h13
      simpa [normalize] using this
    rw [hw, hn] at r1 r2
    simp only [List.map_cons, hd_cons, List.tail_cons] at r1 r2
    subst r1
    have hu : ∀ k, ((t1.unread (Int.ofNat c)).finish tokenType.tokenSymbol true).reads k
        = readsOf ((c :: rest).map Int.ofNat ++ []) k := by
      intro k
      rw [reads_eq_readsOf, finish_upcoming, unread_upcoming, r2]
      simp
    obtain ⟨t3, e3, u3⟩ := readSymbol_reads _ ((c :: rest).map Int.ofNat) []
      (fun b hb => by
        obtain ⟨x, hx, rfl⟩ := List.mem_map.1 hb
        exact hpart x hx) (by decide) hu
    rw [map_byte_ofNat _ hs] at e3
    refine ⟨_, { t3 with unfinished := false }, dispatch_identifierStart t1 _ hstart,
      by simp [tokenizer.finish], ReadValue_symbol _ _ _ skipEnd e3, ?_⟩
    intro k
    have := u3 k
    rw [reads_eq_readsOf] at this ⊢
    rw [← readsOf_nil k, ← this]
    rfl
  | true =>
    have hw : writeSymbol sym = 39 :: (writeEscapedSymbol sym ++ [39]) := by
      simp [writeSymbol, hq]
    obtain ⟨htext, h13⟩ := writeEscapedSymbol_text sym hs
    have hn : normalize (39 :: (writeEscapedSymbol sym ++ [39]))
        = 39 :: ((writeEscapedSymbol sym).map Int.ofNat ++ [39]) := by
      rw [normalize_other 39 _ (by decide), normalize_append_no_cr _ _ h13]
      simp [normalize]
    rw [hw, hn] at r1 r2
    simp only [hd_cons, List.tail_cons] at r1 r2
    subst r1
    obtain ⟨q1, q2⟩ := isTripleQuote_false t1 (by rw [r2]; exact writeEscapedSymbol_head sym)
    obtain ⟨rest, e1, e2⟩ := restore_two_closed ((writeEscapedSymbol sym).map Int.ofNat)
      (map_ofNat_no_eof _)
    rw [r2, e1] at q2
    have hu : (t1.isTripleQuote.2.finish tokenType.tokenSymbolQuoted true).upcoming
        = (writeEscapedSymbol sym).map Int.ofNat ++ 39 :: rest := by
      rw [finish_upcoming, q2]
    obtain ⟨t3, e3, u3⟩ := readQuotedLoop_closed 39 (by decide) (by decide) (by decide)
      htext _ rest hu
    have hd2 := dispatch_quote t1
    simp only [q1, Bool.false_eq_true, if_false] at hd2
    refine ⟨_, { t3 with unfinished := false }, hd2, by simp [tokenizer.finish],
      ReadValue_symbolQuoted _ _ _ skipEnd e3, ?_⟩
    intro k
    rw [reads_eq_readsOf, ← e2 k, ← u3]
    rfl

theorem C13_symbol_round_trip_witness :
    (∀ b ∈ bytes "it's", b < 256)
    ∧ writeSymbol (bytes "it's")
        = (if symbolNeedsQuoting (bytes "it's") then [39] ++ writeEscapedSymbol (bytes "it's") ++ [39]
          else bytes "it's")
    ∧ ∃ t2 t3, (tokenizeBytes (writeSymbol (bytes "it's"))).Next
          (fun t => .ok (t.read.1, t.read.2)) skipNothing = .ok t2
      ∧ t2.token = (if symbolNeedsQuoting (bytes "it's") then tokenType.tokenSymbolQuoted
          else tokenType.tokenSymbol)
      ∧ t2.ReadValue t2.token skipClosingQuotes = .ok ((bytes "it's").map Int.ofNat, t3)
      ∧ ∀ k, t3.reads k = List.replicate k (-1) :=
  ⟨by decide, C13_symbol_round_trip (bytes "it's") (by decide)
    (fun t => .ok (t.read.1, t.read.2)) skipNothing skipClosingQuotes
    ⟨fun h => absurd h (by decide), fun _ => ⟨false, rfl⟩⟩⟩

/-- C19 (the code departs from the claim): a single quote inside a segment is
dropped.  On `a'b'''`, read just after the opening quotes, `readLongString` returns
`ab`, not the content `a'b` of the segment: the branch for the quote writes nothing
when the quote does not close the string.  More generally, from input without a
backslash `readLongString` never returns a text with a single quote in it,
whatever `skipEndOfLongString` (not among the sources at hand, here a parameter)
does short of adding characters to the input. -/
theorem C19_long_string_drops_single_quote :
    (tokenizeBytes (bytes "a'b'''")).readLongString skipEndIfTripleQuote
      = .ok (str "ab", tokenizer.mk [] [] tokenType.tokenError false)
    ∧ ∀ (skipEnd : tokenizer → Except Error (Bool × tokenizer)) (t : tokenizer) (w : List Int)
        (t2 : tokenizer),
        (∀ t b t2, skipEnd t = .ok (b, t2) → ∀ c ∈ t2.upcoming, c ∈ t.upcoming ∨ c = -1) →
        (∀ c ∈ t.upcoming, (0 ≤ c ∧ c < 256 ∧ c ≠ 92) ∨ c = -1) →
        t.readLongString skipEnd = .ok (w, t2) → (39 : Int) ∉ w := by
  refine ⟨by decide, ?_⟩
  intro skipEnd t w t2 hse ht h
  exact readLongStringLoop_no_quote skipEnd hse _ t [] w t2 ht h (by simp)

theorem C19_long_string_drops_single_quote_witness :
    (39 : Int) ∉ str "ab" :=
  C19_long_string_drops_single_quote.2 skipEndIfTripleQuote (tokenizeBytes (bytes "a'b'''"))
    (str "ab") (tokenizer.mk [] [] tokenType.tokenError false)
    (fun t b t2 h c hc => by
      simp only [skipEndIfTripleQuote, Except.ok.injEq] at h
      have := mem_isTripleQuote t c (by rw [h]; exact hc)
      exact this)
    (by decide) (by decide)

/-- C20: for every document that consists of one container with well-formed
children, after `Next` (which finds the container) and `StepIn`, and after any
number `k` of further calls of `Next` (reading none, some or all of the children,
or more calls than there are children), `StepOut` succeeds and leaves the reader
after the container, at depth 0 with no input left, so that the next `Next` returns
false with no error. -/
theorem C20_step_out_skips_unread_siblings (cs : List Tok) (k : Nat) (hcs : Values cs) :
    (Reader.start (Tok.opening :: cs ++ [Tok.closing])).Next.1 = true
    ∧ ∃ r2 r4, (Reader.start (Tok.opening :: cs ++ [Tok.closing])).Next.2.StepIn = some r2
      ∧ (r2.nexts k).StepOut = some r4
      ∧ r4.toks = [] ∧ r4.depth = 0
      ∧ r4.Next.1 = false ∧ r4.Next.2.err = false := by
  obtain ⟨a, b, vs2, c, d⟩ := Reader.nexts_inside k
    { toks := cs ++ [Tok.closing], depth := 1, onContainer := false, err := false } cs hcs
    rfl rfl rfl
  refine ⟨rfl, { toks := cs ++ [Tok.closing], depth := 1, onContainer := false, err := false },
    { toks := [], depth := 0, onContainer := false, err := false }, rfl, ?_, rfl, rfl, rfl, rfl⟩
  generalize Reader.nexts k
    { toks := cs ++ [Tok.closing], depth := 1, onContainer := false, err := false } = r3
    at a b d
  unfold Reader.StepOut
  rw [a, b, d]
  simp only [Option.bind, skipToClose_values c, skipToClose]
  simp [a]

theorem C20_step_out_skips_unread_siblings_witness :
    Values [Tok.scalar, Tok.opening, Tok.scalar, Tok.closing, Tok.scalar]
    ∧ (Reader.start (Tok.opening :: [Tok.scalar, Tok.opening, Tok.scalar, Tok.closing,
        Tok.scalar] ++ [Tok.closing])).Next.1 = true
    ∧ ∃ r2 r4, (Reader.start (Tok.opening :: [Tok.scalar, Tok.opening, Tok.scalar, Tok.closing,
          Tok.scalar] ++ [Tok.closing])).Next.2.StepIn = some r2
      ∧ (r2.nexts 1).StepOut = some r4
      ∧ r4.toks = [] ∧ r4.depth = 0
      ∧ r4.Next.1 = false ∧ r4.Next.2.err = false :=
  ⟨Values.scalar _ (Values.container [Tok.scalar] [Tok.scalar] (Values.scalar _ Values.nil)
      (Values.scalar _ Values.nil)),
   C20_step_out_skips_unread_siblings
      [Tok.scalar, Tok.opening, Tok.scalar, Tok.closing, Tok.scalar] 1
      (Values.scalar _ (Values.container [Tok.scalar] [Tok.scalar] (Values.scalar _ Values.nil)
        (Values.scalar _ Values.nil)))⟩

/-- C21: when the first significant character is `:`, `Next` yields `::` and
consumes both characters if the next character is `:`, and otherwise yields `:`
and consumes only the one; when it is an opening brace, `Next` yields the double
brace and consumes both if the next character is an opening brace, and otherwise
yields the single brace.  In the single-character cases the character looked at is
still the next one read: all later reads are what they were after the first
character. -/
theorem C21_doubled_punctuation (t t1 : tokenizer)
    (skipValue : tokenizer → Except Error (Int × tokenizer))
    (skipWhitespace : tokenizer → Except Error (Int × Bool × tokenizer)) (c : Int)
    (hskip : FirstSignificant t skipValue skipWhitespace c t1) (hc : c = 58 ∨ c = 123) :
    ∃ t2, t.Next skipValue skipWhitespace = .ok t2
      ∧ (t1.read.1 = c →
          t2.token = (if c = 58 then tokenType.tokenDoubleColon
            else tokenType.tokenOpenDoubleBrace)
          ∧ ∀ k, t2.reads k = t1.read.2.reads k)
      ∧ (t1.read.1 ≠ c →
          t2.token = (if c = 58 then tokenType.tokenColon else tokenType.tokenOpenBrace)
          ∧ ∀ k, t2.reads k = t1.reads k) := by
  rw [Next_eq_dispatch t t1 skipValue skipWhitespace c hskip]
  have p := peek_read t1
  rcases hc with rfl | rfl
  · refine ⟨_, dispatch_colon t1, ?_, ?_⟩
    · intro h
      rw [← p] at h
      simp only [h, if_true]
      exact ⟨rfl, fun k => by rw [finish_reads, peek_read_reads]⟩
    · intro h
      rw [← p] at h
      simp only [h, if_false, if_true]
      exact ⟨rfl, fun k => by rw [finish_reads, peek_reads]⟩
  · refine ⟨_, dispatch_brace t1, ?_, ?_⟩
    · intro h
      rw [← p] at h
      simp only [h, if_true]
      exact ⟨by simp [tokenizer.finish], fun k => by rw [finish_reads, peek_read_reads]⟩
    · intro h
      rw [← p] at h
      simp only [h, if_false]
      exact ⟨by simp [tokenizer.finish], fun k => by rw [finish_reads, peek_reads]⟩

theorem C21_doubled_punctuation_witness :
    (∃ t2, (tokenizeBytes (bytes "::a")).Next (fun t => .ok (t.read.1, t.read.2)) skipNothing
        = .ok t2
      ∧ t2.token = tokenType.tokenDoubleColon ∧ t2.reads 2 = [97, -1])
    ∧ (∃ t2, (tokenizeBytes (bytes "\x7ba")).Next (fun t => .ok (t.read.1, t.read.2)) skipNothing
        = .ok t2
      ∧ t2.token = tokenType.tokenOpenBrace ∧ t2.reads 2 = [97, -1]) := by
  constructor
  · obtain ⟨t2, h1, h2, -⟩ := C21_doubled_punctuation (tokenizeBytes (bytes "::a"))
      (tokenizeBytes (bytes "::a")).read.2 (fun t => .ok (t.read.1, t.read.2)) skipNothing 58
      ⟨fun h => absurd h (by decide), fun _ => ⟨false, rfl⟩⟩ (Or.inl rfl)
    obtain ⟨h3, h4⟩ := h2 (by decide)
    exact ⟨t2, h1, h3, by rw [h4 2]; decide⟩
  · obtain ⟨t2, h1, -, h2⟩ := C21_doubled_punctuation (tokenizeBytes (bytes "\x7ba"))
      (tokenizeBytes (bytes "\x7ba")).read.2 (fun t => .ok (t.read.1, t.read.2)) skipNothing 123
      ⟨fun h => absurd h (by decide), fun _ => ⟨false, rfl⟩⟩ (Or.inr rfl)
    obtain ⟨h3, h4⟩ := h2 (by decide)
    exact ⟨t2, h1, h3, by rw [h4 2]; decide⟩

/-- C22: when the first significant character is a single quote, `Next` yields a
long-string token and consumes the two quotes after it if the next two characters
are single quotes; in every other case, the end of input within those two
characters included, it yields a quoted-symbol token and consumes nothing more:
all later reads are what they were after the first quote. -/
theorem C22_quote_or_triple_quote (t t1 : tokenizer)
    (skipValue : tokenizer → Except Error (Int × tokenizer))
    (skipWhitespace : tokenizer → Except Error (Int × Bool × tokenizer))
    (hskip : FirstSignificant t skipValue skipWhitespace 39 t1) :
    ∃ t2, t.Next skipValue skipWhitespace = .ok t2
      ∧ (t1.reads 2 = [39, 39] →
          t2.token = tokenType.tokenLongString ∧ ∀ k, t2.reads k = t1.read.2.read.2.reads k)
      ∧ (t1.reads 2 ≠ [39, 39] →
          t2.token = tokenType.tokenSymbolQuoted ∧ ∀ k, t2.reads k = t1.reads k) := by
  rw [Next_eq_dispatch t t1 skipValue skipWhitespace 39 hskip]
  obtain ⟨a, b⟩ := isTripleQuote_spec t1
  refine ⟨_, dispatch_quote t1, ?_, ?_⟩
  · intro h
    obtain ⟨a1, a2⟩ := a h
    simp only [a1, if_true]
    exact ⟨rfl, fun k => by rw [finish_reads, a2]⟩
  · intro h
    obtain ⟨b1, b2⟩ := b h
    simp only [b1, Bool.false_eq_true, if_false]
    exact ⟨rfl, fun k => by rw [finish_reads, b2]⟩

theorem C22_quote_or_triple_quote_witness :
    (∃ t2, (tokenizeBytes (bytes "''")).Next (fun t => .ok (t.read.1, t.read.2)) skipNothing
        = .ok t2
      ∧ t2.token = tokenType.tokenSymbolQuoted ∧ t2.reads 2 = [39, -1]
      ∧ ∃ t3, t2.readQuotedSymbol = .ok ([], t3))
    ∧ (∃ t2, (tokenizeBytes (bytes "'''a")).Next (fun t => .ok (t.read.1, t.read.2)) skipNothing
        = .ok t2
      ∧ t2.token = tokenType.tokenLongString ∧ t2.reads 2 = [97, -1]) := by
  constructor
  · obtain ⟨t2, h1, -, h2⟩ := C22_quote_or_triple_quote (tokenizeBytes (bytes "''"))
      (tokenizeBytes (bytes "''")).read.2 (fun t => .ok (t.read.1, t.read.2)) skipNothing
      ⟨fun h => absurd h (by decide), fun _ => ⟨false, rfl⟩⟩
    obtain ⟨h3, h4⟩ := h2 (by decide)
    refine ⟨t2, h1, h3, by rw [h4 2]; decide, ?_⟩
    have : t2 = tokenizer.mk [] [39, -1] tokenType.tokenSymbolQuoted true := by
      have e : (tokenizeBytes (bytes "''")).Next (fun t => .ok (t.read.1, t.read.2)) skipNothing
          = .ok (tokenizer.mk [] [39, -1] tokenType.tokenSymbolQuoted true) := by decide
      rw [e] at h1
      cases h1
      rfl
    rw [this]
    exact ⟨tokenizer.mk [] [-1] tokenType.tokenSymbolQuoted true, by decide⟩
  · obtain ⟨t2, h1, h2, -⟩ := C22_quote_or_triple_quote (tokenizeBytes (bytes "'''a"))
      (tokenizeBytes (bytes "'''a")).read.2 (fun t => .ok (t.read.1, t.read.2)) skipNothing
      ⟨fun h => absurd h (by decide), fun _ => ⟨false, rfl⟩⟩
    obtain ⟨h3, h4⟩ := h2 (by decide)
    exact ⟨t2, h1, h3, by rw [h4 2]; decide⟩

/-- C23: `scanForNumericType`, given the first digit `c`, consumes nothing (all
reads after it are what they were before) and returns binary exactly when `c` is
`0` and the next character is `b` or `B`; hex exactly when `c` is `0` and the next
character is `x` or `X`; timestamp exactly when neither holds and the next four
characters are three digits and then `-` or `T` (so that four characters are there);
and the generic number in every other case. -/
theorem C23_scanForNumericType (t : tokenizer) (c : Int) (hc : isDigit c = true) :
    ∃ tt t2, t.scanForNumericType c = .ok (tt, t2)
      ∧ (∀ k, t2.reads k = t.reads k)
      ∧ (tt = tokenType.tokenBinary ↔ (c = 48 ∧ (t.read.1 = 98 ∨ t.read.1 = 66)))
      ∧ (tt = tokenType.tokenHex ↔ (c = 48 ∧ (t.read.1 = 120 ∨ t.read.1 = 88)))
      ∧ (tt = tokenType.tokenTimestamp ↔
          (¬ (c = 48 ∧ (t.read.1 = 98 ∨ t.read.1 = 66))
            ∧ ¬ (c = 48 ∧ (t.read.1 = 120 ∨ t.read.1 = 88))
            ∧ ∃ a b d z, t.reads 4 = [a, b, d, z] ∧ isDigit a = true ∧ isDigit b = true
                ∧ isDigit d = true ∧ (z = 45 ∨ z = 84)))
      ∧ (tt = tokenType.tokenNumber ↔
          (¬ (c = 48 ∧ (t.read.1 = 98 ∨ t.read.1 = 66))
            ∧ ¬ (c = 48 ∧ (t.read.1 = 120 ∨ t.read.1 = 88))
            ∧ ¬ ∃ a b d z, t.reads 4 = [a, b, d, z] ∧ isDigit a = true ∧ isDigit b = true
                ∧ isDigit d = true ∧ (z = 45 ∨ z = 84))) := by
  have hr : ∀ k, (t.peekN 4).2.2.reads k = t.reads k := by
    intro k
    rw [reads_eq_readsOf, reads_eq_readsOf, (peekN_eq t 4).2.2, readsOf_restore]
  have e4 : t.reads 4 = [(t.reads 4).getD 0 0, (t.reads 4).getD 1 0, (t.reads 4).getD 2 0,
      (t.reads 4).getD 3 0] := rfl
  have hts : (isDigit ((t.reads 4).getD 0 0) = true ∧ isDigit ((t.reads 4).getD 1 0) = true
      ∧ isDigit ((t.reads 4).getD 2 0) = true
      ∧ ((t.reads 4).getD 3 0 = 45 ∨ (t.reads 4).getD 3 0 = 84))
      ↔ ∃ a b d z, t.reads 4 = [a, b, d, z] ∧ isDigit a = true ∧ isDigit b = true
          ∧ isDigit d = true ∧ (z = 45 ∨ z = 84) := by
    constructor
    · intro h; exact ⟨_, _, _, _, e4, h⟩
    · rintro ⟨a, b, d, z, e, h⟩
      rw [e]
      exact h
  have hx : ¬ ((t.read.1 = 98 ∨ t.read.1 = 66) ∧ (t.read.1 = 120 ∨ t.read.1 = 88)) := by omega
  refine ⟨_, _, scanForNumericType_spec t c hc, hr, ?_⟩
  rw [← hts]
  by_cases ha : c = 48 ∧ (t.read.1 = 98 ∨ t.read.1 = 66)
  · have hb : ¬ (c = 48 ∧ (t.read.1 = 120 ∨ t.read.1 = 88)) := fun h => hx ⟨ha.2, h.2⟩
    rw [if_pos ha]
    exact ⟨⟨fun _ => ha, fun _ => rfl⟩, ⟨fun h => (by cases h), fun h => absurd h hb⟩,
      ⟨fun h => (by cases h), fun h => absurd ha h.1⟩,
      ⟨fun h => (by cases h), fun h => absurd ha h.1⟩⟩
  · rw [if_neg ha]
    by_cases hb : c = 48 ∧ (t.read.1 = 120 ∨ t.read.1 = 88)
    · rw [if_pos hb]
      exact ⟨⟨fun h => (by cases h), fun h => absurd h ha⟩, ⟨fun _ => hb, fun _ => rfl⟩,
        ⟨fun h => (by cases h), fun h => absurd hb h.2.1⟩,
        ⟨fun h => (by cases h), fun h => absurd hb h.2.1⟩⟩
    · rw [if_neg hb]
      by_cases hc2 : isDigit ((t.reads 4).getD 0 0) = true
          ∧ isDigit ((t.reads 4).getD 1 0) = true ∧ isDigit ((t.reads 4).getD 2 0) = true
          ∧ ((t.reads 4).getD 3 0 = 45 ∨ (t.reads 4).getD 3 0 = 84)
      · rw [if_pos hc2]
        exact ⟨⟨fun h => (by cases h), fun h => absurd h ha⟩,
          ⟨fun h => (by cases h), fun h => absurd h hb⟩,
          ⟨fun _ => ⟨ha, hb, hc2⟩, fun _ => rfl⟩,
          ⟨fun h => (by cases h), fun h => absurd hc2 h.2.2⟩⟩
      · rw [if_neg hc2]
        exact ⟨⟨fun h => (by cases h), fun h => absurd h ha⟩,
          ⟨fun h => (by cases h), fun h => absurd h hb⟩,
          ⟨fun h => (by cases h), fun h => absurd h.2.2 hc2⟩,
          ⟨fun _ => ⟨ha, hb, hc2⟩, fun _ => rfl⟩⟩

theorem C23_scanForNumericType_witness :
    isDigit 50 = true
    ∧ ∃ tt t2, (tokenizeBytes (bytes "001-02")).scanForNumericType 50 = .ok (tt, t2)
      ∧ (∀ k, t2.reads k = (tokenizeBytes (bytes "001-02")).reads k)
      ∧ tt = tokenType.tokenTimestamp := by
  refine ⟨by decide, ?_⟩
  obtain ⟨tt, t2, h1, h2, -, -, h3, -⟩ :=
    C23_scanForNumericType (tokenizeBytes (bytes "001-02")) 50 (by decide)
  exact ⟨tt, t2, h1, h2, h3.2 ⟨by decide, by decide, 48, 48, 49, 45, by decide⟩⟩

/-- C30 fails as stated: the colon is no stop character, and the two quote
characters are stop characters. -/
theorem C30_colon_is_no_stop_character :
    isStopChar 58 = false ∧ isStopChar 34 = true ∧ isStopChar 39 = true := by
  decide

/-- C30, as the code has it: `isStopChar c` holds exactly when `c` is the end of
input, a space, tab, newline or carriage return, one of the delimiters
`{ } [ ] ( ) ,`, or one of the two quote characters, and for no other character;
the comment-aware check of the tokenizer holds exactly for these and for a `/` whose
next character is `/` or `*`, and it consumes nothing. -/
theorem C30_stop_characters (t : tokenizer) (c : Int) :
    (isStopChar c = true
      ↔ c ∈ [-1, 32, 9, 10, 13, 123, 125, 91, 93, 40, 41, 44, 34, 39])
    ∧ ((t.isStopChar c).1 = true
      ↔ (isStopChar c = true ∨ (c = 47 ∧ (t.read.1 = 47 ∨ t.read.1 = 42))))
    ∧ ∀ k, (t.isStopChar c).2.reads k = t.reads k := by
  refine ⟨isStopChar_iff c, ?_, isStopChar_reads t c⟩
  rw [read_fst]
  constructor
  · intro h
    by_contra hn
    have := stopCheck_false t c hn
    rw [h] at this
    cases this
  · intro h
    exact (stopCheck_true t c h).1

theorem C30_stop_characters_witness :
    ((tokenizeBytes (bytes "*x")).isStopChar 47).1 = true :=
  (C30_stop_characters (tokenizeBytes (bytes "*x")) 47).2.1.2 (Or.inr ⟨rfl, Or.inr (by decide)⟩)

/-- C28: `readSymbol` returns the longest run of identifier characters (letters,
digits, `_`, `$`) at the head of the remaining input, and `readOperator` the longest
run of operator characters: the input is that run followed by a character that is
not of the class, or by the end of input.  Neither fails, and the character after
the run is not consumed: it is the next one read, with everything after it. -/
theorem C28_symbol_and_operator_runs (t : tokenizer) :
    (∃ pre rest t2, t.upcoming = pre ++ rest ∧ (∀ c ∈ pre, isIdentifierPart c = true)
        ∧ isIdentifierPart (hd rest) = false
        ∧ t.readSymbol = .ok (pre, t2) ∧ t2.read.1 = hd rest
        ∧ ∀ k, t2.reads k = readsOf rest k)
    ∧ (∃ pre rest t2, t.upcoming = pre ++ rest ∧ (∀ c ∈ pre, isOperatorChar c = true)
        ∧ isOperatorChar (hd rest) = false
        ∧ t.readOperator = .ok (pre, t2) ∧ t2.read.1 = hd rest
        ∧ ∀ k, t2.reads k = readsOf rest k)
    ∧ (∀ c, isIdentifierPart c = true
        ↔ ((65 ≤ c ∧ c ≤ 90) ∨ (97 ≤ c ∧ c ≤ 122) ∨ (48 ≤ c ∧ c ≤ 57) ∨ c = 95 ∨ c = 36)) := by
  refine ⟨?_, ?_, ?_⟩
  · obtain ⟨pre, rest, e, h1, h2⟩ := run_split isIdentifierPart (by decide) t.upcoming
    obtain ⟨t2, e2, u2⟩ := readSymbol_reads t pre rest h1 h2
      (fun k => by rw [reads_eq_readsOf, e])
    rw [map_byte_id isIdentifierPart byte_isIdentifierPart pre h1] at e2
    exact ⟨pre, rest, t2, e, h1, h2, e2, reads_hd t2 rest u2, u2⟩
  · obtain ⟨pre, rest, e, h1, h2⟩ := run_split isOperatorChar (by decide) t.upcoming
    obtain ⟨t2, e2, u2⟩ := readOperator_reads t pre rest h1 h2
      (fun k => by rw [reads_eq_readsOf, e])
    rw [map_byte_id isOperatorChar byte_isOperatorChar pre h1] at e2
    exact ⟨pre, rest, t2, e, h1, h2, e2, reads_hd t2 rest u2, u2⟩
  · intro c
    unfold isIdentifierPart isIdentifierStart isDigit
    split_ifs <;> simp <;> omega

/-- C29: a backslash immediately followed by a newline (`\n`, `\r` or `\r\n` in
the input) contributes nothing to the result.  For all byte texts `a` and `b` free
of quotes, backslashes and newlines, `readString` on `a`, backslash, newline, `b`,
the closing double quote and any further input returns `a` followed by `b` and
leaves that further input; so does `readQuotedSymbol` with the single quote; and
`readLongString` on `a`, backslash, newline, `b` and three single quotes returns
`a` followed by `b`, where `skipEndOfLongString` (not among the sources at hand,
a parameter) reports the end of the string at these closing quotes. -/
theorem C29_line_continuation (a b nl rest : List Nat)
    (skipEnd : tokenizer → Except Error (Bool × tokenizer))
    (ha : ∀ c ∈ a, c < 256 ∧ c ≠ 34 ∧ c ≠ 39 ∧ c ≠ 92 ∧ c ≠ 10 ∧ c ≠ 13)
    (hb : ∀ c ∈ b, c < 256 ∧ c ≠ 34 ∧ c ≠ 39 ∧ c ≠ 92 ∧ c ≠ 10 ∧ c ≠ 13)
    (hnl : nl = [10] ∨ nl = [13] ∨ nl = [13, 10])
    (hse : ∀ tq : tokenizer, tq.upcoming = 39 :: 39 :: normalize rest →
      ∃ t2, skipEnd tq = .ok (true, t2)) :
    (∃ t2, (tokenizeBytes (a ++ 92 :: (nl ++ (b ++ 34 :: rest)))).readString
        = .ok ((a ++ b).map Int.ofNat, t2)
      ∧ t2.upcoming = (tokenizeBytes rest).upcoming)
    ∧ (∃ t2, (tokenizeBytes (a ++ 92 :: (nl ++ (b ++ 39 :: rest)))).readQuotedSymbol
        = .ok ((a ++ b).map Int.ofNat, t2)
      ∧ t2.upcoming = (tokenizeBytes rest).upcoming)
    ∧ ∃ t2, (tokenizeBytes (a ++ 92 :: (nl ++ (b ++ 39 :: 39 :: 39 :: rest)))).readLongString
        skipEnd = .ok ((a ++ b).map Int.ofNat, t2) := by
  refine ⟨quoted_continuation 34 (Or.inl rfl) a b nl rest ha hb hnl,
    quoted_continuation 39 (Or.inr rfl) a b nl rest ha hb hnl, ?_⟩
  obtain ⟨-, a2, a3, -, a5⟩ := plain_of_bytes 39 (Or.inr rfl) a ha
  obtain ⟨-, b2, b3, b4, b5⟩ := plain_of_bytes 39 (Or.inr rfl) b hb
  generalize ht : tokenizeBytes (a ++ 92 :: (nl ++ (b ++ 39 :: 39 :: 39 :: rest))) = t
  have hu : t.upcoming = a.map Int.ofNat
      ++ (92 :: 10 :: (b.map Int.ofNat ++ 39 :: 39 :: 39 :: normalize rest)) := by
    rw [← ht]
    simp only [tokenizer.upcoming, tokenizeBytes, List.nil_append]
    rw [normalize_continuation a b nl 39 (39 :: 39 :: rest) a3 ⟨b3, b4⟩ (by decide) hnl,
      normalize_other 39 _ (by decide), normalize_other 39 _ (by decide)]
    rfl
  have hl := upcoming_length_le t
  rw [hu] at hl
  simp only [List.length_append, List.length_cons, List.length_map] at hl
  obtain ⟨f, hf⟩ : ∃ f, t.size + 1 = f + 1 + b.length + 1 + a.length :=
    ⟨t.size - 1 - b.length - a.length, by omega⟩
  unfold tokenizer.readLongString
  rw [hf]
  obtain ⟨t1, u1, e1⟩ := readLongStringLoop_plain_run skipEnd (a.map Int.ofNat)
    (f + 1 + b.length + 1) t [] _ a2 hu
  rw [List.length_map] at e1
  obtain ⟨t2, u2, e2⟩ := readLongStringLoop_continuation skipEnd (f + 1 + b.length) t1
    ([] ++ (a.map Int.ofNat).map byte) _ u1
  obtain ⟨t3, u3, e3⟩ := readLongStringLoop_plain_run skipEnd (b.map Int.ofNat)
    (f + 1) t2 ([] ++ (a.map Int.ofNat).map byte) _ b2 u2
  rw [List.length_map] at e3
  have r1 := read_fst t3
  have r2 := read_upcoming t3
  rw [u3] at r1 r2
  simp only [hd_cons, List.tail_cons] at r1 r2
  obtain ⟨t4, e4⟩ := hse t3.read.2 r2
  refine ⟨t4, ?_⟩
  rw [e1, e2, e3, readLongStringLoop_quote skipEnd f t3 _ t4 r1 e4,
    map_byte_ofNat a a5, map_byte_ofNat b b5]
  simp

theorem C29_line_continuation_witness :
    (∃ t2, (tokenizeBytes (bytes "ab" ++ 92 :: ([13, 10] ++ (bytes "cd" ++ 34 :: bytes ",")))).readString
        = .ok ((bytes "ab" ++ bytes "cd").map Int.ofNat, t2)
      ∧ t2.upcoming = (tokenizeBytes (bytes ",")).upcoming)
    ∧ (∃ t2, (tokenizeBytes (bytes "ab" ++ 92 :: ([13, 10] ++ (bytes "cd" ++ 39 :: bytes ",")))).readQuotedSymbol
        = .ok ((bytes "ab" ++ bytes "cd").map Int.ofNat, t2)
      ∧ t2.upcoming = (tokenizeBytes (bytes ",")).upcoming)
    ∧ ∃ t2, (tokenizeBytes (bytes "ab" ++ 92 :: ([13, 10] ++ (bytes "cd" ++ 39 :: 39 :: 39 :: bytes ",")))).readLongString
        skipClosingQuotes = .ok ((bytes "ab" ++ bytes "cd").map Int.ofNat, t2) :=
  C29_line_continuation (bytes "ab") (bytes "cd") [13, 10] (bytes ",") skipClosingQuotes
    (by decide) (by decide) (by decide) (fun tq _ => ⟨_, rfl⟩)

/-- C24 (the code departs from the claim): `ReadNumber` and `readHex` accept
underscores that do not stand between two digits: `12_` (trailing), `1__2`
(doubled), `12_.5` (before the `.`) and `12_e5` (before the exponent marker) are read
as `12`, `12`, `12.5` and `12e5`, and `0x_1` and `0x1_` as `0x1`. -/
theorem C24_misplaced_underscores_are_accepted :
    (tokenizeBytes (bytes "12_ ")).ReadNumber
      = .ok (str "12", IonType.IntType,
          { inp := [], buffer := [32], token := tokenType.tokenError, unfinished := false })
    ∧ (tokenizeBytes (bytes "1__2 ")).ReadNumber
      = .ok (str "12", IonType.IntType,
          { inp := [], buffer := [32], token := tokenType.tokenError, unfinished := false })
    ∧ (tokenizeBytes (bytes "12_.5 ")).ReadNumber
      = .ok (str "12.5", IonType.DecimalType,
          { inp := [], buffer := [32], token := tokenType.tokenError, unfinished := false })
    ∧ (tokenizeBytes (bytes "12_e5 ")).ReadNumber
      = .ok (str "12e5", IonType.FloatType,
          { inp := [], buffer := [32], token := tokenType.tokenError, unfinished := false })
    ∧ (tokenizeBytes (bytes "0x_1 ")).readHex
      = .ok (str "0x1",
          { inp := [], buffer := [32], token := tokenType.tokenError, unfinished := false })
    ∧ (tokenizeBytes (bytes "0x1_ ")).readHex
      = .ok (str "0x1",
          { inp := [], buffer := [32], token := tokenType.tokenError, unfinished := false }) := by
  decide

/-- C24 (amended): no text returned by `ReadNumber`, `readBinary` or `readHex` holds
an underscore.  An underscore directly after a decimal digit changes nothing for
`ReadNumber`: on two inputs that differ by one such underscore it returns the same
error or the same text and type.  `readBinary` and `readHex` skip every underscore
after the radix marker: on an optional `-`, `0`, the marker, any run of digits of
the radix and underscores, and a stop character they return the literal without
its underscores.  `ReadNumber` rejects an underscore, with the invalid-character
error for it, where a digit run would begin: as the first character after the
optional `-`, directly after the `.` that follows the integer part, and directly
after an exponent marker or its sign. -/
theorem C24_underscores :
    (∀ (t t2 : tokenizer) (w : List Int) (tt : IonType),
        t.ReadNumber = .ok (w, tt, t2) → (95 : Int) ∉ w)
    ∧ (∀ (t t2 : tokenizer) (w : List Int),
        t.readBinary = .ok (w, t2) ∨ t.readHex = .ok (w, t2) → (95 : Int) ∉ w)
    ∧ (∀ (t1 t2 : tokenizer), UnderscoreAfterDigit t1.upcoming t2.upcoming →
        outcome t1.ReadNumber = outcome t2.ReadNumber)
    ∧ (∀ (t : tokenizer) (sign run rest : List Int) (m : Int), (sign = [] ∨ sign = [45]) →
        isStopChar (hd rest) = true → t.upcoming = sign ++ 48 :: m :: run ++ rest →
        ((m = 98 ∨ m = 66) → separatedRun isBinaryDigit run = true →
          ∃ t2, t.readBinary = .ok (sign ++ 48 :: m :: dropUnderscores run, t2))
        ∧ ((m = 120 ∨ m = 88) → separatedRun isHexDigit run = true →
          ∃ t2, t.readHex = .ok (sign ++ 48 :: m :: dropUnderscores run, t2)))
    ∧ (∀ (t : tokenizer) (sign rest : List Int), (sign = [] ∨ sign = [45]) →
        (t.upcoming = sign ++ 95 :: rest → t.ReadNumber = .error (invalidChar 95))
        ∧ ∀ (d : Int) (run : List Int), isDigit d = true → separatedRun isDigit run = true →
            (d = 48 → dropUnderscores run = []) →
            (t.upcoming = sign ++ d :: run ++ 46 :: 95 :: rest →
              t.ReadNumber = .error (invalidChar 95))
            ∧ ∀ (frac : List Int) (m : Int) (sg : List Int), fractionPart frac = true →
                (m = 101 ∨ m = 69 ∨ m = 100 ∨ m = 68) → (sg = [] ∨ sg = [43] ∨ sg = [45]) →
                t.upcoming = sign ++ d :: run ++ frac ++ m :: sg ++ 95 :: rest →
                t.ReadNumber = .error (invalidChar 95)) := by
  refine ⟨?_, ?_, ?_, ?_, ?_⟩
  · intro t t2 w tt h
    exact ReadNumber_no_underscore h
  · intro t t2 w h
    rcases h with h | h
    · refine readRadix_no_underscore (by decide) byte_isBinaryDigit ?_ h
      intro c hc
      simp only [isB, Bool.or_eq_true, decide_eq_true_eq] at hc
      rcases hc with rfl | rfl <;> decide
    · refine readRadix_no_underscore (by decide) byte_isHexDigit ?_ h
      intro c hc
      simp only [isX, Bool.or_eq_true, decide_eq_true_eq] at hc
      rcases hc with rfl | rfl <;> decide
  · intro t1 t2 h
    rw [ReadNumber_outcome, ReadNumber_outcome]
    exact scanNumber_uad _ _ h
  · intro t sign run rest m hsign hstop hu
    obtain ⟨-, -, hhex, hbin, -⟩ := isStopChar_facts _ hstop
    constructor
    · intro hm hrun
      exact readRadix_run t isB isBinaryDigit (by decide) byte_isBinaryDigit sign run rest m
        hsign (by rcases hm with rfl | rfl <;> decide) (by rcases hm with rfl | rfl <;> decide)
        hrun hstop hbin hu
    · intro hm hrun
      exact readRadix_run t isX isHexDigit (by decide) byte_isHexDigit sign run rest m
        hsign (by rcases hm with rfl | rfl <;> decide) (by rcases hm with rfl | rfl <;> decide)
        hrun hstop hhex hu
  · intro t sign rest hsign
    constructor
    · intro hu
      apply ReadNumber_of_scan_error
      rw [hu, scanNumber_sign sign 95 rest hsign (by decide)]
      exact scanNumberInt_underscore _ _
    · intro d run hd1 hrun hz
      have hd45 : d ≠ 45 := by
        intro h; rw [h] at hd1; simp [isDigit] at hd1
      constructor
      · intro hu
        apply ReadNumber_of_scan_error
        have e : sign ++ d :: run ++ 46 :: 95 :: rest = sign ++ d :: (run ++ 46 :: 95 :: rest) := by
          simp
        rw [hu, e, scanNumber_sign sign d _ hsign hd45,
          scanNumberInt_run sign d run _ hd1 hrun hz (by simp [isDigit]) (by simp)]
        have h1 : isDigit 95 = false := by decide
        simp [scanNumberFrac, scanDigitsFrom, h1, scanNumberExp, scanNumberEnd_underscore]
      · intro frac m sg hf hm hsg hu
        apply ReadNumber_of_scan_error
        have e : sign ++ d :: run ++ frac ++ m :: sg ++ 95 :: rest
            = sign ++ d :: (run ++ (frac ++ m :: sg ++ 95 :: rest)) := by
          simp
        have hne : frac ++ m :: sg ++ 95 :: rest
            = hd (frac ++ m :: sg ++ 95 :: rest) :: (frac ++ m :: sg ++ 95 :: rest).tail := by
          cases frac <;> simp
        have hterm : isDigit (hd (frac ++ m :: sg ++ 95 :: rest)) = false
            ∧ hd (frac ++ m :: sg ++ 95 :: rest) ≠ 95 := by
          match frac, hf with
          | [], _ => rcases hm with rfl | rfl | rfl | rfl <;> simp <;> decide
          | [46], _ => simp; decide
          | 46 :: fd :: frun, _ => simp; decide
        rw [hu, e, scanNumber_sign sign d _ hsign hd45,
          scanNumberInt_run sign d run _ hd1 hrun hz hterm.1 hterm.2]
        exact scanNumberFrac_underscore _ _ _ frac m sg rest hf hm hsg hne.symm

theorem C24_underscores_witness :
    outcome (tokenizeBytes (bytes "1__2 ")).ReadNumber
      = outcome (tokenizeBytes (bytes "1_2 ")).ReadNumber
    ∧ (∃ t2, (tokenizeBytes (bytes "-0x_1__f_ ")).readHex
        = .ok ([45] ++ 48 :: 120 :: dropUnderscores (str "_1__f_"), t2))
    ∧ (tokenizeBytes (bytes "1_.5e+_3 ")).ReadNumber = .error (invalidChar 95) :=
  ⟨C24_underscores.2.2.1 (tokenizeBytes (bytes "1__2 ")) (tokenizeBytes (bytes "1_2 "))
      (UnderscoreAfterDigit.here 49 [95, 50, 32] (by decide)),
    ((C24_underscores.2.2.2.1 (tokenizeBytes (bytes "-0x_1__f_ ")) [45] (str "_1__f_") [32] 120
      (by decide) (by decide) (by decide)).2 (by decide) (by decide)),
    ((C24_underscores.2.2.2.2 (tokenizeBytes (bytes "1_.5e+_3 ")) [] (str "3 ") (by decide)).2
      49 [95] (by decide) (by decide) (by decide)).2 (str ".5") 101 [43] (by decide)
      (by decide) (by decide) (by decide)⟩

/-- C25 (the code departs from the claim): `ReadNumber` accepts an exponent marker
that no digit follows: `1e`, `1d`, `1e+` and `1.5E-` before a stop character are
read as the Float `1e`, the Decimal `1d`, the Float `1e+` and the Float `1.5E-`. -/
theorem C25_bare_exponent_marker_is_accepted :
    (tokenizeBytes (bytes "1e ")).ReadNumber
      = .ok (str "1e", IonType.FloatType,
          { inp := [], buffer := [32], token := tokenType.tokenError, unfinished := false })
    ∧ (tokenizeBytes (bytes "1d ")).ReadNumber
      = .ok (str "1d", IonType.DecimalType,
          { inp := [], buffer := [32], token := tokenType.tokenError, unfinished := false })
    ∧ (tokenizeBytes (bytes "1e+ ")).ReadNumber
      = .ok (str "1e+", IonType.FloatType,
          { inp := [], buffer := [32], token := tokenType.tokenError, unfinished := false })
    ∧ (tokenizeBytes (bytes "1.5E-,")).ReadNumber
      = .ok (str "1.5E-", IonType.FloatType,
          { inp := [], buffer := [44], token := tokenType.tokenError, unfinished := false }) := by
  decide

/-- C25 (amended): an exponent marker consumes an optional sign and the digits that
follow, of which there may be none.  Whenever `ReadNumber` succeeds and the text
returned holds an exponent marker (`e`, `E`, `d` or `D`), what follows the marker in
the text is an optional `+` or `-` and then decimal digits only, to the end of the
text; and a literal that ends with the marker or with the marker and a sign
(an integer part, an optional fraction, the marker, an optional sign, then a stop
character) is accepted and returned with its underscores removed, as a Float for
`e` and `E` and as a Decimal for `d` and `D`. -/
theorem C25_exponent :
    (∀ (t t2 : tokenizer) (w : List Int) (tt : IonType),
        t.ReadNumber = .ok (w, tt, t2) →
        ∀ pre m suf, w = pre ++ m :: suf → isExponentMarker m = true →
          ∃ sg ds, suf = sg ++ ds ∧ (sg = [] ∨ sg = [43] ∨ sg = [45]) ∧ ds.all isDigit = true)
    ∧ (∀ (t : tokenizer) (sign run frac sg rest : List Int) (d m : Int),
        (sign = [] ∨ sign = [45]) → isDigit d = true → separatedRun isDigit run = true →
        (d = 48 → dropUnderscores run = []) → fractionPart frac = true →
        isExponentMarker m = true → (sg = [] ∨ sg = [43] ∨ sg = [45]) →
        isStopChar (hd rest) = true →
        t.upcoming = sign ++ d :: run ++ frac ++ m :: sg ++ rest →
        ∃ t2, t.ReadNumber
          = .ok (sign ++ d :: dropUnderscores run ++ dropUnderscores frac ++ m :: sg,
              if m = 101 ∨ m = 69 then IonType.FloatType else IonType.DecimalType, t2)) := by
  constructor
  · intro t t2 w tt h
    obtain ⟨c, rest, hs, -⟩ := ReadNumber_ok h
    exact scanNumber_shape hs
  · intro t sign run frac sg rest d m hsign hd1 hrun hz hf hm hsg hstop hu
    have hd45 : d ≠ 45 := by
      intro h; rw [h] at hd1; simp [isDigit] at hd1
    have hm2 := hm
    simp only [isExponentMarker, Bool.or_eq_true, decide_eq_true_eq] at hm2
    have e : sign ++ d :: run ++ frac ++ m :: sg ++ rest
        = sign ++ d :: (run ++ (frac ++ m :: sg ++ rest)) := by
      simp
    have hne : frac ++ m :: sg ++ rest
        = hd (frac ++ m :: sg ++ rest) :: (frac ++ m :: sg ++ rest).tail := by
      cases frac <;> simp
    have hterm : isDigit (hd (frac ++ m :: sg ++ rest)) = false
        ∧ hd (frac ++ m :: sg ++ rest) ≠ 95 := by
      match frac, hf with
      | [], _ => rcases hm2 with ((rfl | rfl) | rfl) | rfl <;> simp <;> decide
      | [46], _ => simp; decide
      | 46 :: fd :: frun, _ => simp; decide
    have href := ReadNumber_refines t
    rw [hu, e, scanNumber_sign sign d _ hsign hd45,
      scanNumberInt_run sign d run _ hd1 hrun hz hterm.1 hterm.2,
      scanNumberFrac_bare _ _ _ frac m sg rest hf hm hsg hstop hne.symm] at href
    obtain ⟨t2, e2, -⟩ := href
    exact ⟨t2, by simpa using e2⟩

theorem C25_exponent_witness :
    (∃ sg ds, str "+0" = sg ++ ds ∧ (sg = [] ∨ sg = [43] ∨ sg = [45]) ∧ ds.all isDigit = true)
    ∧ ∃ t2, (tokenizeBytes (bytes "-1_2.5_d- ")).ReadNumber
        = .ok ([45] ++ 49 :: dropUnderscores (str "_2") ++ dropUnderscores (str ".5_")
            ++ 100 :: [45],
          if (100 : Int) = 101 ∨ (100 : Int) = 69 then IonType.FloatType
          else IonType.DecimalType, t2) :=
  ⟨C25_exponent.1 (tokenizeBytes (bytes "1.2e+0"))
      { inp := [], buffer := [-1], token := tokenType.tokenError, unfinished := false }
      (str "1.2e+0") IonType.FloatType (by decide) (str "1.2") 101 (str "+0") (by decide)
      (by decide),
    C25_exponent.2 (tokenizeBytes (bytes "-1_2.5_d- ")) [45] (str "_2") (str ".5_") [45]
      (str " ") 49 100 (by decide) (by decide) (by decide) (by decide) (by decide) (by decide)
      (by decide) (by decide) (by decide)⟩

/-- C26: timestamp fields are fixed-width.  On every input `readTimestamp` returns
an invalid-character error, unless the input begins with a literal of fixed-width
fields: a year of exactly four digits followed by `T` or `-`; after `-` a month of
exactly two digits followed by `T` or `-`; after that `-` a day of exactly two
digits; after the day nothing or a `T` and then nothing, an offset, or an hour of
exactly two digits, `:`, and a minute of exactly two digits; after the minute an
offset, `Z` or `z`, or `:` and a second of exactly two digits; after the second an
offset, `Z` or `z`, with a fraction before it or not; an offset being a sign, exactly
two digits, `:`, and exactly two digits; and after a literal that goes beyond the
month a stop character or a comment.  So a field with a digit too few or too many,
or with another character inside, is an error, as on the inputs listed. -/
theorem C26_fixed_width_fields :
    (∀ t : tokenizer,
      (∃ lit rest, t.upcoming = lit ++ rest ∧ TsRead lit rest)
      ∨ ∃ c, t.readTimestamp = .error (invalidChar c))
    ∧ ∀ p ∈ [("200-01-01", (45 : Int)), ("20011-01-01", 49), ("20a1-01-01", 97),
        ("2001-1-01", 45), ("2001-001-01", 49), ("2001-0a-01", 97),
        ("2001-01-1 ", 32), ("2001-01-011 ", 49),
        ("2001-01-01T1:00Z", 58), ("2001-01-01T001:00Z", 49),
        ("2001-01-01T00:0Z", 90), ("2001-01-01T00:000Z", 48),
        ("2001-01-01T00:00:0Z", 90), ("2001-01-01T00:00:000Z", 48),
        ("2001-01-01T00:00+1:00", 58), ("2001-01-01T00:00+001:00", 49),
        ("2001-01-01T00:00+01:0 ", 32), ("2001-01-01T00:00+01:000 ", 48),
        ("2001-01-01T00:00+01:0", -1)],
      (tokenizeBytes (bytes p.1)).readTimestamp = .error (invalidChar p.2) := by
  constructor
  · intro t
    rcases readTimestamp_spec t with ⟨c, e⟩ | ⟨x, rest, t3, -, hx, hs, -⟩
    · exact Or.inr ⟨c, e⟩
    · exact Or.inl ⟨x, rest, hx, hs⟩
  · decide

theorem C26_fixed_width_fields_witness :
    (tokenizeBytes (bytes "2001-1-01")).readTimestamp = .error (invalidChar 45) :=
  C26_fixed_width_fields.2 ("2001-1-01", 45) (by decide)

/-- C27 (the code departs from the claim): `readTimestamp` accepts a date with an
offset and no time (`2001-01-01T+01:00`), a lower-case `z`, and a fraction without
digits (`2001-01-01T00:00:00.Z`); and it drops the underscores of a fraction, so
that on `2001-01-01T00:00:00.1_2Z` the text returned is not the sequence of
characters consumed. -/
theorem C27_other_timestamp_forms_are_accepted :
    (tokenizeBytes (bytes "2001-01-01T+01:00 ")).readTimestamp
      = .ok (str "2001-01-01T+01:00",
          { inp := [], buffer := [32], token := tokenType.tokenError, unfinished := false })
    ∧ (tokenizeBytes (bytes "2001-01-01T00:00z ")).readTimestamp
      = .ok (str "2001-01-01T00:00z",
          { inp := [], buffer := [32], token := tokenType.tokenError, unfinished := false })
    ∧ (tokenizeBytes (bytes "2001-01-01T00:00:00.Z ")).readTimestamp
      = .ok (str "2001-01-01T00:00:00.Z",
          { inp := [], buffer := [32], token := tokenType.tokenError, unfinished := false })
    ∧ (tokenizeBytes (bytes "2001-01-01T00:00:00.1_2Z ")).readTimestamp
      = .ok (str "2001-01-01T00:00:00.12Z",
          { inp := [], buffer := [32], token := tokenType.tokenError, unfinished := false }) := by
  decide

/-- C27 (amended): every text returned by a successful `readTimestamp` is the
sequence of characters it consumed from the input without the underscores among
them (which only the fraction may hold), and the characters consumed have one of
the forms `yyyyT`, `yyyy-mmT`, `yyyy-mm-dd`, `yyyy-mm-ddT`, `yyyy-mm-ddT` with an
offset, and `yyyy-mm-ddThh:mm`, `yyyy-mm-ddThh:mm:ss`, `yyyy-mm-ddThh:mm:ss.` with a
fraction, each of these three followed by `Z`, `z` or an offset; an offset is a sign
with `hh:mm`, the fraction is empty or a digit followed by digits and underscores,
and every other field consists of decimal digits only.  The tokenizer returned
delivers what follows the characters consumed. -/
theorem C27_timestamp_text (t t2 : tokenizer) (w : List Int)
    (h : t.readTimestamp = .ok (w, t2)) :
    ∃ lit rest, t.upcoming = lit ++ rest ∧ TsRead lit rest ∧ w = dropUnderscores lit
      ∧ ((95 : Int) ∉ lit → w = lit) ∧ ∀ k, t2.reads k = readsOf rest k := by
  obtain ⟨lit, rest, hu, hs, hw, hr⟩ := readTimestamp_inv h
  refine ⟨lit, rest, hu, hs, hw, ?_, hr⟩
  intro h95
  rw [hw]
  simp only [dropUnderscores, List.filter_eq_self, decide_eq_true_eq]
  intro c hc hc95
  exact h95 (hc95 ▸ hc)

theorem C27_timestamp_text_witness :
    ∃ lit rest, (tokenizeBytes (bytes "2001-01-01T00:00:00.1_2Z ")).upcoming = lit ++ rest
      ∧ TsRead lit rest ∧ str "2001-01-01T00:00:00.12Z" = dropUnderscores lit
      ∧ ((95 : Int) ∉ lit → str "2001-01-01T00:00:00.12Z" = lit)
      ∧ ∀ k, tokenizer.reads
          { inp := [], buffer := [32], token := tokenType.tokenError, unfinished := false } k
          = readsOf rest k :=
  C27_timestamp_text (tokenizeBytes (bytes "2001-01-01T00:00:00.1_2Z "))
    { inp := [], buffer := [32], token := tokenType.tokenError, unfinished := false }
    (str "2001-01-01T00:00:00.12Z") (by decide)

/-- C31 (the code departs from the claim): `readTimestamp` checks no terminator
after the bare-year and the year-month forms.  Whatever follows `yyyyT` or
`yyyy-mmT` in the input, it returns that literal and leaves what follows unread,
so that `2001Tabc` gives the timestamp `2001T` with `abc` still to be read.  In
every other successful case the next unread character is the end of input, a stop
character, or a `/` that begins a comment. -/
theorem C31_short_timestamps_are_not_terminated (t : tokenizer) (y m rest : List Int)
    (hy : digitRun 4 y = true) (hm : digitRun 2 m = true) :
    (t.upcoming = y ++ 84 :: rest →
      ∃ t2, t.readTimestamp = .ok (y ++ [84], t2) ∧ ∀ k, t2.reads k = readsOf rest k)
    ∧ (t.upcoming = y ++ 45 :: m ++ 84 :: rest →
      ∃ t2, t.readTimestamp = .ok (y ++ 45 :: m ++ [84], t2)
        ∧ ∀ k, t2.reads k = readsOf rest k)
    ∧ (∀ w t2, t.readTimestamp = .ok (w, t2) →
        (∃ y2, digitRun 4 y2 = true ∧ w = y2 ++ [84])
        ∨ (∃ y2 m2, digitRun 4 y2 = true ∧ digitRun 2 m2 = true ∧ w = y2 ++ 45 :: m2 ++ [84])
        ∨ StopOrComment ((t2.reads 2).getD 0 0) ((t2.reads 2).getD 1 0)) := by
  refine ⟨?_, ?_, ?_⟩
  · intro hu
    obtain ⟨t2, e, u⟩ := readTimestamp_year t y rest hy hu
    exact ⟨t2, e, fun k => by rw [reads_eq_readsOf, u]⟩
  · intro hu
    obtain ⟨t2, e, u⟩ := readTimestamp_year_month t y m rest hy hm hu
    exact ⟨t2, e, fun k => by rw [reads_eq_readsOf, u]⟩
  · intro w t2 h
    obtain ⟨lit, rest2, -, hs, hw, hr⟩ := readTimestamp_inv h
    rcases tsRead_end hs with ⟨y2, hy2, rfl⟩ | ⟨y2, m2, hy2, hm2, rfl⟩ | hend
    · refine Or.inl ⟨y2, hy2, ?_⟩
      rw [hw, dropUnderscores_append, dropUnderscores_digitRun hy2]
      rfl
    · refine Or.inr (Or.inl ⟨y2, m2, hy2, hm2, ?_⟩)
      rw [hw, dropUnderscores_append, dropUnderscores_append, dropUnderscores_digitRun hy2,
        dropUnderscores_cons _ _ (by decide), dropUnderscores_digitRun hm2]
      rfl
    · refine Or.inr (Or.inr ?_)
      rw [hr 2, readsOf_two]
      exact hend

theorem C31_short_timestamps_are_not_terminated_witness :
    (∃ t2, (tokenizeBytes (bytes "2001Tabc")).readTimestamp = .ok (str "2001T", t2)
      ∧ ∀ k, t2.reads k = readsOf (str "abc") k)
    ∧ (∃ t2, (tokenizeBytes (bytes "2001-01Tabc")).readTimestamp = .ok (str "2001-01T", t2)
      ∧ ∀ k, t2.reads k = readsOf (str "abc") k)
    ∧ (tokenizeBytes (bytes "2001-01-01abc")).readTimestamp = .error (invalidChar 97)
    ∧ (tokenizeBytes (bytes "12abc")).ReadNumber = .error (invalidChar 97)
    ∧ (tokenizeBytes (bytes "0x1g")).readHex = .error (invalidChar 103)
    ∧ ∃ t1 t2 t3 t4,
      (tokenizeBytes (bytes "2001Tabc")).Next (fun t => .ok (t.read.1, t.read.2)) skipNothing
        = .ok t1
      ∧ t1.token = tokenType.tokenTimestamp
      ∧ t1.ReadValue t1.token (fun t => .ok (true, t)) = .ok (str "2001T", t2)
      ∧ t2.Next (fun t => .ok (t.read.1, t.read.2)) skipNothing = .ok t3
      ∧ t3.token = tokenType.tokenSymbol
      ∧ t3.ReadValue t3.token (fun t => .ok (true, t)) = .ok (str "abc", t4) :=
  ⟨(C31_short_timestamps_are_not_terminated (tokenizeBytes (bytes "2001Tabc")) (str "2001")
      (str "01") (str "abc") (by decide) (by decide)).1 (by decide),
    (C31_short_timestamps_are_not_terminated (tokenizeBytes (bytes "2001-01Tabc")) (str "2001")
      (str "01") (str "abc") (by decide) (by decide)).2.1 (by decide),
    by decide, by decide, by decide,
    tokenizer.mk (bytes "abc") (str "2001T") tokenType.tokenTimestamp true,
    tokenizer.mk (bytes "abc") [] tokenType.tokenTimestamp false,
    tokenizer.mk (bytes "bc") [97] tokenType.tokenSymbol true,
    tokenizer.mk [] [-1] tokenType.tokenSymbol false, by decide⟩

/-- C9, as the code has it: `readEscapedChar`, called just after a backslash, decodes
by the fixed table (`0 a b t n f r v`, the quotes, the backslash, `?`, `/` give
0x00, 0x07, 0x08, 0x09, 0x0A, 0x0C, 0x0D, 0x0B and themselves), consuming that one
character; `x`, `u` and `U` (the last only outside a clob) consume exactly 2, 4 and
8 hex digits (`0` to `9`, `a` to `f`, `A` to `F`) and yield the number these digits
write in base 16 as a 32-bit rune: the number itself below 0x80000000, which it
always is for `x` and `u`, and the number minus 2^32 from there on; they fail with
the unexpected-character error at the first of these characters that is no hex
digit, the end of input included; inside a clob `U` is the unexpected character;
every other character after the backslash, the end of input included, is an
error. -/
theorem C9_escape_decoding (t : tokenizer) (clob : Bool) :
    (∀ p ∈ escapeTable, t.read.1 = p.1 → t.readEscapedChar clob = .ok (p.2, t.read.2))
    ∧ (∀ p ∈ hexEscapes, ∀ ds s : List Int, (p.1 = 85 → clob = false) →
        ds.length = p.2 → (∀ d ∈ ds, d ∈ hexDigitChars) → t.upcoming = p.1 :: ds ++ s →
        ∃ t2, t.readEscapedChar clob
            = .ok (if hexNumber ds < 2147483648 then Int.ofNat (hexNumber ds)
                else Int.ofNat (hexNumber ds) - 4294967296, t2)
          ∧ t2.upcoming = s ∧ (p.1 ≠ 85 → hexNumber ds < 65536))
    ∧ (∀ p ∈ hexEscapes, ∀ pre rest : List Int, (p.1 = 85 → clob = false) →
        pre.length < p.2 → (∀ d ∈ pre, d ∈ hexDigitChars) → hd rest ∉ hexDigitChars →
        t.upcoming = p.1 :: pre ++ rest →
        t.readEscapedChar clob = .error (invalidChar (hd rest)))
    ∧ (clob = true → t.read.1 = 85 → t.readEscapedChar clob = .error (invalidChar 85))
    ∧ ((∀ p ∈ escapeTable, t.read.1 ≠ p.1) → (∀ p ∈ hexEscapes, t.read.1 ≠ p.1) →
        t.readEscapedChar clob = .error (Error.badEscape t.read.1)) := by
  refine ⟨?_, ?_, ?_, ?_, ?_⟩
  · intro p hp h
    simp only [escapeTable, List.mem_cons, List.mem_singleton, List.not_mem_nil, or_false] at hp
    rcases hp with rfl | rfl | rfl | rfl | rfl | rfl | rfl | rfl | rfl | rfl | rfl | rfl | rfl <;>
      simp [tokenizer.readEscapedChar, h]
  · intro p hp ds s hclob hlen hchars hu
    have hall : ∀ d ∈ ds, isHexDigit d = true := fun d hd1 => (hexDigitChars_spec d (hchars d hd1)).1
    have hnum := hexValue_eq_hexNumber ds hchars
    have r1 := read_fst t
    have r2 := read_upcoming t
    rw [hu] at r1 r2
    simp only [List.cons_append, hd_cons, List.tail_cons] at r1 r2
    obtain ⟨t2, e, u⟩ := readHexEscapeSeq_ok t.read.2 ds s hall r2
    have hlt := hexFold_lt ds
    rw [← hnum]
    simp only [hexEscapes, List.mem_cons, List.mem_singleton, List.not_mem_nil, or_false] at hp
    rcases hp with rfl | rfl | rfl
    · simp only at hlen r1
      rw [hlen] at e hlt
      have h16 : hexValue ds < 65536 := by unfold hexValue; omega
      refine ⟨t2, ?_, u, fun _ => h16⟩
      rw [← int32_small (by omega)]
      simp [tokenizer.readEscapedChar, r1, e]
    · simp only at hlen r1
      rw [hlen] at e hlt
      have h16 : hexValue ds < 65536 := by unfold hexValue; omega
      refine ⟨t2, ?_, u, fun _ => h16⟩
      rw [← int32_small (by omega)]
      simp [tokenizer.readEscapedChar, r1, e]
    · simp only at hlen r1 hclob
      rw [hlen] at e hlt
      have h32 : hexValue ds < 4294967296 := by unfold hexValue; omega
      refine ⟨t2, ?_, u, fun h => absurd rfl h⟩
      rw [← int32_small h32]
      simp [tokenizer.readEscapedChar, r1, e, hclob trivial]
  · intro p hp pre rest hclob hlen hchars hbad0 hu
    have hall : ∀ d ∈ pre, isHexDigit d = true :=
      fun d hd1 => (hexDigitChars_spec d (hchars d hd1)).1
    have hbad : isHexDigit (hd rest) = false := by
      cases hx : isHexDigit (hd rest) with
      | false => rfl
      | true => exact absurd (isHexDigit_chars _ hx) hbad0
    have r1 := read_fst t
    have r2 := read_upcoming t
    rw [hu] at r1 r2
    simp only [List.cons_append, hd_cons, List.tail_cons] at r1 r2
    have e := readHexEscapeSeqLoop_error pre p.2 t.read.2 0 rest hlen hall hbad r2
    simp only [hexEscapes, List.mem_cons, List.mem_singleton, List.not_mem_nil, or_false] at hp
    rcases hp with rfl | rfl | rfl
    · simp only at r1 e
      simp [tokenizer.readEscapedChar, tokenizer.readHexEscapeSeq, r1, e]
    · simp only at r1 e
      simp [tokenizer.readEscapedChar, tokenizer.readHexEscapeSeq, r1, e]
    · simp only at r1 e hclob
      simp [tokenizer.readEscapedChar, tokenizer.readHexEscapeSeq, r1, e, hclob trivial]
  · intro hclob h85
    simp [tokenizer.readEscapedChar, h85, hclob]
  · intro h1 h2
    simp only [escapeTable, List.mem_cons, List.mem_singleton, List.not_mem_nil, or_false,
      forall_eq_or_imp, forall_eq] at h1
    simp only [hexEscapes, List.mem_cons, List.mem_singleton, List.not_mem_nil, or_false,
      forall_eq_or_imp, forall_eq] at h2
    obtain ⟨a1, a2, a3, a4, a5, a6, a7, a8, a9, a10, a11, a12, a13⟩ := h1
    obtain ⟨b1, b2, b3⟩ := h2
    unfold tokenizer.readEscapedChar
    simp only [a1, a2, a3, a4, a5, a6, a7, a8, a9, a10, a11, a12, a13, b1, b2, b3, if_false]

theorem C9_escape_decoding_witness :
    (tokenizeBytes (bytes "n")).readEscapedChar false
        = .ok (10, (tokenizeBytes (bytes "n")).read.2)
    ∧ (∃ t2, (tokenizeBytes (bytes "u00e9\"")).readEscapedChar false = .ok (233, t2)
        ∧ t2.upcoming = [34] ∧ ((117 : Int) ≠ 85 → hexNumber (str "00e9") < 65536))
    ∧ (∃ t2, (tokenizeBytes (bytes "x4F")).readEscapedChar true = .ok (79, t2)
        ∧ t2.upcoming = [] ∧ ((120 : Int) ≠ 85 → hexNumber (str "4F") < 65536))
    ∧ (∃ t2, (tokenizeBytes (bytes "U0001f600")).readEscapedChar false = .ok (128512, t2)
        ∧ t2.upcoming = [] ∧ ((85 : Int) ≠ 85 → hexNumber (str "0001f600") < 65536))
    ∧ (tokenizeBytes (bytes "x4")).readEscapedChar true = .error (invalidChar (hd []))
    ∧ (tokenizeBytes (bytes "U00000041")).readEscapedChar true = .error (invalidChar 85)
    ∧ (tokenizeBytes (bytes "q")).readEscapedChar false
        = .error (Error.badEscape (tokenizeBytes (bytes "q")).read.1) :=
  ⟨(C9_escape_decoding (tokenizeBytes (bytes "n")) false).1 (110, 10) (by decide) (by decide),
   (C9_escape_decoding (tokenizeBytes (bytes "u00e9\"")) false).2.1 (117, 4) (by decide)
      (str "00e9") [34] (by decide) (by decide) (by decide) (by decide),
   (C9_escape_decoding (tokenizeBytes (bytes "x4F")) true).2.1 (120, 2) (by decide)
      (str "4F") [] (by decide) (by decide) (by decide) (by decide),
   (C9_escape_decoding (tokenizeBytes (bytes "U0001f600")) false).2.1 (85, 8) (by decide)
      (str "0001f600") [] (by decide) (by decide) (by decide) (by decide),
   (C9_escape_decoding (tokenizeBytes (bytes "x4")) true).2.2.1 (120, 2) (by decide)
      (str "4") [] (by decide) (by decide) (by decide) (by decide) (by decide),
   (C9_escape_decoding (tokenizeBytes (bytes "U00000041")) true).2.2.2.1 rfl (by decide),
   (C9_escape_decoding (tokenizeBytes (bytes "q")) false).2.2.2.2 (by decide) (by decide)⟩

/-- C9 fails as stated: inside a clob `readEscapedChar` rejects `U` with its eight
hex digits, also where they write a code point (`00000041`, the letter `A`); and
outside a clob the eight hex digits `80000000` write the number 0x80000000, for
which `readEscapedChar` yields the rune -2147483648, the number taken on 32 bits
with a sign. -/
theorem C9_eight_digit_escape_wraps :
    (tokenizeBytes (bytes "U00000041")).readEscapedChar true = .error (invalidChar 85)
    ∧ hexNumber (str "00000041") = 65
    ∧ (tokenizeBytes (bytes "U80000000")).readEscapedChar false
      = .ok (-2147483648,
          { inp := [], buffer := [], token := tokenType.tokenError, unfinished := false })
    ∧ hexNumber (str "80000000") = 2147483648 := by
  decide

/-- C6: every literal of the shape of one of the eight timestamp forms (`2001T`,
`2001-01T`, `2001-01-01`, `2001-01-01T`, `2001-01-01T00:00Z`, `2001-01-01T00:00:00Z`,
`2001-01-01T00:00:00.000Z`, `2001-01-01T00:00:00.000+00:00`, with any digits), when
it begins at the first significant character and ends at a stop character or the
end of input, is classified by `Next` as a timestamp token, left pending, and
`readTimestamp` (also through `ReadValue`) then accepts it and returns the literal
unchanged.  For the eight literals themselves the text returned decodes to one and
the same instant, 2001-01-01T00:00:00Z (63145526400 seconds from
0000-01-01T00:00:00Z, no fraction), the decoding being modelled from the spec. -/
theorem C6_timestamp_forms (form : String) (hform : form ∈ timestampForms)
    (lit rest : List Int) (t t1 : tokenizer)
    (skipValue : tokenizer → Except Error (Int × tokenizer))
    (skipWhitespace : tokenizer → Except Error (Int × Bool × tokenizer))
    (skipEnd : tokenizer → Except Error (Bool × tokenizer)) (c : Int)
    (hshape : sameShape lit (str form) = true) (hstop : isStopChar (hd rest) = true)
    (hskip : FirstSignificant t skipValue skipWhitespace c t1)
    (hu : c :: t1.upcoming = lit ++ rest) :
    ∃ t2 t3 text, t.Next skipValue skipWhitespace = .ok t2
      ∧ t2.token = tokenType.tokenTimestamp ∧ t2.unfinished = true
      ∧ t2.readTimestamp = .ok (text, t3)
      ∧ t2.ReadValue tokenType.tokenTimestamp skipEnd
          = .ok (text, { t3 with unfinished := false })
      ∧ text = lit
      ∧ (lit = str form → decodeTimestamp text = some ⟨63145526400, []⟩) := by
  have hlit := timestampForms_covered form hform lit hshape
  obtain ⟨c0, a, b, c1, z, s, rfl, h0, ha, hb, hc, hz⟩ := TsLiteral_head hlit
  simp only [List.cons_append, List.cons.injEq] at hu
  obtain ⟨rfl, hu1⟩ := hu
  obtain ⟨t2, e2, u2⟩ := scanForNumericType_timestamp t1 c a b c1 z (s ++ rest) h0 ha hb hc hz hu1
  have hup : (((t2.unread c).finish tokenType.tokenTimestamp true)).upcoming
      = (c :: a :: b :: c1 :: z :: s) ++ rest := by
    rw [finish_upcoming, unread_upcoming, u2, hu1]; rfl
  obtain ⟨t3, e3⟩ := readTimestamp_literal _ _ rest hlit hstop hup
  refine ⟨(t2.unread c).finish tokenType.tokenTimestamp true, t3, _, ?_, rfl, rfl, e3, ?_, rfl,
    ?_⟩
  · rw [Next_eq_dispatch t t1 skipValue skipWhitespace c hskip, dispatch_digit t1 c h0]
    simp [bind, Except.bind, e2, pure, Except.pure]
  · simp [tokenizer.ReadValue, bind, Except.bind, e3, pure, Except.pure]
  · intro h
    rw [h]
    exact timestampForms_instant form hform

theorem C6_timestamp_forms_witness :
    (∃ t2 t3 text, (tokenizeBytes (bytes "1999-12-31T23:59:58.123+05:30 ")).Next
        (fun t => .ok (t.read.1, t.read.2)) skipNothing = .ok t2
      ∧ t2.token = tokenType.tokenTimestamp ∧ t2.unfinished = true
      ∧ t2.readTimestamp = .ok (text, t3)
      ∧ t2.ReadValue tokenType.tokenTimestamp (fun t => .ok (true, t))
          = .ok (text, { t3 with unfinished := false })
      ∧ text = str "1999-12-31T23:59:58.123+05:30"
      ∧ (str "1999-12-31T23:59:58.123+05:30" = str "2001-01-01T00:00:00.000+00:00" →
          decodeTimestamp text = some ⟨63145526400, []⟩))
    ∧ (∃ t2 t3 text, (tokenizeBytes (bytes "2001-01T")).Next
        (fun t => .ok (t.read.1, t.read.2)) skipNothing = .ok t2
      ∧ t2.token = tokenType.tokenTimestamp ∧ t2.unfinished = true
      ∧ t2.readTimestamp = .ok (text, t3)
      ∧ t2.ReadValue tokenType.tokenTimestamp (fun t => .ok (true, t))
          = .ok (text, { t3 with unfinished := false })
      ∧ text = str "2001-01T"
      ∧ decodeTimestamp text = some ⟨63145526400, []⟩) :=
  ⟨C6_timestamp_forms "2001-01-01T00:00:00.000+00:00" (by decide)
    (str "1999-12-31T23:59:58.123+05:30") [32]
    (tokenizeBytes (bytes "1999-12-31T23:59:58.123+05:30 "))
    (tokenizeBytes (bytes "1999-12-31T23:59:58.123+05:30 ")).read.2
    (fun t => .ok (t.read.1, t.read.2)) skipNothing (fun t => .ok (true, t)) 49
    (by decide) (by decide)
    ⟨fun h => absurd h (by decide), fun _ => ⟨false, rfl⟩⟩ (by decide),
   (by
    obtain ⟨t2, t3, text, h1, h2, h3, h4, h5, h6, h7⟩ :=
      C6_timestamp_forms "2001-01T" (by decide) (str "2001-01T") []
        (tokenizeBytes (bytes "2001-01T")) (tokenizeBytes (bytes "2001-01T")).read.2
        (fun t => .ok (t.read.1, t.read.2)) skipNothing (fun t => .ok (true, t)) 50
        (by decide) (by decide)
        ⟨fun h => absurd h (by decide), fun _ => ⟨false, rfl⟩⟩ (by decide)
    exact ⟨t2, t3, text, h1, h2, h3, h4, h5, h6, h7 rfl⟩)⟩

/-- C16 fails as stated: on the input `-12345` the first `Next` reads the sign,
peeks at the digit `1` and reads it, looks four characters ahead in
`scanForNumericType`, which pushes `2345` back, and then pushes back the digit and
the sign: the pushback buffer holds six entries, in a state reached by one call.
So it does on `+abcde`, where `isInf` looks five characters ahead and the sign is
pushed back after them.  The first two parts are `Next` as Go runs it, for every
iteration bound; the last is the method `Next` with stand-ins for the skipping
methods, which have nothing to skip here. -/
theorem C16_six_entries_after_Next :
    (∀ fuel, Run.Next (fuel + 1) (tokenizeBytes (bytes "-12345"))
      = (.ok (), tokenizer.mk [] [45, 49, 50, 51, 52, 53] tokenType.tokenNumber true))
    ∧ (∀ fuel, Run.Next (fuel + 1) (tokenizeBytes (bytes "+abcde"))
      = (.ok (), tokenizer.mk [] [43, 97, 98, 99, 100, 101] tokenType.tokenSymbolOperator true))
    ∧ Reaches (tokenizer.mk [] [45, 49, 50, 51, 52, 53] tokenType.tokenNumber true)
    ∧ ¬ (tokenizer.mk [] [45, 49, 50, 51, 52, 53] tokenType.tokenNumber true).buffer.length ≤ 5
    ∧ (tokenizeBytes (bytes "-12345")).Next (fun t => .ok (t.read.1, t.read.2)) skipNothing
      = .ok (tokenizer.mk [] [45, 49, 50, 51, 52, 53] tokenType.tokenNumber true) :=
  ⟨fun _ => rfl, fun _ => rfl, Reaches.call _ 1 Call.next (Reaches.fresh (bytes "-12345")),
    by decide, by decide⟩

/-- C16, with the bound the code has: in every state reached from a fresh tokenizer
by calls of `Next`, `ReadValue`, `ReadNumber`, `ReadBlob`, `ReadShortClob` and
`ReadLongClob`, on any input, in any order, for any token kind, and whether the
calls return a value or an error, the pushback buffer holds at most 6 entries.  The
methods `skipValue`, `skipWhitespace`, `skipLobWhitespace` and `skipEndOfLongString`
are modelled from the spec. -/
theorem C16_pushback_bound (t : tokenizer) (h : Reaches t) : t.buffer.length ≤ 6 := by
  induction h with
  | fresh bs => simp [tokenizeBytes]
  | call t fuel call _ ih => exact (Bounded.call fuel call (Nat.le_refl 6)).state_le (Nat.le_refl 6) t ih

theorem C16_pushback_bound_witness :
    Run.Next 9 (tokenizeBytes (bytes "-12345x"))
      = (.ok (), tokenizer.mk [120] [45, 49, 50, 51, 52, 53] tokenType.tokenNumber true)
    ∧ Run.ReadNumber 9 (tokenizer.mk [120] [45, 49, 50, 51, 52, 53] tokenType.tokenNumber true)
      = (.error (invalidChar 120), tokenizer.mk [] [] tokenType.tokenNumber true)
    ∧ Reaches (Call.readNumber.after 9 (Call.next.after 9 (tokenizeBytes (bytes "-12345x"))))
    ∧ (Call.readNumber.after 9 (Call.next.after 9 (tokenizeBytes (bytes "-12345x")))).buffer.length
      ≤ 6 :=
  ⟨by decide, by decide,
    Reaches.call _ 9 Call.readNumber (Reaches.call _ 9 Call.next (Reaches.fresh (bytes "-12345x"))),
    C16_pushback_bound _
      (Reaches.call _ 9 Call.readNumber
        (Reaches.call _ 9 Call.next (Reaches.fresh (bytes "-12345x"))))⟩

end Ion
